import Mathlib

/-!
Flow dependency manager of the vrouter agent.

A shallow embedding of `src/vnsw/agent/pkt/flow_mgmt.cc`.

* Pointers to DB entries are modelled by the value `DBEntry`, whose field `ptr`
  is the address; a null pointer is `none`.
* `std::set` and `std::map` are modelled by lists kept in comparator order;
  lookups use the equivalence induced by the comparator.
* A failed `assert` aborts the process: every operation that can reach an
  assertion returns an `Option`, and `none` is the abort.
* Declarations that live in the headers (`flow_mgmt.h`, `flow_mgmt_request.h`,
  `flow_mgmt_response.h`) and are only used by the translation unit are either
  modelled from the design document (and marked so) or taken as the parameter
  `Hdr`.
-/

namespace FlowMgmt

/-! ## Data model -/

/-- An `IpAddress` is either an IPv4 or an IPv6 address, the address bits as a number. -/
inductive IpAddress where
  | v4 (a : Nat)
  | v6 (a : Nat)
  deriving DecidableEq, Repr

/-- The address family of an address: 0 for IPv4, 1 for IPv6. -/
def IpAddress.family : IpAddress → Nat
  | .v4 _ => 0
  | .v6 _ => 1

/-- The address bits. -/
def IpAddress.bits : IpAddress → Nat
  | .v4 a => a
  | .v6 a => a

/-- Whether the address is IPv4 (`is_v4()`). -/
def IpAddress.is_v4 : IpAddress → Bool
  | .v4 _ => true
  | .v6 _ => false

/-- A DB entry as seen through a `const DBEntry *`: the dynamic kind (what the
`dynamic_cast` chain of `DBEntryRequestHandler` tests), the address `ptr`, and
the fields the flow manager reads from it. -/
inductive DBEntry where
  | Interface (ptr : Nat)
  | VnEntry (ptr : Nat)
  | AclDBEntry (ptr : Nat)
  | NextHop (ptr : Nat)
  | InetUnicastRouteEntry (ptr : Nat) (vrf_id : Nat) (addr : IpAddress) (plen : Nat)
  | BridgeRouteEntry (ptr : Nat) (vrf_id : Nat) (mac : Nat)
  | VrfEntry (ptr : Nat) (vrf_id : Nat)
  | Other (ptr : Nat)
  deriving DecidableEq, Repr

/-- The address of a DB entry. -/
def DBEntry.ptr : DBEntry → Nat
  | .Interface p => p
  | .VnEntry p => p
  | .AclDBEntry p => p
  | .NextHop p => p
  | .InetUnicastRouteEntry p _ _ _ => p
  | .BridgeRouteEntry p _ _ => p
  | .VrfEntry p _ => p
  | .Other p => p

/-- The accessor `vrf_id()` of a VRF or of a route entry. -/
def DBEntry.vrf_id : DBEntry → Nat
  | .InetUnicastRouteEntry _ v _ _ => v
  | .BridgeRouteEntry _ v _ => v
  | .VrfEntry _ v => v
  | _ => 0

/-- The tag of a `FlowMgmtKey`. -/
inductive KeyType where
  | INTERFACE | ACL | ACE_ID | VN | INET4 | INET6 | BRIDGE | NH | VRF | VM
  deriving DecidableEq, Repr

/-- Modelled from the spec: the numeric order of the tags of `FlowMgmtKey::Type`
(the enumeration is declared in flow_mgmt.h); the order is the one in which the
design document lists the tag set. -/
def KeyType.toNat : KeyType → Nat
  | .INTERFACE => 0
  | .ACL => 1
  | .ACE_ID => 2
  | .VN => 3
  | .INET4 => 4
  | .INET6 => 5
  | .BRIDGE => 6
  | .NH => 7
  | .VRF => 8
  | .VM => 9

/-- A `FlowMgmtKey` with the fields of all its subclasses: `type_` and
`db_entry_` of the base class, `vrf_id_` of `RouteFlowMgmtKey`, `ip_` and
`plen_` of `InetRouteFlowMgmtKey`, `mac_` of `BridgeRouteFlowMgmtKey`,
`ace_id_` of `AceIdFlowMgmtKey`. Fields a subclass does not have are zero. -/
structure FlowMgmtKey where
  type_ : KeyType
  db_entry_ : Option DBEntry
  vrf_id_ : Nat
  ip_ : IpAddress
  plen_ : Nat
  mac_ : Nat
  ace_id_ : Nat
  deriving DecidableEq, Repr

/-- The key of an object identified by its DB entry alone. -/
def FlowMgmtKey.ofDB (t : KeyType) (e : Option DBEntry) : FlowMgmtKey :=
  { type_ := t, db_entry_ := e, vrf_id_ := 0, ip_ := .v4 0, plen_ := 0, mac_ := 0, ace_id_ := 0 }

/-- The constructor `InterfaceFlowMgmtKey(intf)`. -/
def InterfaceFlowMgmtKey (e : Option DBEntry) : FlowMgmtKey := FlowMgmtKey.ofDB .INTERFACE e

/-- The constructor `AclFlowMgmtKey(acl)`. -/
def AclFlowMgmtKey (e : Option DBEntry) : FlowMgmtKey := FlowMgmtKey.ofDB .ACL e

/-- The constructor `VnFlowMgmtKey(vn)`. -/
def VnFlowMgmtKey (e : Option DBEntry) : FlowMgmtKey := FlowMgmtKey.ofDB .VN e

/-- The constructor `NhFlowMgmtKey(nh)`. -/
def NhFlowMgmtKey (e : Option DBEntry) : FlowMgmtKey := FlowMgmtKey.ofDB .NH e

/-- The constructor `VrfFlowMgmtKey(vrf)`. -/
def VrfFlowMgmtKey (e : Option DBEntry) : FlowMgmtKey := FlowMgmtKey.ofDB .VRF e

/-- The constructor `AceIdFlowMgmtKey(ace_id)`. -/
def AceIdFlowMgmtKey (id : Nat) : FlowMgmtKey :=
  { type_ := .ACE_ID, db_entry_ := none, vrf_id_ := 0, ip_ := .v4 0, plen_ := 0, mac_ := 0,
    ace_id_ := id }

/-- The constructor `InetRouteFlowMgmtKey(vrf, ip, plen)`: the tag follows the
address family and the key carries no DB entry. The 8-bit `plen_` is kept
modulo 256. -/
def InetRouteFlowMgmtKey (vrf : Nat) (ip : IpAddress) (plen : Nat) : FlowMgmtKey :=
  { type_ := if ip.is_v4 then .INET4 else .INET6, db_entry_ := none, vrf_id_ := vrf, ip_ := ip,
    plen_ := plen % 256, mac_ := 0, ace_id_ := 0 }

/-- The constructor `InetRouteFlowMgmtKey(route)` from an inet unicast route:
the discriminators are read from the route and the key carries the route. -/
def InetRouteFlowMgmtKey.ofRoute (e : DBEntry) (vrf : Nat) (ip : IpAddress) (plen : Nat) :
    FlowMgmtKey :=
  { InetRouteFlowMgmtKey vrf ip plen with db_entry_ := some e }

/-- The constructor `BridgeRouteFlowMgmtKey(vrf, mac)`. -/
def BridgeRouteFlowMgmtKey (vrf : Nat) (mac : Nat) : FlowMgmtKey :=
  { type_ := .BRIDGE, db_entry_ := none, vrf_id_ := vrf, ip_ := .v4 0, plen_ := 0, mac_ := mac,
    ace_id_ := 0 }

/-- The constructor `BridgeRouteFlowMgmtKey(route)` from a bridge route. -/
def BridgeRouteFlowMgmtKey.ofRoute (e : DBEntry) (vrf : Nat) (mac : Nat) : FlowMgmtKey :=
  { BridgeRouteFlowMgmtKey vrf mac with db_entry_ := some e }

/-- The number a pointer compares as: null is below every entry. -/
def ptrCode : Option DBEntry → Nat
  | none => 0
  | some e => e.ptr + 1

/-- Modelled from the spec: the discriminators of a key, after its tag
(INET4/INET6: vrf_id, ip, plen; BRIDGE: vrf_id, mac; ACE_ID: the ace id; every
other tag: the identity of the DB entry). -/
def FlowMgmtKey.disc (k : FlowMgmtKey) : List Nat :=
  match k.type_ with
  | .INET4 | .INET6 => [k.vrf_id_, k.ip_.family, k.ip_.bits, k.plen_]
  | .BRIDGE => [k.vrf_id_, k.mac_]
  | .ACE_ID => [k.ace_id_]
  | _ => [ptrCode k.db_entry_]

/-- The tag of a key followed by its discriminators. -/
def FlowMgmtKey.rank (k : FlowMgmtKey) : List Nat := k.type_.toNat :: k.disc

/-- Lexicographic comparison of two lists of numbers. -/
def lexLt : List Nat → List Nat → Bool
  | [], [] => false
  | [], _ :: _ => true
  | _ :: _, [] => false
  | a :: as, b :: bs => if a < b then true else if b < a then false else lexLt as bs

/-- Modelled from the spec: `FlowMgmtKey::IsLess` (declared in flow_mgmt.h), the
total order of keys over the tag and then the discriminators. -/
def FlowMgmtKey.IsLess (a b : FlowMgmtKey) : Bool := lexLt a.rank b.rank

/-- Two keys are the same element of a `std::set` / `std::map` ordered by
`IsLess` when neither is less than the other. -/
def SameKey (a b : FlowMgmtKey) : Bool := !a.IsLess b && !b.IsLess a

/-! ### Flows -/

/-- One element of a match-ACL list of a flow: the ACL (possibly null) and the
ids of the ACEs matched in it. -/
structure MatchAclParams where
  acl : Option Nat
  ace_id_list : List Nat
  deriving DecidableEq, Repr

/-- The fields of a `FlowEntry` that the flow manager reads, as they are when a
request for the flow is processed. `id` is the identity (address) of the flow. -/
structure FlowEntry where
  id : Nat
  m_acl_l : List MatchAclParams
  m_sg_acl_l : List MatchAclParams
  m_out_acl_l : List MatchAclParams
  m_out_sg_acl_l : List MatchAclParams
  m_reverse_sg_acl_l : List MatchAclParams
  m_reverse_out_sg_acl_l : List MatchAclParams
  m_mirror_acl_l : List MatchAclParams
  m_out_mirror_acl_l : List MatchAclParams
  m_vrf_assign_acl_l : List MatchAclParams
  intf_entry : Option Nat
  vn_entry : Option Nat
  nh : Option Nat
  l3_flow : Bool
  flow_source_vrf : Nat
  flow_dest_vrf : Nat
  src_addr : IpAddress
  dst_addr : IpAddress
  source_plen : Nat
  dest_plen : Nat
  l2_rpf_plen : Nat
  flow_source_plen_map : List (Nat × Nat)
  flow_dest_plen_map : List (Nat × Nat)
  smac : Nat
  LocalFlow : Bool
  IngressDir : Bool
  deriving DecidableEq, Repr

/-- The constant `VrfEntry::kInvalidIndex`. -/
def kInvalidIndex : Nat := 0xFFFFFFFF

/-! ### Entries of the dependency indexes -/

/-- The values of `FlowMgmtEntry::State`. The source file names `INVALID`,
`OPER_ADD_SEEN` and `OPER_DEL_SEEN`; the enumeration is declared in flow_mgmt.h
and `OPER_OTHER` stands for an enumerator the source file does not name. -/
inductive State where
  | INVALID | OPER_ADD_SEEN | OPER_DEL_SEEN | OPER_OTHER
  deriving DecidableEq, Repr

/-- What the translation unit takes from flow_mgmt.h without fixing it: the
`oper_state_` a newly constructed `FlowMgmtEntry` starts in. -/
structure Hdr where
  oper_state_init : State
  deriving DecidableEq, Repr

/-- A `FlowMgmtEntry` with the fields of its subclasses: the flow set `tree_`,
`oper_state_` and `gen_id_` of the base class, the two 32-bit counters of
`VnFlowMgmtEntry`, and `vrf_`, `vrf_id_` and the `deleted_` flag of the three
route-table slots of `VrfFlowMgmtEntry`. -/
structure FlowMgmtEntry where
  tree_ : List Nat
  oper_state_ : State
  gen_id_ : Nat
  ingress_flow_count_ : Nat
  egress_flow_count_ : Nat
  vrf_ : Option DBEntry
  vrf_id_ : Nat
  inet4_deleted_ : Bool
  inet6_deleted_ : Bool
  bridge_deleted_ : Bool
  deriving DecidableEq, Repr

/-- The per-flow record `FlowEntryInfo`: the ordered key set `tree_`, the event
counter `count_` and the memoized flags. -/
structure FlowEntryInfo where
  tree_ : List FlowMgmtKey
  count_ : Nat
  local_flow_ : Bool
  ingress_ : Bool
  deriving DecidableEq, Repr

/-! ### Messages -/

/-- The events of `FlowMgmtRequest`. -/
inductive ReqEvent where
  | INVALID | ADD_FLOW | DELETE_FLOW | ADD_DBENTRY | CHANGE_DBENTRY | DELETE_DBENTRY
  | RETRY_DELETE_VRF
  deriving DecidableEq, Repr

/-- A `FlowMgmtRequest`. -/
structure FlowMgmtRequest where
  event : ReqEvent
  flow : Option FlowEntry
  db_entry : Option DBEntry
  vrf_id : Nat
  gen_id : Nat
  deriving DecidableEq, Repr

/-- The events of `FlowMgmtResponse`. -/
inductive RespEvent where
  | INVALID | FREE_FLOW_REF | REVALUATE_FLOW | REVALUATE_DBENTRY | DELETE_DBENTRY | FREE_DBENTRY
  deriving DecidableEq, Repr

/-- A `FlowMgmtResponse`: the flow (by identity), the DB entry and the
generation id. -/
structure FlowMgmtResponse where
  event : RespEvent
  flow : Option Nat
  db_entry : Option DBEntry
  gen_id : Nat
  deriving DecidableEq, Repr

/-- The request constructors used by `AddEvent` / `DeleteEvent` for flows. -/
def FlowMgmtRequest.ofFlow (ev : ReqEvent) (f : FlowEntry) : FlowMgmtRequest :=
  { event := ev, flow := some f, db_entry := none, vrf_id := 0, gen_id := 0 }

/-- The request constructor used by `AddEvent` / `ChangeEvent` / `DeleteEvent`
for DB entries and for the synthetic request of the route cover. -/
def FlowMgmtRequest.ofDB (ev : ReqEvent) (e : Option DBEntry) (gen_id : Nat) : FlowMgmtRequest :=
  { event := ev, flow := none, db_entry := e, vrf_id := (e.map DBEntry.vrf_id).getD 0,
    gen_id := gen_id }

/-- Modelled from the spec: `FlowMgmtRequest::GetResponseEvent` (declared in
flow_mgmt_request.h): an object ADD or CHANGE is translated into a
re-evaluation, an object DELETE into `DELETE_DBENTRY`, anything else into no
response. -/
def FlowMgmtRequest.GetResponseEvent (req : FlowMgmtRequest) : RespEvent :=
  match req.event with
  | .ADD_DBENTRY => .REVALUATE_DBENTRY
  | .CHANGE_DBENTRY => .REVALUATE_DBENTRY
  | .DELETE_DBENTRY => .DELETE_DBENTRY
  | _ => .INVALID

/-- Modelled from the spec: `FlowMgmtKey::KeyToFlowRequest` (declared in
flow_mgmt.h) adds nothing to a DB-entry response, which carries the flow and
the DB entry of the key. -/
def FlowMgmtKey.KeyToFlowRequest (_k : FlowMgmtKey) (r : FlowMgmtResponse) : FlowMgmtResponse := r

/-- The function `FlowMgmtKey::FreeDBEntryEvent`: the event to enqueue to free
an object of the key's tag. -/
def FlowMgmtKey.FreeDBEntryEvent (k : FlowMgmtKey) : RespEvent :=
  match k.type_ with
  | .INTERFACE | .ACL | .VN | .INET4 | .INET6 | .BRIDGE | .NH | .VRF => .FREE_DBENTRY
  | .ACE_ID | .VM => .INVALID

/-! ### Containers -/

/-- Insertion into a list kept in the order of the comparator `lt`: before the
first element the new one is less than. -/
def insertBy {α : Type} (lt : α → α → Bool) (a : α) : List α → List α
  | [] => [a]
  | x :: xs => if lt a x then a :: x :: xs else x :: insertBy lt a xs

/-- A `FlowMgmtKeyTree`: a `std::set` of keys ordered by `IsLess`. -/
abbrev FlowMgmtKeyTree := List FlowMgmtKey

/-- The lookup `find` of a key set. -/
def FlowMgmtKeyTree.find (s : FlowMgmtKeyTree) (k : FlowMgmtKey) : Option FlowMgmtKey :=
  List.find? (fun x => SameKey x k) s

/-- The operation `insert` of a key set: the set and whether the key was new. -/
def FlowMgmtKeyTree.insert (s : FlowMgmtKeyTree) (k : FlowMgmtKey) : FlowMgmtKeyTree × Bool :=
  match FlowMgmtKeyTree.find s k with
  | some _ => (s, false)
  | none => (insertBy FlowMgmtKey.IsLess k s, true)

/-- The operation `erase` of a key set. -/
def FlowMgmtKeyTree.erase (s : FlowMgmtKeyTree) (k : FlowMgmtKey) : FlowMgmtKeyTree :=
  List.filter (fun x => !SameKey x k) s

/-- The map `FlowMgmtTree::Tree` from keys to entries, ordered by `IsLess`. Each
element is the stored key (the clone made by `Locate`) and the entry. -/
abbrev Tree := List (FlowMgmtKey × FlowMgmtEntry)

/-- The lookup `tree_.find(key)`. -/
def Tree.find (t : Tree) (k : FlowMgmtKey) : Option (FlowMgmtKey × FlowMgmtEntry) :=
  List.find? (fun p => SameKey p.1 k) t

/-- The insertion `tree_[key] = entry` of a key that is not in the map. -/
def Tree.insert (t : Tree) (k : FlowMgmtKey) (e : FlowMgmtEntry) : Tree :=
  insertBy (fun p q => p.1.IsLess q.1) (k, e) t

/-- The removal `tree_.erase(it)` of the element found for a key. -/
def Tree.erase (t : Tree) (k : FlowMgmtKey) : Tree :=
  List.filter (fun p => !SameKey p.1 k) t

/-- A write through the entry pointer held for a key: the entry stored under
the key becomes `e`. -/
def Tree.setEntry (t : Tree) (k : FlowMgmtKey) (e : FlowMgmtEntry) : Tree :=
  List.map (fun p => if SameKey p.1 k then (p.1, e) else p) t

/-- The call `it->first->set_db_entry(d)` on the stored key found for `k`. -/
def Tree.set_db_entry (t : Tree) (k : FlowMgmtKey) (d : Option DBEntry) : Tree :=
  List.map (fun p => if SameKey p.1 k then ({ p.1 with db_entry_ := d }, p.2) else p) t

/-- The lookup `tree_.upper_bound(key)`: the first stored key greater than
`k`, if any. -/
def Tree.upper_bound (t : Tree) (k : FlowMgmtKey) : Option FlowMgmtKey :=
  (List.find? (fun p => k.IsLess p.1) t).map Prod.fst

/-- The names of the nine dependency indexes of the manager. -/
inductive TreeId where
  | acl | ace_id | interface | vn | ip4_route | ip6_route | bridge_route | vrf | nh
  deriving DecidableEq, Repr

/-- The state of a `FlowMgmtManager`: the nine indexes, the side map
`id_map_` of the VRF index, the LPM structures of the two inet route indexes,
the flow registry `flow_tree_`, and the two queues (the response queue holds
what was enqueued, oldest first). -/
structure FlowMgmtManager where
  acl_flow_mgmt_tree_ : Tree
  ace_id_flow_mgmt_tree_ : Tree
  interface_flow_mgmt_tree_ : Tree
  vn_flow_mgmt_tree_ : Tree
  ip4_route_flow_mgmt_tree_ : Tree
  ip6_route_flow_mgmt_tree_ : Tree
  bridge_route_flow_mgmt_tree_ : Tree
  vrf_flow_mgmt_tree_ : Tree
  nh_flow_mgmt_tree_ : Tree
  id_map_ : List (Nat × DBEntry)
  ip4_lpm_tree_ : List FlowMgmtKey
  ip6_lpm_tree_ : List FlowMgmtKey
  flow_tree_ : List (Nat × FlowEntryInfo)
  request_queue_ : List FlowMgmtRequest
  response_queue_ : List FlowMgmtResponse
  deriving DecidableEq, Repr

namespace FlowMgmtManager

/-- The manager right after construction. -/
def empty : FlowMgmtManager :=
  { acl_flow_mgmt_tree_ := [], ace_id_flow_mgmt_tree_ := [], interface_flow_mgmt_tree_ := [],
    vn_flow_mgmt_tree_ := [], ip4_route_flow_mgmt_tree_ := [], ip6_route_flow_mgmt_tree_ := [],
    bridge_route_flow_mgmt_tree_ := [], vrf_flow_mgmt_tree_ := [], nh_flow_mgmt_tree_ := [],
    id_map_ := [], ip4_lpm_tree_ := [], ip6_lpm_tree_ := [], flow_tree_ := [],
    request_queue_ := [], response_queue_ := [] }

/-- The map `tree_` of one of the indexes. -/
def tree (m : FlowMgmtManager) : TreeId → Tree
  | .acl => m.acl_flow_mgmt_tree_
  | .ace_id => m.ace_id_flow_mgmt_tree_
  | .interface => m.interface_flow_mgmt_tree_
  | .vn => m.vn_flow_mgmt_tree_
  | .ip4_route => m.ip4_route_flow_mgmt_tree_
  | .ip6_route => m.ip6_route_flow_mgmt_tree_
  | .bridge_route => m.bridge_route_flow_mgmt_tree_
  | .vrf => m.vrf_flow_mgmt_tree_
  | .nh => m.nh_flow_mgmt_tree_

/-- The manager with the map of one index replaced. -/
def setTree (m : FlowMgmtManager) (t : TreeId) (tr : Tree) : FlowMgmtManager :=
  match t with
  | .acl => { m with acl_flow_mgmt_tree_ := tr }
  | .ace_id => { m with ace_id_flow_mgmt_tree_ := tr }
  | .interface => { m with interface_flow_mgmt_tree_ := tr }
  | .vn => { m with vn_flow_mgmt_tree_ := tr }
  | .ip4_route => { m with ip4_route_flow_mgmt_tree_ := tr }
  | .ip6_route => { m with ip6_route_flow_mgmt_tree_ := tr }
  | .bridge_route => { m with bridge_route_flow_mgmt_tree_ := tr }
  | .vrf => { m with vrf_flow_mgmt_tree_ := tr }
  | .nh => { m with nh_flow_mgmt_tree_ := tr }

/-- The LPM structure of an inet route index (empty for any other index). -/
def lpm (m : FlowMgmtManager) : TreeId → List FlowMgmtKey
  | .ip4_route => m.ip4_lpm_tree_
  | .ip6_route => m.ip6_lpm_tree_
  | _ => []

/-- The manager with the LPM structure of an inet route index replaced. -/
def setLpm (m : FlowMgmtManager) (t : TreeId) (l : List FlowMgmtKey) : FlowMgmtManager :=
  match t with
  | .ip4_route => { m with ip4_lpm_tree_ := l }
  | .ip6_route => { m with ip6_lpm_tree_ := l }
  | _ => m

/-- The function `ResponseEnqueue`: append to the response queue. -/
def ResponseEnqueue (m : FlowMgmtManager) (r : FlowMgmtResponse) : FlowMgmtManager :=
  { m with response_queue_ := m.response_queue_ ++ [r] }

/-- The function `FlowMgmtManager::RetryVrfDeleteEvent`: post a
`RETRY_DELETE_VRF` request for the VRF. -/
def RetryVrfDeleteEvent (m : FlowMgmtManager) (vrf : Option DBEntry) : FlowMgmtManager :=
  { m with request_queue_ := m.request_queue_ ++ [FlowMgmtRequest.ofDB .RETRY_DELETE_VRF vrf 0] }

end FlowMgmtManager

/-! ## Object entry code -/

/-- The function `FlowMgmtEntry::Add`: insert the flow into the flow set; the
result is whether it was newly inserted. -/
def FlowMgmtEntry.Add (e : FlowMgmtEntry) (flow : Nat) : Bool × FlowMgmtEntry :=
  if flow ∈ e.tree_ then (false, e)
  else (true, { e with tree_ := insertBy (fun a b => decide (a < b)) flow e.tree_ })

/-- The function `FlowMgmtEntry::Delete`: erase the flow; the result is
`tree_.size()` converted to `bool`. -/
def FlowMgmtEntry.Delete (e : FlowMgmtEntry) (flow : Nat) : Bool × FlowMgmtEntry :=
  let tr := List.filter (fun f => f != flow) e.tree_
  (decide (tr.length ≠ 0), { e with tree_ := tr })

/-- The function `FlowMgmtEntry::CanDelete`; `none` is the failed assertion
`oper_state_ != INVALID`. -/
def FlowMgmtEntry.CanDelete (e : FlowMgmtEntry) : Option Bool :=
  if e.oper_state_ = .INVALID then none
  else if e.tree_.length ≠ 0 then some false
  else some (decide (e.oper_state_ ≠ .OPER_ADD_SEEN))

/-- The loop of `OperEntryAdd` / `OperEntryDelete` that enqueues the response
once for every flow of the entry, in the order of the flow set. -/
def enqueueForFlows (m : FlowMgmtManager) (resp : FlowMgmtResponse) (flows : List Nat) :
    FlowMgmtManager :=
  List.foldl (fun acc f => acc.ResponseEnqueue { resp with flow := some f }) m flows

/-- The function `FlowMgmtEntry::OperEntryAdd`: the result, the entry after the
call and the manager after the enqueues. -/
def FlowMgmtEntry.OperEntryAdd (e : FlowMgmtEntry) (m : FlowMgmtManager) (req : FlowMgmtRequest)
    (key : FlowMgmtKey) : Bool × FlowMgmtEntry × FlowMgmtManager :=
  let e1 := { e with oper_state_ := State.OPER_ADD_SEEN }
  let event := req.GetResponseEvent
  if event = .INVALID then (false, e1, m)
  else
    let flow_resp : FlowMgmtResponse :=
      key.KeyToFlowRequest { event := event, flow := none, db_entry := key.db_entry_, gen_id := 0 }
    (true, e1, enqueueForFlows m flow_resp e1.tree_)

/-- The function `FlowMgmtEntry::OperEntryChange`. -/
def FlowMgmtEntry.OperEntryChange (e : FlowMgmtEntry) (m : FlowMgmtManager)
    (req : FlowMgmtRequest) (key : FlowMgmtKey) : Bool × FlowMgmtEntry × FlowMgmtManager :=
  e.OperEntryAdd m req key

/-- The function `FlowMgmtEntry::OperEntryDelete`. -/
def FlowMgmtEntry.OperEntryDelete (e : FlowMgmtEntry) (m : FlowMgmtManager)
    (req : FlowMgmtRequest) (key : FlowMgmtKey) : Bool × FlowMgmtEntry × FlowMgmtManager :=
  let e1 := { e with oper_state_ := State.OPER_DEL_SEEN, gen_id_ := req.gen_id }
  let event := req.GetResponseEvent
  if event = .INVALID then (false, e1, m)
  else
    let flow_resp : FlowMgmtResponse :=
      key.KeyToFlowRequest { event := event, flow := none, db_entry := key.db_entry_, gen_id := 0 }
    (true, e1, enqueueForFlows m flow_resp e1.tree_)

/-! ## Generic code of the indexes -/

/-- The probe key `InetRouteFlowMgmtKey key(vrf, Ip4Address(0), 0)`. -/
def inetProbeKey (vrf : Nat) : FlowMgmtKey := InetRouteFlowMgmtKey vrf (.v4 0) 0

/-- The probe key `BridgeRouteFlowMgmtKey key(vrf, MacAddress::ZeroMac())`. -/
def bridgeProbeKey (vrf : Nat) : FlowMgmtKey := BridgeRouteFlowMgmtKey vrf 0

/-- The function `InetRouteFlowMgmtTree::HasVrfFlows` on the inet index `t`. -/
def InetRouteFlowMgmtTree.HasVrfFlows (m : FlowMgmtManager) (t : TreeId) (vrf : Nat) : Bool :=
  match (m.tree t).upper_bound (inetProbeKey vrf) with
  | none => false
  | some next_key => if next_key.vrf_id_ ≠ vrf then false else true

/-- The function `BridgeRouteFlowMgmtTree::HasVrfFlows` (the comparison of the
pointer with `false` is the null check). -/
def BridgeRouteFlowMgmtTree.HasVrfFlows (m : FlowMgmtManager) (vrf : Nat) : Bool :=
  match (m.tree .bridge_route).upper_bound (bridgeProbeKey vrf) with
  | none => false
  | some next_key => if next_key.vrf_id_ ≠ vrf then false else true

/-- The function `FlowMgmtManager::HasVrfFlows`. -/
def FlowMgmtManager.HasVrfFlows (m : FlowMgmtManager) (vrf_id : Nat) : Bool :=
  if InetRouteFlowMgmtTree.HasVrfFlows m .ip4_route vrf_id then true
  else if InetRouteFlowMgmtTree.HasVrfFlows m .ip6_route vrf_id then true
  else if BridgeRouteFlowMgmtTree.HasVrfFlows m vrf_id then true
  else false

/-- The function `VrfFlowMgmtEntry::CanDelete`. -/
def VrfFlowMgmtEntry.CanDelete (m : FlowMgmtManager) (e : FlowMgmtEntry) : Option Bool :=
  match e.CanDelete with
  | none => none
  | some false => some false
  | some true =>
    if e.inet4_deleted_ = false ∨ e.inet6_deleted_ = false ∨ e.bridge_deleted_ = false then
      some false
    else some (m.HasVrfFlows e.vrf_id_ == false)

/-- The virtual call `entry->CanDelete()` on an entry of the index `t`: the
entries of the VRF index are `VrfFlowMgmtEntry`. -/
def Entry.CanDelete (m : FlowMgmtManager) (t : TreeId) (e : FlowMgmtEntry) : Option Bool :=
  match t with
  | .vrf => VrfFlowMgmtEntry.CanDelete m e
  | _ => e.CanDelete

namespace FlowMgmtTree

/-- The function `FlowMgmtTree::Find`. -/
def Find (m : FlowMgmtManager) (t : TreeId) (key : FlowMgmtKey) :
    Option (FlowMgmtKey × FlowMgmtEntry) :=
  (m.tree t).find key

/-- The virtual function `Allocate` of the index `t`: a freshly constructed
entry. The VRF index reads `vrf_id()` through the DB entry of the key, so a key
without one aborts. -/
def Allocate (h : Hdr) (t : TreeId) (key : FlowMgmtKey) : Option FlowMgmtEntry :=
  let fresh : FlowMgmtEntry :=
    { tree_ := [], oper_state_ := h.oper_state_init, gen_id_ := 0, ingress_flow_count_ := 0,
      egress_flow_count_ := 0, vrf_ := none, vrf_id_ := 0, inet4_deleted_ := false,
      inet6_deleted_ := false, bridge_deleted_ := false }
  match t with
  | .vrf =>
    match key.db_entry_ with
    | some vrf => some { fresh with vrf_ := some vrf, vrf_id_ := vrf.vrf_id }
    | none => none
  | _ => some fresh

/-- The function `FlowMgmtTree::Locate`: the entry for the key, created and
stored under a clone of the key when absent. -/
def Locate (h : Hdr) (m : FlowMgmtManager) (t : TreeId) (key : FlowMgmtKey) :
    Option (FlowMgmtEntry × FlowMgmtManager) :=
  match Find m t key with
  | some p => some (p.2, m)
  | none =>
    match Allocate h t key with
    | some entry => some (entry, m.setTree t ((m.tree t).insert key entry))
    | none => none

/-- The function `FlowMgmtTree::UpperBound`. -/
def UpperBound (m : FlowMgmtManager) (t : TreeId) (key : FlowMgmtKey) : Option FlowMgmtKey :=
  (m.tree t).upper_bound key

/-- The base function `FlowMgmtTree::FreeNotify`; `none` is the failed
assertion `key->db_entry() != NULL`. -/
def FreeNotify (m : FlowMgmtManager) (key : FlowMgmtKey) (gen_id : Nat) :
    Option FlowMgmtManager :=
  match key.db_entry_ with
  | none => none
  | some e =>
    let event := key.FreeDBEntryEvent
    if event = .INVALID then some m
    else some (m.ResponseEnqueue { event := event, flow := none, db_entry := some e,
                                   gen_id := gen_id })

end FlowMgmtTree

/-- The function `VrfFlowMgmtTree::FreeNotify`: the base function, then the
side-map entry of the VRF's id is erased. -/
def VrfFlowMgmtTree.FreeNotify (m : FlowMgmtManager) (key : FlowMgmtKey) (gen_id : Nat) :
    Option FlowMgmtManager :=
  match FlowMgmtTree.FreeNotify m key gen_id with
  | none => none
  | some m1 =>
    match key.db_entry_ with
    | none => none
    | some vrf => some { m1 with id_map_ := List.filter (fun p => p.1 != vrf.vrf_id) m1.id_map_ }

/-- The virtual call `FreeNotify` on the index `t`. -/
def Virtual.FreeNotify (m : FlowMgmtManager) (t : TreeId) (key : FlowMgmtKey) (gen_id : Nat) :
    Option FlowMgmtManager :=
  match t with
  | .vrf => VrfFlowMgmtTree.FreeNotify m key gen_id
  | _ => FlowMgmtTree.FreeNotify m key gen_id

namespace FlowMgmtTree

/-- The function `FlowMgmtTree::TryDelete`. The argument `entry` is the entry
stored for `key` in the index `t`; `none` is a failed assertion. -/
def TryDelete (m : FlowMgmtManager) (t : TreeId) (key : FlowMgmtKey) (entry : FlowMgmtEntry) :
    Option (Bool × FlowMgmtManager) :=
  match Entry.CanDelete m t entry with
  | none => none
  | some false => some (false, m)
  | some true =>
    match (if entry.oper_state_ = .OPER_DEL_SEEN then Virtual.FreeNotify m t key entry.gen_id_
           else some m) with
    | none => none
    | some m1 =>
      match (m1.tree t).find key with
      | none => none
      | some _ => some (true, m1.setTree t ((m1.tree t).erase key))

/-- The function `FlowMgmtTree::Add`. -/
def Add (h : Hdr) (m : FlowMgmtManager) (t : TreeId) (key : FlowMgmtKey) (flow : Nat) :
    Option (Bool × FlowMgmtManager) :=
  match Locate h m t key with
  | none => none
  | some (entry, m1) =>
    let r := entry.Add flow
    some (r.1, m1.setTree t ((m1.tree t).setEntry key r.2))

/-- The function `FlowMgmtTree::Delete`. -/
def Delete (m : FlowMgmtManager) (t : TreeId) (key : FlowMgmtKey) (flow : Nat) :
    Option (Bool × FlowMgmtManager) :=
  match Find m t key with
  | none => some (false, m)
  | some (first, entry) =>
    let r := entry.Delete flow
    let m1 := m.setTree t ((m.tree t).setEntry key r.2)
    match TryDelete m1 t first r.2 with
    | none => none
    | some (_, m2) => some (r.1, m2)

/-- The function `FlowMgmtTree::RetryDelete`. -/
def RetryDelete (m : FlowMgmtManager) (t : TreeId) (key : FlowMgmtKey) :
    Option (Bool × FlowMgmtManager) :=
  match Find m t key with
  | none => some (true, m)
  | some (_, entry) => TryDelete m t key entry

/-- The base function `FlowMgmtTree::OperEntryAdd`. -/
def OperEntryAdd (h : Hdr) (m : FlowMgmtManager) (t : TreeId) (req : FlowMgmtRequest)
    (key : FlowMgmtKey) : Option (Bool × FlowMgmtManager) :=
  match Locate h m t key with
  | none => none
  | some (entry, m1) =>
    let r := entry.OperEntryAdd m1 req key
    some (true, r.2.2.setTree t ((r.2.2.tree t).setEntry key r.2.1))

/-- The function `FlowMgmtTree::OperEntryChange`. -/
def OperEntryChange (m : FlowMgmtManager) (t : TreeId) (req : FlowMgmtRequest)
    (key : FlowMgmtKey) : Option (Bool × FlowMgmtManager) :=
  match Find m t key with
  | none => some (true, m)
  | some (_, entry) =>
    let r := entry.OperEntryChange m req key
    some (true, r.2.2.setTree t ((r.2.2.tree t).setEntry key r.2.1))

/-- The base function `FlowMgmtTree::OperEntryDelete`. -/
def OperEntryDelete (m : FlowMgmtManager) (t : TreeId) (req : FlowMgmtRequest)
    (key : FlowMgmtKey) : Option (Bool × FlowMgmtManager) :=
  match Find m t key with
  | none =>
    match Virtual.FreeNotify m t key req.gen_id with
    | none => none
    | some m1 => some (true, m1)
  | some (_, entry) =>
    let r := entry.OperEntryDelete m req key
    let m1 := r.2.2.setTree t ((r.2.2.tree t).setEntry key r.2.1)
    TryDelete m1 t key r.2.1

end FlowMgmtTree

/-- The function `VrfFlowMgmtTree::RetryDelete`. -/
def VrfFlowMgmtTree.RetryDelete (m : FlowMgmtManager) (vrf_id : Nat) : Option FlowMgmtManager :=
  match List.find? (fun p => p.1 == vrf_id) m.id_map_ with
  | none => some m
  | some (_, vrf) =>
    match FlowMgmtTree.RetryDelete m .vrf (VrfFlowMgmtKey (some vrf)) with
    | none => none
    | some (_, m1) => some m1

/-- The function `FlowMgmtManager::RetryVrfDelete`. -/
def FlowMgmtManager.RetryVrfDelete (m : FlowMgmtManager) (vrf_id : Nat) :
    Option FlowMgmtManager :=
  VrfFlowMgmtTree.RetryDelete m vrf_id

/-! ## Route, inet route and VRF indexes -/

/-- The function `RouteFlowMgmtTree::Delete` on the route index `t`. -/
def RouteFlowMgmtTree.Delete (m : FlowMgmtManager) (t : TreeId) (key : FlowMgmtKey)
    (flow : Nat) : Option (Bool × FlowMgmtManager) :=
  match FlowMgmtTree.Delete m t key flow with
  | none => none
  | some (ret, m1) =>
    match m1.RetryVrfDelete key.vrf_id_ with
    | none => none
    | some m2 => some (ret, m2)

/-- The function `RouteFlowMgmtTree::OperEntryDelete`. -/
def RouteFlowMgmtTree.OperEntryDelete (m : FlowMgmtManager) (t : TreeId)
    (req : FlowMgmtRequest) (key : FlowMgmtKey) : Option (Bool × FlowMgmtManager) :=
  match FlowMgmtTree.OperEntryDelete m t req key with
  | none => none
  | some (ret, m1) =>
    match m1.RetryVrfDelete key.vrf_id_ with
    | none => none
    | some m2 => some (ret, m2)

/-- The function `RouteFlowMgmtTree::OperEntryAdd`: the base function, then the
DB entry of the request, when there is one, is attached to the stored key. -/
def RouteFlowMgmtTree.OperEntryAdd (h : Hdr) (m : FlowMgmtManager) (t : TreeId)
    (req : FlowMgmtRequest) (key : FlowMgmtKey) : Option (Bool × FlowMgmtManager) :=
  match FlowMgmtTree.OperEntryAdd h m t req key with
  | none => none
  | some (ret, m1) =>
    match req.db_entry with
    | none => some (ret, m1)
    | some d => some (ret, m1.setTree t ((m1.tree t).set_db_entry key (some d)))

/-- Modelled from the spec: `Address::GetIp4SubnetAddress` and
`Address::GetIp6SubnetAddress` (another library): the address with the bits
below the first `plen` cleared. -/
def GetIpSubnetAddress (ip : IpAddress) (plen : Nat) : IpAddress :=
  match ip with
  | .v4 a => .v4 (a / 2 ^ (32 - plen) * 2 ^ (32 - plen))
  | .v6 a => .v6 (a / 2 ^ (128 - plen) * 2 ^ (128 - plen))

/-- Modelled from the spec: `InetRouteFlowMgmtTree::AddToLPMTree` (declared in
flow_mgmt.h): the route is inserted into the ordered LPM structure. -/
def InetRouteFlowMgmtTree.AddToLPMTree (m : FlowMgmtManager) (t : TreeId) (key : FlowMgmtKey) :
    FlowMgmtManager :=
  m.setLpm t (FlowMgmtKeyTree.insert (m.lpm t) key).1

/-- Modelled from the spec: `InetRouteFlowMgmtTree::DelFromLPMTree` (declared in
flow_mgmt.h): the route is removed from the LPM structure. -/
def InetRouteFlowMgmtTree.DelFromLPMTree (m : FlowMgmtManager) (t : TreeId)
    (key : FlowMgmtKey) : FlowMgmtManager :=
  m.setLpm t (FlowMgmtKeyTree.erase (m.lpm t) key)

/-- Whether the route `c` of the LPM structure covers the lookup key `k`: same
VRF, same family, no longer than `k`, and equal to the subnet of `k`'s address
at `c`'s length. -/
def covers (k c : FlowMgmtKey) : Bool :=
  c.vrf_id_ == k.vrf_id_ && c.ip_.family == k.ip_.family && decide (c.plen_ ≤ k.plen_) &&
    GetIpSubnetAddress k.ip_ c.plen_ == c.ip_

/-- The longer of a candidate and the best route so far. -/
def longer (best : Option FlowMgmtKey) (c : FlowMgmtKey) : Option FlowMgmtKey :=
  match best with
  | none => some c
  | some b => if b.plen_ < c.plen_ then some c else some b

/-- Modelled from the spec: `InetRouteFlowMgmtTree::LPM` (declared in
flow_mgmt.h): the longest route of the LPM structure that covers the key. -/
def InetRouteFlowMgmtTree.LPM (m : FlowMgmtManager) (t : TreeId) (key : FlowMgmtKey) :
    Option FlowMgmtKey :=
  List.foldl longer none (List.filter (covers key) (m.lpm t))

/-- The function `InetRouteFlowMgmtTree::OperEntryAdd`. The second component of
the result is the caller's key after the call. -/
def InetRouteFlowMgmtTree.OperEntryAdd (h : Hdr) (m : FlowMgmtManager) (t : TreeId)
    (req : FlowMgmtRequest) (key : FlowMgmtKey) :
    Option (Bool × FlowMgmtKey × FlowMgmtManager) :=
  match RouteFlowMgmtTree.OperEntryAdd h m t req key with
  | none => none
  | some (ret, m1) =>
    let m2 := InetRouteFlowMgmtTree.AddToLPMTree m1 t key
    if key.plen_ > 0 then
      let lpm_key := InetRouteFlowMgmtKey key.vrf_id_ key.ip_ (key.plen_ - 1)
      let after_cover : Option FlowMgmtManager :=
        match InetRouteFlowMgmtTree.LPM m2 t lpm_key with
        | none => some m2
        | some covering_route =>
          match RouteFlowMgmtTree.OperEntryAdd h m2 t (FlowMgmtRequest.ofDB .ADD_DBENTRY none 0)
              covering_route with
          | none => none
          | some (_, m3) => some m3
      match after_cover with
      | none => none
      | some m3 => some (ret, { key with plen_ := (key.plen_ + 1) % 256 }, m3)
    else some (ret, key, m2)

/-- The function `InetRouteFlowMgmtTree::OperEntryDelete`. -/
def InetRouteFlowMgmtTree.OperEntryDelete (m : FlowMgmtManager) (t : TreeId)
    (req : FlowMgmtRequest) (key : FlowMgmtKey) : Option (Bool × FlowMgmtManager) :=
  RouteFlowMgmtTree.OperEntryDelete (InetRouteFlowMgmtTree.DelFromLPMTree m t key) t req key

/-- The function `VrfFlowMgmtTree::OperEntryAdd`: the base function, then the
VRF is recorded in the side map under its id unless the id is already there. -/
def VrfFlowMgmtTree.OperEntryAdd (h : Hdr) (m : FlowMgmtManager) (req : FlowMgmtRequest)
    (key : FlowMgmtKey) : Option (Bool × FlowMgmtManager) :=
  match FlowMgmtTree.OperEntryAdd h m .vrf req key with
  | none => none
  | some (ret, m1) =>
    match key.db_entry_ with
    | none => none
    | some vrf =>
      match List.find? (fun p => p.1 == vrf.vrf_id) m1.id_map_ with
      | some _ => some (ret, m1)
      | none =>
        let ids := insertBy (fun p q => decide (p.1 < q.1)) (vrf.vrf_id, vrf) m1.id_map_
        some (ret, { m1 with id_map_ := ids })

/-! ### Virtual dispatch on the index -/

namespace Virtual

/-- The virtual call `tree->Add(key, flow)`; only the VN index overrides it, to
take its mutex. -/
def Add (h : Hdr) (m : FlowMgmtManager) (t : TreeId) (key : FlowMgmtKey) (flow : Nat) :
    Option (Bool × FlowMgmtManager) :=
  FlowMgmtTree.Add h m t key flow

/-- The virtual call `tree->Delete(key, flow)`. -/
def Delete (m : FlowMgmtManager) (t : TreeId) (key : FlowMgmtKey) (flow : Nat) :
    Option (Bool × FlowMgmtManager) :=
  match t with
  | .ip4_route | .ip6_route | .bridge_route => RouteFlowMgmtTree.Delete m t key flow
  | _ => FlowMgmtTree.Delete m t key flow

/-- The virtual call `tree->OperEntryAdd(req, key)`. -/
def OperEntryAdd (h : Hdr) (m : FlowMgmtManager) (t : TreeId) (req : FlowMgmtRequest)
    (key : FlowMgmtKey) : Option (Bool × FlowMgmtManager) :=
  match t with
  | .ip4_route | .ip6_route =>
    match InetRouteFlowMgmtTree.OperEntryAdd h m t req key with
    | none => none
    | some (ret, _, m1) => some (ret, m1)
  | .bridge_route => RouteFlowMgmtTree.OperEntryAdd h m t req key
  | .vrf => VrfFlowMgmtTree.OperEntryAdd h m req key
  | _ => FlowMgmtTree.OperEntryAdd h m t req key

/-- The call `tree->OperEntryChange(req, key)`. -/
def OperEntryChange (m : FlowMgmtManager) (t : TreeId) (req : FlowMgmtRequest)
    (key : FlowMgmtKey) : Option (Bool × FlowMgmtManager) :=
  FlowMgmtTree.OperEntryChange m t req key

/-- The virtual call `tree->OperEntryDelete(req, key)`. -/
def OperEntryDelete (m : FlowMgmtManager) (t : TreeId) (req : FlowMgmtRequest)
    (key : FlowMgmtKey) : Option (Bool × FlowMgmtManager) :=
  match t with
  | .ip4_route | .ip6_route => InetRouteFlowMgmtTree.OperEntryDelete m t req key
  | .bridge_route => RouteFlowMgmtTree.OperEntryDelete m t req key
  | _ => FlowMgmtTree.OperEntryDelete m t req key

end Virtual

/-! ## VN counters -/

/-- The increment of a 32-bit unsigned counter. -/
def inc32 (n : Nat) : Nat := (n + 1) % 2 ^ 32

/-- The decrement of a 32-bit unsigned counter. -/
def dec32 (n : Nat) : Nat := (n + 2 ^ 32 - 1) % 2 ^ 32

/-- The function `VnFlowMgmtEntry::UpdateCounterOnAdd`. -/
def VnFlowMgmtEntry.UpdateCounterOnAdd (e : FlowMgmtEntry) (flow : FlowEntry) (add_flow : Bool)
    (local_flow : Bool) (old_ingress : Bool) : FlowMgmtEntry :=
  if add_flow then
    if flow.LocalFlow then
      { e with ingress_flow_count_ := inc32 e.ingress_flow_count_,
               egress_flow_count_ := inc32 e.egress_flow_count_ }
    else if flow.IngressDir then
      { e with ingress_flow_count_ := inc32 e.ingress_flow_count_ }
    else
      { e with egress_flow_count_ := inc32 e.egress_flow_count_ }
  else if local_flow then e
  else
    let new_ingress := flow.IngressDir
    if new_ingress != old_ingress then
      if new_ingress then
        { e with ingress_flow_count_ := inc32 e.ingress_flow_count_,
                 egress_flow_count_ := dec32 e.egress_flow_count_ }
      else
        { e with ingress_flow_count_ := dec32 e.ingress_flow_count_,
                 egress_flow_count_ := inc32 e.egress_flow_count_ }
    else e

/-- The function `VnFlowMgmtEntry::UpdateCounterOnDel`. -/
def VnFlowMgmtEntry.UpdateCounterOnDel (e : FlowMgmtEntry) (_flow : FlowEntry)
    (local_flow : Bool) (old_ingress : Bool) : FlowMgmtEntry :=
  if local_flow then
    { e with ingress_flow_count_ := dec32 e.ingress_flow_count_,
             egress_flow_count_ := dec32 e.egress_flow_count_ }
  else if old_ingress then
    { e with ingress_flow_count_ := dec32 e.ingress_flow_count_ }
  else
    { e with egress_flow_count_ := dec32 e.egress_flow_count_ }

/-- The function `VnFlowMgmtTree::VnFlowCounters`: the pair
(ingress_flow_count, egress_flow_count) written through the two pointers. -/
def VnFlowMgmtTree.VnFlowCounters (m : FlowMgmtManager) (vn : Option DBEntry) : Nat × Nat :=
  match FlowMgmtTree.Find m .vn (VnFlowMgmtKey vn) with
  | some (_, entry) => (entry.ingress_flow_count_, entry.egress_flow_count_)
  | none => (0, 0)

/-- The function `FlowMgmtManager::VnFlowCounters`. -/
def FlowMgmtManager.VnFlowCounters (m : FlowMgmtManager) (vn : Option DBEntry) : Nat × Nat :=
  VnFlowMgmtTree.VnFlowCounters m vn

/-! ## Key extraction -/

/-- The static function `FlowMgmtTree::AddFlowMgmtKey(tree, key)`: insert the
key into the key set (the key is freed when already there). -/
def FlowMgmtTree.AddFlowMgmtKey (tree : FlowMgmtKeyTree) (key : FlowMgmtKey) :
    FlowMgmtKeyTree :=
  (FlowMgmtKeyTree.insert tree key).1

/-- The function `AclFlowMgmtTree::ExtractKeys` for one match-ACL list. -/
def AclFlowMgmtTree.ExtractKeysOfList (tree : FlowMgmtKeyTree) (acl_list : List MatchAclParams) :
    FlowMgmtKeyTree :=
  List.foldl (fun tr it =>
    FlowMgmtTree.AddFlowMgmtKey tr (AclFlowMgmtKey (it.acl.map DBEntry.AclDBEntry))) tree acl_list

/-- The function `AclFlowMgmtTree::ExtractKeys` over the nine lists of a flow. -/
def AclFlowMgmtTree.ExtractKeys (flow : FlowEntry) (tree : FlowMgmtKeyTree) : FlowMgmtKeyTree :=
  List.foldl AclFlowMgmtTree.ExtractKeysOfList tree
    [flow.m_acl_l, flow.m_sg_acl_l, flow.m_out_acl_l, flow.m_out_sg_acl_l,
     flow.m_reverse_sg_acl_l, flow.m_reverse_out_sg_acl_l, flow.m_mirror_acl_l,
     flow.m_out_mirror_acl_l, flow.m_vrf_assign_acl_l]

/-- The function `AceIdFlowMgmtTree::ExtractKeys` for one match-ACL list. -/
def AceIdFlowMgmtTree.ExtractKeysOfList (tree : FlowMgmtKeyTree)
    (acl_list : List MatchAclParams) : FlowMgmtKeyTree :=
  List.foldl (fun tr it =>
    List.foldl (fun tr2 id => FlowMgmtTree.AddFlowMgmtKey tr2 (AceIdFlowMgmtKey id)) tr
      it.ace_id_list) tree acl_list

/-- The function `AceIdFlowMgmtTree::ExtractKeys` over the nine lists of a flow. -/
def AceIdFlowMgmtTree.ExtractKeys (flow : FlowEntry) (tree : FlowMgmtKeyTree) :
    FlowMgmtKeyTree :=
  List.foldl AceIdFlowMgmtTree.ExtractKeysOfList tree
    [flow.m_acl_l, flow.m_sg_acl_l, flow.m_out_acl_l, flow.m_out_sg_acl_l,
     flow.m_reverse_sg_acl_l, flow.m_reverse_out_sg_acl_l, flow.m_mirror_acl_l,
     flow.m_out_mirror_acl_l, flow.m_vrf_assign_acl_l]

/-- The function `VnFlowMgmtTree::ExtractKeys`. -/
def VnFlowMgmtTree.ExtractKeys (flow : FlowEntry) (tree : FlowMgmtKeyTree) : FlowMgmtKeyTree :=
  match flow.vn_entry with
  | none => tree
  | some vn => FlowMgmtTree.AddFlowMgmtKey tree (VnFlowMgmtKey (some (.VnEntry vn)))

/-- The function `InterfaceFlowMgmtTree::ExtractKeys`. -/
def InterfaceFlowMgmtTree.ExtractKeys (flow : FlowEntry) (tree : FlowMgmtKeyTree) :
    FlowMgmtKeyTree :=
  match flow.intf_entry with
  | none => tree
  | some intf => FlowMgmtTree.AddFlowMgmtKey tree (InterfaceFlowMgmtKey (some (.Interface intf)))

/-- The function `NhFlowMgmtTree::ExtractKeys`. -/
def NhFlowMgmtTree.ExtractKeys (flow : FlowEntry) (tree : FlowMgmtKeyTree) : FlowMgmtKeyTree :=
  match flow.nh with
  | none => tree
  | some nh => FlowMgmtTree.AddFlowMgmtKey tree (NhFlowMgmtKey (some (.NextHop nh)))

/-- The function `InetRouteFlowMgmtTree::ExtractKeys(flow, tree, vrf, ip, plen)`:
the key of the subnet of `ip` at `plen`. -/
def InetRouteFlowMgmtTree.ExtractKeysOfAddr (tree : FlowMgmtKeyTree) (vrf : Nat) (ip : IpAddress)
    (plen : Nat) : FlowMgmtKeyTree :=
  FlowMgmtTree.AddFlowMgmtKey tree (InetRouteFlowMgmtKey vrf (GetIpSubnetAddress ip plen) plen)

/-- The function `InetRouteFlowMgmtTree::ExtractKeys(flow, tree, ip, rt_list)`. -/
def InetRouteFlowMgmtTree.ExtractKeysOfMap (tree : FlowMgmtKeyTree) (ip : IpAddress)
    (rt_list : List (Nat × Nat)) : FlowMgmtKeyTree :=
  List.foldl (fun tr it => InetRouteFlowMgmtTree.ExtractKeysOfAddr tr it.1 ip it.2) tree rt_list

/-- The function `InetRouteFlowMgmtTree::ExtractKeys(flow, tree)`. -/
def InetRouteFlowMgmtTree.ExtractKeys (flow : FlowEntry) (tree : FlowMgmtKeyTree) :
    FlowMgmtKeyTree :=
  if flow.l3_flow = false then
    if flow.flow_source_vrf ≠ kInvalidIndex then
      InetRouteFlowMgmtTree.ExtractKeysOfAddr tree flow.flow_source_vrf flow.src_addr
        flow.l2_rpf_plen
    else tree
  else
    let t1 :=
      if flow.flow_source_vrf ≠ kInvalidIndex then
        InetRouteFlowMgmtTree.ExtractKeysOfAddr tree flow.flow_source_vrf flow.src_addr
          flow.source_plen
      else tree
    let t2 := InetRouteFlowMgmtTree.ExtractKeysOfMap t1 flow.src_addr flow.flow_source_plen_map
    let t3 :=
      if flow.flow_dest_vrf ≠ kInvalidIndex then
        InetRouteFlowMgmtTree.ExtractKeysOfAddr t2 flow.flow_dest_vrf flow.dst_addr flow.dest_plen
      else t2
    InetRouteFlowMgmtTree.ExtractKeysOfMap t3 flow.dst_addr flow.flow_dest_plen_map

/-- The function `BridgeRouteFlowMgmtTree::ExtractKeys`. -/
def BridgeRouteFlowMgmtTree.ExtractKeys (flow : FlowEntry) (tree : FlowMgmtKeyTree) :
    FlowMgmtKeyTree :=
  if flow.l3_flow = true then tree
  else
    let t1 :=
      if flow.flow_source_vrf ≠ kInvalidIndex then
        FlowMgmtTree.AddFlowMgmtKey tree (BridgeRouteFlowMgmtKey flow.flow_source_vrf flow.smac)
      else tree
    if flow.flow_dest_vrf ≠ kInvalidIndex then
      FlowMgmtTree.AddFlowMgmtKey t1 (BridgeRouteFlowMgmtKey flow.flow_dest_vrf flow.smac)
    else t1

/-- The function `VrfFlowMgmtTree::ExtractKeys`. -/
def VrfFlowMgmtTree.ExtractKeys (_flow : FlowEntry) (tree : FlowMgmtKeyTree) : FlowMgmtKeyTree :=
  tree

/-- The function `FlowMgmtManager::MakeFlowMgmtKeyTree`: the key set of a flow,
built into an empty set. -/
def MakeFlowMgmtKeyTree (flow : FlowEntry) : FlowMgmtKeyTree :=
  let t1 := AclFlowMgmtTree.ExtractKeys flow []
  let t2 := InterfaceFlowMgmtTree.ExtractKeys flow t1
  let t3 := VnFlowMgmtTree.ExtractKeys flow t2
  let t4 := InetRouteFlowMgmtTree.ExtractKeys flow t3
  let t5 := InetRouteFlowMgmtTree.ExtractKeys flow t4
  let t6 := BridgeRouteFlowMgmtTree.ExtractKeys flow t5
  NhFlowMgmtTree.ExtractKeys flow t6

/-! ## The flow registry and the flow requests -/

namespace FlowMgmtManager

/-- The function `FindFlowEntryInfo`. -/
def FindFlowEntryInfo (m : FlowMgmtManager) (flow : Nat) : Option FlowEntryInfo :=
  (List.find? (fun p => p.1 == flow) m.flow_tree_).map Prod.snd

/-- A write through the `FlowEntryInfo` pointer of a flow. -/
def setInfo (m : FlowMgmtManager) (flow : Nat) (info : FlowEntryInfo) : FlowMgmtManager :=
  { m with flow_tree_ := List.map (fun p => if p.1 == flow then (p.1, info) else p) m.flow_tree_ }

/-- The function `LocateFlowEntryInfo`: the record of the flow, a default
constructed one being inserted when the flow is unknown. -/
def LocateFlowEntryInfo (m : FlowMgmtManager) (flow : Nat) : FlowEntryInfo × FlowMgmtManager :=
  match m.FindFlowEntryInfo flow with
  | some info => (info, m)
  | none =>
    let info : FlowEntryInfo := { tree_ := [], count_ := 0, local_flow_ := false, ingress_ := false }
    (info, { m with flow_tree_ := insertBy (fun p q => decide (p.1 < q.1)) (flow, info) m.flow_tree_ })

/-- The function `DeleteFlowEntryInfo`; `none` is the failed assertion that the
key set of the record is empty. -/
def DeleteFlowEntryInfo (m : FlowMgmtManager) (flow : Nat) : Option FlowMgmtManager :=
  match m.FindFlowEntryInfo flow with
  | none => some m
  | some info =>
    if info.tree_.length ≠ 0 then none
    else some { m with flow_tree_ := List.filter (fun p => p.1 != flow) m.flow_tree_ }

/-- The index a key of a flow is added to or deleted from, by the tag of the
key (the `switch` of `AddFlowMgmtKey` and `DeleteFlowMgmtKey`); `none` is the
`default: assert(0)` branch. -/
def treeOfKeyType : KeyType → Option TreeId
  | .INTERFACE => some .interface
  | .ACL => some .acl
  | .VN => some .vn
  | .INET4 => some .ip4_route
  | .INET6 => some .ip6_route
  | .BRIDGE => some .bridge_route
  | .NH => some .nh
  | _ => none

/-- The function `FlowMgmtManager::AddFlowMgmtKey`, `info` being the record of
the flow in the registry. -/
def AddFlowMgmtKey (h : Hdr) (m : FlowMgmtManager) (flow : FlowEntry) (key : FlowMgmtKey) :
    Option FlowMgmtManager :=
  match m.FindFlowEntryInfo flow.id with
  | none => none
  | some info =>
    let info1 := { info with tree_ := (FlowMgmtKeyTree.insert info.tree_ key).1 }
    let m1 := m.setInfo flow.id info1
    match key.type_ with
    | .VN =>
      match Virtual.Add h m1 .vn key flow.id with
      | none => none
      | some (new_flow, m2) =>
        match FlowMgmtTree.Find m2 .vn key with
        | none => none
        | some (_, entry) =>
          let entry1 := VnFlowMgmtEntry.UpdateCounterOnAdd entry flow new_flow info.local_flow_
            info.ingress_
          let m3 := m2.setTree .vn ((m2.tree .vn).setEntry key entry1)
          some (m3.setInfo flow.id
            { info1 with local_flow_ := flow.LocalFlow, ingress_ := flow.IngressDir })
    | ty =>
      match treeOfKeyType ty with
      | none => none
      | some t =>
        match Virtual.Add h m1 t key flow.id with
        | none => none
        | some (_, m2) => some m2

/-- The function `FlowMgmtManager::DeleteFlowMgmtKey`. -/
def DeleteFlowMgmtKey (m : FlowMgmtManager) (flow : FlowEntry) (key : FlowMgmtKey) :
    Option FlowMgmtManager :=
  match m.FindFlowEntryInfo flow.id with
  | none => none
  | some info =>
    match FlowMgmtKeyTree.find info.tree_ key with
    | none => none
    | some _ =>
      match key.type_ with
      | .VN =>
        match Virtual.Delete m .vn key flow.id with
        | none => none
        | some (_, m1) =>
          let m2 :=
            match FlowMgmtTree.Find m1 .vn key with
            | some (_, entry) =>
              m1.setTree .vn ((m1.tree .vn).setEntry key
                (VnFlowMgmtEntry.UpdateCounterOnDel entry flow info.local_flow_ info.ingress_))
            | none => m1
          some (m2.setInfo flow.id
            { info with local_flow_ := flow.LocalFlow, ingress_ := flow.IngressDir })
      | ty =>
        match treeOfKeyType ty with
        | none => none
        | some t =>
          match Virtual.Delete m t key flow.id with
          | none => none
          | some (_, m1) => some m1

/-- The statements `old_tree->erase(tmp); delete key;` that follow a
`DeleteFlowMgmtKey` in `AddFlow` and `DeleteFlow`. -/
def eraseInfoKey (m : FlowMgmtManager) (flow : Nat) (key : FlowMgmtKey) : FlowMgmtManager :=
  match m.FindFlowEntryInfo flow with
  | none => m
  | some info => m.setInfo flow { info with tree_ := FlowMgmtKeyTree.erase info.tree_ key }

/-- The loop `while (old_it != old_tree->end())` that `AddFlow` ends with and
that `DeleteFlow` consists of: every key the old iterator still has to visit is
deleted from its index and erased from the key set of the flow. -/
def DeleteFlowLoop (flow : FlowEntry) (old_keys : List FlowMgmtKey) (m : FlowMgmtManager) :
    Option FlowMgmtManager :=
  match old_keys with
  | [] => some m
  | old_key :: old_rest =>
    match m.DeleteFlowMgmtKey flow old_key with
    | none => none
    | some m1 => DeleteFlowLoop flow old_rest (m1.eraseInfoKey flow.id old_key)

/-- The iterations of the lockstep walk of `AddFlow` while the new iterator
stands on `new_key`; `old_keys` is what the old iterator still has to visit and
`next` is the walk once the new iterator has advanced. The three branches are
those of the first loop; with the old set exhausted the key is added as in the
second loop. -/
def AddFlowWalkAt (h : Hdr) (flow : FlowEntry) (new_key : FlowMgmtKey)
    (next : List FlowMgmtKey → FlowMgmtManager → Option FlowMgmtManager)
    (old_keys : List FlowMgmtKey) (m : FlowMgmtManager) : Option FlowMgmtManager :=
  match old_keys with
  | [] =>
    match m.AddFlowMgmtKey h flow new_key with
    | none => none
    | some m1 => next [] m1
  | old_key :: old_rest =>
    if new_key.IsLess old_key then
      match m.AddFlowMgmtKey h flow new_key with
      | none => none
      | some m1 => next (old_key :: old_rest) m1
    else if old_key.IsLess new_key then
      match m.DeleteFlowMgmtKey flow old_key with
      | none => none
      | some m1 => AddFlowWalkAt h flow new_key next old_rest (m1.eraseInfoKey flow.id old_key)
    else
      match m.AddFlowMgmtKey h flow new_key with
      | none => none
      | some m1 => next old_rest m1

/-- The three loops of `FlowMgmtManager::AddFlow` that apply the difference of
the new key set and the old one: `new_keys` and `old_keys` are what the two
iterators still have to visit (a key inserted into the old set during the walk
lands below the old iterator and is not visited). With the new set exhausted
the rest of the old set is deleted, as in the third loop. -/
def AddFlowWalk (h : Hdr) (flow : FlowEntry) (new_keys old_keys : List FlowMgmtKey)
    (m : FlowMgmtManager) : Option FlowMgmtManager :=
  match new_keys with
  | [] => DeleteFlowLoop flow old_keys m
  | new_key :: new_rest => AddFlowWalkAt h flow new_key (AddFlowWalk h flow new_rest) old_keys m

/-- The function `FlowMgmtManager::AddFlow`. -/
def AddFlow (h : Hdr) (m : FlowMgmtManager) (flow : FlowEntry) : Option FlowMgmtManager :=
  let new_tree := MakeFlowMgmtKeyTree flow
  let located := m.LocateFlowEntryInfo flow.id
  let old_info := located.1
  let m1 := located.2.setInfo flow.id { old_info with count_ := old_info.count_ + 1 }
  AddFlowWalk h flow new_tree old_info.tree_ m1

/-- The function `FlowMgmtManager::DeleteFlow`. -/
def DeleteFlow (m : FlowMgmtManager) (flow : FlowEntry) : Option FlowMgmtManager :=
  match m.FindFlowEntryInfo flow.id with
  | none => some m
  | some old_info =>
    let m1 := m.setInfo flow.id { old_info with count_ := old_info.count_ + 1 }
    match DeleteFlowLoop flow old_info.tree_ m1 with
    | none => none
    | some m2 =>
      match m2.FindFlowEntryInfo flow.id with
      | none => none
      | some info2 => if info2.tree_.length ≠ 0 then none else m2.DeleteFlowEntryInfo flow.id

end FlowMgmtManager

/-! ## The managed-delete signal of a route table -/

/-- The three route-table slots of a `VrfFlowMgmtEntry`. -/
inductive RouteTableSlot where
  | inet4 | inet6 | bridge
  deriving DecidableEq, Repr

/-- The function `VrfFlowMgmtEntry::Data::ManagedDelete` of one slot of the VRF
entry stored under `key`: the slot is flagged and, when the entry can be
deleted, a retry request is posted. Without an entry there is no slot and
nothing happens. -/
def VrfFlowMgmtEntry.ManagedDelete (m : FlowMgmtManager) (key : FlowMgmtKey)
    (slot : RouteTableSlot) : Option FlowMgmtManager :=
  match FlowMgmtTree.Find m .vrf key with
  | none => some m
  | some (_, entry) =>
    let entry1 : FlowMgmtEntry :=
      match slot with
      | .inet4 => { entry with inet4_deleted_ := true }
      | .inet6 => { entry with inet6_deleted_ := true }
      | .bridge => { entry with bridge_deleted_ := true }
    let m1 := m.setTree .vrf ((m.tree .vrf).setEntry key entry1)
    match VrfFlowMgmtEntry.CanDelete m1 entry1 with
    | none => none
    | some true => some (m1.RetryVrfDeleteEvent entry1.vrf_)
    | some false => some m1

/-! ## Request handlers -/

/-- The static function `ProcessEvent`. -/
def ProcessEvent (h : Hdr) (m : FlowMgmtManager) (req : FlowMgmtRequest) (key : FlowMgmtKey)
    (t : TreeId) : Option (Bool × FlowMgmtManager) :=
  match req.event with
  | .ADD_DBENTRY =>
    match Virtual.OperEntryAdd h m t req key with
    | none => none
    | some (_, m1) => some (true, m1)
  | .CHANGE_DBENTRY =>
    match Virtual.OperEntryChange m t req key with
    | none => none
    | some (_, m1) => some (true, m1)
  | .DELETE_DBENTRY =>
    match Virtual.OperEntryDelete m t req key with
    | none => none
    | some (_, m1) => some (true, m1)
  | _ => none

namespace FlowMgmtManager

/-- The function `FlowMgmtManager::DBEntryRequestHandler`: the chain of
`dynamic_cast`s selects the key and the index by the kind of the DB entry. -/
def DBEntryRequestHandler (h : Hdr) (m : FlowMgmtManager) (req : FlowMgmtRequest)
    (entry : Option DBEntry) : Option (Bool × FlowMgmtManager) :=
  match entry with
  | some (.Interface p) => ProcessEvent h m req (InterfaceFlowMgmtKey (some (.Interface p))) .interface
  | some (.VnEntry p) => ProcessEvent h m req (VnFlowMgmtKey (some (.VnEntry p))) .vn
  | some (.AclDBEntry p) => ProcessEvent h m req (AclFlowMgmtKey (some (.AclDBEntry p))) .acl
  | some (.NextHop _) => ProcessEvent h m req (NhFlowMgmtKey req.db_entry) .nh
  | some (.InetUnicastRouteEntry p v addr plen) =>
    let key := InetRouteFlowMgmtKey.ofRoute (.InetUnicastRouteEntry p v addr plen) v addr plen
    if addr.is_v4 then ProcessEvent h m req key .ip4_route
    else ProcessEvent h m req key .ip6_route
  | some (.BridgeRouteEntry p v mac) =>
    ProcessEvent h m req (BridgeRouteFlowMgmtKey.ofRoute (.BridgeRouteEntry p v mac) v mac)
      .bridge_route
  | some (.VrfEntry p v) => ProcessEvent h m req (VrfFlowMgmtKey (some (.VrfEntry p v))) .vrf
  | _ => none

/-- The function `FlowMgmtManager::RequestHandler`; `none` is an abort. -/
def RequestHandler (h : Hdr) (m : FlowMgmtManager) (req : FlowMgmtRequest) :
    Option FlowMgmtManager :=
  match req.event with
  | .ADD_FLOW =>
    match req.flow with
    | none => none
    | some flow => m.AddFlow h flow
  | .DELETE_FLOW =>
    match req.flow with
    | none => none
    | some flow =>
      match m.DeleteFlow flow with
      | none => none
      | some m1 =>
        some (m1.ResponseEnqueue
          { event := .FREE_FLOW_REF, flow := some flow.id, db_entry := none, gen_id := 0 })
  | .ADD_DBENTRY | .CHANGE_DBENTRY | .DELETE_DBENTRY =>
    match m.DBEntryRequestHandler h req req.db_entry with
    | none => none
    | some (_, m1) => some m1
  | .RETRY_DELETE_VRF => m.RetryVrfDelete req.vrf_id
  | .INVALID => none

/-- The requests of a list processed in order by `RequestHandler`, as the
single consumer of the request queue does. -/
def RunRequests (h : Hdr) (m : FlowMgmtManager) : List FlowMgmtRequest → Option FlowMgmtManager
  | [] => some m
  | req :: rest =>
    match m.RequestHandler h req with
    | none => none
    | some m1 => RunRequests h m1 rest

end FlowMgmtManager

open FlowMgmtManager

/-! ## Vocabulary of the statements -/

/-- The index that holds the entries of a key's kind (no index for `VM`). -/
def indexOfKeyType : KeyType → Option TreeId
  | .INTERFACE => some .interface
  | .ACL => some .acl
  | .ACE_ID => some .ace_id
  | .VN => some .vn
  | .INET4 => some .ip4_route
  | .INET6 => some .ip6_route
  | .BRIDGE => some .bridge_route
  | .NH => some .nh
  | .VRF => some .vrf
  | .VM => none

/-- The flow set of the answer of a lookup, empty when there is no entry. -/
def answerFlows (a : Option (FlowMgmtKey × FlowMgmtEntry)) : List Nat :=
  match a with
  | some p => p.2.tree_
  | none => []

/-- The flow set of the entry the index `t` holds for the key `k`, empty when
there is no entry. -/
def flowsAt (m : FlowMgmtManager) (t : TreeId) (k : FlowMgmtKey) : List Nat :=
  answerFlows ((m.tree t).find k)

/-- Whether the index for `k`'s kind has an entry for `k` whose flow set
contains the flow `f`. -/
def indexHasFlow (m : FlowMgmtManager) (k : FlowMgmtKey) (f : Nat) : Bool :=
  match indexOfKeyType k.type_ with
  | some t => decide (f ∈ flowsAt m t k)
  | none => false

/-- Whether the registry has a record for the flow `f` whose key set contains
the key `k`. -/
def infoHasKey (m : FlowMgmtManager) (f : Nat) (k : FlowMgmtKey) : Bool :=
  match m.FindFlowEntryInfo f with
  | some info => (FlowMgmtKeyTree.find info.tree_ k).isSome
  | none => false

/-- The key and the index `DBEntryRequestHandler` selects for a DB entry. -/
def DBEntryKey : DBEntry → Option (FlowMgmtKey × TreeId)
  | .Interface p => some (InterfaceFlowMgmtKey (some (.Interface p)), .interface)
  | .VnEntry p => some (VnFlowMgmtKey (some (.VnEntry p)), .vn)
  | .AclDBEntry p => some (AclFlowMgmtKey (some (.AclDBEntry p)), .acl)
  | .NextHop p => some (NhFlowMgmtKey (some (.NextHop p)), .nh)
  | .InetUnicastRouteEntry p v addr plen =>
    some (InetRouteFlowMgmtKey.ofRoute (.InetUnicastRouteEntry p v addr plen) v addr plen,
      if addr.is_v4 then .ip4_route else .ip6_route)
  | .BridgeRouteEntry p v mac =>
    some (BridgeRouteFlowMgmtKey.ofRoute (.BridgeRouteEntry p v mac) v mac, .bridge_route)
  | .VrfEntry p v => some (VrfFlowMgmtKey (some (.VrfEntry p v)), .vrf)
  | .Other _ => none

/-- The responses a `FreeNotify` for `key` with generation `g` appends. -/
def freeResponses (key : FlowMgmtKey) (g : Nat) : List FlowMgmtResponse :=
  match key.db_entry_ with
  | none => []
  | some e =>
    if key.FreeDBEntryEvent = .INVALID then []
    else [{ event := .FREE_DBENTRY, flow := none, db_entry := some e, gen_id := g }]

/-- The lookups of `m'` are those of `m` except that the index `t` now answers
`new` for the key `key`. -/
def FindStep (m m' : FlowMgmtManager) (t : TreeId) (key : FlowMgmtKey)
    (new : Option (FlowMgmtKey × FlowMgmtEntry)) : Prop :=
  ∀ t' k', (m'.tree t').find k' =
    if t' = t ∧ SameKey key k' = true then new else (m.tree t').find k'

/-- The manager `m'` has the registry, the LPM structures and the request
queue of `m`, its response queue is that of `m` followed by `resp`, and what
its side map holds was there before or is a VRF. -/
structure Frame (m m' : FlowMgmtManager) (resp : List FlowMgmtResponse) : Prop where
  flow_tree : m'.flow_tree_ = m.flow_tree_
  lpm : ∀ t, m'.lpm t = m.lpm t
  request_queue : m'.request_queue_ = m.request_queue_
  response_queue : m'.response_queue_ = m.response_queue_ ++ resp
  id_map : ∀ p, p ∈ m'.id_map_ → p ∈ m.id_map_ ∨ ∃ ptr v, p.2 = DBEntry.VrfEntry ptr v

/-- Every entry an index answers for a key satisfies `P`. -/
def FindAll (P : TreeId → FlowMgmtKey → FlowMgmtEntry → Prop) (m : FlowMgmtManager) : Prop :=
  ∀ t k p, (m.tree t).find k = some p → P t p.1 p.2

/-- Where the entry `Locate` returns for `key` comes from: it is the entry `e`
stored under `k1`, or there is none and `e` is newly allocated under `key`. -/
def Located (h : Hdr) (m : FlowMgmtManager) (t : TreeId) (key k1 : FlowMgmtKey)
    (e : FlowMgmtEntry) : Prop :=
  (m.tree t).find key = some (k1, e) ∨
    ((m.tree t).find key = none ∧ k1 = key ∧ FlowMgmtTree.Allocate h t key = some e)

/-- The responses `OperEntryAdd` / `OperEntryDelete` of an entry enqueue for a
request. -/
def operResponses (req : FlowMgmtRequest) (key : FlowMgmtKey) (flows : List Nat) :
    List FlowMgmtResponse :=
  if req.GetResponseEvent = .INVALID then []
  else
    List.map (fun f =>
      ({ event := req.GetResponseEvent, flow := some f, db_entry := key.db_entry_,
         gen_id := 0 } : FlowMgmtResponse)) flows

/-- The responses a `TryDelete` that erases the entry appends. -/
def tryDeleteResponses (key : FlowMgmtKey) (entry : FlowMgmtEntry) : List FlowMgmtResponse :=
  if entry.oper_state_ = .OPER_DEL_SEEN then freeResponses key entry.gen_id_ else []

/-- The entry after `FlowMgmtEntry::OperEntryAdd`. -/
def FlowMgmtEntry.addSeen (e : FlowMgmtEntry) : FlowMgmtEntry :=
  { e with oper_state_ := .OPER_ADD_SEEN }

/-- The entry after `FlowMgmtEntry::OperEntryDelete` with generation `g`. -/
def FlowMgmtEntry.delSeen (e : FlowMgmtEntry) (g : Nat) : FlowMgmtEntry :=
  { e with oper_state_ := .OPER_DEL_SEEN, gen_id_ := g }

/-! ## Invariants of the indexes -/

/-- The DB entry a key carries, when it carries one, is an object of the index
`t` whose own key is the same key. -/
def KeyDBOK (t : TreeId) (k : FlowMgmtKey) : Prop :=
  ∀ d, k.db_entry_ = some d → ∃ K, DBEntryKey d = some (K, t) ∧ SameKey K k = true

/-- Among the requests `reqs` there is a `DELETE_DBENTRY` of an object of the
index `t` whose key is `k`. -/
def DeletedAt (reqs : List FlowMgmtRequest) (t : TreeId) (k : FlowMgmtKey) : Prop :=
  ∃ q, q ∈ reqs ∧ q.event = .DELETE_DBENTRY ∧
    ∃ d K, q.db_entry = some d ∧ DBEntryKey d = some (K, t) ∧ SameKey K k = true

/-- Among the requests `reqs` there is a `DELETE_DBENTRY` of an object with the
key of the DB entry `d`. -/
def DeletedDB (reqs : List FlowMgmtRequest) (d : DBEntry) : Prop :=
  ∃ K t, DBEntryKey d = some (K, t) ∧ DeletedAt reqs t K

/-- What holds of every entry stored in the index `t` under the key `k`, after
the requests `reqs`: the VRF and ACE-id indexes hold no flows; outside the VRF
index an entry has flows or has seen an ADD; an entry that has seen a DELETE
was the target of a `DELETE_DBENTRY`; the stored key carries an object of the
index. -/
structure GoodEntry (reqs : List FlowMgmtRequest) (t : TreeId) (k : FlowMgmtKey)
    (e : FlowMgmtEntry) : Prop where
  no_flows : t = .vrf ∨ t = .ace_id → e.tree_ = []
  zombie : t ≠ .vrf → e.tree_ ≠ [] ∨ e.oper_state_ = .OPER_ADD_SEEN
  del_seen : e.oper_state_ = .OPER_DEL_SEEN → DeletedAt reqs t k
  key_db : KeyDBOK t k

/-- A response that is a `FREE_DBENTRY` carries an object deleted by `reqs`. -/
def FreeOK (reqs : List FlowMgmtRequest) (r : FlowMgmtResponse) : Prop :=
  r.event = .FREE_DBENTRY → ∃ d, r.db_entry = some d ∧ DeletedDB reqs d

/-- The invariant of the indexes, the side map, the LPM structures and the
response queue after the requests `reqs`. -/
structure TreeInv (reqs : List FlowMgmtRequest) (m : FlowMgmtManager) : Prop where
  entries : FindAll (GoodEntry reqs) m
  id_map : ∀ p, p ∈ m.id_map_ → ∃ ptr v, p.2 = DBEntry.VrfEntry ptr v
  lpm : ∀ t k, k ∈ m.lpm t → KeyDBOK t k
  free : ∀ r, r ∈ m.response_queue_ → FreeOK reqs r

/-! ## Invariants of the registry -/

/-- A key as `MakeFlowMgmtKeyTree` produces them: its tag has an index of flows
and the DB entry it carries, if any, is an object of that index. -/
def FlowKeyOK (k : FlowMgmtKey) : Prop :=
  ∃ t, FlowMgmtManager.treeOfKeyType k.type_ = some t ∧ KeyDBOK t k

/-- The invariant of the flow registry: the keys of every record are flow keys
in strictly increasing order, and a key is in the record of a flow exactly when
the flow is in the entry of the key. -/
structure RegInv (m : FlowMgmtManager) : Prop where
  keys_ok : ∀ f info, m.FindFlowEntryInfo f = some info → ∀ k, k ∈ info.tree_ → FlowKeyOK k
  sorted : ∀ f info, m.FindFlowEntryInfo f = some info →
    List.Pairwise (fun a b => FlowMgmtKey.IsLess a b = true) info.tree_
  bicons : ∀ f k t, FlowMgmtManager.treeOfKeyType k.type_ = some t →
    (infoHasKey m f k = true ↔ f ∈ flowsAt m t k)

/-- The manager `m'` has the registry and the flow sets of `m`. -/
structure Quiet (m m' : FlowMgmtManager) : Prop where
  info : ∀ f, m'.FindFlowEntryInfo f = m.FindFlowEntryInfo f
  flows : ∀ t k, flowsAt m' t k = flowsAt m t k

/-! ## The difference of two key sets as a list of operations -/

/-- One step of `AddFlow` or `DeleteFlow` on a key of the flow: `add` is the
call of `AddFlowMgmtKey`; `del` is the call of `DeleteFlowMgmtKey` followed by
the erasure of the key from the record of the flow. -/
inductive KeyOp where
  | add (k : FlowMgmtKey)
  | del (k : FlowMgmtKey)
  deriving DecidableEq, Repr

/-- The key of an operation. -/
def KeyOp.key : KeyOp → FlowMgmtKey
  | .add k => k
  | .del k => k

/-- One operation applied to the manager. -/
def applyOp (h : Hdr) (flow : FlowEntry) (m : FlowMgmtManager) : KeyOp → Option FlowMgmtManager
  | .add k => m.AddFlowMgmtKey h flow k
  | .del k =>
    match m.DeleteFlowMgmtKey flow k with
    | none => none
    | some m1 => some (m1.eraseInfoKey flow.id k)

/-- The operations of a list applied in order. -/
def applyOps (h : Hdr) (flow : FlowEntry) : List KeyOp → FlowMgmtManager → Option FlowMgmtManager
  | [], m => some m
  | op :: ops, m =>
    match applyOp h flow m op with
    | none => none
    | some m1 => applyOps h flow ops m1

/-- What adding the key `key` of the flow `fid` to the index `t` does to the
registry, the flow sets and the queues. -/
structure AddEffect (m m' : FlowMgmtManager) (fid : Nat) (t : TreeId) (key : FlowMgmtKey) :
    Prop where
  info : ∃ info info', m.FindFlowEntryInfo fid = some info ∧
    m'.FindFlowEntryInfo fid = some info' ∧
    info'.tree_ = (FlowMgmtKeyTree.insert info.tree_ key).1
  info_other : ∀ f, f ≠ fid → m'.FindFlowEntryInfo f = m.FindFlowEntryInfo f
  flows : ∀ t' k' f', f' ∈ flowsAt m' t' k' ↔
    f' ∈ flowsAt m t' k' ∨ (t' = t ∧ SameKey key k' = true ∧ f' = fid)
  response_queue : m'.response_queue_ = m.response_queue_

/-- The responses `resp` are free notifications of objects that, in `m`, no
flow depends on, each for the key `key` of the index `t` or for a VRF. -/
def FreedNow (m : FlowMgmtManager) (t : TreeId) (key : FlowMgmtKey)
    (resp : List FlowMgmtResponse) : Prop :=
  ∀ r, r ∈ resp → r.event = .FREE_DBENTRY ∧
    ∃ d K t0, r.db_entry = some d ∧ DBEntryKey d = some (K, t0) ∧ flowsAt m t0 K = [] ∧
      (t0 = .vrf ∨ (t0 = t ∧ SameKey key K = true))

/-- What deleting the key `key` of the flow `fid` from the index `t` does to the
registry, the flow sets and the queues. -/
structure DelEffect (m m' : FlowMgmtManager) (fid : Nat) (t : TreeId) (key : FlowMgmtKey) :
    Prop where
  info : ∃ info info', m.FindFlowEntryInfo fid = some info ∧
    m'.FindFlowEntryInfo fid = some info' ∧
    info'.tree_ = FlowMgmtKeyTree.erase info.tree_ key
  info_other : ∀ f, f ≠ fid → m'.FindFlowEntryInfo f = m.FindFlowEntryInfo f
  flows : ∀ t' k' f', f' ∈ flowsAt m' t' k' ↔
    f' ∈ flowsAt m t' k' ∧ ¬ (t' = t ∧ SameKey key k' = true ∧ f' = fid)
  response_queue : ∃ resp, m'.response_queue_ = m.response_queue_ ++ resp ∧
    FreedNow m' t key resp

/-! ## The walk of `AddFlow` as a list of operations -/

/-- Strictly increasing in the order of keys, as the elements of a
`FlowMgmtKeyTree` are. -/
def KeysSorted (s : List FlowMgmtKey) : Prop :=
  List.Pairwise (fun a b => FlowMgmtKey.IsLess a b = true) s

/-- The key set `s` has an element that compares equal to `k`. -/
def hasKey (s : List FlowMgmtKey) (k : FlowMgmtKey) : Prop :=
  ∃ x, x ∈ s ∧ SameKey x k = true

/-- A sorted set of flow keys. -/
def GoodKeys (s : List FlowMgmtKey) : Prop := KeysSorted s ∧ ∀ k, k ∈ s → FlowKeyOK k

/-- The operations of `AddFlowWalkAt`, in order: the same three branches,
with `next` the operations once the new iterator has advanced. -/
def deltaOpsAt (new_key : FlowMgmtKey) (next : List FlowMgmtKey → List KeyOp) :
    List FlowMgmtKey → List KeyOp
  | [] => KeyOp.add new_key :: next []
  | old_key :: old_rest =>
    if new_key.IsLess old_key then KeyOp.add new_key :: next (old_key :: old_rest)
    else if old_key.IsLess new_key then KeyOp.del old_key :: deltaOpsAt new_key next old_rest
    else KeyOp.add new_key :: next old_rest

/-- The operations of `AddFlowWalk`, in order. -/
def deltaOps : List FlowMgmtKey → List FlowMgmtKey → List KeyOp
  | [], old_keys => List.map KeyOp.del old_keys
  | new_key :: new_rest, old_keys => deltaOpsAt new_key (deltaOps new_rest) old_keys

/-- The responses `resp` are free notifications of objects that, in `m`, no
flow depends on, each for a VRF or for the key of a delete of `ops`. -/
def FreedBy (m : FlowMgmtManager) (ops : List KeyOp) (resp : List FlowMgmtResponse) : Prop :=
  ∀ r, r ∈ resp → r.event = .FREE_DBENTRY ∧
    ∃ d K t0, r.db_entry = some d ∧ DBEntryKey d = some (K, t0) ∧ flowsAt m t0 K = [] ∧
      (t0 = .vrf ∨ ∃ b, KeyOp.del b ∈ ops ∧
        FlowMgmtManager.treeOfKeyType b.type_ = some t0 ∧ SameKey b K = true)

/-- A response that is a free notification carries an object whose key has, in
`m`, no flow in its index. -/
def FreedResp (m : FlowMgmtManager) (r : FlowMgmtResponse) : Prop :=
  r.event = .FREE_DBENTRY →
    ∃ d K t0, r.db_entry = some d ∧ DBEntryKey d = some (K, t0) ∧ flowsAt m t0 K = []

/-- Every free notification among `resp` carries an object whose key has, in
`m`, no flow in its index. -/
def Freed (m : FlowMgmtManager) (resp : List FlowMgmtResponse) : Prop :=
  ∀ r, r ∈ resp → FreedResp m r

/-- The response queue of `m'` is that of `m` followed by responses that
satisfy `P`. -/
def Emits (m m' : FlowMgmtManager) (P : FlowMgmtResponse → Prop) : Prop :=
  ∃ resp, m'.response_queue_ = m.response_queue_ ++ resp ∧ ∀ r, r ∈ resp → P r

/-- The key set of the record of a flow, empty when there is no record. -/
def keysOf (m : FlowMgmtManager) (f : Nat) : List FlowMgmtKey :=
  match m.FindFlowEntryInfo f with
  | some info => info.tree_
  | none => []

/-- The manager on which the walk of `AddFlow` starts: the record of the flow
is located and its `count_` incremented. -/
def AddFlowStart (m : FlowMgmtManager) (flow : Nat) : FlowMgmtManager :=
  (m.LocateFlowEntryInfo flow).2.setInfo flow
    { (m.LocateFlowEntryInfo flow).1 with count_ := (m.LocateFlowEntryInfo flow).1.count_ + 1 }

/-! ## Scenarios and the vocabulary of the remaining statements -/

/-- A header whose entry constructor leaves `oper_state_` at a value the source
file does not name. -/
def hdrOther : Hdr := ⟨.OPER_OTHER⟩

/-- A layer-3 flow without routes: its VN, its interface, the ACLs of its
`m_acl_l` list and its two flags. -/
def mkFlow (id : Nat) (vn intf : Option Nat) (acls : List Nat) (loc ing : Bool) : FlowEntry :=
  { id := id, m_acl_l := acls.map (fun a => ⟨some a, []⟩), m_sg_acl_l := [], m_out_acl_l := [],
    m_out_sg_acl_l := [], m_reverse_sg_acl_l := [], m_reverse_out_sg_acl_l := [],
    m_mirror_acl_l := [], m_out_mirror_acl_l := [], m_vrf_assign_acl_l := [],
    intf_entry := intf, vn_entry := vn, nh := none, l3_flow := true,
    flow_source_vrf := kInvalidIndex, flow_dest_vrf := kInvalidIndex, src_addr := .v4 0,
    dst_addr := .v4 0, source_plen := 0, dest_plen := 0, l2_rpf_plen := 0,
    flow_source_plen_map := [], flow_dest_plen_map := [], smac := 0, LocalFlow := loc,
    IngressDir := ing }

/-- A layer-3 flow whose only dependency is the source route of `ip` at `plen`
in the VRF `vrf`. -/
def mkRouteFlow (id vrf : Nat) (ip : IpAddress) (plen : Nat) : FlowEntry :=
  { mkFlow id none none [] false true with
    flow_source_vrf := vrf, src_addr := ip, source_plen := plen }

/-- The request `ADD_FLOW` of a flow. -/
def addFlowReq (f : FlowEntry) : FlowMgmtRequest := FlowMgmtRequest.ofFlow .ADD_FLOW f

/-- The request `DELETE_FLOW` of a flow. -/
def delFlowReq (f : FlowEntry) : FlowMgmtRequest := FlowMgmtRequest.ofFlow .DELETE_FLOW f

/-- The base `Delete` of the index `t` called for `key` with every flow of a
list, in order. -/
def deleteFlows (m : FlowMgmtManager) (t : TreeId) (key : FlowMgmtKey) :
    List Nat → Option FlowMgmtManager
  | [] => some m
  | f :: fs =>
    match FlowMgmtTree.Delete m t key f with
    | none => none
    | some (_, m1) => deleteFlows m1 t key fs

/-- The base `OperEntryDelete` of the index `t` for `key`, then the base
`Delete` for every flow of a list. -/
def deleteThenFlows (m : FlowMgmtManager) (t : TreeId) (req : FlowMgmtRequest)
    (key : FlowMgmtKey) (fs : List Nat) : Option FlowMgmtManager :=
  match FlowMgmtTree.OperEntryDelete m t req key with
  | none => none
  | some (_, m1) => deleteFlows m1 t key fs

/-- The free notifications among a list of responses. -/
def freeNotifications (resp : List FlowMgmtResponse) : List FlowMgmtResponse :=
  List.filter (fun r => decide (r.event = .FREE_DBENTRY)) resp

/-- The VN counters recomputed from the registry: among the flows whose key set
has the key of the VN, the number of those that are ingress or local and the
number of those that are not ingress or are local. -/
def vnRecount (m : FlowMgmtManager) (vn : Option DBEntry) : Nat × Nat :=
  let fs := List.filter
    (fun p => (FlowMgmtKeyTree.find p.2.tree_ (VnFlowMgmtKey vn)).isSome) m.flow_tree_
  ((List.filter (fun p => p.2.ingress_ || p.2.local_flow_) fs).length,
   (List.filter (fun p => !p.2.ingress_ || p.2.local_flow_) fs).length)

/-! ### The scenarios -/

/-- The flow of scenario S3: flow 1, whose only dependency is the ACL 3. -/
def s3Flow : FlowEntry := mkFlow 1 none none [3] false true

/-- The ACL of scenario S3. -/
def s3Acl : DBEntry := .AclDBEntry 3

/-- The key of the ACL of scenario S3. -/
def s3Key : FlowMgmtKey := AclFlowMgmtKey (some s3Acl)

/-- The requests of scenario S3 before the `DELETE_FLOW`: the flow is added,
then the ACL is deleted with generation 7. -/
def s3Requests : List FlowMgmtRequest :=
  [addFlowReq s3Flow, FlowMgmtRequest.ofDB .DELETE_DBENTRY (some s3Acl) 7]

/-- The manager after the requests `s3Requests`, processed from the empty
manager with the header `hdrOther`. -/
def s3State : FlowMgmtManager :=
  (FlowMgmtManager.RunRequests hdrOther FlowMgmtManager.empty s3Requests).getD
    FlowMgmtManager.empty

/-- The entry of the ACL in `s3State`: the flow 1, a DELETE seen with
generation 7. -/
def s3Entry : FlowMgmtEntry :=
  { tree_ := [1], oper_state_ := .OPER_DEL_SEEN, gen_id_ := 7, ingress_flow_count_ := 0,
    egress_flow_count_ := 0, vrf_ := none, vrf_id_ := 0, inet4_deleted_ := false,
    inet6_deleted_ := false, bridge_deleted_ := false }

/-- The entry of the ACL of scenario S3 once an ADD of the ACL has been seen
and the flow 1 added. -/
def addedEntry : FlowMgmtEntry := { s3Entry with oper_state_ := .OPER_ADD_SEEN, gen_id_ := 0 }

/-- A manager whose only entry is `addedEntry`, stored in the ACL index under
the key of the ACL. -/
def addedState : FlowMgmtManager := FlowMgmtManager.empty.setTree .acl [(s3Key, addedEntry)]

/-- The request that deletes the ACL of scenario S3 with generation 7. -/
def s3Delete : FlowMgmtRequest := FlowMgmtRequest.ofDB .DELETE_DBENTRY (some s3Acl) 7

/-- The flow 1 re-added with the VN 7 as its only dependency. -/
def vnFlow (loc ing : Bool) : FlowEntry := mkFlow 1 (some 7) none [] loc ing

/-- The manager after the flow of scenario S3 is re-added as `vnFlow`. -/
def s3Readded : FlowMgmtManager :=
  (s3State.AddFlow hdrOther (vnFlow false true)).getD FlowMgmtManager.empty

/-- The route of the counterexample to the deferred free notification: an inet
route of the VRF 1. -/
def cexRoute : DBEntry := .InetUnicastRouteEntry 11 1 (.v4 167772160) 24

/-- The flow of that counterexample, whose only dependency is the route. -/
def cexFlow : FlowEntry := mkRouteFlow 1 1 (.v4 167772161) 24

/-- The requests of that counterexample before the `DELETE_FLOW`. -/
def cexRequests : List FlowMgmtRequest :=
  [addFlowReq cexFlow, FlowMgmtRequest.ofDB .DELETE_DBENTRY (some cexRoute) 7]

/-- A VRF. -/
def cexVrf : DBEntry := .VrfEntry 1 5

/-- The add of a VRF followed by its delete. -/
def vrfRequests : List FlowMgmtRequest :=
  [FlowMgmtRequest.ofDB .ADD_DBENTRY (some cexVrf) 0,
   FlowMgmtRequest.ofDB .DELETE_DBENTRY (some cexVrf) 3]

/-- The VN of scenario S5. -/
def s5Vn : Option DBEntry := some (.VnEntry 7)

/-! ### Requests for objects, and the events the manager reacts to -/

/-- The request `ADD_DBENTRY` of an object. -/
def addObjReq (d : DBEntry) : FlowMgmtRequest := FlowMgmtRequest.ofDB .ADD_DBENTRY (some d) 0

/-- The request `CHANGE_DBENTRY` of an object. -/
def changeObjReq (d : DBEntry) : FlowMgmtRequest :=
  FlowMgmtRequest.ofDB .CHANGE_DBENTRY (some d) 0

/-- The request `DELETE_DBENTRY` of an object with generation `g`. -/
def delObjReq (d : DBEntry) (g : Nat) : FlowMgmtRequest :=
  FlowMgmtRequest.ofDB .DELETE_DBENTRY (some d) g

/-- What the manager reacts to: a request taken from the request queue, or the
managed-delete signal of one of the three route tables of a VRF. -/
inductive Event where
  | request (req : FlowMgmtRequest)
  | managedDelete (vrf : DBEntry) (slot : RouteTableSlot)
  deriving DecidableEq, Repr

/-- One event: a request goes to `RequestHandler`, a signal to the
`ManagedDelete` of the slot of the entry of the VRF. -/
def HandleEvent (h : Hdr) (m : FlowMgmtManager) : Event → Option FlowMgmtManager
  | .request req => m.RequestHandler h req
  | .managedDelete vrf slot =>
    VrfFlowMgmtEntry.ManagedDelete m (VrfFlowMgmtKey (some vrf)) slot

/-- The events of a list handled in order. -/
def RunEvents (h : Hdr) (m : FlowMgmtManager) : List Event → Option FlowMgmtManager
  | [] => some m
  | ev :: rest =>
    match HandleEvent h m ev with
    | none => none
    | some m1 => RunEvents h m1 rest

/-- The VRF 5. -/
def vrf5 : DBEntry := .VrfEntry 1 5

/-- A flow whose only dependency is the default route of the VRF 5. -/
def defaultRouteFlow : FlowEntry := mkRouteFlow 1 5 (.v4 167772161) 0

/-- A layer-2 flow of the VRF 5 with the zero MAC as its source MAC. -/
def zeroMacFlow : FlowEntry :=
  { mkFlow 1 none none [] false true with l3_flow := false, flow_source_vrf := 5, smac := 0 }

/-- The VRF 5 is added, a flow on its default route is added, its three route
tables signal their deletion, and the VRF is deleted with generation 3. -/
def vrfTeardownEvents : List Event :=
  [.request (addObjReq vrf5), .request (addFlowReq defaultRouteFlow),
   .managedDelete vrf5 .inet4, .managedDelete vrf5 .inet6, .managedDelete vrf5 .bridge,
   .request (delObjReq vrf5 3)]

/-- The route 10.0.0.0/24 of the VRF 1 and its key. -/
def route24Key : FlowMgmtKey := InetRouteFlowMgmtKey.ofRoute cexRoute 1 (.v4 167772160) 24

/-- Modelled from the spec: `oper_entry_change(req, key)` as the design document
words it: a no-op when the index has no entry for the key, and otherwise the
same as `oper_entry_add` with the same request and key. -/
def specOperEntryChange (h : Hdr) (m : FlowMgmtManager) (t : TreeId) (req : FlowMgmtRequest)
    (key : FlowMgmtKey) : Option (Bool × FlowMgmtManager) :=
  match (m.tree t).find key with
  | none => some (true, m)
  | some _ => FlowMgmtTree.OperEntryAdd h m t req key

/-- The state reached by the requests `cexRequests`: the route 10.0.0.0/24 of
the VRF 1 has the flow 1 and has seen a DELETE with generation 7; the stored
key is the key of the flow, without a DB entry. -/
def cexState : FlowMgmtManager :=
  (FlowMgmtManager.RunRequests hdrOther FlowMgmtManager.empty cexRequests).getD
    FlowMgmtManager.empty

/-- The entry of the route in `cexState` once its flow is erased. -/
def cexEntry : FlowMgmtEntry :=
  { tree_ := [], oper_state_ := .OPER_DEL_SEEN, gen_id_ := 7, ingress_flow_count_ := 0,
    egress_flow_count_ := 0, vrf_ := none, vrf_id_ := 0, inet4_deleted_ := false,
    inet6_deleted_ := false, bridge_deleted_ := false }

/-- The state after the add of the flow `cexFlow`, which depends on the route
10.0.0.0/24 of the VRF 1. -/
def flowOnRoute : FlowMgmtManager :=
  (FlowMgmtManager.RunRequests hdrOther FlowMgmtManager.empty [addFlowReq cexFlow]).getD
    FlowMgmtManager.empty

/-- The state `flowOnRoute` after `RouteFlowMgmtTree::OperEntryAdd` for the
route. -/
def routeAttached : FlowMgmtManager :=
  ((RouteFlowMgmtTree.OperEntryAdd hdrOther flowOnRoute .ip4_route (addObjReq cexRoute)
    route24Key).map Prod.snd).getD FlowMgmtManager.empty

/-- The route 10.0.0.0/8 of the VRF 1. -/
def route8 : DBEntry := .InetUnicastRouteEntry 21 1 (.v4 167772160) 8

/-- The route 10.1.0.0/16 of the VRF 1. -/
def route16 : DBEntry := .InetUnicastRouteEntry 22 1 (.v4 167837696) 16

/-- The key of the route 10.0.0.0/8. -/
def route8Key : FlowMgmtKey := InetRouteFlowMgmtKey.ofRoute route8 1 (.v4 167772160) 8

/-- The key of the route 10.1.0.0/16. -/
def route16Key : FlowMgmtKey := InetRouteFlowMgmtKey.ofRoute route16 1 (.v4 167837696) 16

/-- The flow 1, whose only dependency is the route 10.0.0.0/8 of the VRF 1. -/
def coverFlow : FlowEntry := mkRouteFlow 1 1 (.v4 167772161) 8

/-- The state after the add of the route 10.0.0.0/8 and of the flow on it. -/
def coverState : FlowMgmtManager :=
  (FlowMgmtManager.RunRequests hdrOther FlowMgmtManager.empty
    [addObjReq route8, addFlowReq coverFlow]).getD FlowMgmtManager.empty

/-- The state `coverState` after the add of the route 10.1.0.0/16. -/
def coverAdded : FlowMgmtManager :=
  ((InetRouteFlowMgmtTree.OperEntryAdd hdrOther coverState .ip4_route (addObjReq route16)
    route16Key).map (fun r => r.2.2)).getD FlowMgmtManager.empty

/-- The state `coverAdded` after the delete of the route 10.1.0.0/16. -/
def coverDeleted : FlowMgmtManager :=
  ((InetRouteFlowMgmtTree.OperEntryDelete coverAdded .ip4_route (delObjReq route16 4)
    route16Key).map Prod.snd).getD FlowMgmtManager.empty

/-- The entry with the `deleted_` flag of one route-table slot set. -/
def FlowMgmtEntry.flagged (e : FlowMgmtEntry) : RouteTableSlot → FlowMgmtEntry
  | .inet4 => { e with inet4_deleted_ := true }
  | .inet6 => { e with inet6_deleted_ := true }
  | .bridge => { e with bridge_deleted_ := true }

/-- The state after the add and the delete (with generation 3) of the VRF 5
and the managed-delete signals of its inet4 and inet6 route tables. -/
def vrfPending : FlowMgmtManager :=
  (RunEvents hdrOther FlowMgmtManager.empty
    [.request (addObjReq vrf5), .request (delObjReq vrf5 3), .managedDelete vrf5 .inet4,
      .managedDelete vrf5 .inet6]).getD FlowMgmtManager.empty

/-- The entry of the VRF 5 in the state `vrfPending`. -/
def vrfPendingEntry : FlowMgmtEntry :=
  { tree_ := [], oper_state_ := .OPER_DEL_SEEN, gen_id_ := 3, ingress_flow_count_ := 0,
    egress_flow_count_ := 0, vrf_ := some vrf5, vrf_id_ := 5, inet4_deleted_ := true,
    inet6_deleted_ := true, bridge_deleted_ := false }

/-- The state `vrfPending` after the managed-delete signal of the bridge route
table of the VRF 5. -/
def vrfReady : FlowMgmtManager :=
  (VrfFlowMgmtEntry.ManagedDelete vrfPending (VrfFlowMgmtKey (some vrf5)) .bridge).getD
    FlowMgmtManager.empty

/-- The flow of scenario S1: the flow 1 on the VN 7 and the interface 4, an
ingress flow that is not local. -/
def s1Flow : FlowEntry := mkFlow 1 (some 7) (some 4) [] false true

/-- The empty manager with the record of the flow 1 located, as `AddFlow` has
it when it starts its walk. -/
def s1Start : FlowMgmtManager := AddFlowStart FlowMgmtManager.empty 1

/-- The state `s1Start` after the key of the VN 7 is added for the flow. -/
def s1VnAdded : FlowMgmtManager :=
  (s1Start.AddFlowMgmtKey hdrOther s1Flow (VnFlowMgmtKey s5Vn)).getD FlowMgmtManager.empty

/-- The tags of the keys that carry flows. -/
def flowKeyTypes : List KeyType := [.INTERFACE, .ACL, .VN, .INET4, .INET6, .BRIDGE, .NH]

/-! ## How the answer of a lookup evolves -/

/-- What one operation of the code does to the answer of the lookup of the key
`k` in the index `t`. `del` says for which keys a `DELETE_DBENTRY` is being
processed and `sig` whether managed-delete signals occur. -/
inductive Change (h : Hdr) (del : TreeId → FlowMgmtKey → Prop) (sig : Prop) (t : TreeId)
    (k : FlowMgmtKey) :
    Option (FlowMgmtKey × FlowMgmtEntry) → Option (FlowMgmtKey × FlowMgmtEntry) → Prop where
  | create (key : FlowMgmtKey) (e : FlowMgmtEntry) : SameKey key k = true →
      FlowMgmtTree.Allocate h t key = some e → Change h del sig t k none (some (key, e))
  | add (k1 : FlowMgmtKey) (e : FlowMgmtEntry) (f : Nat) :
      Change h del sig t k (some (k1, e)) (some (k1, (e.Add f).2))
  | delete (k1 : FlowMgmtKey) (e : FlowMgmtEntry) (f : Nat) :
      Change h del sig t k (some (k1, e)) (some (k1, (e.Delete f).2))
  | erase (k1 : FlowMgmtKey) (e : FlowMgmtEntry) : e.tree_ = [] →
      e.oper_state_ ≠ .OPER_ADD_SEEN → e.oper_state_ ≠ .INVALID →
      Change h del sig t k (some (k1, e)) none
  | addSeen (k1 : FlowMgmtKey) (e : FlowMgmtEntry) :
      Change h del sig t k (some (k1, e)) (some (k1, e.addSeen))
  | delSeen (K k1 : FlowMgmtKey) (e : FlowMgmtEntry) (g : Nat) : del t K →
      SameKey K k = true → Change h del sig t k (some (k1, e)) (some (k1, e.delSeen g))
  | setDb (k1 : FlowMgmtKey) (e : FlowMgmtEntry) (d : DBEntry) :
      Change h del sig t k (some (k1, e)) (some ({ k1 with db_entry_ := some d }, e))
  | onAdd (k1 : FlowMgmtKey) (e : FlowMgmtEntry) (flow : FlowEntry) (a l i : Bool) :
      Change h del sig t k (some (k1, e))
        (some (k1, VnFlowMgmtEntry.UpdateCounterOnAdd e flow a l i))
  | onDel (k1 : FlowMgmtKey) (e : FlowMgmtEntry) (flow : FlowEntry) (l i : Bool) :
      Change h del sig t k (some (k1, e))
        (some (k1, VnFlowMgmtEntry.UpdateCounterOnDel e flow l i))
  | flag (k1 : FlowMgmtKey) (e : FlowMgmtEntry) (slot : RouteTableSlot) : sig → t = .vrf →
      Change h del sig t k (some (k1, e)) (some (k1, e.flagged slot))

/-- A sequence of changes of the answer of one lookup. -/
inductive Changes (h : Hdr) (del : TreeId → FlowMgmtKey → Prop) (sig : Prop) (t : TreeId)
    (k : FlowMgmtKey) :
    Option (FlowMgmtKey × FlowMgmtEntry) → Option (FlowMgmtKey × FlowMgmtEntry) → Prop where
  | refl (a : Option (FlowMgmtKey × FlowMgmtEntry)) : Changes h del sig t k a a
  | cons {a b c : Option (FlowMgmtKey × FlowMgmtEntry)} : Change h del sig t k a b →
      Changes h del sig t k b c → Changes h del sig t k a c

/-- Every lookup of `m'` answers what the same lookup of `m` answers, after a
sequence of changes. -/
def Evolves (h : Hdr) (del : TreeId → FlowMgmtKey → Prop) (sig : Prop)
    (m m' : FlowMgmtManager) : Prop :=
  ∀ t k, Changes h del sig t k ((m.tree t).find k) ((m'.tree t).find k)

/-- The request is a `DELETE_DBENTRY` of an object whose key is `K`, of the
index `t`. -/
def deletes (req : FlowMgmtRequest) (t : TreeId) (K : FlowMgmtKey) : Prop :=
  req.event = .DELETE_DBENTRY ∧ ∃ d, req.db_entry = some d ∧ DBEntryKey d = some (K, t)

/-- The state after the events `vrfTeardownEvents`. -/
def teardownState : FlowMgmtManager :=
  (RunEvents hdrOther FlowMgmtManager.empty vrfTeardownEvents).getD FlowMgmtManager.empty

/-! ## The order of the object events -/

/-- The key and the index of the object of a request, when it carries one. -/
def reqKey (req : FlowMgmtRequest) : Option (FlowMgmtKey × TreeId) :=
  req.db_entry.bind DBEntryKey

/-- Whether the index and key `p` are those of `(t, K)`. -/
def sameObject (t : TreeId) (K : FlowMgmtKey) (p : TreeId × FlowMgmtKey) : Bool :=
  decide (p.1 = t) && SameKey p.2 K

/-- The objects, by index and key, for which an `ADD_DBENTRY` has been
processed and no `DELETE_DBENTRY` since: the list after one more request. -/
def liveAfter (live : List (TreeId × FlowMgmtKey)) (req : FlowMgmtRequest) :
    List (TreeId × FlowMgmtKey) :=
  match req.event, reqKey req with
  | .ADD_DBENTRY, some (K, t) => (t, K) :: live
  | .DELETE_DBENTRY, some (K, t) => live.filter (fun p => !sameObject t K p)
  | _, _ => live

/-- Whether the request may be processed: a `DELETE_DBENTRY` is for an object
for which an `ADD_DBENTRY` has been processed and no `DELETE_DBENTRY` since. -/
def deleteOfAdded (live : List (TreeId × FlowMgmtKey)) (req : FlowMgmtRequest) : Bool :=
  match req.event, reqKey req with
  | .DELETE_DBENTRY, some (K, t) => live.any (sameObject t K)
  | _, _ => true

/-- Whether, in a list of requests processed after those that made `live`,
every `DELETE_DBENTRY` of an object comes after an `ADD_DBENTRY` of it, with no
other `DELETE_DBENTRY` of it in between. -/
def AddedBeforeDelete (live : List (TreeId × FlowMgmtKey)) : List FlowMgmtRequest → Bool
  | [] => true
  | req :: rest => deleteOfAdded live req && AddedBeforeDelete (liveAfter live req) rest

/-- The stored key of every entry that has seen a DELETE carries a DB entry. -/
def DelSeenHasDB (m : FlowMgmtManager) : Prop :=
  ∀ t k p, (m.tree t).find k = some p → p.2.oper_state_ = .OPER_DEL_SEEN →
    ∃ d, p.1.db_entry_ = some d

/-- The answer of a lookup is an entry that has seen an ADD, stored under a key
that carries a DB entry. -/
def AddSeenWithDB (a : Option (FlowMgmtKey × FlowMgmtEntry)) : Prop :=
  ∃ p, a = some p ∧ p.2.oper_state_ = .OPER_ADD_SEEN ∧ ∃ d, p.1.db_entry_ = some d

/-- Every object of the list has an entry that has seen an ADD, stored under a
key that carries a DB entry. -/
def LiveHaveDB (live : List (TreeId × FlowMgmtKey)) (m : FlowMgmtManager) : Prop :=
  ∀ p, p ∈ live → AddSeenWithDB ((m.tree p.1).find p.2)

/-- The requests of the counterexample to the assertion of `FreeNotify`: a flow
on the route 10.0.0.0/24 is added, the route is changed and then deleted. -/
def changeThenDelete : List FlowMgmtRequest :=
  [addFlowReq cexFlow, changeObjReq cexRoute, delObjReq cexRoute 7]

/-- The requests of the witness: the flow is added, the route is added and then
deleted. -/
def addThenDelete : List FlowMgmtRequest :=
  [addFlowReq cexFlow, addObjReq cexRoute, delObjReq cexRoute 7]

/-- The state after the requests `addThenDelete`. -/
def addThenDeleteState : FlowMgmtManager :=
  (FlowMgmtManager.RunRequests hdrOther FlowMgmtManager.empty addThenDelete).getD
    FlowMgmtManager.empty

/-! ## The round trip of a flow -/

/-- What `AddFlowMgmtKey` of the flow `f` makes of the answer `a` of the lookup
of the key `k` in the index `t`: the entry is located (allocated under `k` when
absent), the flow is added to its flow set and, in the VN index, the counters are
updated; `loc` and `ing` are the memoized flags of the record of the flow. -/
def addAnswer (h : Hdr) (f : FlowEntry) (loc ing : Bool) (t : TreeId) (k : FlowMgmtKey)
    (a : Option (FlowMgmtKey × FlowMgmtEntry)) : Option (FlowMgmtKey × FlowMgmtEntry) :=
  match (match a with
    | some p => some p
    | none => (FlowMgmtTree.Allocate h t k).map (fun e => (k, e))) with
  | none => none
  | some (k1, e) =>
    some (k1, if t = .vn then
        VnFlowMgmtEntry.UpdateCounterOnAdd (e.Add f.id).2 f (e.Add f.id).1 loc ing
      else (e.Add f.id).2)

/-- The manager `mc` answers every lookup as `m` does, except that the flow `f`
has been added under the keys of `A`. -/
def FlowAdded (h : Hdr) (f : FlowEntry) (A : List FlowMgmtKey) (m mc : FlowMgmtManager) : Prop :=
  ∀ t k',
    (∀ k, k ∈ A → FlowMgmtManager.treeOfKeyType k.type_ = some t → SameKey k k' = true →
      (mc.tree t).find k' = addAnswer h f false false t k ((m.tree t).find k')) ∧
    ((∀ k, k ∈ A → ¬ (FlowMgmtManager.treeOfKeyType k.type_ = some t ∧ SameKey k k' = true)) →
      (mc.tree t).find k' = (m.tree t).find k')

/-- The manager `mc` has the side map, the LPM structures and the two queues of
`m`, and the records of the flows other than `fid`. -/
structure SameRest (fid : Nat) (m mc : FlowMgmtManager) : Prop where
  id_map : mc.id_map_ = m.id_map_
  lpm : ∀ t, mc.lpm t = m.lpm t
  request_queue : mc.request_queue_ = m.request_queue_
  response_queue : mc.response_queue_ = m.response_queue_
  info_other : ∀ g, g ≠ fid → mc.FindFlowEntryInfo g = m.FindFlowEntryInfo g

/-- No entry of the VRF index is in the state `INVALID` or has the route table
of IPv4 flagged as deleted. -/
def VrfQuiet (m : FlowMgmtManager) : Prop :=
  ∀ k p, (m.tree .vrf).find k = some p →
    p.2.oper_state_ ≠ .INVALID ∧ p.2.inet4_deleted_ = false

/-- What `DeleteFlowMgmtKey` of the flow `f` makes of the answer `a` of the
lookup of its key in the index `t`: the flow is erased from the flow set and the
entry is removed when it can be deleted; in the VN index the counters of an
entry that stays are updated with the memoized flags `loc` and `ing`. -/
def delAnswer (f : FlowEntry) (loc ing : Bool) (t : TreeId)
    (a : Option (FlowMgmtKey × FlowMgmtEntry)) : Option (FlowMgmtKey × FlowMgmtEntry) :=
  match a with
  | none => none
  | some (k1, e) =>
    if (e.Delete f.id).2.tree_ = [] ∧ e.oper_state_ ≠ .OPER_ADD_SEEN then none
    else
      some (k1, if t = .vn then VnFlowMgmtEntry.UpdateCounterOnDel (e.Delete f.id).2 f loc ing
                else (e.Delete f.id).2)

/-- What the round trip of a flow `f` needs of the answer `a` of a lookup: the
flow is not in the flow set, the entry has flows or has seen an ADD, its state is
not `INVALID`, and its counters are 32-bit values. -/
structure AnswerOK (f : FlowEntry) (a : Option (FlowMgmtKey × FlowMgmtEntry)) : Prop where
  fresh : ∀ p, a = some p → f.id ∉ p.2.tree_
  zombie : ∀ p, a = some p → p.2.tree_ ≠ [] ∨ p.2.oper_state_ = .OPER_ADD_SEEN
  valid : ∀ p, a = some p → p.2.oper_state_ ≠ .INVALID
  counters : ∀ p, a = some p →
    p.2.ingress_flow_count_ < 2 ^ 32 ∧ p.2.egress_flow_count_ < 2 ^ 32

/-- An entry whose route table of IPv4 has not been flagged as deleted and
whose counters are 32-bit values. -/
def Settled (e : FlowMgmtEntry) : Prop :=
  e.inet4_deleted_ = false ∧ e.ingress_flow_count_ < 2 ^ 32 ∧ e.egress_flow_count_ < 2 ^ 32

/-- The VRF 5 is added and deleted with generation 3 while it has no flows,
and its three route tables signal their deletion: the retry request is posted
and not yet processed. -/
def pendingVrfEvents : List Event :=
  [.request (addObjReq vrf5), .request (delObjReq vrf5 3), .managedDelete vrf5 .inet4,
   .managedDelete vrf5 .inet6, .managedDelete vrf5 .bridge]

/-- The state after the events `pendingVrfEvents`. -/
def pendingVrfState : FlowMgmtManager :=
  (RunEvents hdrOther FlowMgmtManager.empty pendingVrfEvents).getD FlowMgmtManager.empty

/-- A flow whose only dependency is the route 10.0.0.0/24 of the VRF 5. -/
def vrf5Flow : FlowEntry := mkRouteFlow 1 5 (.v4 167772161) 24

/-- The flow 1 on the route 10.0.0.0/24 of the VRF 1 is added and the route is
added. -/
def sharedRouteRequests : List FlowMgmtRequest := [addFlowReq cexFlow, addObjReq cexRoute]

/-- The state after the requests `sharedRouteRequests`. -/
def sharedRouteState : FlowMgmtManager :=
  (FlowMgmtManager.RunRequests hdrOther FlowMgmtManager.empty sharedRouteRequests).getD
    FlowMgmtManager.empty

/-- A second flow on the route 10.0.0.0/24 of the VRF 1. -/
def secondFlow : FlowEntry := mkRouteFlow 2 1 (.v4 167772162) 24

set_option maxRecDepth 100000

/-! ## The order of keys -/

theorem lexLt_irrefl (a : List Nat) : lexLt a a = false := by
  induction a with
  | nil => rfl
  | cons x xs ih => simp [lexLt, ih]

theorem lexLt_trans {a b c : List Nat} (h1 : lexLt a b = true) (h2 : lexLt b c = true) :
    lexLt a c = true := by
  induction a generalizing b c with
  | nil =>
    cases b with
    | nil => simp [lexLt] at h1
    | cons y ys =>
      cases c with
      | nil => simp [lexLt] at h2
      | cons z zs => simp [lexLt]
  | cons x xs ih =>
    cases b with
    | nil => simp [lexLt] at h1
    | cons y ys =>
      cases c with
      | nil => simp [lexLt] at h2
      | cons z zs =>
        simp only [lexLt] at h1 h2 ⊢
        by_cases hxy : x < y
        · by_cases hyz : y < z
          · simp [Nat.lt_trans hxy hyz]
          · by_cases hzy : z < y
            · simp [hyz, hzy] at h2
            · have : y = z := by omega
              subst this
              simp [hxy]
        · by_cases hyx : y < x
          · simp [hxy, hyx] at h1
          · have hxy2 : x = y := by omega
            subst hxy2
            simp only [hxy, if_false] at h1
            by_cases hxz : x < z
            · simp [hxz]
            · by_cases hzx : z < x
              · simp [hxz, hzx] at h2
              · simp only [hxz, hzx, if_false] at h2 ⊢
                exact ih h1 h2

theorem lexLt_asymm {a b : List Nat} (h1 : lexLt a b = true) : lexLt b a = false := by
  cases h : lexLt b a with
  | false => rfl
  | true =>
    have := lexLt_trans h1 h
    rw [lexLt_irrefl] at this
    exact absurd this (by decide)

theorem lexLt_total {a b : List Nat} (h1 : lexLt a b = false) (h2 : lexLt b a = false) :
    a = b := by
  induction a generalizing b with
  | nil =>
    cases b with
    | nil => rfl
    | cons y ys => simp [lexLt] at h1
  | cons x xs ih =>
    cases b with
    | nil => simp [lexLt] at h2
    | cons y ys =>
      simp only [lexLt] at h1 h2
      by_cases hxy : x < y
      · simp [hxy] at h1
      · by_cases hyx : y < x
        · simp [hyx] at h2
        · have : x = y := by omega
          subst this
          simp only [hxy, if_false] at h1 h2
          rw [ih h1 h2]

theorem sameKey_iff {a b : FlowMgmtKey} : SameKey a b = true ↔ a.rank = b.rank := by
  unfold SameKey FlowMgmtKey.IsLess
  constructor
  · intro h
    simp only [Bool.and_eq_true, Bool.not_eq_true'] at h
    exact lexLt_total h.1 h.2
  · intro h
    rw [h, lexLt_irrefl]
    rfl

theorem sameKey_refl (a : FlowMgmtKey) : SameKey a a = true := sameKey_iff.2 rfl

theorem sameKey_symm {a b : FlowMgmtKey} (h : SameKey a b = true) : SameKey b a = true :=
  sameKey_iff.2 (sameKey_iff.1 h).symm

theorem sameKey_comm (a b : FlowMgmtKey) : SameKey a b = SameKey b a := by
  unfold SameKey
  exact Bool.and_comm _ _

theorem sameKey_trans {a b c : FlowMgmtKey} (h1 : SameKey a b = true) (h2 : SameKey b c = true) :
    SameKey a c = true :=
  sameKey_iff.2 ((sameKey_iff.1 h1).trans (sameKey_iff.1 h2))

theorem sameKey_congr_left {a b : FlowMgmtKey} (h : SameKey a b = true) (c : FlowMgmtKey) :
    SameKey a c = SameKey b c := by
  unfold SameKey FlowMgmtKey.IsLess
  rw [sameKey_iff.1 h]

theorem sameKey_congr_right {a b : FlowMgmtKey} (h : SameKey a b = true) (c : FlowMgmtKey) :
    SameKey c a = SameKey c b := by
  rw [sameKey_comm c a, sameKey_comm c b, sameKey_congr_left h]

theorem isLess_congr_left {a b : FlowMgmtKey} (h : SameKey a b = true) (c : FlowMgmtKey) :
    a.IsLess c = b.IsLess c := by
  unfold FlowMgmtKey.IsLess
  rw [sameKey_iff.1 h]

theorem isLess_congr_right {a b : FlowMgmtKey} (h : SameKey a b = true) (c : FlowMgmtKey) :
    c.IsLess a = c.IsLess b := by
  unfold FlowMgmtKey.IsLess
  rw [sameKey_iff.1 h]

theorem isLess_trans {a b c : FlowMgmtKey} (h1 : a.IsLess b = true) (h2 : b.IsLess c = true) :
    a.IsLess c = true := lexLt_trans h1 h2

theorem isLess_not_same {a b : FlowMgmtKey} (h : a.IsLess b = true) : SameKey a b = false := by
  unfold SameKey
  rw [h]
  rfl

theorem isLess_asymm {a b : FlowMgmtKey} (h : a.IsLess b = true) : b.IsLess a = false :=
  lexLt_asymm h

theorem sameKey_of_not_isLess {a b : FlowMgmtKey} (h1 : a.IsLess b = false)
    (h2 : b.IsLess a = false) : SameKey a b = true := by
  unfold SameKey
  rw [h1, h2]
  rfl

theorem KeyType.toNat_injective {s t : KeyType} (h : s.toNat = t.toNat) : s = t := by
  cases s <;> cases t <;> first | rfl | (exact absurd h (by decide))

theorem sameKey_type {a b : FlowMgmtKey} (h : SameKey a b = true) : a.type_ = b.type_ := by
  have h1 := sameKey_iff.1 h
  unfold FlowMgmtKey.rank at h1
  exact KeyType.toNat_injective (List.cons.inj h1).1

/-! ## Containers -/

theorem mem_insertBy {α : Type} (lt : α → α → Bool) (a x : α) (l : List α) :
    x ∈ insertBy lt a l ↔ x = a ∨ x ∈ l := by
  induction l with
  | nil => simp [insertBy]
  | cons y ys ih =>
    unfold insertBy
    split
    · simp
    · simp only [List.mem_cons, ih]
      tauto

theorem find?_insertBy_false {α : Type} (lt : α → α → Bool) (p : α → Bool) (a : α) (l : List α)
    (hp : p a = false) : List.find? p (insertBy lt a l) = List.find? p l := by
  induction l with
  | nil => simp [insertBy, hp]
  | cons y ys ih =>
    unfold insertBy
    split
    · simp [List.find?, hp]
    · simp only [List.find?, ih]

theorem find?_insertBy_true {α : Type} (lt : α → α → Bool) (p : α → Bool) (a : α) (l : List α)
    (hp : p a = true) (hnone : List.find? p l = none) :
    List.find? p (insertBy lt a l) = some a := by
  induction l with
  | nil => simp [insertBy, hp]
  | cons y ys ih =>
    have hy : p y = false := by
      cases hpy : p y with
      | false => rfl
      | true => simp [List.find?, hpy] at hnone
    have hys : List.find? p ys = none := by
      simpa [List.find?, hy] using hnone
    unfold insertBy
    split
    · simp [List.find?, hp]
    · simp [List.find?, hy, ih hys]

theorem insertBy_perm {α : Type} (lt : α → α → Bool) (a : α) (l : List α) :
    (insertBy lt a l).Perm (a :: l) := by
  induction l with
  | nil => simp [insertBy]
  | cons y ys ih =>
    unfold insertBy
    split
    · exact List.Perm.refl _
    · exact (List.Perm.cons y ih).trans (List.Perm.swap a y ys)

/-! ### The index map -/

theorem Tree.find_congr (t : Tree) {k k' : FlowMgmtKey} (h : SameKey k k' = true) :
    t.find k = t.find k' := by
  unfold Tree.find
  congr 1
  funext p
  exact sameKey_congr_right h p.1

theorem Tree.find_some_same {t : Tree} {k : FlowMgmtKey} {p : FlowMgmtKey × FlowMgmtEntry}
    (h : t.find k = some p) : SameKey p.1 k = true := by
  unfold Tree.find at h
  have := List.find?_some h
  simpa using this

theorem Tree.find_some_mem {t : Tree} {k : FlowMgmtKey} {p : FlowMgmtKey × FlowMgmtEntry}
    (h : t.find k = some p) : p ∈ t := by
  unfold Tree.find at h
  exact List.mem_of_find?_eq_some h

theorem Tree.find_none_iff {t : Tree} {k : FlowMgmtKey} :
    t.find k = none ↔ ∀ p ∈ t, SameKey p.1 k = false := by
  unfold Tree.find
  rw [List.find?_eq_none]
  simp

theorem Tree.find_insert (t : Tree) (k : FlowMgmtKey) (e : FlowMgmtEntry) (k' : FlowMgmtKey)
    (hnone : t.find k = none) :
    (t.insert k e).find k' = if SameKey k k' = true then some (k, e) else t.find k' := by
  unfold Tree.insert Tree.find
  by_cases hs : SameKey k k' = true
  · rw [if_pos hs]
    apply find?_insertBy_true
    · exact hs
    · have := Tree.find_congr t hs
      unfold Tree.find at this hnone
      rw [← this]
      exact hnone
  · rw [if_neg hs]
    apply find?_insertBy_false
    simpa using hs

theorem Tree.mem_insert_tree (t : Tree) (k : FlowMgmtKey) (e : FlowMgmtEntry)
    (p : FlowMgmtKey × FlowMgmtEntry) : p ∈ t.insert k e ↔ p = (k, e) ∨ p ∈ t := by
  unfold Tree.insert
  exact mem_insertBy _ _ _ _

theorem Tree.find_erase (t : Tree) (k k' : FlowMgmtKey) :
    (t.erase k).find k' = if SameKey k k' = true then none else t.find k' := by
  unfold Tree.erase Tree.find
  induction t with
  | nil => simp
  | cons q qs ih =>
    by_cases hs : SameKey k k' = true
    · rw [if_pos hs] at ih ⊢
      rw [List.find?_eq_none]
      intro x hx
      simp only [List.mem_filter, Bool.not_eq_true', List.mem_cons] at hx
      have h1 : SameKey x.1 k' = SameKey x.1 k := (sameKey_congr_right hs x.1).symm
      simp [h1, hx.2]
    · rw [if_neg hs] at ih ⊢
      by_cases hq : SameKey q.1 k = true
      · have hq' : SameKey q.1 k' = false := by
          cases hqk : SameKey q.1 k' with
          | false => rfl
          | true =>
            exact absurd (sameKey_trans (sameKey_symm hq) hqk) hs
        simp [List.filter, hq, List.find?, hq', ih]
      · have hq2 : SameKey q.1 k = false := by simpa using hq
        simp only [List.filter, hq2, Bool.not_false, List.find?]
        rw [ih]

theorem Tree.mem_erase_tree (t : Tree) (k : FlowMgmtKey) (p : FlowMgmtKey × FlowMgmtEntry) :
    p ∈ t.erase k ↔ p ∈ t ∧ SameKey p.1 k = false := by
  unfold Tree.erase
  simp [List.mem_filter]

theorem Tree.find_setEntry (t : Tree) (k : FlowMgmtKey) (e : FlowMgmtEntry) (k' : FlowMgmtKey) :
    (t.setEntry k e).find k' =
      if SameKey k k' = true then (t.find k').map (fun p => (p.1, e)) else t.find k' := by
  unfold Tree.setEntry Tree.find
  induction t with
  | nil => simp
  | cons q qs ih =>
    by_cases hs : SameKey k k' = true
    · rw [if_pos hs] at ih ⊢
      have h1 : SameKey q.1 k' = SameKey q.1 k := (sameKey_congr_right hs q.1).symm
      by_cases hq : SameKey q.1 k = true
      · simp only [List.map_cons, hq, if_true, List.find?_cons, h1, Option.map_some']
      · have hq2 : SameKey q.1 k = false := by simpa using hq
        simp only [List.map_cons, hq2, Bool.false_eq_true, if_false, List.find?_cons, h1]
        exact ih
    · rw [if_neg hs] at ih ⊢
      by_cases hq : SameKey q.1 k = true
      · have hq' : SameKey q.1 k' = false := by
          cases hqk : SameKey q.1 k' with
          | false => rfl
          | true => exact absurd (sameKey_trans (sameKey_symm hq) hqk) hs
        simp only [List.map_cons, hq, if_true, List.find?_cons, hq']
        exact ih
      · have hq2 : SameKey q.1 k = false := by simpa using hq
        simp only [List.map_cons, hq2, Bool.false_eq_true, if_false, List.find?_cons]
        cases hqk : SameKey q.1 k' with
        | false => exact ih
        | true => rfl

theorem Tree.mem_setEntry (t : Tree) (k : FlowMgmtKey) (e : FlowMgmtEntry)
    (p : FlowMgmtKey × FlowMgmtEntry) :
    p ∈ t.setEntry k e ↔
      (p ∈ t ∧ SameKey p.1 k = false) ∨ (SameKey p.1 k = true ∧ p.2 = e ∧ ∃ e0, (p.1, e0) ∈ t) := by
  unfold Tree.setEntry
  rw [List.mem_map]
  constructor
  · rintro ⟨q, hq, rfl⟩
    by_cases hs : SameKey q.1 k = true
    · right
      rw [if_pos hs]
      exact ⟨hs, rfl, q.2, hq⟩
    · left
      rw [if_neg hs]
      exact ⟨hq, by simpa using hs⟩
  · rintro (⟨hp, hs⟩ | ⟨hs, he, e0, hm⟩)
    · exact ⟨p, hp, by simp [hs]⟩
    · refine ⟨(p.1, e0), hm, ?_⟩
      rw [if_pos hs, ← he]

theorem Tree.erase_setEntry (t : Tree) (k : FlowMgmtKey) (e : FlowMgmtEntry) :
    (t.setEntry k e).erase k = t.erase k := by
  unfold Tree.setEntry Tree.erase
  induction t with
  | nil => rfl
  | cons q qs ih =>
    by_cases hs : SameKey q.1 k = true
    · simp only [List.map_cons, hs, if_true, List.filter_cons, Bool.not_true, Bool.false_eq_true,
        if_false]
      exact ih
    · have hs2 : SameKey q.1 k = false := by simpa using hs
      simp only [List.map_cons, hs2, Bool.false_eq_true, if_false, List.filter_cons,
        Bool.not_false, if_true]
      rw [ih]

/-! ## Field access of the manager -/

namespace FlowMgmtManager

@[simp]
theorem tree_setTree_same (m : FlowMgmtManager) (t : TreeId) (tr : Tree) :
    (m.setTree t tr).tree t = tr := by
  cases t <;> rfl

@[simp]
theorem tree_setTree_ne (m : FlowMgmtManager) {t t' : TreeId} (tr : Tree) (h : t' ≠ t) :
    (m.setTree t tr).tree t' = m.tree t' := by
  cases t <;> cases t' <;> first | rfl | exact absurd rfl h

theorem tree_setTree (m : FlowMgmtManager) (t t' : TreeId) (tr : Tree) :
    (m.setTree t tr).tree t' = if t' = t then tr else m.tree t' := by
  by_cases h : t' = t
  · subst h
    simp
  · simp [h]

@[simp]
theorem setTree_flow_tree (m : FlowMgmtManager) (t : TreeId) (tr : Tree) :
    (m.setTree t tr).flow_tree_ = m.flow_tree_ := by
  cases t <;> rfl

@[simp]
theorem setTree_response_queue (m : FlowMgmtManager) (t : TreeId) (tr : Tree) :
    (m.setTree t tr).response_queue_ = m.response_queue_ := by
  cases t <;> rfl

@[simp]
theorem setTree_request_queue (m : FlowMgmtManager) (t : TreeId) (tr : Tree) :
    (m.setTree t tr).request_queue_ = m.request_queue_ := by
  cases t <;> rfl

@[simp]
theorem setTree_id_map (m : FlowMgmtManager) (t : TreeId) (tr : Tree) :
    (m.setTree t tr).id_map_ = m.id_map_ := by
  cases t <;> rfl

@[simp]
theorem setTree_lpm (m : FlowMgmtManager) (t t' : TreeId) (tr : Tree) :
    (m.setTree t tr).lpm t' = m.lpm t' := by
  cases t <;> cases t' <;> rfl

@[simp]
theorem setTree_FindFlowEntryInfo (m : FlowMgmtManager) (t : TreeId) (tr : Tree)
    (f : Nat) : (m.setTree t tr).FindFlowEntryInfo f = m.FindFlowEntryInfo f := by
  unfold FindFlowEntryInfo
  rw [setTree_flow_tree]

@[simp]
theorem tree_ResponseEnqueue (m : FlowMgmtManager) (r : FlowMgmtResponse) (t : TreeId) :
    (m.ResponseEnqueue r).tree t = m.tree t := by
  cases t <;> rfl

@[simp]
theorem ResponseEnqueue_flow_tree (m : FlowMgmtManager) (r : FlowMgmtResponse) :
    (m.ResponseEnqueue r).flow_tree_ = m.flow_tree_ := rfl

@[simp]
theorem ResponseEnqueue_id_map (m : FlowMgmtManager) (r : FlowMgmtResponse) :
    (m.ResponseEnqueue r).id_map_ = m.id_map_ := rfl

@[simp]
theorem ResponseEnqueue_lpm (m : FlowMgmtManager) (r : FlowMgmtResponse) (t : TreeId) :
    (m.ResponseEnqueue r).lpm t = m.lpm t := by
  cases t <;> rfl

@[simp]
theorem ResponseEnqueue_response_queue (m : FlowMgmtManager) (r : FlowMgmtResponse) :
    (m.ResponseEnqueue r).response_queue_ = m.response_queue_ ++ [r] := rfl

@[simp]
theorem ResponseEnqueue_request_queue (m : FlowMgmtManager) (r : FlowMgmtResponse) :
    (m.ResponseEnqueue r).request_queue_ = m.request_queue_ := rfl

@[simp]
theorem setInfo_request_queue (m : FlowMgmtManager) (f : Nat) (info : FlowEntryInfo) :
    (m.setInfo f info).request_queue_ = m.request_queue_ := rfl

@[simp]
theorem setLpm_request_queue (m : FlowMgmtManager) (t : TreeId) (l : List FlowMgmtKey) :
    (m.setLpm t l).request_queue_ = m.request_queue_ := by
  cases t <;> rfl

@[simp]
theorem ResponseEnqueue_FindFlowEntryInfo (m : FlowMgmtManager) (r : FlowMgmtResponse)
    (f : Nat) : (m.ResponseEnqueue r).FindFlowEntryInfo f = m.FindFlowEntryInfo f := rfl

@[simp]
theorem tree_setInfo (m : FlowMgmtManager) (f : Nat) (info : FlowEntryInfo) (t : TreeId) :
    (m.setInfo f info).tree t = m.tree t := by
  cases t <;> rfl

@[simp]
theorem setInfo_response_queue (m : FlowMgmtManager) (f : Nat) (info : FlowEntryInfo) :
    (m.setInfo f info).response_queue_ = m.response_queue_ := rfl

@[simp]
theorem setInfo_id_map (m : FlowMgmtManager) (f : Nat) (info : FlowEntryInfo) :
    (m.setInfo f info).id_map_ = m.id_map_ := rfl

@[simp]
theorem setInfo_lpm (m : FlowMgmtManager) (f : Nat) (info : FlowEntryInfo) (t : TreeId) :
    (m.setInfo f info).lpm t = m.lpm t := by
  cases t <;> rfl

@[simp]
theorem tree_setLpm (m : FlowMgmtManager) (t : TreeId) (l : List FlowMgmtKey)
    (t' : TreeId) : (m.setLpm t l).tree t' = m.tree t' := by
  cases t <;> cases t' <;> rfl

@[simp]
theorem setLpm_response_queue (m : FlowMgmtManager) (t : TreeId) (l : List FlowMgmtKey) :
    (m.setLpm t l).response_queue_ = m.response_queue_ := by
  cases t <;> rfl

@[simp]
theorem setLpm_id_map (m : FlowMgmtManager) (t : TreeId) (l : List FlowMgmtKey) :
    (m.setLpm t l).id_map_ = m.id_map_ := by
  cases t <;> rfl

@[simp]
theorem setLpm_flow_tree (m : FlowMgmtManager) (t : TreeId) (l : List FlowMgmtKey) :
    (m.setLpm t l).flow_tree_ = m.flow_tree_ := by
  cases t <;> rfl

@[simp]
theorem setLpm_FindFlowEntryInfo (m : FlowMgmtManager) (t : TreeId)
    (l : List FlowMgmtKey) (f : Nat) :
    (m.setLpm t l).FindFlowEntryInfo f = m.FindFlowEntryInfo f := by
  unfold FindFlowEntryInfo
  rw [setLpm_flow_tree]

theorem FindFlowEntryInfo_setInfo (m : FlowMgmtManager) (f : Nat) (info : FlowEntryInfo)
    (f' : Nat) :
    (m.setInfo f info).FindFlowEntryInfo f' =
      if f' = f then (m.FindFlowEntryInfo f').map (fun _ => info) else m.FindFlowEntryInfo f' := by
  unfold FindFlowEntryInfo setInfo
  simp only
  induction m.flow_tree_ with
  | nil => simp
  | cons q qs ih =>
    by_cases hf : f' = f
    · subst hf
      rw [if_pos rfl] at ih ⊢
      by_cases hq : q.1 = f'
      · simp [List.find?_cons, hq]
      · have hq2 : (q.1 == f') = false := by simpa using hq
        simp only [List.map_cons, hq2, Bool.false_eq_true, if_false, List.find?_cons]
        exact ih
    · rw [if_neg hf] at ih ⊢
      by_cases hq : q.1 = f
      · have hq2 : (q.1 == f') = false := by
          rw [hq]
          simpa using (fun h : f = f' => hf h.symm)
        have hq3 : (q.1 == f) = true := by simpa using hq
        simp only [List.map_cons, hq3, if_true, List.find?_cons, hq2]
        exact ih
      · have hq2 : (q.1 == f) = false := by simpa using hq
        simp only [List.map_cons, hq2, Bool.false_eq_true, if_false, List.find?_cons]
        cases hqf : (q.1 == f') with
        | false => exact ih
        | true => rfl

end FlowMgmtManager

/-! ## What the generic index operations do -/

theorem FlowMgmtKey.FreeDBEntryEvent_cases (k : FlowMgmtKey) :
    k.FreeDBEntryEvent = .INVALID ∨ k.FreeDBEntryEvent = .FREE_DBENTRY := by
  unfold FlowMgmtKey.FreeDBEntryEvent
  split <;> simp

/-- What `FlowMgmtTree::FreeNotify` leaves behind. -/
theorem FlowMgmtTree.FreeNotify_some_base {m m1 : FlowMgmtManager} {key : FlowMgmtKey} {g : Nat}
    (h : FlowMgmtTree.FreeNotify m key g = some m1) :
    ∃ e, key.db_entry_ = some e ∧
      ((key.FreeDBEntryEvent = .INVALID ∧ m1 = m) ∨
       (key.FreeDBEntryEvent = .FREE_DBENTRY ∧
        m1 = m.ResponseEnqueue
          { event := .FREE_DBENTRY, flow := none, db_entry := some e, gen_id := g })) := by
  unfold FlowMgmtTree.FreeNotify at h
  cases hd : key.db_entry_ with
  | none => simp [hd] at h
  | some e =>
    refine ⟨e, rfl, ?_⟩
    simp only [hd] at h
    by_cases hev : key.FreeDBEntryEvent = .INVALID
    · left
      simp only [hev, if_true, Option.some.injEq] at h
      exact ⟨hev, h.symm⟩
    · right
      have hfree : key.FreeDBEntryEvent = .FREE_DBENTRY := by
        rcases key.FreeDBEntryEvent_cases with h1 | h1
        · exact absurd h1 hev
        · exact h1
      simp only [hev, if_false, Option.some.injEq] at h
      rw [hfree] at h
      exact ⟨hfree, h.symm⟩

theorem Virtual.FreeNotify_some_virtual {m m1 : FlowMgmtManager} {t : TreeId} {key : FlowMgmtKey}
    {g : Nat} (h : Virtual.FreeNotify m t key g = some m1) :
    (∃ e, key.db_entry_ = some e) ∧ (∀ t', m1.tree t' = m.tree t') ∧
      m1.flow_tree_ = m.flow_tree_ ∧ (∀ t', m1.lpm t' = m.lpm t') ∧
      m1.request_queue_ = m.request_queue_ ∧
      m1.response_queue_ = m.response_queue_ ++ freeResponses key g ∧
      (∀ p, p ∈ m1.id_map_ → p ∈ m.id_map_) ∧ (t ≠ .vrf → m1.id_map_ = m.id_map_) := by
  have base : ∀ m2, FlowMgmtTree.FreeNotify m key g = some m2 →
      (∃ e, key.db_entry_ = some e) ∧ (∀ t', m2.tree t' = m.tree t') ∧
      m2.flow_tree_ = m.flow_tree_ ∧ (∀ t', m2.lpm t' = m.lpm t') ∧
      m2.request_queue_ = m.request_queue_ ∧
      m2.response_queue_ = m.response_queue_ ++ freeResponses key g ∧
      m2.id_map_ = m.id_map_ := by
    intro m2 h2
    obtain ⟨e, he, hcase⟩ := FlowMgmtTree.FreeNotify_some_base h2
    refine ⟨⟨e, he⟩, ?_⟩
    rcases hcase with ⟨hev, rfl⟩ | ⟨hev, rfl⟩
    · simp [freeResponses, he, hev]
    · simp [freeResponses, he, hev]
  unfold Virtual.FreeNotify at h
  by_cases ht : t = .vrf
  · subst ht
    simp only at h
    unfold VrfFlowMgmtTree.FreeNotify at h
    cases hb : FlowMgmtTree.FreeNotify m key g with
    | none => simp [hb] at h
    | some m2 =>
      obtain ⟨⟨e, he⟩, h1, h2, h3, h4, h5, h6⟩ := base m2 hb
      simp only [hb, he, Option.some.injEq] at h
      subst h
      refine ⟨⟨e, he⟩, ?_, h2, ?_, h4, h5, ?_, ?_⟩
      · intro t'
        rw [← h1 t']
        cases t' <;> rfl
      · intro t'
        rw [← h3 t']
        cases t' <;> rfl
      · intro p hp
        simp only [List.mem_filter] at hp
        rw [← h6]
        exact hp.1
      · intro hne
        exact absurd rfl hne
  · have h' : FlowMgmtTree.FreeNotify m key g = some m1 := by
      cases t <;> first | exact h | exact absurd rfl ht
    obtain ⟨he, h1, h2, h3, h4, h5, h6⟩ := base m1 h'
    exact ⟨he, h1, h2, h3, h4, h5, fun p hp => h6 ▸ hp, fun _ => h6⟩

/-- The two outcomes of `TryDelete`. -/
theorem FlowMgmtTree.TryDelete_some {m m' : FlowMgmtManager} {t : TreeId} {key : FlowMgmtKey}
    {entry : FlowMgmtEntry} {b : Bool}
    (h : FlowMgmtTree.TryDelete m t key entry = some (b, m')) :
    (b = false ∧ m' = m ∧ Entry.CanDelete m t entry = some false) ∨
    (b = true ∧ Entry.CanDelete m t entry = some true ∧
      ∃ m1, ((entry.oper_state_ ≠ .OPER_DEL_SEEN ∧ m1 = m) ∨
             (entry.oper_state_ = .OPER_DEL_SEEN ∧
              Virtual.FreeNotify m t key entry.gen_id_ = some m1)) ∧
        (∃ p, (m1.tree t).find key = some p) ∧
        m' = m1.setTree t ((m1.tree t).erase key)) := by
  unfold FlowMgmtTree.TryDelete at h
  cases hc : Entry.CanDelete m t entry with
  | none => simp [hc] at h
  | some c =>
    cases c with
    | false =>
      simp only [hc, Option.some.injEq, Prod.mk.injEq] at h
      exact Or.inl ⟨h.1.symm, h.2.symm, rfl⟩
    | true =>
      right
      simp only [hc] at h
      by_cases hs : entry.oper_state_ = .OPER_DEL_SEEN
      · simp only [hs, if_true] at h
        cases hf : Virtual.FreeNotify m t key entry.gen_id_ with
        | none => simp [hf] at h
        | some m1 =>
          simp only [hf] at h
          cases hfind : (m1.tree t).find key with
          | none => simp [hfind] at h
          | some p =>
            simp only [hfind, Option.some.injEq, Prod.mk.injEq] at h
            exact ⟨h.1.symm, rfl, m1, Or.inr ⟨hs, rfl⟩, ⟨p, hfind⟩, h.2.symm⟩
      · simp only [hs, if_false] at h
        cases hfind : (m.tree t).find key with
        | none => simp [hfind] at h
        | some p =>
          simp only [hfind, Option.some.injEq, Prod.mk.injEq] at h
          exact ⟨h.1.symm, rfl, m, Or.inl ⟨hs, rfl⟩, ⟨p, hfind⟩, h.2.symm⟩

/-! ## Steps of the lookups -/

theorem Frame.refl_frame (m : FlowMgmtManager) : Frame m m [] :=
  ⟨rfl, fun _ => rfl, rfl, by simp, fun _ hp => Or.inl hp⟩

theorem Frame.trans_frame {m m1 m2 : FlowMgmtManager} {r1 r2 : List FlowMgmtResponse}
    (h1 : Frame m m1 r1) (h2 : Frame m1 m2 r2) : Frame m m2 (r1 ++ r2) := by
  refine ⟨h2.flow_tree.trans h1.flow_tree, fun t => (h2.lpm t).trans (h1.lpm t),
    h2.request_queue.trans h1.request_queue, ?_, ?_⟩
  · rw [h2.response_queue, h1.response_queue, List.append_assoc]
  · intro p hp
    rcases h2.id_map p hp with h | h
    · exact h1.id_map p h
    · exact Or.inr h

theorem Frame.setTree (m : FlowMgmtManager) (t : TreeId) (tr : Tree) :
    Frame m (m.setTree t tr) [] :=
  ⟨by simp, fun _ => by simp, by simp, by simp, fun _ hp => Or.inl (by simpa using hp)⟩

theorem Frame.FindFlowEntryInfo {m m' : FlowMgmtManager} {r : List FlowMgmtResponse}
    (h : Frame m m' r) (f : Nat) : m'.FindFlowEntryInfo f = m.FindFlowEntryInfo f := by
  unfold FlowMgmtManager.FindFlowEntryInfo
  rw [h.flow_tree]

theorem FindStep.same_findStep (m : FlowMgmtManager) (t : TreeId) (key : FlowMgmtKey) :
    FindStep m m t key ((m.tree t).find key) := by
  intro t' k'
  by_cases hc : t' = t ∧ SameKey key k' = true
  · rw [if_pos hc, hc.1]
    exact (Tree.find_congr _ hc.2).symm
  · rw [if_neg hc]

theorem FindStep.of_tree_eq_findStep {m m1 m2 : FlowMgmtManager} {t : TreeId} {key : FlowMgmtKey}
    {new : Option (FlowMgmtKey × FlowMgmtEntry)} (h : FindStep m m1 t key new)
    (heq : ∀ t', m2.tree t' = m1.tree t') : FindStep m m2 t key new := by
  intro t' k'
  rw [heq t']
  exact h t' k'

theorem FindStep.of_tree_eq_left {m0 m m2 : FlowMgmtManager} {t : TreeId} {key : FlowMgmtKey}
    {new : Option (FlowMgmtKey × FlowMgmtEntry)} (h : FindStep m m2 t key new)
    (heq : ∀ t', m.tree t' = m0.tree t') : FindStep m0 m2 t key new := by
  intro t' k'
  rw [← heq t']
  exact h t' k'

theorem FindStep.unchanged {m m' : FlowMgmtManager} (t : TreeId) (key : FlowMgmtKey)
    (heq : ∀ t', m'.tree t' = m.tree t') : FindStep m m' t key ((m.tree t).find key) :=
  (FindStep.same_findStep m t key).of_tree_eq_findStep heq

/-- Two steps at the same key of the same index make one step. -/
theorem FindStep.trans_findStep {m m1 m2 : FlowMgmtManager} {t : TreeId} {key : FlowMgmtKey}
    {n1 n2 : Option (FlowMgmtKey × FlowMgmtEntry)} (h1 : FindStep m m1 t key n1)
    (h2 : FindStep m1 m2 t key n2) : FindStep m m2 t key n2 := by
  intro t' k'
  rw [h2 t' k']
  by_cases hc : t' = t ∧ SameKey key k' = true
  · rw [if_pos hc, if_pos hc]
  · rw [if_neg hc, if_neg hc, h1 t' k', if_neg hc]

theorem FindStep.at_key {m m' : FlowMgmtManager} {t : TreeId} {key : FlowMgmtKey}
    {new : Option (FlowMgmtKey × FlowMgmtEntry)} (h : FindStep m m' t key new) :
    (m'.tree t).find key = new := by
  rw [h t key, if_pos ⟨rfl, sameKey_refl key⟩]

theorem FindStep.setEntry (m : FlowMgmtManager) (t : TreeId) (key : FlowMgmtKey)
    (e' : FlowMgmtEntry) :
    FindStep m (m.setTree t ((m.tree t).setEntry key e')) t key
      (((m.tree t).find key).map (fun p => (p.1, e'))) := by
  intro t' k'
  by_cases ht : t' = t
  · subst ht
    rw [tree_setTree_same, Tree.find_setEntry]
    by_cases hs : SameKey key k' = true
    · rw [if_pos hs, if_pos ⟨rfl, hs⟩, Tree.find_congr _ hs]
    · rw [if_neg hs, if_neg (fun hc => hs hc.2)]
  · rw [tree_setTree_ne _ _ ht, if_neg (fun hc => ht hc.1)]

theorem FindStep.setEntry_of {m m2 : FlowMgmtManager} {t : TreeId} {key k1 : FlowMgmtKey}
    {e : FlowMgmtEntry} (hf : (m.tree t).find key = some (k1, e))
    (heq : ∀ t', m2.tree t' = m.tree t') (e' : FlowMgmtEntry) :
    FindStep m (m2.setTree t ((m2.tree t).setEntry key e')) t key (some (k1, e')) := by
  intro t' k'
  by_cases ht : t' = t
  · subst ht
    rw [tree_setTree_same, heq, Tree.find_setEntry]
    by_cases hs : SameKey key k' = true
    · rw [if_pos hs, if_pos ⟨rfl, hs⟩, ← Tree.find_congr _ hs, hf]
      rfl
    · rw [if_neg hs, if_neg (fun hc => hs hc.2)]
  · rw [tree_setTree_ne _ _ ht, if_neg (fun hc => ht hc.1), heq]

theorem FindStep.insert (m : FlowMgmtManager) (t : TreeId) (key : FlowMgmtKey)
    (e : FlowMgmtEntry) (hnone : (m.tree t).find key = none) :
    FindStep m (m.setTree t ((m.tree t).insert key e)) t key (some (key, e)) := by
  intro t' k'
  by_cases ht : t' = t
  · subst ht
    rw [tree_setTree_same, Tree.find_insert _ _ _ _ hnone]
    by_cases hs : SameKey key k' = true
    · rw [if_pos hs, if_pos ⟨rfl, hs⟩]
    · rw [if_neg hs, if_neg (fun hc => hs hc.2)]
  · rw [tree_setTree_ne _ _ ht, if_neg (fun hc => ht hc.1)]

theorem FindStep.erase (m : FlowMgmtManager) (t : TreeId) (key : FlowMgmtKey) :
    FindStep m (m.setTree t ((m.tree t).erase key)) t key none := by
  intro t' k'
  by_cases ht : t' = t
  · subst ht
    rw [tree_setTree_same, Tree.find_erase]
    by_cases hs : SameKey key k' = true
    · rw [if_pos hs, if_pos ⟨rfl, hs⟩]
    · rw [if_neg hs, if_neg (fun hc => hs hc.2)]
  · rw [tree_setTree_ne _ _ ht, if_neg (fun hc => ht hc.1)]

theorem FindStep.congr_key {m m' : FlowMgmtManager} {t : TreeId} {key key' : FlowMgmtKey}
    {new : Option (FlowMgmtKey × FlowMgmtEntry)} (h : FindStep m m' t key new)
    (hs : SameKey key key' = true) : FindStep m m' t key' new := by
  intro t' k'
  rw [h t' k', sameKey_congr_left hs k']

/-- A property of all answers survives a step whose new answer has it. -/
theorem FindAll.step_findAll {P : TreeId → FlowMgmtKey → FlowMgmtEntry → Prop}
    {m m' : FlowMgmtManager} {t : TreeId} {key : FlowMgmtKey}
    {new : Option (FlowMgmtKey × FlowMgmtEntry)} (hP : FindAll P m)
    (hstep : FindStep m m' t key new) (hnew : ∀ p, new = some p → P t p.1 p.2) :
    FindAll P m' := by
  intro t' k' p hp
  rw [hstep t' k'] at hp
  by_cases hc : t' = t ∧ SameKey key k' = true
  · rw [if_pos hc] at hp
    rw [hc.1]
    exact hnew p hp
  · rw [if_neg hc] at hp
    exact hP t' k' p hp

theorem FindAll.of_tree_eq_findAll {P : TreeId → FlowMgmtKey → FlowMgmtEntry → Prop}
    {m m' : FlowMgmtManager} (hP : FindAll P m) (heq : ∀ t', m'.tree t' = m.tree t') :
    FindAll P m' := by
  intro t' k' p hp
  rw [heq t'] at hp
  exact hP t' k' p hp

/-! ## Steps of the generic index operations -/

theorem Located.same_located {h : Hdr} {m : FlowMgmtManager} {t : TreeId} {key k1 : FlowMgmtKey}
    {e : FlowMgmtEntry} (hl : Located h m t key k1 e) : SameKey k1 key = true := by
  rcases hl with hf | ⟨_, hk, _⟩
  · exact Tree.find_some_same hf
  · rw [hk]
    exact sameKey_refl key

theorem FlowMgmtTree.Locate_step {h : Hdr} {m m1 : FlowMgmtManager} {t : TreeId}
    {key : FlowMgmtKey} {e : FlowMgmtEntry} (hl : FlowMgmtTree.Locate h m t key = some (e, m1)) :
    ∃ k1, Located h m t key k1 e ∧ FindStep m m1 t key (some (k1, e)) ∧ Frame m m1 [] ∧
      m1.id_map_ = m.id_map_ := by
  unfold FlowMgmtTree.Locate FlowMgmtTree.Find at hl
  cases hf : (m.tree t).find key with
  | some p =>
    simp only [hf, Option.some.injEq, Prod.mk.injEq] at hl
    obtain ⟨he, hm⟩ := hl
    subst hm
    refine ⟨p.1, Or.inl ?_, ?_, Frame.refl_frame m, rfl⟩
    · rw [← he]
      exact hf
    · have := FindStep.same_findStep m t key
      rw [hf] at this
      rw [← he]
      exact this
  | none =>
    simp only [hf] at hl
    cases ha : FlowMgmtTree.Allocate h t key with
    | none => simp [ha] at hl
    | some e0 =>
      simp only [ha, Option.some.injEq, Prod.mk.injEq] at hl
      obtain ⟨he, hm⟩ := hl
      subst hm
      subst he
      exact ⟨key, Or.inr ⟨hf, rfl, ha⟩, FindStep.insert m t key e0 hf, Frame.setTree _ _ _,
        by simp⟩

theorem FlowMgmtTree.Add_step {h : Hdr} {m m' : FlowMgmtManager} {t : TreeId}
    {key : FlowMgmtKey} {flow : Nat} {b : Bool}
    (ha : FlowMgmtTree.Add h m t key flow = some (b, m')) :
    ∃ k1 e, Located h m t key k1 e ∧ b = (e.Add flow).1 ∧
      FindStep m m' t key (some (k1, (e.Add flow).2)) ∧ Frame m m' [] ∧
      m'.id_map_ = m.id_map_ := by
  unfold FlowMgmtTree.Add at ha
  cases hl : FlowMgmtTree.Locate h m t key with
  | none => simp [hl] at ha
  | some r =>
    obtain ⟨e, m1⟩ := r
    simp only [hl, Option.some.injEq, Prod.mk.injEq] at ha
    obtain ⟨hb, hm⟩ := ha
    obtain ⟨k1, hloc, hstep, hframe, hid⟩ := FlowMgmtTree.Locate_step hl
    refine ⟨k1, e, hloc, hb.symm, ?_, ?_, ?_⟩
    · have h2 := FindStep.setEntry m1 t key (e.Add flow).2
      rw [hstep.at_key] at h2
      rw [← hm]
      exact hstep.trans_findStep h2
    · rw [← hm]
      simpa using hframe.trans_frame (Frame.setTree m1 t _)
    · rw [← hm]
      simpa using hid

theorem FlowMgmtTree.TryDelete_step {m m' : FlowMgmtManager} {t : TreeId} {key : FlowMgmtKey}
    {entry : FlowMgmtEntry} {b : Bool}
    (h : FlowMgmtTree.TryDelete m t key entry = some (b, m')) :
    (b = false ∧ m' = m ∧ Entry.CanDelete m t entry = some false) ∨
    (b = true ∧ Entry.CanDelete m t entry = some true ∧ FindStep m m' t key none ∧
      Frame m m' (tryDeleteResponses key entry) ∧
      (entry.oper_state_ = .OPER_DEL_SEEN → ∃ d, key.db_entry_ = some d) ∧
      (t ≠ .vrf → m'.id_map_ = m.id_map_)) := by
  rcases FlowMgmtTree.TryDelete_some h with h1 | ⟨hb, hc, m1, hm1, _, hm'⟩
  · exact Or.inl h1
  · right
    refine ⟨hb, hc, ?_, ?_, ?_, ?_⟩
    · rcases hm1 with ⟨_, rfl⟩ | ⟨_, hf⟩
      · rw [hm']
        exact FindStep.erase m1 t key
      · obtain ⟨_, htree, _⟩ := Virtual.FreeNotify_some_virtual hf
        rw [hm']
        exact (FindStep.erase m1 t key).of_tree_eq_left htree
    · rcases hm1 with ⟨hs, rfl⟩ | ⟨hs, hf⟩
      · rw [hm']
        unfold tryDeleteResponses
        rw [if_neg hs]
        exact Frame.setTree _ _ _
      · obtain ⟨_, htree, hft, hlpm, hrq, hresp, hid, _⟩ := Virtual.FreeNotify_some_virtual hf
        rw [hm']
        unfold tryDeleteResponses
        rw [if_pos hs]
        have hfr : Frame m m1 (freeResponses key entry.gen_id_) :=
          ⟨hft, hlpm, hrq, hresp, fun p hp => Or.inl (hid p hp)⟩
        simpa using hfr.trans_frame (Frame.setTree m1 t _)
    · intro hs
      rcases hm1 with ⟨hs', _⟩ | ⟨_, hf⟩
      · exact absurd hs hs'
      · exact (Virtual.FreeNotify_some_virtual hf).1
    · intro ht
      rcases hm1 with ⟨_, rfl⟩ | ⟨_, hf⟩
      · rw [hm']
        simp
      · obtain ⟨_, _, _, _, _, _, _, hid⟩ := Virtual.FreeNotify_some_virtual hf
        rw [hm']
        simpa using hid ht

theorem Entry.CanDelete_setTree (m : FlowMgmtManager) (t t' : TreeId) (tr : Tree)
    (e : FlowMgmtEntry) (ht : t ≠ .vrf) :
    Entry.CanDelete (m.setTree t' tr) t e = e.CanDelete := by
  cases t <;> first | rfl | exact absurd rfl ht

theorem Entry.CanDelete_of_ne_vrf (m : FlowMgmtManager) (t : TreeId)
    (e : FlowMgmtEntry) (ht : t ≠ .vrf) : Entry.CanDelete m t e = e.CanDelete := by
  cases t <;> first | rfl | exact absurd rfl ht

/-- The outcomes of the base `Delete`: no entry and nothing done; the entry
kept without the flow; or the entry erased. -/
theorem FlowMgmtTree.Delete_step {m m' : FlowMgmtManager} {t : TreeId} {key : FlowMgmtKey}
    {flow : Nat} {b : Bool} (h : FlowMgmtTree.Delete m t key flow = some (b, m')) :
    ((m.tree t).find key = none ∧ m' = m) ∨
    ∃ k1 e, (m.tree t).find key = some (k1, e) ∧
      ((Entry.CanDelete (m.setTree t ((m.tree t).setEntry key (e.Delete flow).2)) t
            (e.Delete flow).2 = some false ∧
          FindStep m m' t key (some (k1, (e.Delete flow).2)) ∧ Frame m m' [] ∧
          m'.id_map_ = m.id_map_) ∨
       (Entry.CanDelete (m.setTree t ((m.tree t).setEntry key (e.Delete flow).2)) t
            (e.Delete flow).2 = some true ∧
          FindStep m m' t key none ∧
          Frame m m' (tryDeleteResponses k1 (e.Delete flow).2) ∧
          ((e.Delete flow).2.oper_state_ = .OPER_DEL_SEEN → ∃ d, k1.db_entry_ = some d) ∧
          (t ≠ .vrf → m'.id_map_ = m.id_map_))) := by
  unfold FlowMgmtTree.Delete FlowMgmtTree.Find at h
  cases hf : (m.tree t).find key with
  | none =>
    simp only [hf, Option.some.injEq, Prod.mk.injEq] at h
    exact Or.inl ⟨rfl, h.2.symm⟩
  | some p =>
    obtain ⟨k1, e⟩ := p
    right
    refine ⟨k1, e, rfl, ?_⟩
    simp only [hf] at h
    cases htd : FlowMgmtTree.TryDelete (m.setTree t ((m.tree t).setEntry key (e.Delete flow).2))
        t k1 (e.Delete flow).2 with
    | none => simp [htd] at h
    | some r =>
      obtain ⟨b2, m2⟩ := r
      simp only [htd, Option.some.injEq, Prod.mk.injEq] at h
      obtain ⟨_, hm⟩ := h
      subst hm
      have hse := FindStep.setEntry m t key (e.Delete flow).2
      rw [hf] at hse
      have hk1 : SameKey k1 key = true := Tree.find_some_same hf
      rcases FlowMgmtTree.TryDelete_step htd with ⟨_, hm2, hc⟩ | ⟨_, hc, hstep, hframe, hdb, hid⟩
      · left
        subst hm2
        exact ⟨hc, hse, Frame.setTree _ _ _, by simp⟩
      · right
        refine ⟨hc, hse.trans_findStep (hstep.congr_key hk1), ?_, hdb, ?_⟩
        · simpa using (Frame.setTree m t _).trans_frame hframe
        · intro ht
          simpa using hid ht

theorem FlowMgmtTree.RetryDelete_step_base {m m' : FlowMgmtManager} {t : TreeId}
    {key : FlowMgmtKey} {b : Bool} (h : FlowMgmtTree.RetryDelete m t key = some (b, m')) :
    m' = m ∨
    ∃ k1 e, (m.tree t).find key = some (k1, e) ∧ Entry.CanDelete m t e = some true ∧
      FindStep m m' t key none ∧ Frame m m' (tryDeleteResponses key e) ∧
      (e.oper_state_ = .OPER_DEL_SEEN → ∃ d, key.db_entry_ = some d) := by
  unfold FlowMgmtTree.RetryDelete FlowMgmtTree.Find at h
  cases hf : (m.tree t).find key with
  | none =>
    simp only [hf, Option.some.injEq, Prod.mk.injEq] at h
    exact Or.inl h.2.symm
  | some p =>
    obtain ⟨k1, e⟩ := p
    simp only [hf] at h
    rcases FlowMgmtTree.TryDelete_step h with ⟨_, hm, _⟩ | ⟨_, hc, hstep, hframe, hdb, _⟩
    · exact Or.inl hm
    · exact Or.inr ⟨k1, e, rfl, hc, hstep, hframe, hdb⟩

/-! ## Steps of the object events -/

theorem enqueueForFlows_tree (m : FlowMgmtManager) (resp : FlowMgmtResponse) (flows : List Nat)
    (t : TreeId) : (enqueueForFlows m resp flows).tree t = m.tree t := by
  unfold enqueueForFlows
  induction flows generalizing m with
  | nil => rfl
  | cons f fs ih =>
    rw [List.foldl_cons, ih]
    simp

theorem enqueueForFlows_frame (m : FlowMgmtManager) (resp : FlowMgmtResponse)
    (flows : List Nat) :
    Frame m (enqueueForFlows m resp flows)
      (List.map (fun f => ({ resp with flow := some f } : FlowMgmtResponse)) flows) ∧
    (enqueueForFlows m resp flows).id_map_ = m.id_map_ := by
  unfold enqueueForFlows
  induction flows generalizing m with
  | nil => exact ⟨Frame.refl_frame m, rfl⟩
  | cons f fs ih =>
    rw [List.foldl_cons]
    obtain ⟨h1, h2⟩ := ih (m.ResponseEnqueue { resp with flow := some f })
    constructor
    · have h0 : Frame m (m.ResponseEnqueue { resp with flow := some f })
          [{ resp with flow := some f }] :=
        ⟨rfl, fun _ => by simp, rfl, rfl, fun _ hp => Or.inl hp⟩
      exact h0.trans_frame h1
    · rw [h2]
      rfl

theorem FlowMgmtEntry.OperEntryAdd_eq (e : FlowMgmtEntry) (m : FlowMgmtManager)
    (req : FlowMgmtRequest) (key : FlowMgmtKey) :
    (e.OperEntryAdd m req key).2.1 = e.addSeen ∧
    (∀ t, (e.OperEntryAdd m req key).2.2.tree t = m.tree t) ∧
    Frame m (e.OperEntryAdd m req key).2.2 (operResponses req key e.tree_) ∧
    (e.OperEntryAdd m req key).2.2.id_map_ = m.id_map_ := by
  by_cases hev : req.GetResponseEvent = .INVALID
  · have h1 : e.OperEntryAdd m req key =
        (false, e.addSeen, m) := by
      unfold FlowMgmtEntry.OperEntryAdd
      simp only [hev, if_true]
      rfl
    rw [h1]
    unfold operResponses
    rw [if_pos hev]
    exact ⟨rfl, fun _ => rfl, Frame.refl_frame m, rfl⟩
  · have h1 : e.OperEntryAdd m req key =
        (true, e.addSeen,
          enqueueForFlows m ⟨req.GetResponseEvent, none, key.db_entry_, 0⟩ e.tree_) := by
      unfold FlowMgmtEntry.OperEntryAdd FlowMgmtKey.KeyToFlowRequest
      simp only [hev, if_false]
      rfl
    rw [h1]
    unfold operResponses
    rw [if_neg hev]
    exact ⟨rfl, fun t => enqueueForFlows_tree _ _ _ t, (enqueueForFlows_frame _ _ _).1,
      (enqueueForFlows_frame _ _ _).2⟩

theorem FlowMgmtEntry.OperEntryDelete_eq (e : FlowMgmtEntry) (m : FlowMgmtManager)
    (req : FlowMgmtRequest) (key : FlowMgmtKey) :
    (e.OperEntryDelete m req key).2.1 =
      (e.delSeen req.gen_id) ∧
    (∀ t, (e.OperEntryDelete m req key).2.2.tree t = m.tree t) ∧
    Frame m (e.OperEntryDelete m req key).2.2 (operResponses req key e.tree_) ∧
    (e.OperEntryDelete m req key).2.2.id_map_ = m.id_map_ := by
  by_cases hev : req.GetResponseEvent = .INVALID
  · have h1 : e.OperEntryDelete m req key =
        (false, (e.delSeen req.gen_id), m) := by
      unfold FlowMgmtEntry.OperEntryDelete
      simp only [hev, if_true]
      rfl
    rw [h1]
    unfold operResponses
    rw [if_pos hev]
    exact ⟨rfl, fun _ => rfl, Frame.refl_frame m, rfl⟩
  · have h1 : e.OperEntryDelete m req key =
        (true, (e.delSeen req.gen_id),
          enqueueForFlows m ⟨req.GetResponseEvent, none, key.db_entry_, 0⟩ e.tree_) := by
      unfold FlowMgmtEntry.OperEntryDelete FlowMgmtKey.KeyToFlowRequest
      simp only [hev, if_false]
      rfl
    rw [h1]
    unfold operResponses
    rw [if_neg hev]
    exact ⟨rfl, fun t => enqueueForFlows_tree _ _ _ t, (enqueueForFlows_frame _ _ _).1,
      (enqueueForFlows_frame _ _ _).2⟩

theorem FlowMgmtTree.OperEntryAdd_step {h : Hdr} {m m' : FlowMgmtManager} {t : TreeId}
    {req : FlowMgmtRequest} {key : FlowMgmtKey} {b : Bool}
    (ha : FlowMgmtTree.OperEntryAdd h m t req key = some (b, m')) :
    ∃ k1 e, Located h m t key k1 e ∧
      FindStep m m' t key (some (k1, e.addSeen)) ∧
      Frame m m' (operResponses req key e.tree_) ∧ m'.id_map_ = m.id_map_ := by
  unfold FlowMgmtTree.OperEntryAdd at ha
  cases hl : FlowMgmtTree.Locate h m t key with
  | none => simp [hl] at ha
  | some r =>
    obtain ⟨e, m1⟩ := r
    simp only [hl, Option.some.injEq, Prod.mk.injEq] at ha
    obtain ⟨_, hm⟩ := ha
    obtain ⟨k1, hloc, hstep, hframe, hid⟩ := FlowMgmtTree.Locate_step hl
    obtain ⟨he, htree, hfr, hid2⟩ := FlowMgmtEntry.OperEntryAdd_eq e m1 req key
    refine ⟨k1, e, hloc, ?_, ?_, ?_⟩
    · rw [← hm, he]
      exact hstep.trans_findStep (FindStep.setEntry_of hstep.at_key htree _)
    · rw [← hm]
      simpa using (hframe.trans_frame hfr).trans_frame (Frame.setTree _ t _)
    · rw [← hm]
      simp [hid2, hid]

theorem FlowMgmtTree.OperEntryChange_step {m m' : FlowMgmtManager} {t : TreeId}
    {req : FlowMgmtRequest} {key : FlowMgmtKey} {b : Bool}
    (ha : FlowMgmtTree.OperEntryChange m t req key = some (b, m')) :
    ((m.tree t).find key = none ∧ m' = m) ∨
    ∃ k1 e, (m.tree t).find key = some (k1, e) ∧
      FindStep m m' t key (some (k1, e.addSeen)) ∧
      Frame m m' (operResponses req key e.tree_) ∧ m'.id_map_ = m.id_map_ := by
  unfold FlowMgmtTree.OperEntryChange FlowMgmtTree.Find at ha
  cases hf : (m.tree t).find key with
  | none =>
    simp only [hf, Option.some.injEq, Prod.mk.injEq] at ha
    exact Or.inl ⟨rfl, ha.2.symm⟩
  | some p =>
    obtain ⟨k1, e⟩ := p
    right
    simp only [hf, Option.some.injEq, Prod.mk.injEq, FlowMgmtEntry.OperEntryChange] at ha
    obtain ⟨_, hm⟩ := ha
    obtain ⟨he, htree, hfr, hid2⟩ := FlowMgmtEntry.OperEntryAdd_eq e m req key
    refine ⟨k1, e, rfl, ?_, ?_, ?_⟩
    · rw [← hm, he]
      exact FindStep.setEntry_of hf htree _
    · rw [← hm]
      simpa using hfr.trans_frame (Frame.setTree _ t _)
    · rw [← hm]
      simp [hid2]

/-- The outcomes of the base `OperEntryDelete`: no entry and a free notification
at once; the entry kept in state `OPER_DEL_SEEN`; or the entry erased. -/
theorem FlowMgmtTree.OperEntryDelete_step {m m' : FlowMgmtManager} {t : TreeId}
    {req : FlowMgmtRequest} {key : FlowMgmtKey} {b : Bool}
    (ha : FlowMgmtTree.OperEntryDelete m t req key = some (b, m')) :
    ((m.tree t).find key = none ∧ (∀ t', m'.tree t' = m.tree t') ∧
      Frame m m' (freeResponses key req.gen_id) ∧ (∃ d, key.db_entry_ = some d) ∧
      (t ≠ .vrf → m'.id_map_ = m.id_map_)) ∨
    ∃ k1 e m1, (m.tree t).find key = some (k1, e) ∧ (∀ t', t' ≠ t → m1.tree t' = m.tree t') ∧
      ((Entry.CanDelete m1 t (e.delSeen req.gen_id)
            = some false ∧
          FindStep m m' t key
            (some (k1, (e.delSeen req.gen_id))) ∧
          Frame m m' (operResponses req key e.tree_) ∧ m'.id_map_ = m.id_map_) ∨
       (Entry.CanDelete m1 t (e.delSeen req.gen_id)
            = some true ∧
          FindStep m m' t key none ∧
          Frame m m' (operResponses req key e.tree_ ++ freeResponses key req.gen_id) ∧
          (∃ d, key.db_entry_ = some d) ∧ (t ≠ .vrf → m'.id_map_ = m.id_map_))) := by
  unfold FlowMgmtTree.OperEntryDelete FlowMgmtTree.Find at ha
  cases hf : (m.tree t).find key with
  | none =>
    left
    simp only [hf] at ha
    cases hn : Virtual.FreeNotify m t key req.gen_id with
    | none => simp [hn] at ha
    | some m1 =>
      simp only [hn, Option.some.injEq, Prod.mk.injEq] at ha
      obtain ⟨_, hm⟩ := ha
      subst hm
      obtain ⟨hd, htree, hft, hlpm, hrq, hresp, hid, hid2⟩ := Virtual.FreeNotify_some_virtual hn
      exact ⟨rfl, htree, ⟨hft, hlpm, hrq, hresp, fun p hp => Or.inl (hid p hp)⟩, hd, hid2⟩
  | some p =>
    obtain ⟨k1, e⟩ := p
    right
    simp only [hf] at ha
    obtain ⟨he, htree, hfr, hid2⟩ := FlowMgmtEntry.OperEntryDelete_eq e m req key
    rw [he] at ha
    have hse := FindStep.setEntry_of hf htree (e.delSeen req.gen_id)
    change FlowMgmtTree.TryDelete ((e.OperEntryDelete m req key).2.2.setTree t
      (((e.OperEntryDelete m req key).2.2.tree t).setEntry key (e.delSeen req.gen_id))) t key
      (e.delSeen req.gen_id) = some (b, m') at ha
    refine ⟨k1, e, (e.OperEntryDelete m req key).2.2.setTree t
      (((e.OperEntryDelete m req key).2.2.tree t).setEntry key (e.delSeen req.gen_id)),
      rfl, ?_, ?_⟩
    rotate_left
    · rcases FlowMgmtTree.TryDelete_step ha with ⟨_, hm2, hc⟩ | ⟨_, hc, hstep, hframe, hdb, hid⟩
      · left
        refine ⟨hc, ?_, ?_, ?_⟩
        · rw [hm2]
          exact hse
        · rw [hm2]
          simpa using hfr.trans_frame (Frame.setTree _ t _)
        · rw [hm2]
          simp [hid2]
      · right
        refine ⟨hc, hse.trans_findStep hstep, ?_, hdb rfl, ?_⟩
        · have h4 := (hfr.trans_frame (Frame.setTree _ t _)).trans_frame hframe
          simpa [tryDeleteResponses] using h4
        · intro ht
          rw [hid ht]
          simp [hid2]
    · intro t' ht'
      simp [ht', htree t']

/-! ## Steps of the route and VRF indexes -/

theorem VrfFlowMgmtTree.RetryDelete_step_vrf {m m' : FlowMgmtManager} {vrf_id : Nat}
    (h : VrfFlowMgmtTree.RetryDelete m vrf_id = some m') :
    m' = m ∨
    ∃ vrf k1 e, (vrf_id, vrf) ∈ m.id_map_ ∧
      (m.tree .vrf).find (VrfFlowMgmtKey (some vrf)) = some (k1, e) ∧
      Entry.CanDelete m .vrf e = some true ∧
      FindStep m m' .vrf (VrfFlowMgmtKey (some vrf)) none ∧
      Frame m m' (tryDeleteResponses (VrfFlowMgmtKey (some vrf)) e) := by
  unfold VrfFlowMgmtTree.RetryDelete at h
  cases hf : List.find? (fun p => p.1 == vrf_id) m.id_map_ with
  | none =>
    simp only [hf, Option.some.injEq] at h
    exact Or.inl h.symm
  | some p =>
    obtain ⟨v, vrf⟩ := p
    simp only [hf] at h
    cases hr : FlowMgmtTree.RetryDelete m .vrf (VrfFlowMgmtKey (some vrf)) with
    | none => simp [hr] at h
    | some r =>
      obtain ⟨b, m2⟩ := r
      simp only [hr, Option.some.injEq] at h
      subst h
      rcases FlowMgmtTree.RetryDelete_step_base hr with hm | ⟨k1, e, hfind, hc, hstep, hframe, _⟩
      · exact Or.inl hm
      · right
        have hmem := List.mem_of_find?_eq_some hf
        have hv : v = vrf_id := by
          have := List.find?_some hf
          simpa using this
        rw [hv] at hmem
        exact ⟨vrf, k1, e, hmem, hfind, hc, hstep, hframe⟩

theorem rank_set_db_entry (k : FlowMgmtKey) (d : Option DBEntry)
    (hty : k.type_ = .INET4 ∨ k.type_ = .INET6 ∨ k.type_ = .BRIDGE) :
    ({ k with db_entry_ := d } : FlowMgmtKey).rank = k.rank := by
  unfold FlowMgmtKey.rank FlowMgmtKey.disc
  rcases hty with h | h | h <;> simp [h]

theorem sameKey_set_db_entry (k : FlowMgmtKey) (d : Option DBEntry)
    (hty : k.type_ = .INET4 ∨ k.type_ = .INET6 ∨ k.type_ = .BRIDGE) :
    SameKey { k with db_entry_ := d } k = true :=
  sameKey_iff.2 (rank_set_db_entry k d hty)

theorem Tree.find_set_db_entry (t : Tree) (k : FlowMgmtKey) (d : Option DBEntry)
    (k' : FlowMgmtKey) (hty : k.type_ = .INET4 ∨ k.type_ = .INET6 ∨ k.type_ = .BRIDGE) :
    (t.set_db_entry k d).find k' =
      if SameKey k k' = true then
        (t.find k').map (fun p => ({ p.1 with db_entry_ := d }, p.2))
      else t.find k' := by
  unfold Tree.set_db_entry Tree.find
  induction t with
  | nil => simp
  | cons q qs ih =>
    by_cases hq : SameKey q.1 k = true
    · have hqty : q.1.type_ = .INET4 ∨ q.1.type_ = .INET6 ∨ q.1.type_ = .BRIDGE := by
        rw [sameKey_type hq]
        exact hty
      have hq' : SameKey { q.1 with db_entry_ := d } k' = SameKey q.1 k' :=
        sameKey_congr_left (sameKey_set_db_entry q.1 d hqty) k'
      by_cases hs : SameKey k k' = true
      · rw [if_pos hs] at ih ⊢
        have h1 : SameKey q.1 k' = true := sameKey_trans hq hs
        simp only [List.map_cons, hq, if_true, List.find?_cons, hq', h1, Option.map_some']
      · rw [if_neg hs] at ih ⊢
        have h1 : SameKey q.1 k' = false := by
          cases hqk : SameKey q.1 k' with
          | false => rfl
          | true => exact absurd (sameKey_trans (sameKey_symm hq) hqk) hs
        simp only [List.map_cons, hq, if_true, List.find?_cons, hq', h1]
        exact ih
    · have hq2 : SameKey q.1 k = false := by simpa using hq
      simp only [List.map_cons, hq2, Bool.false_eq_true, if_false, List.find?_cons]
      by_cases hs : SameKey k k' = true
      · rw [if_pos hs] at ih ⊢
        have h1 : SameKey q.1 k' = false := by
          rw [← sameKey_congr_right hs q.1]
          exact hq2
        simp only [h1]
        exact ih
      · rw [if_neg hs] at ih ⊢
        cases hqk : SameKey q.1 k' with
        | false => exact ih
        | true => rfl

theorem FindStep.set_db_entry_findStep (m : FlowMgmtManager) (t : TreeId) (key : FlowMgmtKey)
    (d : Option DBEntry) (hty : key.type_ = .INET4 ∨ key.type_ = .INET6 ∨ key.type_ = .BRIDGE) :
    FindStep m (m.setTree t ((m.tree t).set_db_entry key d)) t key
      (((m.tree t).find key).map (fun p => ({ p.1 with db_entry_ := d }, p.2))) := by
  intro t' k'
  by_cases ht : t' = t
  · subst ht
    rw [tree_setTree_same, Tree.find_set_db_entry _ _ _ _ hty]
    by_cases hs : SameKey key k' = true
    · rw [if_pos hs, if_pos ⟨rfl, hs⟩, Tree.find_congr _ hs]
    · rw [if_neg hs, if_neg (fun hc => hs hc.2)]
  · rw [tree_setTree_ne _ _ ht, if_neg (fun hc => ht hc.1)]

/-- The function `RouteFlowMgmtTree::OperEntryAdd` is the base function followed,
when the request has a DB entry, by its attachment to the stored key. -/
theorem RouteFlowMgmtTree.OperEntryAdd_some {h : Hdr} {m m' : FlowMgmtManager} {t : TreeId}
    {req : FlowMgmtRequest} {key : FlowMgmtKey} {b : Bool}
    (ha : RouteFlowMgmtTree.OperEntryAdd h m t req key = some (b, m')) :
    ∃ m1, FlowMgmtTree.OperEntryAdd h m t req key = some (b, m1) ∧
      ((req.db_entry = none ∧ m' = m1) ∨
       ∃ d, req.db_entry = some d ∧ m' = m1.setTree t ((m1.tree t).set_db_entry key (some d))) := by
  unfold RouteFlowMgmtTree.OperEntryAdd at ha
  cases hb : FlowMgmtTree.OperEntryAdd h m t req key with
  | none => simp [hb] at ha
  | some r =>
    obtain ⟨b1, m1⟩ := r
    simp only [hb] at ha
    cases hd : req.db_entry with
    | none =>
      simp only [hd, Option.some.injEq, Prod.mk.injEq] at ha
      obtain ⟨h1, h2⟩ := ha
      subst h1
      subst h2
      exact ⟨m1, rfl, Or.inl ⟨rfl, rfl⟩⟩
    | some d =>
      simp only [hd, Option.some.injEq, Prod.mk.injEq] at ha
      obtain ⟨h1, h2⟩ := ha
      subst h1
      subst h2
      exact ⟨m1, rfl, Or.inr ⟨d, rfl, rfl⟩⟩

/-! ## The index invariant is kept by every index operation -/

theorem DeletedAt.congr {reqs : List FlowMgmtRequest} {t : TreeId} {k k' : FlowMgmtKey}
    (h : DeletedAt reqs t k) (hs : SameKey k k' = true) : DeletedAt reqs t k' := by
  obtain ⟨q, hq, hev, d, K, hd, hK, hsame⟩ := h
  exact ⟨q, hq, hev, d, K, hd, hK, sameKey_trans hsame hs⟩

theorem DeletedAt.mono_deletedAt {reqs reqs' : List FlowMgmtRequest} {t : TreeId} {k : FlowMgmtKey}
    (h : DeletedAt reqs t k) (hsub : ∀ q, q ∈ reqs → q ∈ reqs') : DeletedAt reqs' t k := by
  obtain ⟨q, hq, rest⟩ := h
  exact ⟨q, hsub q hq, rest⟩

theorem TreeInv.mono_inv {reqs reqs' : List FlowMgmtRequest} {m : FlowMgmtManager}
    (h : TreeInv reqs m) (hsub : ∀ q, q ∈ reqs → q ∈ reqs') : TreeInv reqs' m := by
  refine ⟨?_, h.id_map, h.lpm, ?_⟩
  · intro t k p hp
    have := h.entries t k p hp
    exact ⟨this.no_flows, this.zombie, fun hs => (this.del_seen hs).mono_deletedAt hsub, this.key_db⟩
  · intro r hr hev
    obtain ⟨d, hd, K, t, hK, hdel⟩ := h.free r hr hev
    exact ⟨d, hd, K, t, hK, hdel.mono_deletedAt hsub⟩

/-- The invariant survives a step of the lookups whose new answer is a good
entry and whose responses are in order. -/
theorem TreeInv.step_inv {reqs : List FlowMgmtRequest} {m m' : FlowMgmtManager} {t : TreeId}
    {key : FlowMgmtKey} {new : Option (FlowMgmtKey × FlowMgmtEntry)}
    {resp : List FlowMgmtResponse} (h : TreeInv reqs m) (hstep : FindStep m m' t key new)
    (hframe : Frame m m' resp) (hnew : ∀ p, new = some p → GoodEntry reqs t p.1 p.2)
    (hresp : ∀ r, r ∈ resp → FreeOK reqs r) : TreeInv reqs m' := by
  refine ⟨h.entries.step_findAll hstep hnew, ?_, ?_, ?_⟩
  · intro p hp
    rcases hframe.id_map p hp with h1 | h1
    · exact h.id_map p h1
    · exact h1
  · intro t' k hk
    rw [hframe.lpm t'] at hk
    exact h.lpm t' k hk
  · intro r hr
    rw [hframe.response_queue, List.mem_append] at hr
    rcases hr with h1 | h1
    · exact h.free r h1
    · exact hresp r h1

theorem TreeInv.of_eq_inv {reqs : List FlowMgmtRequest} {m m' : FlowMgmtManager}
    (h : TreeInv reqs m) (htree : ∀ t, m'.tree t = m.tree t) (hid : m'.id_map_ = m.id_map_)
    (hlpm : ∀ t, m'.lpm t = m.lpm t) (hresp : m'.response_queue_ = m.response_queue_) :
    TreeInv reqs m' := by
  refine ⟨h.entries.of_tree_eq_findAll htree, ?_, ?_, ?_⟩
  · rw [hid]
    exact h.id_map
  · intro t k hk
    rw [hlpm t] at hk
    exact h.lpm t k hk
  · rw [hresp]
    exact h.free

theorem operResponses_not_free (req : FlowMgmtRequest) (key : FlowMgmtKey) (flows : List Nat)
    (reqs : List FlowMgmtRequest) : ∀ r, r ∈ operResponses req key flows → FreeOK reqs r := by
  intro r hr hev
  unfold operResponses at hr
  split at hr
  · simp at hr
  · simp only [List.mem_map] at hr
    obtain ⟨f, _, rfl⟩ := hr
    simp only at hev
    unfold FlowMgmtRequest.GetResponseEvent at hev
    split at hev <;> simp at hev

theorem freeResponses_ok {reqs : List FlowMgmtRequest} {t : TreeId} {key : FlowMgmtKey}
    (g : Nat) (hdb : KeyDBOK t key) (hdel : DeletedAt reqs t key) :
    ∀ r, r ∈ freeResponses key g → FreeOK reqs r := by
  intro r hr _
  unfold freeResponses at hr
  cases hd : key.db_entry_ with
  | none => simp [hd] at hr
  | some d =>
    simp only [hd] at hr
    split at hr
    · simp at hr
    · simp only [List.mem_singleton] at hr
      obtain ⟨K, hK, hs⟩ := hdb d hd
      rw [hr]
      exact ⟨d, rfl, K, t, hK, hdel.congr (sameKey_symm hs)⟩

theorem tryDeleteResponses_ok {reqs : List FlowMgmtRequest} {t : TreeId} {key : FlowMgmtKey}
    {e : FlowMgmtEntry} (hdb : KeyDBOK t key)
    (hdel : e.oper_state_ = .OPER_DEL_SEEN → DeletedAt reqs t key) :
    ∀ r, r ∈ tryDeleteResponses key e → FreeOK reqs r := by
  intro r hr
  unfold tryDeleteResponses at hr
  split at hr
  · rename_i hs
    exact freeResponses_ok _ hdb (hdel hs) r hr
  · simp at hr

theorem FlowMgmtEntry.CanDelete_false_entry {e : FlowMgmtEntry} (h : e.CanDelete = some false) :
    e.tree_ ≠ [] ∨ e.oper_state_ = .OPER_ADD_SEEN := by
  unfold FlowMgmtEntry.CanDelete at h
  split at h
  · simp at h
  · split at h
    · rename_i hl
      left
      intro hnil
      rw [hnil] at hl
      exact hl rfl
    · right
      simpa using h

theorem FlowMgmtEntry.CanDelete_true_entry {e : FlowMgmtEntry} (h : e.CanDelete = some true) :
    e.tree_ = [] ∧ e.oper_state_ ≠ .OPER_ADD_SEEN ∧ e.oper_state_ ≠ .INVALID := by
  unfold FlowMgmtEntry.CanDelete at h
  split at h
  · simp at h
  · rename_i hinv
    split at h
    · simp at h
    · rename_i hl
      refine ⟨?_, by simpa using h, hinv⟩
      have : e.tree_.length = 0 := by simpa using hl
      exact List.length_eq_zero.1 this

theorem Entry.CanDelete_true_dispatch {m : FlowMgmtManager} {t : TreeId} {e : FlowMgmtEntry}
    (h : Entry.CanDelete m t e = some true) :
    e.tree_ = [] ∧ e.oper_state_ ≠ .OPER_ADD_SEEN ∧ e.oper_state_ ≠ .INVALID := by
  by_cases ht : t = .vrf
  · subst ht
    simp only [Entry.CanDelete] at h
    unfold VrfFlowMgmtEntry.CanDelete at h
    cases hb : e.CanDelete with
    | none => simp [hb] at h
    | some c =>
      cases c with
      | false => simp [hb] at h
      | true => exact FlowMgmtEntry.CanDelete_true_entry hb
  · rw [Entry.CanDelete_of_ne_vrf m t e ht] at h
    exact FlowMgmtEntry.CanDelete_true_entry h

theorem Entry.CanDelete_false_dispatch {m : FlowMgmtManager} {t : TreeId} {e : FlowMgmtEntry}
    (h : Entry.CanDelete m t e = some false) (ht : t ≠ .vrf) :
    e.tree_ ≠ [] ∨ e.oper_state_ = .OPER_ADD_SEEN := by
  rw [Entry.CanDelete_of_ne_vrf m t e ht] at h
  exact FlowMgmtEntry.CanDelete_false_entry h

theorem FlowMgmtTree.Allocate_some {h : Hdr} {t : TreeId} {key : FlowMgmtKey}
    {e : FlowMgmtEntry} (ha : FlowMgmtTree.Allocate h t key = some e) :
    e.tree_ = [] ∧ e.oper_state_ = h.oper_state_init ∧ e.ingress_flow_count_ = 0 ∧
      e.egress_flow_count_ = 0 := by
  unfold FlowMgmtTree.Allocate at ha
  cases t <;> simp only [Option.some.injEq] at ha <;>
    first
    | (subst ha; exact ⟨rfl, rfl, rfl, rfl⟩)
    | (cases hd : key.db_entry_ with
       | none => simp [hd] at ha
       | some d =>
         simp only [hd, Option.some.injEq] at ha
         subst ha
         exact ⟨rfl, rfl, rfl, rfl⟩)

theorem FlowMgmtEntry.Add_mem (e : FlowMgmtEntry) (flow f : Nat) :
    f ∈ (e.Add flow).2.tree_ ↔ f = flow ∨ f ∈ e.tree_ := by
  unfold FlowMgmtEntry.Add
  split
  · rename_i hmem
    constructor
    · exact fun h => Or.inr h
    · rintro (h | h)
      · rw [h]
        exact hmem
      · exact h
  · simp only
    exact mem_insertBy _ _ _ _

theorem FlowMgmtEntry.Add_state (e : FlowMgmtEntry) (flow : Nat) :
    (e.Add flow).2.oper_state_ = e.oper_state_ ∧ (e.Add flow).2.gen_id_ = e.gen_id_ := by
  unfold FlowMgmtEntry.Add
  split <;> exact ⟨rfl, rfl⟩

theorem FlowMgmtEntry.Add_ne_nil (e : FlowMgmtEntry) (flow : Nat) :
    (e.Add flow).2.tree_ ≠ [] := by
  intro h
  have : flow ∈ (e.Add flow).2.tree_ := (FlowMgmtEntry.Add_mem e flow flow).2 (Or.inl rfl)
  rw [h] at this
  exact absurd this (List.not_mem_nil _)

theorem FlowMgmtEntry.Delete_mem (e : FlowMgmtEntry) (flow f : Nat) :
    f ∈ (e.Delete flow).2.tree_ ↔ f ∈ e.tree_ ∧ f ≠ flow := by
  unfold FlowMgmtEntry.Delete
  simp [List.mem_filter]

theorem FlowMgmtEntry.Delete_state (e : FlowMgmtEntry) (flow : Nat) :
    (e.Delete flow).2.oper_state_ = e.oper_state_ ∧ (e.Delete flow).2.gen_id_ = e.gen_id_ :=
  ⟨rfl, rfl⟩

theorem FlowMgmtEntry.Delete_nil (e : FlowMgmtEntry) (flow : Nat) (h : e.tree_ = []) :
    (e.Delete flow).2.tree_ = [] := by
  unfold FlowMgmtEntry.Delete
  simp [h]

/-- The base `Add` on an index of flows keeps the invariant. -/
theorem TreeInv.Add {reqs : List FlowMgmtRequest} {h : Hdr} {m m' : FlowMgmtManager}
    {t : TreeId} {key : FlowMgmtKey} {flow : Nat} {b : Bool} (hinv : TreeInv reqs m)
    (ht : t ≠ .vrf ∧ t ≠ .ace_id) (hkey : KeyDBOK t key)
    (hinit : h.oper_state_init ≠ .OPER_DEL_SEEN)
    (ha : FlowMgmtTree.Add h m t key flow = some (b, m')) : TreeInv reqs m' := by
  obtain ⟨k1, e, hloc, _, hstep, hframe, _⟩ := FlowMgmtTree.Add_step ha
  refine hinv.step_inv hstep hframe ?_ (by simp)
  intro p hp
  simp only [Option.some.injEq] at hp
  subst hp
  refine ⟨?_, fun _ => Or.inl (FlowMgmtEntry.Add_ne_nil e flow), ?_, ?_⟩
  · rintro (h1 | h1)
    · exact absurd h1 ht.1
    · exact absurd h1 ht.2
  · intro hs
    rw [(FlowMgmtEntry.Add_state e flow).1] at hs
    rcases hloc with hf | ⟨_, _, hal⟩
    · exact (hinv.entries t key _ hf).del_seen hs
    · rw [(FlowMgmtTree.Allocate_some hal).2.1] at hs
      exact absurd hs hinit
  · rcases hloc with hf | ⟨_, hk, _⟩
    · exact (hinv.entries t key _ hf).key_db
    · simp only [hk]
      exact hkey

/-- The base `Delete` on an index other than the VRF index keeps the
invariant. -/
theorem TreeInv.Delete {reqs : List FlowMgmtRequest} {m m' : FlowMgmtManager}
    {t : TreeId} {key : FlowMgmtKey} {flow : Nat} {b : Bool} (hinv : TreeInv reqs m)
    (ht : t ≠ .vrf) (ha : FlowMgmtTree.Delete m t key flow = some (b, m')) :
    TreeInv reqs m' := by
  rcases FlowMgmtTree.Delete_step ha with ⟨_, hm⟩ | ⟨k1, e, hf, hcase⟩
  · rw [hm]
    exact hinv
  · have hgood := hinv.entries t key _ hf
    rcases hcase with ⟨hc, hstep, hframe, _⟩ | ⟨_, hstep, hframe, _, _⟩
    · refine hinv.step_inv hstep hframe ?_ (by simp)
      intro p hp
      simp only [Option.some.injEq] at hp
      subst hp
      refine ⟨?_, fun _ => Entry.CanDelete_false_dispatch hc ht, ?_, hgood.key_db⟩
      · intro h1
        exact FlowMgmtEntry.Delete_nil e flow (hgood.no_flows h1)
      · intro hs
        exact hgood.del_seen hs
    · refine hinv.step_inv hstep hframe (by simp) ?_
      exact tryDeleteResponses_ok hgood.key_db (fun hs => hgood.del_seen hs)

theorem DBEntryKey_vrf (ptr v : Nat) :
    DBEntryKey (.VrfEntry ptr v) = some (VrfFlowMgmtKey (some (.VrfEntry ptr v)), .vrf) := rfl

/-- The retry of a VRF delete keeps the invariant. -/
theorem TreeInv.RetryVrfDelete_inv {reqs : List FlowMgmtRequest} {m m' : FlowMgmtManager}
    {vrf_id : Nat} (hinv : TreeInv reqs m) (ha : m.RetryVrfDelete vrf_id = some m') :
    TreeInv reqs m' := by
  rcases VrfFlowMgmtTree.RetryDelete_step_vrf ha with hm | ⟨vrf, k1, e, hmem, hf, _, hstep, hframe⟩
  · rw [hm]
    exact hinv
  · refine hinv.step_inv hstep hframe (by simp) ?_
    obtain ⟨ptr, v, hv⟩ := hinv.id_map _ hmem
    simp only at hv
    have hgood := hinv.entries .vrf _ _ hf
    have hk1 : SameKey k1 (VrfFlowMgmtKey (some vrf)) = true := Tree.find_some_same hf
    apply tryDeleteResponses_ok
    · intro d hd
      have hd' : d = vrf := by
        simp only [VrfFlowMgmtKey, FlowMgmtKey.ofDB, Option.some.injEq] at hd
        exact hd.symm
      rw [hd', hv]
      exact ⟨_, DBEntryKey_vrf ptr v, sameKey_refl _⟩
    · intro hs
      exact (hgood.del_seen hs).congr hk1

/-- The base `OperEntryAdd` keeps the invariant. -/
theorem TreeInv.OperEntryAdd_inv {reqs : List FlowMgmtRequest} {h : Hdr} {m m' : FlowMgmtManager}
    {t : TreeId} {req : FlowMgmtRequest} {key : FlowMgmtKey} {b : Bool}
    (hinv : TreeInv reqs m) (hkey : KeyDBOK t key)
    (ha : FlowMgmtTree.OperEntryAdd h m t req key = some (b, m')) : TreeInv reqs m' := by
  obtain ⟨k1, e, hloc, hstep, hframe, _⟩ := FlowMgmtTree.OperEntryAdd_step ha
  refine hinv.step_inv hstep hframe ?_ (operResponses_not_free _ _ _ _)
  intro p hp
  simp only [Option.some.injEq] at hp
  subst hp
  refine ⟨?_, fun _ => Or.inr rfl, ?_, ?_⟩
  · intro h1
    rcases hloc with hf | ⟨_, _, hal⟩
    · exact (hinv.entries t key _ hf).no_flows h1
    · exact (FlowMgmtTree.Allocate_some hal).1
  · intro hs
    simp [FlowMgmtEntry.addSeen] at hs
  · rcases hloc with hf | ⟨_, hk, _⟩
    · exact (hinv.entries t key _ hf).key_db
    · simp only [hk]
      exact hkey

/-- The function `OperEntryChange` keeps the invariant. -/
theorem TreeInv.OperEntryChange_inv {reqs : List FlowMgmtRequest} {m m' : FlowMgmtManager}
    {t : TreeId} {req : FlowMgmtRequest} {key : FlowMgmtKey} {b : Bool}
    (hinv : TreeInv reqs m)
    (ha : FlowMgmtTree.OperEntryChange m t req key = some (b, m')) : TreeInv reqs m' := by
  rcases FlowMgmtTree.OperEntryChange_step ha with ⟨_, hm⟩ | ⟨k1, e, hf, hstep, hframe, _⟩
  · rw [hm]
    exact hinv
  · have hgood := hinv.entries t key _ hf
    refine hinv.step_inv hstep hframe ?_ (operResponses_not_free _ _ _ _)
    intro p hp
    simp only [Option.some.injEq] at hp
    subst hp
    refine ⟨hgood.no_flows, fun _ => Or.inr rfl, ?_, hgood.key_db⟩
    intro hs
    simp [FlowMgmtEntry.addSeen] at hs

/-- The base `OperEntryDelete` keeps the invariant when the object deleted is
among the requests. -/
theorem TreeInv.OperEntryDelete_inv {reqs : List FlowMgmtRequest} {m m' : FlowMgmtManager}
    {t : TreeId} {req : FlowMgmtRequest} {key : FlowMgmtKey} {b : Bool}
    (hinv : TreeInv reqs m) (hkey : KeyDBOK t key) (hdel : DeletedAt reqs t key)
    (ha : FlowMgmtTree.OperEntryDelete m t req key = some (b, m')) : TreeInv reqs m' := by
  rcases FlowMgmtTree.OperEntryDelete_step ha with
    ⟨hf, htree, hframe, _, _⟩ | ⟨k1, e, m1, hf, _, hcase⟩
  · have hstep := FindStep.unchanged t key htree
    refine hinv.step_inv hstep hframe ?_ (freeResponses_ok _ hkey hdel)
    intro p hp
    rw [hf] at hp
    simp at hp
  · have hgood := hinv.entries t key _ hf
    have hk1 : SameKey k1 key = true := Tree.find_some_same hf
    rcases hcase with ⟨hc, hstep, hframe, _⟩ | ⟨_, hstep, hframe, _, _⟩
    · refine hinv.step_inv hstep hframe ?_ (operResponses_not_free _ _ _ _)
      intro p hp
      simp only [Option.some.injEq] at hp
      subst hp
      refine ⟨hgood.no_flows, ?_, fun _ => hdel.congr (sameKey_symm hk1), hgood.key_db⟩
      intro ht
      rcases Entry.CanDelete_false_dispatch hc ht with h1 | h1
      · exact Or.inl h1
      · simp [FlowMgmtEntry.delSeen] at h1
    · refine hinv.step_inv hstep hframe (by simp) ?_
      intro r hr
      rw [List.mem_append] at hr
      rcases hr with h1 | h1
      · exact operResponses_not_free _ _ _ _ r h1
      · exact freeResponses_ok _ hkey hdel r h1

/-! ## The index invariant is kept by the virtual calls -/

theorem DBEntryKey_db {d : DBEntry} {key : FlowMgmtKey} {t : TreeId}
    (h : DBEntryKey d = some (key, t)) : key.db_entry_ = some d := by
  cases d <;> simp only [DBEntryKey, Option.some.injEq, Prod.mk.injEq] at h <;>
    first
    | (rw [← h.1]; rfl)
    | exact absurd h (by simp)

theorem DBEntryKey_KeyDBOK {d : DBEntry} {key : FlowMgmtKey} {t : TreeId}
    (h : DBEntryKey d = some (key, t)) : KeyDBOK t key := by
  intro d' hd'
  rw [DBEntryKey_db h, Option.some.injEq] at hd'
  rw [← hd']
  exact ⟨key, h, sameKey_refl key⟩

theorem DBEntryKey_route {d : DBEntry} {key : FlowMgmtKey} {t : TreeId}
    (h : DBEntryKey d = some (key, t))
    (ht : t = .ip4_route ∨ t = .ip6_route ∨ t = .bridge_route) :
    key.type_ = .INET4 ∨ key.type_ = .INET6 ∨ key.type_ = .BRIDGE := by
  cases d with
  | InetUnicastRouteEntry p v addr plen =>
    simp only [DBEntryKey, Option.some.injEq, Prod.mk.injEq] at h
    rw [← h.1]
    cases addr <;> simp [InetRouteFlowMgmtKey.ofRoute, InetRouteFlowMgmtKey, IpAddress.is_v4]
  | BridgeRouteEntry p v mac =>
    simp only [DBEntryKey, Option.some.injEq, Prod.mk.injEq] at h
    rw [← h.1]
    simp [BridgeRouteFlowMgmtKey.ofRoute, BridgeRouteFlowMgmtKey]
  | Interface p =>
    simp only [DBEntryKey, Option.some.injEq, Prod.mk.injEq] at h
    rcases ht with h1 | h1 | h1 <;> rw [h1] at h <;> simp at h
  | VnEntry p =>
    simp only [DBEntryKey, Option.some.injEq, Prod.mk.injEq] at h
    rcases ht with h1 | h1 | h1 <;> rw [h1] at h <;> simp at h
  | AclDBEntry p =>
    simp only [DBEntryKey, Option.some.injEq, Prod.mk.injEq] at h
    rcases ht with h1 | h1 | h1 <;> rw [h1] at h <;> simp at h
  | NextHop p =>
    simp only [DBEntryKey, Option.some.injEq, Prod.mk.injEq] at h
    rcases ht with h1 | h1 | h1 <;> rw [h1] at h <;> simp at h
  | VrfEntry p v =>
    simp only [DBEntryKey, Option.some.injEq, Prod.mk.injEq] at h
    rcases ht with h1 | h1 | h1 <;> rw [h1] at h <;> simp at h
  | Other p => simp [DBEntryKey] at h

theorem DBEntryKey_vrf_kind {d : DBEntry} {key : FlowMgmtKey}
    (h : DBEntryKey d = some (key, .vrf)) : ∃ ptr v, d = .VrfEntry ptr v := by
  cases d with
  | VrfEntry p v => exact ⟨p, v, rfl⟩
  | InetUnicastRouteEntry p v addr plen =>
    simp only [DBEntryKey, Option.some.injEq, Prod.mk.injEq] at h
    cases addr <;> simp [IpAddress.is_v4] at h
  | Other p => simp [DBEntryKey] at h
  | Interface p => simp [DBEntryKey] at h
  | VnEntry p => simp [DBEntryKey] at h
  | AclDBEntry p => simp [DBEntryKey] at h
  | NextHop p => simp [DBEntryKey] at h
  | BridgeRouteEntry p v mac => simp [DBEntryKey] at h

/-- Attaching the DB entry of a route to the stored key keeps the invariant. -/
theorem TreeInv.set_db_entry_inv {reqs : List FlowMgmtRequest} {m : FlowMgmtManager} {t : TreeId}
    {key K : FlowMgmtKey} {d : DBEntry} (hinv : TreeInv reqs m)
    (hty : key.type_ = .INET4 ∨ key.type_ = .INET6 ∨ key.type_ = .BRIDGE)
    (hK : DBEntryKey d = some (K, t)) (hs : SameKey K key = true) :
    TreeInv reqs (m.setTree t ((m.tree t).set_db_entry key (some d))) := by
  refine hinv.step_inv (FindStep.set_db_entry_findStep m t key (some d) hty) (Frame.setTree _ _ _) ?_
    (by simp)
  intro p hp
  cases hf : (m.tree t).find key with
  | none => simp [hf] at hp
  | some q =>
    simp only [hf, Option.map_some', Option.some.injEq] at hp
    subst hp
    have hgood := hinv.entries t key _ hf
    have hq : SameKey q.1 key = true := Tree.find_some_same hf
    have hqty : q.1.type_ = .INET4 ∨ q.1.type_ = .INET6 ∨ q.1.type_ = .BRIDGE := by
      rw [sameKey_type hq]
      exact hty
    have hq' := sameKey_set_db_entry q.1 (some d) hqty
    refine ⟨hgood.no_flows, hgood.zombie, ?_, ?_⟩
    · intro hst
      exact (hgood.del_seen hst).congr (sameKey_symm hq')
    · intro d' hd'
      simp only [Option.some.injEq] at hd'
      rw [← hd']
      exact ⟨K, hK, sameKey_trans hs (sameKey_trans (sameKey_symm hq) (sameKey_symm hq'))⟩

/-- The function `RouteFlowMgmtTree::OperEntryAdd` keeps the invariant for the
key of the request's DB entry, and for any known key when the request has
none. -/
theorem TreeInv.Route_OperEntryAdd_inv {reqs : List FlowMgmtRequest} {h : Hdr}
    {m m' : FlowMgmtManager} {t : TreeId} {req : FlowMgmtRequest} {key : FlowMgmtKey}
    {b : Bool} (hinv : TreeInv reqs m) (hkey : KeyDBOK t key)
    (hreq : ∀ d, req.db_entry = some d →
      DBEntryKey d = some (key, t) ∧
        (key.type_ = .INET4 ∨ key.type_ = .INET6 ∨ key.type_ = .BRIDGE))
    (ha : RouteFlowMgmtTree.OperEntryAdd h m t req key = some (b, m')) : TreeInv reqs m' := by
  obtain ⟨m1, hb, hcase⟩ := RouteFlowMgmtTree.OperEntryAdd_some ha
  have h1 := hinv.OperEntryAdd_inv hkey hb
  rcases hcase with ⟨_, hm⟩ | ⟨d, hd, hm⟩
  · rw [hm]
    exact h1
  · rw [hm]
    exact h1.set_db_entry_inv (hreq d hd).2 (hreq d hd).1 (sameKey_refl key)

theorem FlowMgmtKeyTree.mem_insert_keyTree {s : FlowMgmtKeyTree} {k x : FlowMgmtKey}
    (h : x ∈ (FlowMgmtKeyTree.insert s k).1) : x = k ∨ x ∈ s := by
  unfold FlowMgmtKeyTree.insert at h
  split at h
  · exact Or.inr h
  · exact (mem_insertBy _ _ _ _).1 h

theorem FlowMgmtKeyTree.mem_erase_keyTree {s : FlowMgmtKeyTree} {k x : FlowMgmtKey} :
    x ∈ FlowMgmtKeyTree.erase s k ↔ x ∈ s ∧ SameKey x k = false := by
  unfold FlowMgmtKeyTree.erase
  simp [List.mem_filter]

theorem lpm_setLpm (m : FlowMgmtManager) (t t' : TreeId) (l : List FlowMgmtKey)
    (ht : t = .ip4_route ∨ t = .ip6_route) :
    (m.setLpm t l).lpm t' = if t' = t then l else m.lpm t' := by
  rcases ht with h | h <;> subst h <;> cases t' <;> rfl

theorem TreeInv.setLpm_inv {reqs : List FlowMgmtRequest} {m : FlowMgmtManager} {t : TreeId}
    {l : List FlowMgmtKey} (hinv : TreeInv reqs m) (ht : t = .ip4_route ∨ t = .ip6_route)
    (hl : ∀ k, k ∈ l → KeyDBOK t k) : TreeInv reqs (m.setLpm t l) := by
  refine ⟨hinv.entries.of_tree_eq_findAll (fun _ => by simp), by simpa using hinv.id_map, ?_,
    by simpa using hinv.free⟩
  intro t' k hk
  rw [lpm_setLpm m t t' l ht] at hk
  by_cases h1 : t' = t
  · rw [if_pos h1] at hk
    rw [h1]
    exact hl k hk
  · rw [if_neg h1] at hk
    exact hinv.lpm t' k hk

theorem TreeInv.AddToLPMTree {reqs : List FlowMgmtRequest} {m : FlowMgmtManager} {t : TreeId}
    {key : FlowMgmtKey} (hinv : TreeInv reqs m) (hkey : KeyDBOK t key)
    (ht : t = .ip4_route ∨ t = .ip6_route) :
    TreeInv reqs (InetRouteFlowMgmtTree.AddToLPMTree m t key) := by
  unfold InetRouteFlowMgmtTree.AddToLPMTree
  apply hinv.setLpm_inv ht
  intro k hk
  rcases FlowMgmtKeyTree.mem_insert_keyTree hk with h1 | h1
  · rw [h1]
    exact hkey
  · exact hinv.lpm t k h1

theorem TreeInv.DelFromLPMTree {reqs : List FlowMgmtRequest} {m : FlowMgmtManager} {t : TreeId}
    {key : FlowMgmtKey} (hinv : TreeInv reqs m) (ht : t = .ip4_route ∨ t = .ip6_route) :
    TreeInv reqs (InetRouteFlowMgmtTree.DelFromLPMTree m t key) := by
  unfold InetRouteFlowMgmtTree.DelFromLPMTree
  apply hinv.setLpm_inv ht
  intro k hk
  exact hinv.lpm t k (FlowMgmtKeyTree.mem_erase_keyTree.1 hk).1

theorem foldl_longer_mem (l : List FlowMgmtKey) (best : Option FlowMgmtKey) (c : FlowMgmtKey)
    (h : List.foldl longer best l = some c) : c ∈ l ∨ best = some c := by
  induction l generalizing best with
  | nil => exact Or.inr h
  | cons x xs ih =>
    rw [List.foldl_cons] at h
    rcases ih _ h with h1 | h1
    · exact Or.inl (List.mem_cons_of_mem _ h1)
    · unfold longer at h1
      cases best with
      | none =>
        simp only [Option.some.injEq] at h1
        rw [h1]
        exact Or.inl (List.mem_cons_self _ _)
      | some b =>
        simp only at h1
        split at h1
        · simp only [Option.some.injEq] at h1
          rw [h1]
          exact Or.inl (List.mem_cons_self _ _)
        · exact Or.inr h1

theorem InetRouteFlowMgmtTree.LPM_mem {m : FlowMgmtManager} {t : TreeId}
    {key c : FlowMgmtKey} (h : InetRouteFlowMgmtTree.LPM m t key = some c) : c ∈ m.lpm t := by
  unfold InetRouteFlowMgmtTree.LPM at h
  rcases foldl_longer_mem _ _ _ h with h1 | h1
  · exact (List.mem_filter.1 h1).1
  · simp at h1

/-- The function `InetRouteFlowMgmtTree::OperEntryAdd` keeps the invariant. -/
theorem TreeInv.Inet_OperEntryAdd_inv {reqs : List FlowMgmtRequest} {h : Hdr}
    {m m' : FlowMgmtManager} {t : TreeId} {req : FlowMgmtRequest} {key key' : FlowMgmtKey}
    {b : Bool} (hinv : TreeInv reqs m) (ht : t = .ip4_route ∨ t = .ip6_route)
    (hkey : KeyDBOK t key)
    (hreq : ∀ d, req.db_entry = some d →
      DBEntryKey d = some (key, t) ∧
        (key.type_ = .INET4 ∨ key.type_ = .INET6 ∨ key.type_ = .BRIDGE))
    (ha : InetRouteFlowMgmtTree.OperEntryAdd h m t req key = some (b, key', m')) :
    TreeInv reqs m' := by
  unfold InetRouteFlowMgmtTree.OperEntryAdd at ha
  cases hr : RouteFlowMgmtTree.OperEntryAdd h m t req key with
  | none => simp [hr] at ha
  | some r =>
    obtain ⟨ret, m1⟩ := r
    have h1 := hinv.Route_OperEntryAdd_inv hkey hreq hr
    have h2 := h1.AddToLPMTree hkey ht
    simp only [hr] at ha
    by_cases hp : key.plen_ > 0
    · simp only [hp, if_true] at ha
      cases hl : InetRouteFlowMgmtTree.LPM (InetRouteFlowMgmtTree.AddToLPMTree m1 t key) t
          (InetRouteFlowMgmtKey key.vrf_id_ key.ip_ (key.plen_ - 1)) with
      | none =>
        simp only [hl, Option.some.injEq, Prod.mk.injEq] at ha
        rw [← ha.2.2]
        exact h2
      | some c =>
        simp only [hl] at ha
        cases hc : RouteFlowMgmtTree.OperEntryAdd h
            (InetRouteFlowMgmtTree.AddToLPMTree m1 t key) t
            (FlowMgmtRequest.ofDB .ADD_DBENTRY none 0) c with
        | none => simp [hc] at ha
        | some r2 =>
          obtain ⟨b2, m3⟩ := r2
          simp only [hc, Option.some.injEq, Prod.mk.injEq] at ha
          rw [← ha.2.2]
          refine h2.Route_OperEntryAdd_inv (h2.lpm t c (InetRouteFlowMgmtTree.LPM_mem hl)) ?_ hc
          intro d hd
          simp [FlowMgmtRequest.ofDB] at hd
    · simp only [hp, if_false, Option.some.injEq, Prod.mk.injEq] at ha
      rw [← ha.2.2]
      exact h2

/-- The function `VrfFlowMgmtTree::OperEntryAdd` keeps the invariant. -/
theorem TreeInv.Vrf_OperEntryAdd_inv {reqs : List FlowMgmtRequest} {h : Hdr}
    {m m' : FlowMgmtManager} {req : FlowMgmtRequest} {key : FlowMgmtKey} {b : Bool}
    (hinv : TreeInv reqs m) (hkey : KeyDBOK .vrf key)
    (ha : VrfFlowMgmtTree.OperEntryAdd h m req key = some (b, m')) : TreeInv reqs m' := by
  unfold VrfFlowMgmtTree.OperEntryAdd at ha
  cases hr : FlowMgmtTree.OperEntryAdd h m .vrf req key with
  | none => simp [hr] at ha
  | some r =>
    obtain ⟨ret, m1⟩ := r
    have h1 := hinv.OperEntryAdd_inv hkey hr
    simp only [hr] at ha
    cases hd : key.db_entry_ with
    | none => simp [hd] at ha
    | some vrf =>
      simp only [hd] at ha
      cases hf : List.find? (fun p => p.1 == vrf.vrf_id) m1.id_map_ with
      | some q =>
        simp only [hf, Option.some.injEq, Prod.mk.injEq] at ha
        rw [← ha.2]
        exact h1
      | none =>
        simp only [hf, Option.some.injEq, Prod.mk.injEq] at ha
        rw [← ha.2]
        refine ⟨h1.entries.of_tree_eq_findAll (fun t => by cases t <;> rfl), ?_, ?_, h1.free⟩
        · intro p hp
          simp only at hp
          rcases (mem_insertBy _ _ _ _).1 hp with h2 | h2
          · obtain ⟨K, hK, _⟩ := hkey vrf hd
            rw [h2]
            exact DBEntryKey_vrf_kind hK
          · exact h1.id_map p h2
        · intro t k hk
          cases t <;> exact h1.lpm _ k hk

theorem RouteFlowMgmtTree.Delete_some_route {m m' : FlowMgmtManager} {t : TreeId}
    {key : FlowMgmtKey} {flow : Nat} {b : Bool}
    (h : RouteFlowMgmtTree.Delete m t key flow = some (b, m')) :
    ∃ m1, FlowMgmtTree.Delete m t key flow = some (b, m1) ∧
      m1.RetryVrfDelete key.vrf_id_ = some m' := by
  unfold RouteFlowMgmtTree.Delete at h
  cases hb : FlowMgmtTree.Delete m t key flow with
  | none => simp [hb] at h
  | some r =>
    obtain ⟨ret, m1⟩ := r
    simp only [hb] at h
    cases hr : m1.RetryVrfDelete key.vrf_id_ with
    | none => simp [hr] at h
    | some m2 =>
      simp only [hr, Option.some.injEq, Prod.mk.injEq] at h
      obtain ⟨h1, h2⟩ := h
      subst h1
      subst h2
      exact ⟨m1, rfl, hr⟩

theorem RouteFlowMgmtTree.OperEntryDelete_some {m m' : FlowMgmtManager} {t : TreeId}
    {req : FlowMgmtRequest} {key : FlowMgmtKey} {b : Bool}
    (h : RouteFlowMgmtTree.OperEntryDelete m t req key = some (b, m')) :
    ∃ m1, FlowMgmtTree.OperEntryDelete m t req key = some (b, m1) ∧
      m1.RetryVrfDelete key.vrf_id_ = some m' := by
  unfold RouteFlowMgmtTree.OperEntryDelete at h
  cases hb : FlowMgmtTree.OperEntryDelete m t req key with
  | none => simp [hb] at h
  | some r =>
    obtain ⟨ret, m1⟩ := r
    simp only [hb] at h
    cases hr : m1.RetryVrfDelete key.vrf_id_ with
    | none => simp [hr] at h
    | some m2 =>
      simp only [hr, Option.some.injEq, Prod.mk.injEq] at h
      obtain ⟨h1, h2⟩ := h
      subst h1
      subst h2
      exact ⟨m1, rfl, hr⟩

/-- The virtual `Delete` is the base function, followed on the route indexes by
the retry of the VRF delete. -/
theorem Virtual.Delete_some_virtual {m m' : FlowMgmtManager} {t : TreeId} {key : FlowMgmtKey}
    {flow : Nat} {b : Bool} (h : Virtual.Delete m t key flow = some (b, m')) :
    ∃ m1, FlowMgmtTree.Delete m t key flow = some (b, m1) ∧
      (m' = m1 ∨ m1.RetryVrfDelete key.vrf_id_ = some m') := by
  cases t <;> simp only [Virtual.Delete] at h <;>
    first
    | exact ⟨m', h, Or.inl rfl⟩
    | (obtain ⟨m1, h1, h2⟩ := RouteFlowMgmtTree.Delete_some_route h
       exact ⟨m1, h1, Or.inr h2⟩)

theorem TreeInv.Virtual_Delete {reqs : List FlowMgmtRequest} {m m' : FlowMgmtManager}
    {t : TreeId} {key : FlowMgmtKey} {flow : Nat} {b : Bool} (hinv : TreeInv reqs m)
    (ht : t ≠ .vrf) (ha : Virtual.Delete m t key flow = some (b, m')) : TreeInv reqs m' := by
  obtain ⟨m1, h1, h2⟩ := Virtual.Delete_some_virtual ha
  have hi := hinv.Delete ht h1
  rcases h2 with h2 | h2
  · rw [h2]
    exact hi
  · exact hi.RetryVrfDelete_inv h2

theorem TreeInv.Route_OperEntryDelete {reqs : List FlowMgmtRequest} {m m' : FlowMgmtManager}
    {t : TreeId} {req : FlowMgmtRequest} {key : FlowMgmtKey} {b : Bool}
    (hinv : TreeInv reqs m) (hkey : KeyDBOK t key) (hdel : DeletedAt reqs t key)
    (ha : RouteFlowMgmtTree.OperEntryDelete m t req key = some (b, m')) : TreeInv reqs m' := by
  obtain ⟨m1, h1, h2⟩ := RouteFlowMgmtTree.OperEntryDelete_some ha
  exact (hinv.OperEntryDelete_inv hkey hdel h1).RetryVrfDelete_inv h2

/-- The static function `ProcessEvent` keeps the invariant when it is called, as
`DBEntryRequestHandler` does, with the key and the index of the request's DB
entry, the request being among `reqs`. -/
theorem TreeInv.ProcessEvent_inv {reqs : List FlowMgmtRequest} {h : Hdr} {m m' : FlowMgmtManager}
    {t : TreeId} {req : FlowMgmtRequest} {key : FlowMgmtKey} {d : DBEntry} {b : Bool}
    (hinv : TreeInv reqs m) (hmem : req ∈ reqs) (hd : req.db_entry = some d)
    (hK : DBEntryKey d = some (key, t))
    (ha : ProcessEvent h m req key t = some (b, m')) : TreeInv reqs m' := by
  have hkey : KeyDBOK t key := DBEntryKey_KeyDBOK hK
  have hreq : ∀ d', req.db_entry = some d' → t = .ip4_route ∨ t = .ip6_route ∨ t = .bridge_route →
      DBEntryKey d' = some (key, t) ∧
        (key.type_ = .INET4 ∨ key.type_ = .INET6 ∨ key.type_ = .BRIDGE) := by
    intro d' hd' ht
    rw [hd, Option.some.injEq] at hd'
    rw [← hd']
    exact ⟨hK, DBEntryKey_route hK ht⟩
  unfold FlowMgmt.ProcessEvent at ha
  cases hev : req.event with
  | ADD_DBENTRY =>
    simp only [hev] at ha
    cases hv : Virtual.OperEntryAdd h m t req key with
    | none => simp [hv] at ha
    | some r =>
      obtain ⟨b1, m1⟩ := r
      simp only [hv, Option.some.injEq, Prod.mk.injEq] at ha
      rw [← ha.2]
      cases t with
      | ip4_route =>
        simp only [Virtual.OperEntryAdd] at hv
        cases hi : InetRouteFlowMgmtTree.OperEntryAdd h m .ip4_route req key with
        | none => simp [hi] at hv
        | some r2 =>
          obtain ⟨b2, k2, m2⟩ := r2
          simp only [hi, Option.some.injEq, Prod.mk.injEq] at hv
          rw [← hv.2]
          exact hinv.Inet_OperEntryAdd_inv (Or.inl rfl) hkey
            (fun d' hd' => hreq d' hd' (Or.inl rfl)) hi
      | ip6_route =>
        simp only [Virtual.OperEntryAdd] at hv
        cases hi : InetRouteFlowMgmtTree.OperEntryAdd h m .ip6_route req key with
        | none => simp [hi] at hv
        | some r2 =>
          obtain ⟨b2, k2, m2⟩ := r2
          simp only [hi, Option.some.injEq, Prod.mk.injEq] at hv
          rw [← hv.2]
          exact hinv.Inet_OperEntryAdd_inv (Or.inr rfl) hkey
            (fun d' hd' => hreq d' hd' (Or.inr (Or.inl rfl))) hi
      | bridge_route =>
        exact hinv.Route_OperEntryAdd_inv hkey
          (fun d' hd' => hreq d' hd' (Or.inr (Or.inr rfl))) hv
      | vrf => exact hinv.Vrf_OperEntryAdd_inv hkey hv
      | acl => exact hinv.OperEntryAdd_inv hkey hv
      | ace_id => exact hinv.OperEntryAdd_inv hkey hv
      | interface => exact hinv.OperEntryAdd_inv hkey hv
      | vn => exact hinv.OperEntryAdd_inv hkey hv
      | nh => exact hinv.OperEntryAdd_inv hkey hv
  | CHANGE_DBENTRY =>
    simp only [hev] at ha
    cases hv : Virtual.OperEntryChange m t req key with
    | none => simp [hv] at ha
    | some r =>
      obtain ⟨b1, m1⟩ := r
      simp only [hv, Option.some.injEq, Prod.mk.injEq] at ha
      rw [← ha.2]
      exact hinv.OperEntryChange_inv hv
  | DELETE_DBENTRY =>
    simp only [hev] at ha
    have hdel : DeletedAt reqs t key := ⟨req, hmem, hev, d, key, hd, hK, sameKey_refl key⟩
    cases hv : Virtual.OperEntryDelete m t req key with
    | none => simp [hv] at ha
    | some r =>
      obtain ⟨b1, m1⟩ := r
      simp only [hv, Option.some.injEq, Prod.mk.injEq] at ha
      rw [← ha.2]
      cases t with
      | ip4_route =>
        exact (hinv.DelFromLPMTree (Or.inl rfl)).Route_OperEntryDelete hkey hdel hv
      | ip6_route =>
        exact (hinv.DelFromLPMTree (Or.inr rfl)).Route_OperEntryDelete hkey hdel hv
      | bridge_route => exact hinv.Route_OperEntryDelete hkey hdel hv
      | vrf => exact hinv.OperEntryDelete_inv hkey hdel hv
      | acl => exact hinv.OperEntryDelete_inv hkey hdel hv
      | ace_id => exact hinv.OperEntryDelete_inv hkey hdel hv
      | interface => exact hinv.OperEntryDelete_inv hkey hdel hv
      | vn => exact hinv.OperEntryDelete_inv hkey hdel hv
      | nh => exact hinv.OperEntryDelete_inv hkey hdel hv
  | INVALID => simp [hev] at ha
  | ADD_FLOW => simp [hev] at ha
  | DELETE_FLOW => simp [hev] at ha
  | RETRY_DELETE_VRF => simp [hev] at ha

/-- The handler of DB-entry requests calls `ProcessEvent` with the key and the
index of the request's DB entry. -/
theorem FlowMgmtManager.DBEntryRequestHandler_eq (h : Hdr) (m : FlowMgmtManager)
    (req : FlowMgmtRequest) :
    m.DBEntryRequestHandler h req req.db_entry =
      match req.db_entry with
      | none => none
      | some d =>
        match DBEntryKey d with
        | none => none
        | some (key, t) => ProcessEvent h m req key t := by
  cases hd : req.db_entry with
  | none => rfl
  | some d =>
    cases d with
    | InetUnicastRouteEntry p v addr plen =>
      cases addr <;> simp [FlowMgmtManager.DBEntryRequestHandler, DBEntryKey, IpAddress.is_v4]
    | NextHop p => simp [FlowMgmtManager.DBEntryRequestHandler, DBEntryKey, hd]
    | Interface p => simp [FlowMgmtManager.DBEntryRequestHandler, DBEntryKey]
    | VnEntry p => simp [FlowMgmtManager.DBEntryRequestHandler, DBEntryKey]
    | AclDBEntry p => simp [FlowMgmtManager.DBEntryRequestHandler, DBEntryKey]
    | BridgeRouteEntry p v mac => simp [FlowMgmtManager.DBEntryRequestHandler, DBEntryKey]
    | VrfEntry p v => simp [FlowMgmtManager.DBEntryRequestHandler, DBEntryKey]
    | Other p => simp [FlowMgmtManager.DBEntryRequestHandler, DBEntryKey]

theorem TreeInv.DBEntryRequestHandler_inv {reqs : List FlowMgmtRequest} {h : Hdr}
    {m m' : FlowMgmtManager} {req : FlowMgmtRequest} {b : Bool} (hinv : TreeInv reqs m)
    (hmem : req ∈ reqs)
    (ha : m.DBEntryRequestHandler h req req.db_entry = some (b, m')) : TreeInv reqs m' := by
  rw [FlowMgmtManager.DBEntryRequestHandler_eq] at ha
  cases hd : req.db_entry with
  | none => simp [hd] at ha
  | some d =>
    simp only [hd] at ha
    cases hK : DBEntryKey d with
    | none => simp [hK] at ha
    | some r =>
      obtain ⟨key, t⟩ := r
      simp only [hK] at ha
      exact hinv.ProcessEvent_inv hmem hd hK ha

/-! ## Object events leave the registry and the flow sets alone -/

theorem Quiet.refl_quiet (m : FlowMgmtManager) : Quiet m m := ⟨fun _ => rfl, fun _ _ => rfl⟩

theorem Quiet.trans_quiet {m m1 m2 : FlowMgmtManager} (h1 : Quiet m m1) (h2 : Quiet m1 m2) :
    Quiet m m2 :=
  ⟨fun f => (h2.info f).trans (h1.info f), fun t k => (h2.flows t k).trans (h1.flows t k)⟩

theorem flowsAt_step {m m' : FlowMgmtManager} {t : TreeId} {key : FlowMgmtKey}
    {new : Option (FlowMgmtKey × FlowMgmtEntry)} (hstep : FindStep m m' t key new)
    (t' : TreeId) (k' : FlowMgmtKey) :
    flowsAt m' t' k' =
      if t' = t ∧ SameKey key k' = true then answerFlows new else flowsAt m t' k' := by
  unfold flowsAt
  rw [hstep t' k']
  split <;> rfl

theorem flowsAt_congr (m : FlowMgmtManager) (t : TreeId) {k k' : FlowMgmtKey}
    (h : SameKey k k' = true) : flowsAt m t k = flowsAt m t k' := by
  unfold flowsAt
  rw [Tree.find_congr _ h]

/-- A step whose new answer has the flows of the old one is quiet. -/
theorem Quiet.of_step {m m' : FlowMgmtManager} {t : TreeId} {key : FlowMgmtKey}
    {new : Option (FlowMgmtKey × FlowMgmtEntry)} {resp : List FlowMgmtResponse}
    (hstep : FindStep m m' t key new) (hframe : Frame m m' resp)
    (hnew : answerFlows new = flowsAt m t key) : Quiet m m' := by
  refine ⟨hframe.FindFlowEntryInfo, ?_⟩
  intro t' k'
  rw [flowsAt_step hstep]
  split
  · rename_i hc
    rw [hnew, hc.1]
    exact flowsAt_congr m t hc.2
  · rfl

theorem Quiet.of_eq_quiet {m m' : FlowMgmtManager} (htree : ∀ t, m'.tree t = m.tree t)
    (hft : m'.flow_tree_ = m.flow_tree_) : Quiet m m' := by
  refine ⟨?_, ?_⟩
  · intro f
    unfold FlowMgmtManager.FindFlowEntryInfo
    rw [hft]
  · intro t k
    unfold flowsAt
    rw [htree t]

theorem flowsAt_of_find {m : FlowMgmtManager} {t : TreeId} {key : FlowMgmtKey}
    {p : FlowMgmtKey × FlowMgmtEntry} (h : (m.tree t).find key = some p) :
    flowsAt m t key = p.2.tree_ := by
  unfold flowsAt
  rw [h]
  rfl

theorem flowsAt_of_none {m : FlowMgmtManager} {t : TreeId} {key : FlowMgmtKey}
    (h : (m.tree t).find key = none) : flowsAt m t key = [] := by
  unfold flowsAt
  rw [h]
  rfl

theorem Located.flows {h : Hdr} {m : FlowMgmtManager} {t : TreeId} {key k1 : FlowMgmtKey}
    {e : FlowMgmtEntry} (hl : Located h m t key k1 e) : e.tree_ = flowsAt m t key := by
  rcases hl with hf | ⟨hf, _, ha⟩
  · rw [flowsAt_of_find hf]
  · rw [flowsAt_of_none hf]
    exact (FlowMgmtTree.Allocate_some ha).1

theorem Quiet.OperEntryAdd_quiet {h : Hdr} {m m' : FlowMgmtManager} {t : TreeId}
    {req : FlowMgmtRequest} {key : FlowMgmtKey} {b : Bool}
    (ha : FlowMgmtTree.OperEntryAdd h m t req key = some (b, m')) : Quiet m m' := by
  obtain ⟨k1, e, hloc, hstep, hframe, _⟩ := FlowMgmtTree.OperEntryAdd_step ha
  exact Quiet.of_step hstep hframe hloc.flows

theorem Quiet.OperEntryChange_quiet {m m' : FlowMgmtManager} {t : TreeId}
    {req : FlowMgmtRequest} {key : FlowMgmtKey} {b : Bool}
    (ha : FlowMgmtTree.OperEntryChange m t req key = some (b, m')) : Quiet m m' := by
  rcases FlowMgmtTree.OperEntryChange_step ha with ⟨_, hm⟩ | ⟨k1, e, hf, hstep, hframe, _⟩
  · rw [hm]
    exact Quiet.refl_quiet m
  · exact Quiet.of_step hstep hframe (flowsAt_of_find hf).symm

theorem Quiet.OperEntryDelete_quiet {m m' : FlowMgmtManager} {t : TreeId}
    {req : FlowMgmtRequest} {key : FlowMgmtKey} {b : Bool}
    (ha : FlowMgmtTree.OperEntryDelete m t req key = some (b, m')) : Quiet m m' := by
  rcases FlowMgmtTree.OperEntryDelete_step ha with
    ⟨hf, htree, hframe, _, _⟩ | ⟨k1, e, m1, hf, _, hcase⟩
  · exact Quiet.of_eq_quiet htree hframe.flow_tree
  · rcases hcase with ⟨_, hstep, hframe, _⟩ | ⟨hc, hstep, hframe, _, _⟩
    · exact Quiet.of_step hstep hframe (flowsAt_of_find hf).symm
    · refine Quiet.of_step hstep hframe ?_
      rw [flowsAt_of_find hf]
      exact (Entry.CanDelete_true_dispatch hc).1.symm

theorem Quiet.RetryVrfDelete_quiet {m m' : FlowMgmtManager} {vrf_id : Nat}
    (ha : m.RetryVrfDelete vrf_id = some m') : Quiet m m' := by
  rcases VrfFlowMgmtTree.RetryDelete_step_vrf ha with hm | ⟨vrf, k1, e, _, hf, hc, hstep, hframe⟩
  · rw [hm]
    exact Quiet.refl_quiet m
  · refine Quiet.of_step hstep hframe ?_
    rw [flowsAt_of_find hf]
    exact (Entry.CanDelete_true_dispatch hc).1.symm

theorem Quiet.set_db_entry_quiet (m : FlowMgmtManager) (t : TreeId) (key : FlowMgmtKey)
    (d : Option DBEntry) (hty : key.type_ = .INET4 ∨ key.type_ = .INET6 ∨ key.type_ = .BRIDGE) :
    Quiet m (m.setTree t ((m.tree t).set_db_entry key d)) := by
  refine Quiet.of_step (FindStep.set_db_entry_findStep m t key d hty) (Frame.setTree _ _ _) ?_
  unfold flowsAt
  cases (m.tree t).find key <;> rfl

theorem Quiet.Route_OperEntryAdd_quiet {h : Hdr} {m m' : FlowMgmtManager} {t : TreeId}
    {req : FlowMgmtRequest} {key : FlowMgmtKey} {b : Bool}
    (hreq : ∀ d, req.db_entry = some d →
      (key.type_ = .INET4 ∨ key.type_ = .INET6 ∨ key.type_ = .BRIDGE))
    (ha : RouteFlowMgmtTree.OperEntryAdd h m t req key = some (b, m')) : Quiet m m' := by
  obtain ⟨m1, hb, hcase⟩ := RouteFlowMgmtTree.OperEntryAdd_some ha
  have h1 := Quiet.OperEntryAdd_quiet hb
  rcases hcase with ⟨_, hm⟩ | ⟨d, hd, hm⟩
  · rw [hm]
    exact h1
  · rw [hm]
    exact h1.trans_quiet (Quiet.set_db_entry_quiet m1 t key (some d) (hreq d hd))

theorem Quiet.setLpm_quiet (m : FlowMgmtManager) (t : TreeId) (l : List FlowMgmtKey) :
    Quiet m (m.setLpm t l) :=
  Quiet.of_eq_quiet (fun _ => by simp) (by simp)

theorem Quiet.Inet_OperEntryAdd_quiet {h : Hdr} {m m' : FlowMgmtManager} {t : TreeId}
    {req : FlowMgmtRequest} {key key' : FlowMgmtKey} {b : Bool}
    (hreq : ∀ d, req.db_entry = some d →
      (key.type_ = .INET4 ∨ key.type_ = .INET6 ∨ key.type_ = .BRIDGE))
    (ha : InetRouteFlowMgmtTree.OperEntryAdd h m t req key = some (b, key', m')) :
    Quiet m m' := by
  unfold InetRouteFlowMgmtTree.OperEntryAdd at ha
  cases hr : RouteFlowMgmtTree.OperEntryAdd h m t req key with
  | none => simp [hr] at ha
  | some r =>
    obtain ⟨ret, m1⟩ := r
    have h1 := Quiet.Route_OperEntryAdd_quiet hreq hr
    have h2 : Quiet m (InetRouteFlowMgmtTree.AddToLPMTree m1 t key) :=
      h1.trans_quiet (Quiet.setLpm_quiet m1 t _)
    simp only [hr] at ha
    by_cases hp : key.plen_ > 0
    · simp only [hp, if_true] at ha
      cases hl : InetRouteFlowMgmtTree.LPM (InetRouteFlowMgmtTree.AddToLPMTree m1 t key) t
          (InetRouteFlowMgmtKey key.vrf_id_ key.ip_ (key.plen_ - 1)) with
      | none =>
        simp only [hl, Option.some.injEq, Prod.mk.injEq] at ha
        rw [← ha.2.2]
        exact h2
      | some c =>
        simp only [hl] at ha
        cases hc : RouteFlowMgmtTree.OperEntryAdd h
            (InetRouteFlowMgmtTree.AddToLPMTree m1 t key) t
            (FlowMgmtRequest.ofDB .ADD_DBENTRY none 0) c with
        | none => simp [hc] at ha
        | some r2 =>
          obtain ⟨b2, m3⟩ := r2
          simp only [hc, Option.some.injEq, Prod.mk.injEq] at ha
          rw [← ha.2.2]
          refine h2.trans_quiet (Quiet.Route_OperEntryAdd_quiet ?_ hc)
          intro d hd
          simp [FlowMgmtRequest.ofDB] at hd
    · simp only [hp, if_false, Option.some.injEq, Prod.mk.injEq] at ha
      rw [← ha.2.2]
      exact h2

theorem Quiet.Vrf_OperEntryAdd_quiet {h : Hdr} {m m' : FlowMgmtManager} {req : FlowMgmtRequest}
    {key : FlowMgmtKey} {b : Bool}
    (ha : VrfFlowMgmtTree.OperEntryAdd h m req key = some (b, m')) : Quiet m m' := by
  unfold VrfFlowMgmtTree.OperEntryAdd at ha
  cases hr : FlowMgmtTree.OperEntryAdd h m .vrf req key with
  | none => simp [hr] at ha
  | some r =>
    obtain ⟨ret, m1⟩ := r
    have h1 := Quiet.OperEntryAdd_quiet hr
    simp only [hr] at ha
    cases hd : key.db_entry_ with
    | none => simp [hd] at ha
    | some vrf =>
      simp only [hd] at ha
      cases hf : List.find? (fun p => p.1 == vrf.vrf_id) m1.id_map_ with
      | some q =>
        simp only [hf, Option.some.injEq, Prod.mk.injEq] at ha
        rw [← ha.2]
        exact h1
      | none =>
        simp only [hf, Option.some.injEq, Prod.mk.injEq] at ha
        rw [← ha.2]
        exact h1.trans_quiet (Quiet.of_eq_quiet (fun t => by cases t <;> rfl) rfl)

/-- The static function `ProcessEvent`, called with the key of a DB entry,
changes neither the registry nor any flow set. -/
theorem Quiet.ProcessEvent_quiet {h : Hdr} {m m' : FlowMgmtManager} {t : TreeId}
    {req : FlowMgmtRequest} {key : FlowMgmtKey} {d : DBEntry} {b : Bool}
    (hK : DBEntryKey d = some (key, t))
    (ha : FlowMgmt.ProcessEvent h m req key t = some (b, m')) : Quiet m m' := by
  have hreq : t = .ip4_route ∨ t = .ip6_route ∨ t = .bridge_route → ∀ d', req.db_entry = some d' →
      (key.type_ = .INET4 ∨ key.type_ = .INET6 ∨ key.type_ = .BRIDGE) :=
    fun ht _ _ => DBEntryKey_route hK ht
  unfold FlowMgmt.ProcessEvent at ha
  cases hev : req.event with
  | ADD_DBENTRY =>
    simp only [hev] at ha
    cases hv : Virtual.OperEntryAdd h m t req key with
    | none => simp [hv] at ha
    | some r =>
      obtain ⟨b1, m1⟩ := r
      simp only [hv, Option.some.injEq, Prod.mk.injEq] at ha
      rw [← ha.2]
      cases t with
      | ip4_route =>
        simp only [Virtual.OperEntryAdd] at hv
        cases hi : InetRouteFlowMgmtTree.OperEntryAdd h m .ip4_route req key with
        | none => simp [hi] at hv
        | some r2 =>
          obtain ⟨b2, k2, m2⟩ := r2
          simp only [hi, Option.some.injEq, Prod.mk.injEq] at hv
          rw [← hv.2]
          exact Quiet.Inet_OperEntryAdd_quiet (hreq (Or.inl rfl)) hi
      | ip6_route =>
        simp only [Virtual.OperEntryAdd] at hv
        cases hi : InetRouteFlowMgmtTree.OperEntryAdd h m .ip6_route req key with
        | none => simp [hi] at hv
        | some r2 =>
          obtain ⟨b2, k2, m2⟩ := r2
          simp only [hi, Option.some.injEq, Prod.mk.injEq] at hv
          rw [← hv.2]
          exact Quiet.Inet_OperEntryAdd_quiet (hreq (Or.inr (Or.inl rfl))) hi
      | bridge_route => exact Quiet.Route_OperEntryAdd_quiet (hreq (Or.inr (Or.inr rfl))) hv
      | vrf => exact Quiet.Vrf_OperEntryAdd_quiet hv
      | acl => exact Quiet.OperEntryAdd_quiet hv
      | ace_id => exact Quiet.OperEntryAdd_quiet hv
      | interface => exact Quiet.OperEntryAdd_quiet hv
      | vn => exact Quiet.OperEntryAdd_quiet hv
      | nh => exact Quiet.OperEntryAdd_quiet hv
  | CHANGE_DBENTRY =>
    simp only [hev] at ha
    cases hv : Virtual.OperEntryChange m t req key with
    | none => simp [hv] at ha
    | some r =>
      obtain ⟨b1, m1⟩ := r
      simp only [hv, Option.some.injEq, Prod.mk.injEq] at ha
      rw [← ha.2]
      exact Quiet.OperEntryChange_quiet hv
  | DELETE_DBENTRY =>
    simp only [hev] at ha
    cases hv : Virtual.OperEntryDelete m t req key with
    | none => simp [hv] at ha
    | some r =>
      obtain ⟨b1, m1⟩ := r
      simp only [hv, Option.some.injEq, Prod.mk.injEq] at ha
      rw [← ha.2]
      have route : ∀ m0 : FlowMgmtManager,
          RouteFlowMgmtTree.OperEntryDelete m0 t req key = some (b1, m1) → Quiet m0 m1 := by
        intro m0 h0
        obtain ⟨m2, h1, h2⟩ := RouteFlowMgmtTree.OperEntryDelete_some h0
        exact (Quiet.OperEntryDelete_quiet h1).trans_quiet (Quiet.RetryVrfDelete_quiet h2)
      cases t with
      | ip4_route => exact (Quiet.setLpm_quiet m _ _).trans_quiet (route _ hv)
      | ip6_route => exact (Quiet.setLpm_quiet m _ _).trans_quiet (route _ hv)
      | bridge_route => exact route _ hv
      | vrf => exact Quiet.OperEntryDelete_quiet hv
      | acl => exact Quiet.OperEntryDelete_quiet hv
      | ace_id => exact Quiet.OperEntryDelete_quiet hv
      | interface => exact Quiet.OperEntryDelete_quiet hv
      | vn => exact Quiet.OperEntryDelete_quiet hv
      | nh => exact Quiet.OperEntryDelete_quiet hv
  | INVALID => simp [hev] at ha
  | ADD_FLOW => simp [hev] at ha
  | DELETE_FLOW => simp [hev] at ha
  | RETRY_DELETE_VRF => simp [hev] at ha

theorem RegInv.of_quiet {m m' : FlowMgmtManager} (h : RegInv m) (hq : Quiet m m') :
    RegInv m' := by
  refine ⟨?_, ?_, ?_⟩
  · intro f info hf
    rw [hq.info f] at hf
    exact h.keys_ok f info hf
  · intro f info hf
    rw [hq.info f] at hf
    exact h.sorted f info hf
  · intro f k t ht
    rw [hq.flows t k]
    have : infoHasKey m' f k = infoHasKey m f k := by
      unfold infoHasKey
      rw [hq.info f]
    rw [this]
    exact h.bicons f k t ht

/-! ## Adding a key of a flow and deleting it -/

theorem VnFlowMgmtEntry.UpdateCounterOnAdd_same (e : FlowMgmtEntry) (flow : FlowEntry)
    (a l i : Bool) :
    (VnFlowMgmtEntry.UpdateCounterOnAdd e flow a l i).tree_ = e.tree_ ∧
    (VnFlowMgmtEntry.UpdateCounterOnAdd e flow a l i).oper_state_ = e.oper_state_ ∧
    (VnFlowMgmtEntry.UpdateCounterOnAdd e flow a l i).gen_id_ = e.gen_id_ := by
  unfold VnFlowMgmtEntry.UpdateCounterOnAdd
  split
  · split
    · exact ⟨rfl, rfl, rfl⟩
    · split <;> exact ⟨rfl, rfl, rfl⟩
  · split
    · exact ⟨rfl, rfl, rfl⟩
    · simp only
      split
      · split <;> exact ⟨rfl, rfl, rfl⟩
      · exact ⟨rfl, rfl, rfl⟩

theorem VnFlowMgmtEntry.UpdateCounterOnDel_same (e : FlowMgmtEntry) (flow : FlowEntry)
    (l i : Bool) :
    (VnFlowMgmtEntry.UpdateCounterOnDel e flow l i).tree_ = e.tree_ ∧
    (VnFlowMgmtEntry.UpdateCounterOnDel e flow l i).oper_state_ = e.oper_state_ ∧
    (VnFlowMgmtEntry.UpdateCounterOnDel e flow l i).gen_id_ = e.gen_id_ := by
  unfold VnFlowMgmtEntry.UpdateCounterOnDel
  split
  · exact ⟨rfl, rfl, rfl⟩
  · split <;> exact ⟨rfl, rfl, rfl⟩

/-- Rewriting the counters of the entry found for a key is a quiet step that
keeps the invariant. -/
theorem counters_step (reqs : List FlowMgmtRequest) {m : FlowMgmtManager} {t : TreeId}
    {key k1 : FlowMgmtKey} {e e' : FlowMgmtEntry} (hf : (m.tree t).find key = some (k1, e))
    (htree : e'.tree_ = e.tree_) (hstate : e'.oper_state_ = e.oper_state_) :
    Quiet m (m.setTree t ((m.tree t).setEntry key e')) ∧
    (TreeInv reqs m → TreeInv reqs (m.setTree t ((m.tree t).setEntry key e'))) ∧
    Frame m (m.setTree t ((m.tree t).setEntry key e')) [] := by
  have hstep : FindStep m (m.setTree t ((m.tree t).setEntry key e')) t key (some (k1, e')) :=
    FindStep.setEntry_of hf (fun _ => rfl) e'
  refine ⟨Quiet.of_step hstep (Frame.setTree _ _ _) ?_, ?_, Frame.setTree _ _ _⟩
  · rw [flowsAt_of_find hf]
    exact htree
  · intro hinv
    have hgood := hinv.entries t key _ hf
    refine hinv.step_inv hstep (Frame.setTree _ _ _) ?_ (by simp)
    intro p hp
    simp only [Option.some.injEq] at hp
    subst hp
    refine ⟨?_, ?_, ?_, hgood.key_db⟩
    · intro h1
      simp only [htree]
      exact hgood.no_flows h1
    · intro h1
      simp only [htree, hstate]
      exact hgood.zombie h1
    · intro h1
      simp only [hstate] at h1
      exact hgood.del_seen h1

theorem treeOfKeyType_VN : FlowMgmtManager.treeOfKeyType .VN = some .vn := rfl

/-- The parts of a successful `AddFlowMgmtKey`: the record of the flow gets the
key, the base `Add` runs on the index of the key's tag, and for a VN key the
counters of the entry and the memoized flags are rewritten. -/
theorem FlowMgmtManager.AddFlowMgmtKey_some {h : Hdr} {m m' : FlowMgmtManager}
    {flow : FlowEntry} {key : FlowMgmtKey} (ha : m.AddFlowMgmtKey h flow key = some m') :
    ∃ info t b m2, m.FindFlowEntryInfo flow.id = some info ∧
      FlowMgmtManager.treeOfKeyType key.type_ = some t ∧
      FlowMgmtTree.Add h
        (m.setInfo flow.id { info with tree_ := (FlowMgmtKeyTree.insert info.tree_ key).1 })
        t key flow.id = some (b, m2) ∧
      ((key.type_ ≠ .VN ∧ m' = m2) ∨
       (key.type_ = .VN ∧ ∃ k1 entry, (m2.tree .vn).find key = some (k1, entry) ∧
          m' = (m2.setTree .vn ((m2.tree .vn).setEntry key
                  (VnFlowMgmtEntry.UpdateCounterOnAdd entry flow b info.local_flow_
                    info.ingress_))).setInfo flow.id
                { tree_ := (FlowMgmtKeyTree.insert info.tree_ key).1, count_ := info.count_,
                  local_flow_ := flow.LocalFlow, ingress_ := flow.IngressDir })) := by
  unfold FlowMgmtManager.AddFlowMgmtKey at ha
  cases hf : m.FindFlowEntryInfo flow.id with
  | none => simp [hf] at ha
  | some info =>
    simp only [hf] at ha
    by_cases hvn : key.type_ = .VN
    · simp only [hvn, Virtual.Add] at ha
      cases hadd : FlowMgmtTree.Add h
          (m.setInfo flow.id { info with tree_ := (FlowMgmtKeyTree.insert info.tree_ key).1 })
          .vn key flow.id with
      | none => simp [hadd] at ha
      | some r =>
        obtain ⟨b, m2⟩ := r
        simp only [hadd, FlowMgmtTree.Find] at ha
        cases hfind : (m2.tree .vn).find key with
        | none => simp [hfind] at ha
        | some q =>
          obtain ⟨k1, entry⟩ := q
          simp only [hfind, Option.some.injEq] at ha
          refine ⟨info, .vn, b, m2, rfl, by rw [hvn]; rfl, hadd, Or.inr ⟨hvn, k1, entry, hfind, ?_⟩⟩
          exact ha.symm
    · have hsplit : ∀ (ty : KeyType), ty = key.type_ →
          (match FlowMgmtManager.treeOfKeyType ty with
            | none => none
            | some t =>
              match Virtual.Add h
                (m.setInfo flow.id
                  { info with tree_ := (FlowMgmtKeyTree.insert info.tree_ key).1 })
                t key flow.id with
              | none => none
              | some (_, m2) => some m2) = some m' := by
        intro ty hty
        cases hk : key.type_ <;> rw [hk] at ha hvn hty <;> subst hty <;>
          first
          | exact absurd rfl hvn
          | exact ha
      have h2 := hsplit key.type_ rfl
      cases ht : FlowMgmtManager.treeOfKeyType key.type_ with
      | none => simp [ht] at h2
      | some t =>
        simp only [ht, Virtual.Add] at h2
        cases hadd : FlowMgmtTree.Add h
            (m.setInfo flow.id { info with tree_ := (FlowMgmtKeyTree.insert info.tree_ key).1 })
            t key flow.id with
        | none => simp [hadd] at h2
        | some r =>
          obtain ⟨b, m2⟩ := r
          simp only [hadd, Option.some.injEq] at h2
          exact ⟨info, t, b, m2, rfl, rfl, hadd, Or.inl ⟨hvn, h2.symm⟩⟩

theorem Quiet.setInfo_flows (m : FlowMgmtManager) (f : Nat) (info : FlowEntryInfo)
    (t : TreeId) (k : FlowMgmtKey) : flowsAt (m.setInfo f info) t k = flowsAt m t k := by
  unfold flowsAt
  rw [tree_setInfo]

theorem FindFlowEntryInfo_setInfo_self {m : FlowMgmtManager} {f : Nat} {info0 : FlowEntryInfo}
    (h : m.FindFlowEntryInfo f = some info0) (info : FlowEntryInfo) :
    (m.setInfo f info).FindFlowEntryInfo f = some info := by
  rw [FlowMgmtManager.FindFlowEntryInfo_setInfo, if_pos rfl, h]
  rfl

theorem FindFlowEntryInfo_setInfo_ne (m : FlowMgmtManager) {f f' : Nat} (h : f' ≠ f)
    (info : FlowEntryInfo) : (m.setInfo f info).FindFlowEntryInfo f' = m.FindFlowEntryInfo f' := by
  rw [FlowMgmtManager.FindFlowEntryInfo_setInfo, if_neg h]

/-- The effect of a successful `AddFlowMgmtKey`, and the index invariant after
it. -/
theorem FlowMgmtManager.AddFlowMgmtKey_effect {h : Hdr} {m m' : FlowMgmtManager}
    {flow : FlowEntry} {key : FlowMgmtKey} (ha : m.AddFlowMgmtKey h flow key = some m') :
    ∃ t, FlowMgmtManager.treeOfKeyType key.type_ = some t ∧ AddEffect m m' flow.id t key ∧
      ∀ reqs, TreeInv reqs m → KeyDBOK t key → h.oper_state_init ≠ .OPER_DEL_SEEN →
        TreeInv reqs m' := by
  obtain ⟨info, t, b, m2, hinfo, ht, hadd, hcase⟩ := FlowMgmtManager.AddFlowMgmtKey_some ha
  refine ⟨t, ht, ?_, ?_⟩
  · obtain ⟨k1, e, hloc, _, hstep, hframe, _⟩ := FlowMgmtTree.Add_step hadd
    have hloc_flows := hloc.flows
    have hflows2 : ∀ t' k' f', f' ∈ flowsAt m2 t' k' ↔
        f' ∈ flowsAt m t' k' ∨ (t' = t ∧ SameKey key k' = true ∧ f' = flow.id) := by
      intro t' k' f'
      rw [flowsAt_step hstep]
      by_cases hc : t' = t ∧ SameKey key k' = true
      · rw [if_pos hc]
        simp only [answerFlows]
        rw [FlowMgmtEntry.Add_mem, hloc_flows, Quiet.setInfo_flows, hc.1,
          flowsAt_congr m t hc.2]
        constructor
        · rintro (h1 | h1)
          · exact Or.inr ⟨rfl, hc.2, h1⟩
          · exact Or.inl h1
        · rintro (h1 | ⟨_, _, h1⟩)
          · exact Or.inr h1
          · exact Or.inl h1
      · rw [if_neg hc, Quiet.setInfo_flows]
        constructor
        · exact fun h1 => Or.inl h1
        · rintro (h1 | ⟨h1, h2, _⟩)
          · exact h1
          · exact absurd ⟨h1, h2⟩ hc
    have hinfo2 : ∀ f, m2.FindFlowEntryInfo f =
        (m.setInfo flow.id
          { info with tree_ := (FlowMgmtKeyTree.insert info.tree_ key).1 }).FindFlowEntryInfo f :=
      hframe.FindFlowEntryInfo
    rcases hcase with ⟨_, hm⟩ | ⟨_, k2, entry, hfind, hm⟩
    · subst hm
      refine ⟨⟨info, { info with tree_ := (FlowMgmtKeyTree.insert info.tree_ key).1 }, hinfo,
        ?_, rfl⟩, ?_, hflows2, ?_⟩
      · rw [hinfo2]
        exact FindFlowEntryInfo_setInfo_self hinfo _
      · intro f hf
        rw [hinfo2]
        exact FindFlowEntryInfo_setInfo_ne m hf _
      · rw [hframe.response_queue]
        simp
    · subst hm
      refine ⟨⟨info, ⟨(FlowMgmtKeyTree.insert info.tree_ key).1, info.count_, flow.LocalFlow,
        flow.IngressDir⟩, hinfo, ?_, rfl⟩, ?_, ?_, ?_⟩
      · apply FindFlowEntryInfo_setInfo_self
        rw [setTree_FindFlowEntryInfo, hinfo2]
        exact FindFlowEntryInfo_setInfo_self hinfo _
      · intro f hf
        rw [FindFlowEntryInfo_setInfo_ne _ hf, setTree_FindFlowEntryInfo, hinfo2]
        exact FindFlowEntryInfo_setInfo_ne m hf _
      · intro t' k' f'
        rw [Quiet.setInfo_flows]
        have hq := (counters_step [] hfind
          (VnFlowMgmtEntry.UpdateCounterOnAdd_same entry flow b info.local_flow_
            info.ingress_).1
          (VnFlowMgmtEntry.UpdateCounterOnAdd_same entry flow b info.local_flow_
            info.ingress_).2.1).1
        rw [hq.flows]
        exact hflows2 t' k' f'
      · simp [hframe.response_queue]
  · intro reqs hinv hkey hinit
    have htne : t ≠ .vrf ∧ t ≠ .ace_id := by
      cases hk : key.type_ <;> rw [hk] at ht <;>
        simp only [FlowMgmtManager.treeOfKeyType, Option.some.injEq] at ht <;>
        first
        | (subst ht; exact ⟨by decide, by decide⟩)
        | exact absurd ht (by simp)
    have hinv1 : TreeInv reqs (m.setInfo flow.id
        { info with tree_ := (FlowMgmtKeyTree.insert info.tree_ key).1 }) :=
      hinv.of_eq_inv (fun _ => by simp) rfl (fun _ => by simp) rfl
    have hinv2 := hinv1.Add htne hkey hinit hadd
    rcases hcase with ⟨_, hm⟩ | ⟨_, k2, entry, hfind, hm⟩
    · rw [hm]
      exact hinv2
    · rw [hm]
      have hc := (counters_step reqs hfind
          (VnFlowMgmtEntry.UpdateCounterOnAdd_same entry flow b info.local_flow_
            info.ingress_).1
          (VnFlowMgmtEntry.UpdateCounterOnAdd_same entry flow b info.local_flow_
            info.ingress_).2.1).2.1 hinv2
      exact hc.of_eq_inv (fun _ => by simp) rfl (fun _ => by simp) rfl

theorem FreedNow.nil_freedNow (m : FlowMgmtManager) (t : TreeId) (key : FlowMgmtKey) :
    FreedNow m t key [] := by
  intro r hr
  exact absurd hr (List.not_mem_nil _)

theorem FreedNow.append {m : FlowMgmtManager} {t : TreeId} {key : FlowMgmtKey}
    {r1 r2 : List FlowMgmtResponse} (h1 : FreedNow m t key r1) (h2 : FreedNow m t key r2) :
    FreedNow m t key (r1 ++ r2) := by
  intro r hr
  rcases List.mem_append.1 hr with h | h
  · exact h1 r h
  · exact h2 r h

theorem FreedNow.quiet_freedNow {m m' : FlowMgmtManager} {t : TreeId} {key : FlowMgmtKey}
    {resp : List FlowMgmtResponse} (h : FreedNow m t key resp) (hq : Quiet m m') :
    FreedNow m' t key resp := by
  intro r hr
  obtain ⟨hev, d, K, t0, hd, hK, hfl, hcase⟩ := h r hr
  exact ⟨hev, d, K, t0, hd, hK, by rw [hq.flows]; exact hfl, hcase⟩

/-- The free notification of a `TryDelete` that erased the entry under `key` is
for an object no flow depends on any more. -/
theorem tryDeleteResponses_freed {m m' : FlowMgmtManager} {t : TreeId}
    {key k1 : FlowMgmtKey} {e : FlowMgmtEntry} (hstep : FindStep m m' t key none)
    (hk1 : SameKey k1 key = true) (hdb : KeyDBOK t k1) :
    FreedNow m' t key (tryDeleteResponses k1 e) := by
  intro r hr
  unfold tryDeleteResponses at hr
  split at hr
  · unfold freeResponses at hr
    cases hd : k1.db_entry_ with
    | none => simp [hd] at hr
    | some d =>
      simp only [hd] at hr
      split at hr
      · simp at hr
      · simp only [List.mem_singleton] at hr
        obtain ⟨K, hK, hs⟩ := hdb d hd
        have hkK : SameKey key K = true := sameKey_symm (sameKey_trans hs hk1)
        rw [hr]
        refine ⟨rfl, d, K, t, rfl, hK, ?_, Or.inr ⟨rfl, hkK⟩⟩
        rw [flowsAt_step hstep, if_pos ⟨rfl, hkK⟩]
        rfl
  · simp at hr

/-- The base `Delete` removes the flow from the flow set of the key, and
nothing else from any flow set. -/
theorem FlowMgmtTree.Delete_effect {reqs : List FlowMgmtRequest} {m m' : FlowMgmtManager}
    {t : TreeId} {key : FlowMgmtKey} {flow : Nat} {b : Bool} (hinv : TreeInv reqs m)
    (ha : FlowMgmtTree.Delete m t key flow = some (b, m')) :
    (∀ t' k' f', f' ∈ flowsAt m' t' k' ↔
      f' ∈ flowsAt m t' k' ∧ ¬ (t' = t ∧ SameKey key k' = true ∧ f' = flow)) ∧
    (∀ f, m'.FindFlowEntryInfo f = m.FindFlowEntryInfo f) ∧
    ∃ resp, m'.response_queue_ = m.response_queue_ ++ resp ∧ FreedNow m' t key resp := by
  rcases FlowMgmtTree.Delete_step ha with ⟨hf, hm⟩ | ⟨k1, e, hf, hcase⟩
  · subst hm
    refine ⟨?_, fun _ => rfl, [], by simp, FreedNow.nil_freedNow _ _ _⟩
    intro t' k' f'
    constructor
    · intro h1
      refine ⟨h1, ?_⟩
      rintro ⟨h2, h3, _⟩
      rw [h2, ← flowsAt_congr _ t h3, flowsAt_of_none hf] at h1
      exact absurd h1 (List.not_mem_nil _)
    · exact fun h1 => h1.1
  · have hk1 : SameKey k1 key = true := Tree.find_some_same hf
    have main : ∀ (new : Option (FlowMgmtKey × FlowMgmtEntry)),
        FindStep m m' t key new → answerFlows new = (e.Delete flow).2.tree_ →
        ∀ t' k' f', f' ∈ flowsAt m' t' k' ↔
          f' ∈ flowsAt m t' k' ∧ ¬ (t' = t ∧ SameKey key k' = true ∧ f' = flow) := by
      intro new hstep hnew t' k' f'
      rw [flowsAt_step hstep]
      by_cases hc : t' = t ∧ SameKey key k' = true
      · rw [if_pos hc, hnew, FlowMgmtEntry.Delete_mem, hc.1, ← flowsAt_congr m t hc.2,
          flowsAt_of_find hf]
        constructor
        · rintro ⟨h1, h2⟩
          exact ⟨h1, fun h3 => h2 h3.2.2⟩
        · rintro ⟨h1, h2⟩
          exact ⟨h1, fun h3 => h2 ⟨rfl, hc.2, h3⟩⟩
      · rw [if_neg hc]
        constructor
        · exact fun h1 => ⟨h1, fun h3 => hc ⟨h3.1, h3.2.1⟩⟩
        · exact fun h1 => h1.1
    rcases hcase with ⟨_, hstep, hframe, _⟩ | ⟨hc, hstep, hframe, _, _⟩
    · refine ⟨main _ hstep rfl, hframe.FindFlowEntryInfo, [], hframe.response_queue,
        FreedNow.nil_freedNow _ _ _⟩
    · refine ⟨main _ hstep ?_, hframe.FindFlowEntryInfo, _, hframe.response_queue, ?_⟩
      · exact (Entry.CanDelete_true_dispatch hc).1.symm
      · exact tryDeleteResponses_freed hstep hk1 (hinv.entries t key _ hf).key_db

/-- The retry of a VRF delete frees only a VRF, which no flow depends on. -/
theorem FlowMgmtManager.RetryVrfDelete_freed {reqs : List FlowMgmtRequest}
    {m m' : FlowMgmtManager} {vrf_id : Nat} (hinv : TreeInv reqs m) (t : TreeId)
    (key : FlowMgmtKey) (ha : m.RetryVrfDelete vrf_id = some m') :
    ∃ resp, m'.response_queue_ = m.response_queue_ ++ resp ∧ FreedNow m' t key resp := by
  rcases VrfFlowMgmtTree.RetryDelete_step_vrf ha with hm | ⟨vrf, k1, e, hmem, hf, _, hstep, hframe⟩
  · subst hm
    exact ⟨[], by simp, FreedNow.nil_freedNow _ _ _⟩
  · refine ⟨_, hframe.response_queue, ?_⟩
    obtain ⟨ptr, v, hv⟩ := hinv.id_map _ hmem
    simp only at hv
    intro r hr
    unfold tryDeleteResponses at hr
    split at hr
    · unfold freeResponses at hr
      simp only [VrfFlowMgmtKey, FlowMgmtKey.ofDB] at hr
      split at hr
      · simp at hr
      · simp only [List.mem_singleton] at hr
        rw [hr]
        refine ⟨rfl, vrf, VrfFlowMgmtKey (some vrf), .vrf, rfl, ?_, ?_, Or.inl rfl⟩
        · rw [hv]
          rfl
        · rw [flowsAt_step hstep, if_pos ⟨rfl, sameKey_refl _⟩]
          rfl
    · simp at hr

/-- The parts of a successful `DeleteFlowMgmtKey`: the key is in the record of
the flow, the virtual `Delete` runs on the index of the key's tag, and for a VN
key the counters of the surviving entry and the memoized flags are rewritten. -/
theorem FlowMgmtManager.DeleteFlowMgmtKey_some {m m' : FlowMgmtManager}
    {flow : FlowEntry} {key : FlowMgmtKey} (ha : m.DeleteFlowMgmtKey flow key = some m') :
    ∃ info t b m1, m.FindFlowEntryInfo flow.id = some info ∧
      FlowMgmtManager.treeOfKeyType key.type_ = some t ∧
      Virtual.Delete m t key flow.id = some (b, m1) ∧
      ((key.type_ ≠ .VN ∧ m' = m1) ∨
       (key.type_ = .VN ∧
          m' = (match (m1.tree .vn).find key with
                | some (_, entry) =>
                  m1.setTree .vn ((m1.tree .vn).setEntry key
                    (VnFlowMgmtEntry.UpdateCounterOnDel entry flow info.local_flow_
                      info.ingress_))
                | none => m1).setInfo flow.id
                  { info with local_flow_ := flow.LocalFlow, ingress_ := flow.IngressDir })) := by
  unfold FlowMgmtManager.DeleteFlowMgmtKey at ha
  cases hf : m.FindFlowEntryInfo flow.id with
  | none => simp [hf] at ha
  | some info =>
    simp only [hf] at ha
    cases hk : FlowMgmtKeyTree.find info.tree_ key with
    | none => simp [hk] at ha
    | some k0 =>
      simp only [hk] at ha
      by_cases hvn : key.type_ = .VN
      · simp only [hvn] at ha
        cases hd : Virtual.Delete m .vn key flow.id with
        | none => simp [hd] at ha
        | some r =>
          obtain ⟨b, m1⟩ := r
          simp only [hd, FlowMgmtTree.Find, Option.some.injEq] at ha
          exact ⟨info, .vn, b, m1, rfl, by rw [hvn]; rfl, hd, Or.inr ⟨hvn, ha.symm⟩⟩
      · have hsplit : ∀ (ty : KeyType), ty = key.type_ →
            (match FlowMgmtManager.treeOfKeyType ty with
              | none => none
              | some t =>
                match Virtual.Delete m t key flow.id with
                | none => none
                | some (_, m1) => some m1) = some m' := by
          intro ty hty
          cases hk2 : key.type_ <;> rw [hk2] at ha hvn hty <;> subst hty <;>
            first
            | exact absurd rfl hvn
            | exact ha
        have h2 := hsplit key.type_ rfl
        cases ht : FlowMgmtManager.treeOfKeyType key.type_ with
        | none => simp [ht] at h2
        | some t =>
          simp only [ht] at h2
          cases hd : Virtual.Delete m t key flow.id with
          | none => simp [hd] at h2
          | some r =>
            obtain ⟨b, m1⟩ := r
            simp only [hd, Option.some.injEq] at h2
            exact ⟨info, t, b, m1, rfl, rfl, hd, Or.inl ⟨hvn, h2.symm⟩⟩

theorem treeOfKeyType_ne_vrf {ty : KeyType} {t : TreeId}
    (h : FlowMgmtManager.treeOfKeyType ty = some t) : t ≠ .vrf ∧ t ≠ .ace_id := by
  cases ty <;> simp only [FlowMgmtManager.treeOfKeyType, Option.some.injEq] at h <;>
    first
    | (subst h; exact ⟨by decide, by decide⟩)
    | exact absurd h (by simp)

theorem FindFlowEntryInfo_eraseInfoKey {m : FlowMgmtManager} {f : Nat} {info : FlowEntryInfo}
    (h : m.FindFlowEntryInfo f = some info) (k : FlowMgmtKey) :
    (m.eraseInfoKey f k).FindFlowEntryInfo f =
      some { info with tree_ := FlowMgmtKeyTree.erase info.tree_ k } ∧
    (∀ f', f' ≠ f → (m.eraseInfoKey f k).FindFlowEntryInfo f' = m.FindFlowEntryInfo f') ∧
    (∀ t, (m.eraseInfoKey f k).tree t = m.tree t) ∧
    (m.eraseInfoKey f k).response_queue_ = m.response_queue_ ∧
    (m.eraseInfoKey f k).id_map_ = m.id_map_ ∧
    (∀ t, (m.eraseInfoKey f k).lpm t = m.lpm t) := by
  unfold FlowMgmtManager.eraseInfoKey
  rw [h]
  simp only
  exact ⟨FindFlowEntryInfo_setInfo_self h _, fun f' hf' => FindFlowEntryInfo_setInfo_ne m hf' _,
    fun t => by simp, rfl, rfl, fun t => by simp⟩

/-- The effect of a successful `del` operation, and the index invariant after
it. -/
theorem applyOp_del_effect {reqs : List FlowMgmtRequest} {h : Hdr} {m m' : FlowMgmtManager}
    {flow : FlowEntry} {key : FlowMgmtKey} (hinv : TreeInv reqs m)
    (ha : applyOp h flow m (.del key) = some m') :
    ∃ t, FlowMgmtManager.treeOfKeyType key.type_ = some t ∧ DelEffect m m' flow.id t key ∧
      TreeInv reqs m' := by
  simp only [applyOp] at ha
  cases hd : m.DeleteFlowMgmtKey flow key with
  | none => simp [hd] at ha
  | some md =>
    simp only [hd, Option.some.injEq] at ha
    obtain ⟨info, t, b, m1, hinfo, ht, hvd, hcase⟩ := FlowMgmtManager.DeleteFlowMgmtKey_some hd
    have htne := treeOfKeyType_ne_vrf ht
    obtain ⟨m0, hbase, hretry⟩ := Virtual.Delete_some_virtual hvd
    obtain ⟨hfl0, hinfo0, resp0, hresp0, hfreed0⟩ := FlowMgmtTree.Delete_effect hinv hbase
    have hinv0 := hinv.Delete htne.1 hbase
    -- after the retry of the VRF delete
    have h1 : (∀ t' k', flowsAt m1 t' k' = flowsAt m0 t' k') ∧
        (∀ f, m1.FindFlowEntryInfo f = m0.FindFlowEntryInfo f) ∧ TreeInv reqs m1 ∧
        ∃ resp1, m1.response_queue_ = m0.response_queue_ ++ resp1 ∧ FreedNow m1 t key resp1 := by
      rcases hretry with hm | hr
      · subst hm
        exact ⟨fun _ _ => rfl, fun _ => rfl, hinv0, [], by simp, FreedNow.nil_freedNow _ _ _⟩
      · have hq := Quiet.RetryVrfDelete_quiet hr
        exact ⟨hq.flows, hq.info, hinv0.RetryVrfDelete_inv hr,
          FlowMgmtManager.RetryVrfDelete_freed hinv0 t key hr⟩
    obtain ⟨hfl1, hinfo1, hinv1, resp1, hresp1, hfreed1⟩ := h1
    have hq01 : Quiet m0 m1 := ⟨hinfo1, hfl1⟩
    have hfreed01 : FreedNow m1 t key (resp0 ++ resp1) := (hfreed0.quiet_freedNow hq01).append hfreed1
    have hresp01 : m1.response_queue_ = m.response_queue_ ++ (resp0 ++ resp1) := by
      rw [hresp1, hresp0, List.append_assoc]
    have hinfo_m1 : m1.FindFlowEntryInfo flow.id = some info := by
      rw [hinfo1, hinfo0, hinfo]
    have hflows_m1 : ∀ t' k' f', f' ∈ flowsAt m1 t' k' ↔
        f' ∈ flowsAt m t' k' ∧ ¬ (t' = t ∧ SameKey key k' = true ∧ f' = flow.id) := by
      intro t' k' f'
      rw [hfl1]
      exact hfl0 t' k' f'
    -- the manager after `DeleteFlowMgmtKey`
    have h2 : ∃ info2, md.FindFlowEntryInfo flow.id = some info2 ∧ info2.tree_ = info.tree_ ∧
        (∀ f, f ≠ flow.id → md.FindFlowEntryInfo f = m1.FindFlowEntryInfo f) ∧
        (∀ t' k', flowsAt md t' k' = flowsAt m1 t' k') ∧ TreeInv reqs md ∧
        md.response_queue_ = m1.response_queue_ := by
      rcases hcase with ⟨_, hm⟩ | ⟨_, hm⟩
      · subst hm
        exact ⟨info, hinfo_m1, rfl, fun _ _ => rfl, fun _ _ => rfl, hinv1, rfl⟩
      · cases hfind : (m1.tree .vn).find key with
        | none =>
          rw [hfind] at hm
          subst hm
          refine ⟨_, FindFlowEntryInfo_setInfo_self hinfo_m1 _, rfl,
            fun f hf => FindFlowEntryInfo_setInfo_ne m1 hf _,
            fun _ _ => Quiet.setInfo_flows _ _ _ _ _,
            hinv1.of_eq_inv (fun _ => by simp) rfl (fun _ => by simp) rfl, rfl⟩
        | some q =>
          obtain ⟨k2, entry⟩ := q
          rw [hfind] at hm
          simp only at hm
          subst hm
          have hc := counters_step reqs hfind
            (VnFlowMgmtEntry.UpdateCounterOnDel_same entry flow info.local_flow_
              info.ingress_).1
            (VnFlowMgmtEntry.UpdateCounterOnDel_same entry flow info.local_flow_
              info.ingress_).2.1
          have hi : (m1.setTree .vn ((m1.tree .vn).setEntry key
              (VnFlowMgmtEntry.UpdateCounterOnDel entry flow info.local_flow_
                info.ingress_))).FindFlowEntryInfo flow.id = some info := by
            rw [setTree_FindFlowEntryInfo]
            exact hinfo_m1
          refine ⟨_, FindFlowEntryInfo_setInfo_self hi _, rfl, ?_, ?_, ?_, ?_⟩
          · intro f hf
            rw [FindFlowEntryInfo_setInfo_ne _ hf, setTree_FindFlowEntryInfo]
          · intro t' k'
            rw [Quiet.setInfo_flows, hc.1.flows]
          · exact (hc.2.1 hinv1).of_eq_inv (fun _ => by simp) rfl (fun _ => by simp) rfl
          · simp
    obtain ⟨info2, hinfo2, htree2, hother2, hfl2, hinv2, hresp2⟩ := h2
    obtain ⟨he1, he2, he3, he4, he5, he6⟩ := FindFlowEntryInfo_eraseInfoKey hinfo2 key
    subst ha
    have hqd : ∀ t' k', flowsAt (md.eraseInfoKey flow.id key) t' k' = flowsAt m1 t' k' := by
      intro t' k'
      unfold flowsAt
      rw [he3]
      exact hfl2 t' k'
    refine ⟨t, ht, ⟨⟨info, _, hinfo, he1, ?_⟩, ?_, ?_, ?_⟩, ?_⟩
    · simp only [htree2]
    · intro f hf
      rw [he2 f hf, hother2 f hf, hinfo1, hinfo0]
    · intro t' k' f'
      rw [hqd]
      exact hflows_m1 t' k' f'
    · refine ⟨resp0 ++ resp1, ?_, ?_⟩
      · rw [he4, hresp2, hresp01]
      · intro r hr
        obtain ⟨hev, d, K, t0, hd0, hK, hfl, hc⟩ := hfreed01 r hr
        exact ⟨hev, d, K, t0, hd0, hK, by rw [hqd]; exact hfl, hc⟩
    · exact hinv2.of_eq_inv he3 he5 he6 he4

/-! ## Key sets -/

theorem FlowMgmtKeyTree.find_isSome {s : FlowMgmtKeyTree} {k : FlowMgmtKey} :
    (FlowMgmtKeyTree.find s k).isSome = true ↔ ∃ x, x ∈ s ∧ SameKey x k = true := by
  unfold FlowMgmtKeyTree.find
  rw [List.find?_isSome]

theorem FlowMgmtKeyTree.find_none {s : FlowMgmtKeyTree} {k : FlowMgmtKey} :
    FlowMgmtKeyTree.find s k = none ↔ ∀ x, x ∈ s → SameKey x k = false := by
  unfold FlowMgmtKeyTree.find
  rw [List.find?_eq_none]
  simp

theorem FlowMgmtKeyTree.has_insert (s : FlowMgmtKeyTree) (k k' : FlowMgmtKey) :
    (∃ x, x ∈ (FlowMgmtKeyTree.insert s k).1 ∧ SameKey x k' = true) ↔
      (∃ x, x ∈ s ∧ SameKey x k' = true) ∨ SameKey k k' = true := by
  unfold FlowMgmtKeyTree.insert
  cases hf : FlowMgmtKeyTree.find s k with
  | some y =>
    simp only
    constructor
    · exact fun h => Or.inl h
    · rintro (h | h)
      · exact h
      · have hy : (FlowMgmtKeyTree.find s k).isSome = true := by rw [hf]; rfl
        obtain ⟨x, hx, hs⟩ := FlowMgmtKeyTree.find_isSome.1 hy
        exact ⟨x, hx, sameKey_trans hs h⟩
  | none =>
    simp only
    constructor
    · rintro ⟨x, hx, hs⟩
      rcases (mem_insertBy _ _ _ _).1 hx with h | h
      · rw [h] at hs
        exact Or.inr hs
      · exact Or.inl ⟨x, h, hs⟩
    · rintro (⟨x, hx, hs⟩ | h)
      · exact ⟨x, (mem_insertBy _ _ _ _).2 (Or.inr hx), hs⟩
      · exact ⟨k, (mem_insertBy _ _ _ _).2 (Or.inl rfl), h⟩

theorem FlowMgmtKeyTree.has_erase (s : FlowMgmtKeyTree) (k k' : FlowMgmtKey) :
    (∃ x, x ∈ FlowMgmtKeyTree.erase s k ∧ SameKey x k' = true) ↔
      (∃ x, x ∈ s ∧ SameKey x k' = true) ∧ SameKey k k' = false := by
  constructor
  · rintro ⟨x, hx, hs⟩
    obtain ⟨h1, h2⟩ := FlowMgmtKeyTree.mem_erase_keyTree.1 hx
    refine ⟨⟨x, h1, hs⟩, ?_⟩
    cases hkk : SameKey k k' with
    | false => rfl
    | true =>
      have := sameKey_trans hs (sameKey_symm hkk)
      rw [h2] at this
      exact absurd this (by decide)
  · rintro ⟨⟨x, hx, hs⟩, hkk⟩
    refine ⟨x, FlowMgmtKeyTree.mem_erase_keyTree.2 ⟨hx, ?_⟩, hs⟩
    cases hxk : SameKey x k with
    | false => rfl
    | true =>
      have := sameKey_trans (sameKey_symm hxk) hs
      rw [hkk] at this
      exact absurd this (by decide)

theorem insertBy_sorted (k : FlowMgmtKey) (s : List FlowMgmtKey) (hs : KeysSorted s)
    (hk : ∀ x, x ∈ s → SameKey x k = false) : KeysSorted (insertBy FlowMgmtKey.IsLess k s) := by
  unfold KeysSorted at hs ⊢
  induction s with
  | nil => simp [insertBy]
  | cons x xs ih =>
    rw [List.pairwise_cons] at hs
    unfold insertBy
    by_cases hlt : k.IsLess x = true
    · rw [if_pos hlt, List.pairwise_cons]
      refine ⟨?_, List.pairwise_cons.2 hs⟩
      intro y hy
      rcases List.mem_cons.1 hy with h | h
      · rw [h]
        exact hlt
      · exact isLess_trans hlt (hs.1 y h)
    · rw [if_neg hlt, List.pairwise_cons]
      have hxk : x.IsLess k = true := by
        cases hx : x.IsLess k with
        | true => rfl
        | false =>
          have := sameKey_of_not_isLess hx (by simpa using hlt)
          rw [hk x (List.mem_cons_self _ _)] at this
          exact absurd this (by decide)
      refine ⟨?_, ih hs.2 (fun y hy => hk y (List.mem_cons_of_mem _ hy))⟩
      intro y hy
      rcases (mem_insertBy _ _ _ _).1 hy with h | h
      · rw [h]
        exact hxk
      · exact hs.1 y h

theorem FlowMgmtKeyTree.insert_sorted (s : FlowMgmtKeyTree) (k : FlowMgmtKey)
    (hs : KeysSorted s) : KeysSorted (FlowMgmtKeyTree.insert s k).1 := by
  unfold FlowMgmtKeyTree.insert
  cases hf : FlowMgmtKeyTree.find s k with
  | some y => exact hs
  | none => exact insertBy_sorted k s hs (FlowMgmtKeyTree.find_none.1 hf)

theorem FlowMgmtKeyTree.erase_sorted (s : FlowMgmtKeyTree) (k : FlowMgmtKey)
    (hs : KeysSorted s) : KeysSorted (FlowMgmtKeyTree.erase s k) := by
  unfold FlowMgmtKeyTree.erase KeysSorted
  exact List.Pairwise.filter _ hs

theorem infoHasKey_iff {m : FlowMgmtManager} {f : Nat} {k : FlowMgmtKey} :
    infoHasKey m f k = true ↔
      ∃ info, m.FindFlowEntryInfo f = some info ∧ ∃ x, x ∈ info.tree_ ∧ SameKey x k = true := by
  unfold infoHasKey
  cases hf : m.FindFlowEntryInfo f with
  | none => simp
  | some info =>
    simp only [Option.some.injEq, exists_eq_left']
    exact FlowMgmtKeyTree.find_isSome

theorem treeOfKeyType_same {k k' : FlowMgmtKey} {t t' : TreeId}
    (hs : SameKey k k' = true) (ht : FlowMgmtManager.treeOfKeyType k.type_ = some t)
    (ht' : FlowMgmtManager.treeOfKeyType k'.type_ = some t') : t' = t := by
  rw [sameKey_type hs, ht'] at ht
  exact Option.some.inj ht

/-- Adding a flow key keeps the invariant of the registry. -/
theorem RegInv.add_reg {m m' : FlowMgmtManager} {fid : Nat} {t : TreeId} {key : FlowMgmtKey}
    (hreg : RegInv m) (heff : AddEffect m m' fid t key)
    (ht : FlowMgmtManager.treeOfKeyType key.type_ = some t) (hkey : KeyDBOK t key) :
    RegInv m' := by
  obtain ⟨info, info', hi, hi', htree⟩ := heff.info
  refine ⟨?_, ?_, ?_⟩
  · intro f inf hf k hk
    by_cases hfe : f = fid
    · subst hfe
      rw [hi', Option.some.injEq] at hf
      rw [← hf, htree] at hk
      rcases FlowMgmtKeyTree.mem_insert_keyTree hk with h1 | h1
      · rw [h1]
        exact ⟨t, ht, hkey⟩
      · exact hreg.keys_ok f info hi k h1
    · rw [heff.info_other f hfe] at hf
      exact hreg.keys_ok f inf hf k hk
  · intro f inf hf
    by_cases hfe : f = fid
    · subst hfe
      rw [hi', Option.some.injEq] at hf
      rw [← hf, htree]
      exact FlowMgmtKeyTree.insert_sorted _ _ (hreg.sorted f info hi)
    · rw [heff.info_other f hfe] at hf
      exact hreg.sorted f inf hf
  · intro f k' t' ht'
    rw [heff.flows t' k' f, ← hreg.bicons f k' t' ht', infoHasKey_iff, infoHasKey_iff]
    by_cases hfe : f = fid
    · subst hfe
      simp only [hi, hi', Option.some.injEq, exists_eq_left', htree]
      rw [FlowMgmtKeyTree.has_insert]
      constructor
      · rintro (h1 | h1)
        · exact Or.inl h1
        · exact Or.inr ⟨treeOfKeyType_same h1 ht ht', h1, trivial⟩
      · rintro (h1 | ⟨_, h1, _⟩)
        · exact Or.inl h1
        · exact Or.inr h1
    · rw [heff.info_other f hfe]
      constructor
      · exact fun h1 => Or.inl h1
      · rintro (h1 | ⟨_, _, h1⟩)
        · exact h1
        · exact absurd h1 hfe

/-- Deleting a key of a flow keeps the invariant of the registry. -/
theorem RegInv.del {m m' : FlowMgmtManager} {fid : Nat} {t : TreeId} {key : FlowMgmtKey}
    (hreg : RegInv m) (heff : DelEffect m m' fid t key)
    (ht : FlowMgmtManager.treeOfKeyType key.type_ = some t) : RegInv m' := by
  obtain ⟨info, info', hi, hi', htree⟩ := heff.info
  refine ⟨?_, ?_, ?_⟩
  · intro f inf hf k hk
    by_cases hfe : f = fid
    · subst hfe
      rw [hi', Option.some.injEq] at hf
      rw [← hf, htree] at hk
      exact hreg.keys_ok f info hi k (FlowMgmtKeyTree.mem_erase_keyTree.1 hk).1
    · rw [heff.info_other f hfe] at hf
      exact hreg.keys_ok f inf hf k hk
  · intro f inf hf
    by_cases hfe : f = fid
    · subst hfe
      rw [hi', Option.some.injEq] at hf
      rw [← hf, htree]
      exact FlowMgmtKeyTree.erase_sorted _ _ (hreg.sorted f info hi)
    · rw [heff.info_other f hfe] at hf
      exact hreg.sorted f inf hf
  · intro f k' t' ht'
    rw [heff.flows t' k' f, ← hreg.bicons f k' t' ht', infoHasKey_iff, infoHasKey_iff]
    by_cases hfe : f = fid
    · subst hfe
      simp only [hi, hi', Option.some.injEq, exists_eq_left', htree]
      rw [FlowMgmtKeyTree.has_erase]
      constructor
      · rintro ⟨h1, h2⟩
        refine ⟨h1, ?_⟩
        rintro ⟨_, h3, _⟩
        rw [h2] at h3
        exact absurd h3 (by decide)
      · rintro ⟨h1, h2⟩
        refine ⟨h1, ?_⟩
        cases hkk : SameKey key k' with
        | false => rfl
        | true => exact absurd ⟨treeOfKeyType_same hkk ht ht', hkk, trivial⟩ h2
    · rw [heff.info_other f hfe]
      constructor
      · exact fun h1 => ⟨h1, fun h3 => hfe h3.2.2⟩
      · exact fun h1 => h1.1

/-! ## Operations of a flow: what they do without any invariant -/

theorem freeResponses_event (key : FlowMgmtKey) (g : Nat) :
    ∀ r, r ∈ freeResponses key g → r.event = .FREE_DBENTRY := by
  intro r hr
  unfold freeResponses at hr
  split at hr
  · simp at hr
  · split at hr
    · simp at hr
    · simp only [List.mem_singleton] at hr
      rw [hr]

theorem tryDeleteResponses_event (key : FlowMgmtKey) (e : FlowMgmtEntry) :
    ∀ r, r ∈ tryDeleteResponses key e → r.event = .FREE_DBENTRY := by
  intro r hr
  unfold tryDeleteResponses at hr
  split at hr
  · exact freeResponses_event _ _ r hr
  · simp at hr

/-- The base `Delete` leaves the registry alone and enqueues free
notifications only. -/
theorem FlowMgmtTree.Delete_frame_base {m m' : FlowMgmtManager} {t : TreeId} {key : FlowMgmtKey}
    {flow : Nat} {b : Bool} (ha : FlowMgmtTree.Delete m t key flow = some (b, m')) :
    ∃ resp, Frame m m' resp ∧ ∀ r, r ∈ resp → r.event = .FREE_DBENTRY := by
  rcases FlowMgmtTree.Delete_step ha with ⟨_, hm⟩ | ⟨k1, e, _, hcase⟩
  · subst hm
    exact ⟨[], Frame.refl_frame _, by simp⟩
  · rcases hcase with ⟨_, _, hframe, _⟩ | ⟨_, _, hframe, _, _⟩
    · exact ⟨[], hframe, by simp⟩
    · exact ⟨_, hframe, tryDeleteResponses_event _ _⟩

theorem FlowMgmtManager.RetryVrfDelete_frame {m m' : FlowMgmtManager} {vrf_id : Nat}
    (ha : m.RetryVrfDelete vrf_id = some m') :
    ∃ resp, Frame m m' resp ∧ ∀ r, r ∈ resp → r.event = .FREE_DBENTRY := by
  rcases VrfFlowMgmtTree.RetryDelete_step_vrf ha with hm | ⟨vrf, k1, e, _, _, _, _, hframe⟩
  · subst hm
    exact ⟨[], Frame.refl_frame _, by simp⟩
  · exact ⟨_, hframe, tryDeleteResponses_event _ _⟩

theorem Virtual.Delete_frame_virtual {m m' : FlowMgmtManager} {t : TreeId} {key : FlowMgmtKey}
    {flow : Nat} {b : Bool} (ha : Virtual.Delete m t key flow = some (b, m')) :
    ∃ resp, Frame m m' resp ∧ ∀ r, r ∈ resp → r.event = .FREE_DBENTRY := by
  obtain ⟨m1, hbase, hretry⟩ := Virtual.Delete_some_virtual ha
  obtain ⟨r1, hf1, he1⟩ := FlowMgmtTree.Delete_frame_base hbase
  rcases hretry with hm | hr
  · subst hm
    exact ⟨r1, hf1, he1⟩
  · obtain ⟨r2, hf2, he2⟩ := FlowMgmtManager.RetryVrfDelete_frame hr
    refine ⟨r1 ++ r2, hf1.trans_frame hf2, ?_⟩
    intro r hr
    rcases List.mem_append.1 hr with h | h
    · exact he1 r h
    · exact he2 r h

/-- What a `del` operation does to the records and the response queue. -/
theorem applyOp_del_plain {h : Hdr} {m m' : FlowMgmtManager} {flow : FlowEntry}
    {key : FlowMgmtKey} (ha : applyOp h flow m (.del key) = some m') :
    (∃ info info', m.FindFlowEntryInfo flow.id = some info ∧
      m'.FindFlowEntryInfo flow.id = some info' ∧
      info'.tree_ = FlowMgmtKeyTree.erase info.tree_ key) ∧
    (∀ f, f ≠ flow.id → m'.FindFlowEntryInfo f = m.FindFlowEntryInfo f) ∧
    ∃ resp, m'.response_queue_ = m.response_queue_ ++ resp ∧
      ∀ r, r ∈ resp → r.event = .FREE_DBENTRY := by
  simp only [applyOp] at ha
  cases hd : m.DeleteFlowMgmtKey flow key with
  | none => simp [hd] at ha
  | some md =>
    simp only [hd, Option.some.injEq] at ha
    obtain ⟨info, t, b, m1, hinfo, ht, hvd, hcase⟩ := FlowMgmtManager.DeleteFlowMgmtKey_some hd
    obtain ⟨resp, hframe, hev⟩ := Virtual.Delete_frame_virtual hvd
    have hinfo_m1 : m1.FindFlowEntryInfo flow.id = some info := by
      rw [hframe.FindFlowEntryInfo, hinfo]
    have h2 : ∃ info2, md.FindFlowEntryInfo flow.id = some info2 ∧ info2.tree_ = info.tree_ ∧
        (∀ f, f ≠ flow.id → md.FindFlowEntryInfo f = m1.FindFlowEntryInfo f) ∧
        md.response_queue_ = m1.response_queue_ := by
      rcases hcase with ⟨_, hm⟩ | ⟨_, hm⟩
      · subst hm
        exact ⟨info, hinfo_m1, rfl, fun _ _ => rfl, rfl⟩
      · cases hfind : (m1.tree .vn).find key with
        | none =>
          rw [hfind] at hm
          subst hm
          exact ⟨_, FindFlowEntryInfo_setInfo_self hinfo_m1 _, rfl,
            fun f hf => FindFlowEntryInfo_setInfo_ne m1 hf _, rfl⟩
        | some q =>
          obtain ⟨k2, entry⟩ := q
          rw [hfind] at hm
          simp only at hm
          subst hm
          have hi : (m1.setTree .vn ((m1.tree .vn).setEntry key
              (VnFlowMgmtEntry.UpdateCounterOnDel entry flow info.local_flow_
                info.ingress_))).FindFlowEntryInfo flow.id = some info := by
            rw [setTree_FindFlowEntryInfo]
            exact hinfo_m1
          refine ⟨_, FindFlowEntryInfo_setInfo_self hi _, rfl, ?_, ?_⟩
          · intro f hf
            rw [FindFlowEntryInfo_setInfo_ne _ hf, setTree_FindFlowEntryInfo]
          · simp
    obtain ⟨info2, hinfo2, htree2, hother2, hresp2⟩ := h2
    obtain ⟨he1, he2, _, he4, _, _⟩ := FindFlowEntryInfo_eraseInfoKey hinfo2 key
    subst ha
    refine ⟨⟨info, _, hinfo, he1, ?_⟩, ?_, resp, ?_, hev⟩
    · simp only [htree2]
    · intro f hf
      rw [he2 f hf, hother2 f hf, hframe.FindFlowEntryInfo]
    · rw [he4, hresp2, hframe.response_queue]

/-- What an operation does to the record of the flow, to the other records and
to the response queue. -/
theorem applyOp_plain {h : Hdr} {m m' : FlowMgmtManager} {flow : FlowEntry} {op : KeyOp}
    (ha : applyOp h flow m op = some m') :
    (∃ info info', m.FindFlowEntryInfo flow.id = some info ∧
      m'.FindFlowEntryInfo flow.id = some info' ∧
      info'.tree_ = match op with
        | .add k => (FlowMgmtKeyTree.insert info.tree_ k).1
        | .del k => FlowMgmtKeyTree.erase info.tree_ k) ∧
    (∀ f, f ≠ flow.id → m'.FindFlowEntryInfo f = m.FindFlowEntryInfo f) ∧
    ∃ resp, m'.response_queue_ = m.response_queue_ ++ resp ∧
      ∀ r, r ∈ resp → r.event = .FREE_DBENTRY := by
  cases op with
  | add k =>
    obtain ⟨t, _, heff, _⟩ := FlowMgmtManager.AddFlowMgmtKey_effect ha
    exact ⟨heff.info, heff.info_other, [], by simp [heff.response_queue], by simp⟩
  | del k => exact applyOp_del_plain ha

/-- The operations of a list change the record of the flow only; its key set
stays sorted, and, when no key is both added and deleted, it ends with the
added keys and the keys it had that were not deleted. The responses are free
notifications. -/
theorem applyOps_plain {h : Hdr} {flow : FlowEntry} (ops : List KeyOp) :
    ∀ {m m' : FlowMgmtManager} {info : FlowEntryInfo},
    applyOps h flow ops m = some m' → m.FindFlowEntryInfo flow.id = some info →
    (∀ f, f ≠ flow.id → m'.FindFlowEntryInfo f = m.FindFlowEntryInfo f) ∧
    (∃ resp, m'.response_queue_ = m.response_queue_ ++ resp ∧
      ∀ r, r ∈ resp → r.event = .FREE_DBENTRY) ∧
    ∃ info', m'.FindFlowEntryInfo flow.id = some info' ∧
      (KeysSorted info.tree_ → KeysSorted info'.tree_) ∧
      ((∀ a b, KeyOp.add a ∈ ops → KeyOp.del b ∈ ops → SameKey a b = false) →
        ∀ k, hasKey info'.tree_ k ↔
          (∃ a, KeyOp.add a ∈ ops ∧ SameKey a k = true) ∨
          (hasKey info.tree_ k ∧ ∀ b, KeyOp.del b ∈ ops → SameKey b k = false)) := by
  induction ops with
  | nil =>
    intro m m' info ha hinfo
    simp only [applyOps, Option.some.injEq] at ha
    subst ha
    refine ⟨fun _ _ => rfl, ⟨[], by simp, by simp⟩, info, hinfo, id, ?_⟩
    intro _ k
    simp
  | cons op ops ih =>
    intro m m' info ha hinfo
    simp only [applyOps] at ha
    cases h1 : applyOp h flow m op with
    | none => simp [h1] at ha
    | some m1 =>
      simp only [h1] at ha
      obtain ⟨⟨info0, info1, hi0, hi1, htree⟩, hother1, resp1, hresp1, hev1⟩ := applyOp_plain h1
      rw [hinfo, Option.some.injEq] at hi0
      subst hi0
      obtain ⟨hother2, ⟨resp2, hresp2, hev2⟩, info', hi', hsorted, hkeys⟩ := ih ha hi1
      refine ⟨?_, ⟨resp1 ++ resp2, ?_, ?_⟩, info', hi', ?_, ?_⟩
      · intro f hf
        rw [hother2 f hf, hother1 f hf]
      · rw [hresp2, hresp1, List.append_assoc]
      · intro r hr
        rcases List.mem_append.1 hr with hr | hr
        · exact hev1 r hr
        · exact hev2 r hr
      · intro hs
        apply hsorted
        rw [htree]
        cases op with
        | add k => exact FlowMgmtKeyTree.insert_sorted _ _ hs
        | del k => exact FlowMgmtKeyTree.erase_sorted _ _ hs
      · intro hdisj k
        have hk := hkeys (fun a b ha hb => hdisj a b (List.mem_cons_of_mem _ ha)
          (List.mem_cons_of_mem _ hb)) k
        rw [hk]
        cases op with
        | add a0 =>
          have h1k : hasKey info1.tree_ k ↔ hasKey info.tree_ k ∨ SameKey a0 k = true := by
            rw [htree]
            exact FlowMgmtKeyTree.has_insert _ _ _
          rw [h1k]
          constructor
          · rintro (⟨a, ha1, ha2⟩ | ⟨h3 | h3, h4⟩)
            · exact Or.inl ⟨a, List.mem_cons_of_mem _ ha1, ha2⟩
            · refine Or.inr ⟨h3, ?_⟩
              intro b hb
              rcases List.mem_cons.1 hb with hb | hb
              · cases hb
              · exact h4 b hb
            · exact Or.inl ⟨a0, List.mem_cons_self _ _, h3⟩
          · rintro (⟨a, ha1, ha2⟩ | ⟨h3, h4⟩)
            · rcases List.mem_cons.1 ha1 with ha1 | ha1
              · cases ha1
                refine Or.inr ⟨Or.inr ha2, ?_⟩
                intro b hb
                have hab := hdisj _ b (List.mem_cons_self _ _) (List.mem_cons_of_mem _ hb)
                cases hbk : SameKey b k with
                | false => rfl
                | true =>
                  have := sameKey_trans ha2 (sameKey_symm hbk)
                  rw [hab] at this
                  exact absurd this (by decide)
              · exact Or.inl ⟨a, ha1, ha2⟩
            · exact Or.inr ⟨Or.inl h3, fun b hb => h4 b (List.mem_cons_of_mem _ hb)⟩
        | del b0 =>
          have h1k : hasKey info1.tree_ k ↔ hasKey info.tree_ k ∧ SameKey b0 k = false := by
            rw [htree]
            exact FlowMgmtKeyTree.has_erase _ _ _
          rw [h1k]
          constructor
          · rintro (⟨a, ha1, ha2⟩ | ⟨⟨h3, h5⟩, h4⟩)
            · exact Or.inl ⟨a, List.mem_cons_of_mem _ ha1, ha2⟩
            · refine Or.inr ⟨h3, ?_⟩
              intro b hb
              rcases List.mem_cons.1 hb with hb | hb
              · cases hb
                exact h5
              · exact h4 b hb
          · rintro (⟨a, ha1, ha2⟩ | ⟨h3, h4⟩)
            · rcases List.mem_cons.1 ha1 with ha1 | ha1
              · cases ha1
              · exact Or.inl ⟨a, ha1, ha2⟩
            · exact Or.inr ⟨⟨h3, h4 b0 (List.mem_cons_self _ _)⟩,
                fun b hb => h4 b (List.mem_cons_of_mem _ hb)⟩

/-! ## The lockstep walk is the difference of the two key sets -/

theorem DeleteFlowLoop_eq (h : Hdr) (flow : FlowEntry) (old_keys : List FlowMgmtKey) :
    ∀ m : FlowMgmtManager, FlowMgmtManager.DeleteFlowLoop flow old_keys m =
      applyOps h flow (List.map KeyOp.del old_keys) m := by
  induction old_keys with
  | nil => intro m; rfl
  | cons k rest ih =>
    intro m
    simp only [FlowMgmtManager.DeleteFlowLoop, List.map_cons, applyOps, applyOp]
    cases m.DeleteFlowMgmtKey flow k with
    | none => rfl
    | some m1 => exact ih _

theorem AddFlowWalkAt_eq (h : Hdr) (flow : FlowEntry) (new_key : FlowMgmtKey)
    (next : List FlowMgmtKey → FlowMgmtManager → Option FlowMgmtManager)
    (nextOps : List FlowMgmtKey → List KeyOp)
    (hnext : ∀ old m, next old m = applyOps h flow (nextOps old) m)
    (old_keys : List FlowMgmtKey) :
    ∀ m : FlowMgmtManager, FlowMgmtManager.AddFlowWalkAt h flow new_key next old_keys m =
      applyOps h flow (deltaOpsAt new_key nextOps old_keys) m := by
  induction old_keys with
  | nil =>
    intro m
    simp only [FlowMgmtManager.AddFlowWalkAt, deltaOpsAt, applyOps, applyOp]
    cases m.AddFlowMgmtKey h flow new_key with
    | none => rfl
    | some m1 => exact hnext _ _
  | cons o rest ih =>
    intro m
    simp only [FlowMgmtManager.AddFlowWalkAt, deltaOpsAt]
    by_cases h1 : new_key.IsLess o = true
    · simp only [h1, if_true, applyOps, applyOp]
      cases m.AddFlowMgmtKey h flow new_key with
      | none => rfl
      | some m1 => exact hnext _ _
    · simp only [h1, Bool.false_eq_true, if_false]
      by_cases h2 : o.IsLess new_key = true
      · simp only [h2, if_true, applyOps, applyOp]
        cases m.DeleteFlowMgmtKey flow o with
        | none => rfl
        | some m1 => exact ih _
      · simp only [h2, Bool.false_eq_true, if_false, applyOps, applyOp]
        cases m.AddFlowMgmtKey h flow new_key with
        | none => rfl
        | some m1 => exact hnext _ _

/-- The walk of `AddFlow` applies the operations of `deltaOps` in order. -/
theorem AddFlowWalk_eq (h : Hdr) (flow : FlowEntry) (new_keys : List FlowMgmtKey) :
    ∀ (old_keys : List FlowMgmtKey) (m : FlowMgmtManager),
      FlowMgmtManager.AddFlowWalk h flow new_keys old_keys m =
        applyOps h flow (deltaOps new_keys old_keys) m := by
  induction new_keys with
  | nil =>
    intro old_keys m
    simp only [FlowMgmtManager.AddFlowWalk, deltaOps]
    exact DeleteFlowLoop_eq h flow old_keys m
  | cons n ns ih =>
    intro old_keys m
    simp only [FlowMgmtManager.AddFlowWalk, deltaOps]
    exact AddFlowWalkAt_eq h flow n _ _ ih old_keys m

theorem deltaOpsAt_add (n k : FlowMgmtKey) (ns : List FlowMgmtKey)
    (nextOps : List FlowMgmtKey → List KeyOp)
    (hnext : ∀ old, KeyOp.add k ∈ nextOps old ↔ k ∈ ns) (old_keys : List FlowMgmtKey) :
    KeyOp.add k ∈ deltaOpsAt n nextOps old_keys ↔ k ∈ n :: ns := by
  induction old_keys with
  | nil => simp [deltaOpsAt, hnext]
  | cons o rest ih =>
    simp only [deltaOpsAt]
    split
    · simp [hnext]
    · split
      · simp [ih]
      · simp [hnext]

/-- The walk adds exactly the keys of the new set. -/
theorem deltaOps_add (k : FlowMgmtKey) (new_keys : List FlowMgmtKey) :
    ∀ old_keys, KeyOp.add k ∈ deltaOps new_keys old_keys ↔ k ∈ new_keys := by
  induction new_keys with
  | nil => intro old_keys; simp [deltaOps]
  | cons n ns ih =>
    intro old_keys
    simp only [deltaOps]
    exact deltaOpsAt_add n k ns _ ih old_keys

theorem deltaOpsAt_del (n k : FlowMgmtKey) (ns : List FlowMgmtKey)
    (nextOps : List FlowMgmtKey → List KeyOp)
    (hnext : ∀ old, KeysSorted old →
      (KeyOp.del k ∈ nextOps old ↔ k ∈ old ∧ ∀ x, x ∈ ns → SameKey x k = false))
    (hn : ∀ x, x ∈ ns → n.IsLess x = true) (old_keys : List FlowMgmtKey)
    (hold : KeysSorted old_keys) :
    KeyOp.del k ∈ deltaOpsAt n nextOps old_keys ↔
      k ∈ old_keys ∧ ∀ x, x ∈ n :: ns → SameKey x k = false := by
  induction old_keys with
  | nil =>
    simp only [deltaOpsAt, List.mem_cons, false_or, hnext [] List.Pairwise.nil]
    simp
  | cons o rest ih =>
    have hold' := List.pairwise_cons.1 hold
    simp only [deltaOpsAt]
    by_cases h1 : n.IsLess o = true
    · simp only [h1, if_true, List.mem_cons, reduceCtorEq, false_or, hnext _ hold]
      constructor
      · rintro ⟨hk, hall⟩
        refine ⟨hk, ?_⟩
        intro x hx
        rcases hx with hx | hx
        · rw [hx]
          rcases hk with hk | hk
          · rw [hk]
            exact isLess_not_same h1
          · exact isLess_not_same (isLess_trans h1 (hold'.1 k hk))
        · exact hall x hx
      · rintro ⟨hk, hall⟩
        exact ⟨hk, fun x hx => hall x (Or.inr hx)⟩
    · simp only [h1, Bool.false_eq_true, if_false]
      by_cases h2 : o.IsLess n = true
      · simp only [h2, if_true, List.mem_cons, KeyOp.del.injEq, ih hold'.2]
        constructor
        · rintro (hk | ⟨hk, hall⟩)
          · subst hk
            refine ⟨Or.inl rfl, ?_⟩
            intro x hx
            rw [sameKey_comm]
            rcases hx with hx | hx
            · rw [hx]
              exact isLess_not_same h2
            · exact isLess_not_same (isLess_trans h2 (hn x hx))
          · exact ⟨Or.inr hk, hall⟩
        · rintro ⟨hk | hk, hall⟩
          · exact Or.inl hk
          · exact Or.inr ⟨hk, hall⟩
      · simp only [h2, Bool.false_eq_true, if_false, List.mem_cons, reduceCtorEq, false_or,
          hnext _ hold'.2]
        have hno : SameKey n o = true :=
          sameKey_of_not_isLess (by simpa using h1) (by simpa using h2)
        constructor
        · rintro ⟨hk, hall⟩
          refine ⟨Or.inr hk, ?_⟩
          intro x hx
          rcases hx with hx | hx
          · rw [hx, sameKey_congr_left hno]
            exact isLess_not_same (hold'.1 k hk)
          · exact hall x hx
        · rintro ⟨hk | hk, hall⟩
          · have := hall n (Or.inl rfl)
            rw [hk, hno] at this
            exact absurd this (by decide)
          · exact ⟨hk, fun x hx => hall x (Or.inr hx)⟩

/-- The walk deletes exactly the keys of the old set that the new set does not
have. -/
theorem deltaOps_del (k : FlowMgmtKey) (new_keys : List FlowMgmtKey)
    (hnew : KeysSorted new_keys) :
    ∀ old_keys, KeysSorted old_keys →
      (KeyOp.del k ∈ deltaOps new_keys old_keys ↔
        k ∈ old_keys ∧ ∀ x, x ∈ new_keys → SameKey x k = false) := by
  induction new_keys with
  | nil =>
    intro old_keys _
    simp [deltaOps]
  | cons n ns ih =>
    intro old_keys hold
    have hnew' := List.pairwise_cons.1 hnew
    simp only [deltaOps]
    exact deltaOpsAt_del n k ns _ (ih hnew'.2) hnew'.1 old_keys hold

/-- No key is both added and deleted by the walk. -/
theorem deltaOps_disjoint (new_keys old_keys : List FlowMgmtKey) (hnew : KeysSorted new_keys)
    (hold : KeysSorted old_keys) (a b : FlowMgmtKey)
    (ha : KeyOp.add a ∈ deltaOps new_keys old_keys)
    (hb : KeyOp.del b ∈ deltaOps new_keys old_keys) : SameKey a b = false :=
  ((deltaOps_del b new_keys hnew old_keys hold).1 hb).2 a
    ((deltaOps_add a new_keys old_keys).1 ha)

/-! ## The key set of a flow -/

theorem FlowKeyOK_acl (o : Option Nat) : FlowKeyOK (AclFlowMgmtKey (o.map DBEntry.AclDBEntry)) := by
  refine ⟨.acl, rfl, ?_⟩
  intro d hd
  cases o with
  | none => simp [AclFlowMgmtKey, FlowMgmtKey.ofDB] at hd
  | some p =>
    simp only [AclFlowMgmtKey, FlowMgmtKey.ofDB, Option.map_some', Option.some.injEq] at hd
    subst hd
    exact ⟨_, rfl, sameKey_refl _⟩

theorem FlowKeyOK_interface (p : Nat) :
    FlowKeyOK (InterfaceFlowMgmtKey (some (.Interface p))) := by
  refine ⟨.interface, rfl, ?_⟩
  intro d hd
  simp only [InterfaceFlowMgmtKey, FlowMgmtKey.ofDB, Option.some.injEq] at hd
  subst hd
  exact ⟨_, rfl, sameKey_refl _⟩

theorem FlowKeyOK_vn (p : Nat) : FlowKeyOK (VnFlowMgmtKey (some (.VnEntry p))) := by
  refine ⟨.vn, rfl, ?_⟩
  intro d hd
  simp only [VnFlowMgmtKey, FlowMgmtKey.ofDB, Option.some.injEq] at hd
  subst hd
  exact ⟨_, rfl, sameKey_refl _⟩

theorem FlowKeyOK_nh (p : Nat) : FlowKeyOK (NhFlowMgmtKey (some (.NextHop p))) := by
  refine ⟨.nh, rfl, ?_⟩
  intro d hd
  simp only [NhFlowMgmtKey, FlowMgmtKey.ofDB, Option.some.injEq] at hd
  subst hd
  exact ⟨_, rfl, sameKey_refl _⟩

theorem FlowKeyOK_inet (vrf : Nat) (ip : IpAddress) (plen : Nat) :
    FlowKeyOK (InetRouteFlowMgmtKey vrf ip plen) := by
  by_cases hv : ip.is_v4 = true
  · refine ⟨.ip4_route, by simp [InetRouteFlowMgmtKey, hv, FlowMgmtManager.treeOfKeyType], ?_⟩
    intro d hd
    simp [InetRouteFlowMgmtKey] at hd
  · refine ⟨.ip6_route, by simp [InetRouteFlowMgmtKey, hv, FlowMgmtManager.treeOfKeyType], ?_⟩
    intro d hd
    simp [InetRouteFlowMgmtKey] at hd

theorem FlowKeyOK_bridge (vrf mac : Nat) : FlowKeyOK (BridgeRouteFlowMgmtKey vrf mac) := by
  refine ⟨.bridge_route, rfl, ?_⟩
  intro d hd
  simp [BridgeRouteFlowMgmtKey] at hd

theorem GoodKeys.nil_goodKeys : GoodKeys [] := ⟨List.Pairwise.nil, by simp⟩

theorem GoodKeys.add_goodKeys {s : List FlowMgmtKey} (hs : GoodKeys s) {k : FlowMgmtKey}
    (hk : FlowKeyOK k) : GoodKeys (FlowMgmtTree.AddFlowMgmtKey s k) := by
  unfold FlowMgmtTree.AddFlowMgmtKey
  refine ⟨FlowMgmtKeyTree.insert_sorted _ _ hs.1, ?_⟩
  intro x hx
  rcases FlowMgmtKeyTree.mem_insert_keyTree hx with h | h
  · rw [h]
    exact hk
  · exact hs.2 x h

theorem GoodKeys.foldl {α : Type} (f : α → FlowMgmtKey) (hf : ∀ a, FlowKeyOK (f a))
    (l : List α) : ∀ {s : List FlowMgmtKey}, GoodKeys s →
      GoodKeys (List.foldl (fun tr it => FlowMgmtTree.AddFlowMgmtKey tr (f it)) s l) := by
  induction l with
  | nil => intro s hs; exact hs
  | cons a l ih =>
    intro s hs
    simp only [List.foldl_cons]
    exact ih (hs.add_goodKeys (hf a))

theorem GoodKeys.foldl_of {α : Type} (g : List FlowMgmtKey → α → List FlowMgmtKey)
    (hg : ∀ s a, GoodKeys s → GoodKeys (g s a)) (l : List α) :
    ∀ {s : List FlowMgmtKey}, GoodKeys s → GoodKeys (List.foldl g s l) := by
  induction l with
  | nil => intro s hs; exact hs
  | cons a l ih =>
    intro s hs
    simp only [List.foldl_cons]
    exact ih (hg s a hs)

theorem GoodKeys.acl (flow : FlowEntry) {s : List FlowMgmtKey} (hs : GoodKeys s) :
    GoodKeys (AclFlowMgmtTree.ExtractKeys flow s) := by
  unfold AclFlowMgmtTree.ExtractKeys
  refine GoodKeys.foldl_of _ ?_ _ hs
  intro s1 l hs1
  unfold AclFlowMgmtTree.ExtractKeysOfList
  exact GoodKeys.foldl (fun it : MatchAclParams => AclFlowMgmtKey (it.acl.map DBEntry.AclDBEntry))
    (fun a => FlowKeyOK_acl a.acl) l hs1

theorem GoodKeys.interface (flow : FlowEntry) {s : List FlowMgmtKey} (hs : GoodKeys s) :
    GoodKeys (InterfaceFlowMgmtTree.ExtractKeys flow s) := by
  unfold InterfaceFlowMgmtTree.ExtractKeys
  split
  · exact hs
  · exact hs.add_goodKeys (FlowKeyOK_interface _)

theorem GoodKeys.vn (flow : FlowEntry) {s : List FlowMgmtKey} (hs : GoodKeys s) :
    GoodKeys (VnFlowMgmtTree.ExtractKeys flow s) := by
  unfold VnFlowMgmtTree.ExtractKeys
  split
  · exact hs
  · exact hs.add_goodKeys (FlowKeyOK_vn _)

theorem GoodKeys.nh (flow : FlowEntry) {s : List FlowMgmtKey} (hs : GoodKeys s) :
    GoodKeys (NhFlowMgmtTree.ExtractKeys flow s) := by
  unfold NhFlowMgmtTree.ExtractKeys
  split
  · exact hs
  · exact hs.add_goodKeys (FlowKeyOK_nh _)

theorem GoodKeys.inet_addr {s : List FlowMgmtKey} (hs : GoodKeys s) (vrf : Nat)
    (ip : IpAddress) (plen : Nat) :
    GoodKeys (InetRouteFlowMgmtTree.ExtractKeysOfAddr s vrf ip plen) := by
  unfold InetRouteFlowMgmtTree.ExtractKeysOfAddr
  exact hs.add_goodKeys (FlowKeyOK_inet _ _ _)

theorem GoodKeys.inet_map {s : List FlowMgmtKey} (hs : GoodKeys s) (ip : IpAddress)
    (l : List (Nat × Nat)) : GoodKeys (InetRouteFlowMgmtTree.ExtractKeysOfMap s ip l) := by
  unfold InetRouteFlowMgmtTree.ExtractKeysOfMap
  exact GoodKeys.foldl_of _ (fun s1 a hs1 => hs1.inet_addr _ _ _) l hs

theorem GoodKeys.inet (flow : FlowEntry) {s : List FlowMgmtKey} (hs : GoodKeys s) :
    GoodKeys (InetRouteFlowMgmtTree.ExtractKeys flow s) := by
  unfold InetRouteFlowMgmtTree.ExtractKeys
  split
  · split
    · exact hs.inet_addr _ _ _
    · exact hs
  · simp only
    apply GoodKeys.inet_map
    split
    · apply GoodKeys.inet_addr
      apply GoodKeys.inet_map
      split
      · exact hs.inet_addr _ _ _
      · exact hs
    · apply GoodKeys.inet_map
      split
      · exact hs.inet_addr _ _ _
      · exact hs

theorem GoodKeys.bridge (flow : FlowEntry) {s : List FlowMgmtKey} (hs : GoodKeys s) :
    GoodKeys (BridgeRouteFlowMgmtTree.ExtractKeys flow s) := by
  unfold BridgeRouteFlowMgmtTree.ExtractKeys
  split
  · exact hs
  · simp only
    split
    · apply GoodKeys.add_goodKeys _ (FlowKeyOK_bridge _ _)
      split
      · exact hs.add_goodKeys (FlowKeyOK_bridge _ _)
      · exact hs
    · split
      · exact hs.add_goodKeys (FlowKeyOK_bridge _ _)
      · exact hs

/-- The key set `MakeFlowMgmtKeyTree` builds is sorted and made of flow keys. -/
theorem MakeFlowMgmtKeyTree_good (flow : FlowEntry) : GoodKeys (MakeFlowMgmtKeyTree flow) := by
  unfold MakeFlowMgmtKeyTree
  exact GoodKeys.nh flow (GoodKeys.bridge flow (GoodKeys.inet flow (GoodKeys.inet flow
    (GoodKeys.vn flow (GoodKeys.interface flow (GoodKeys.acl flow GoodKeys.nil_goodKeys))))))

/-! ## The operations of a flow keep the invariants -/

theorem treeOfKeyType_unique {ty : KeyType} {t t' : TreeId}
    (h1 : FlowMgmtManager.treeOfKeyType ty = some t)
    (h2 : FlowMgmtManager.treeOfKeyType ty = some t') : t = t' := by
  rw [h1] at h2
  exact Option.some.inj h2

theorem applyOp_inv {reqs : List FlowMgmtRequest} {h : Hdr} {m m' : FlowMgmtManager}
    {flow : FlowEntry} {op : KeyOp} (hinit : h.oper_state_init ≠ .OPER_DEL_SEEN)
    (hinv : TreeInv reqs m) (hreg : RegInv m) (hok : ∀ k, op = .add k → FlowKeyOK k)
    (ha : applyOp h flow m op = some m') : TreeInv reqs m' ∧ RegInv m' := by
  cases op with
  | add k =>
    obtain ⟨t, ht, heff, hT⟩ := FlowMgmtManager.AddFlowMgmtKey_effect ha
    obtain ⟨t', ht', hkey⟩ := hok k rfl
    have := treeOfKeyType_unique ht ht'
    subst this
    exact ⟨hT reqs hinv hkey hinit, hreg.add_reg heff ht hkey⟩
  | del k =>
    obtain ⟨t, ht, heff, hinv'⟩ := applyOp_del_effect hinv ha
    exact ⟨hinv', hreg.del heff ht⟩

theorem applyOps_inv {reqs : List FlowMgmtRequest} {h : Hdr} {flow : FlowEntry}
    (hinit : h.oper_state_init ≠ .OPER_DEL_SEEN) (ops : List KeyOp) :
    ∀ {m m' : FlowMgmtManager}, TreeInv reqs m → RegInv m →
      (∀ k, KeyOp.add k ∈ ops → FlowKeyOK k) → applyOps h flow ops m = some m' →
      TreeInv reqs m' ∧ RegInv m' := by
  induction ops with
  | nil =>
    intro m m' hinv hreg _ ha
    simp only [applyOps, Option.some.injEq] at ha
    subst ha
    exact ⟨hinv, hreg⟩
  | cons op ops ih =>
    intro m m' hinv hreg hok ha
    simp only [applyOps] at ha
    cases h1 : applyOp h flow m op with
    | none => simp [h1] at ha
    | some m1 =>
      simp only [h1] at ha
      obtain ⟨hinv1, hreg1⟩ := applyOp_inv hinit hinv hreg
        (fun k hk => hok k (by rw [hk]; exact List.mem_cons_self _ _)) h1
      exact ih hinv1 hreg1 (fun k hk => hok k (List.mem_cons_of_mem _ hk)) ha

/-- An operation leaves a key of an index without flows when it does not add
that key. -/
theorem applyOp_flows_nil {reqs : List FlowMgmtRequest} {h : Hdr} {m m' : FlowMgmtManager}
    {flow : FlowEntry} {op : KeyOp} {t0 : TreeId} {K : FlowMgmtKey} (hinv : TreeInv reqs m)
    (ha : applyOp h flow m op = some m') (hnil : flowsAt m t0 K = [])
    (hop : ∀ a, op = .add a → FlowMgmtManager.treeOfKeyType a.type_ = some t0 →
      SameKey a K = false) : flowsAt m' t0 K = [] := by
  rw [List.eq_nil_iff_forall_not_mem]
  intro f hf
  cases op with
  | add k =>
    obtain ⟨t, ht, heff, _⟩ := FlowMgmtManager.AddFlowMgmtKey_effect ha
    rcases (heff.flows t0 K f).1 hf with h1 | ⟨h1, h2, _⟩
    · rw [hnil] at h1
      exact absurd h1 (List.not_mem_nil _)
    · subst h1
      have := hop k rfl ht
      rw [h2] at this
      exact absurd this (by decide)
  | del k =>
    obtain ⟨t, ht, heff, _⟩ := applyOp_del_effect hinv ha
    have h1 := ((heff.flows t0 K f).1 hf).1
    rw [hnil] at h1
    exact absurd h1 (List.not_mem_nil _)

theorem applyOps_flows_nil {reqs : List FlowMgmtRequest} {h : Hdr} {flow : FlowEntry}
    (hinit : h.oper_state_init ≠ .OPER_DEL_SEEN) {t0 : TreeId} {K : FlowMgmtKey}
    (ops : List KeyOp) :
    ∀ {m m' : FlowMgmtManager}, TreeInv reqs m → RegInv m →
      (∀ k, KeyOp.add k ∈ ops → FlowKeyOK k) → applyOps h flow ops m = some m' →
      flowsAt m t0 K = [] →
      (∀ a, KeyOp.add a ∈ ops → FlowMgmtManager.treeOfKeyType a.type_ = some t0 →
        SameKey a K = false) → flowsAt m' t0 K = [] := by
  induction ops with
  | nil =>
    intro m m' _ _ _ ha hnil _
    simp only [applyOps, Option.some.injEq] at ha
    subst ha
    exact hnil
  | cons op ops ih =>
    intro m m' hinv hreg hok ha hnil hop
    simp only [applyOps] at ha
    cases h1 : applyOp h flow m op with
    | none => simp [h1] at ha
    | some m1 =>
      simp only [h1] at ha
      obtain ⟨hinv1, hreg1⟩ := applyOp_inv hinit hinv hreg
        (fun k hk => hok k (by rw [hk]; exact List.mem_cons_self _ _)) h1
      have hnil1 := applyOp_flows_nil hinv h1 hnil
        (fun a ha1 => hop a (by rw [ha1]; exact List.mem_cons_self _ _))
      exact ih hinv1 hreg1 (fun k hk => hok k (List.mem_cons_of_mem _ hk)) ha hnil1
        (fun a ha1 => hop a (List.mem_cons_of_mem _ ha1))

theorem FreedBy.mono_freedBy {m : FlowMgmtManager} {ops ops' : List KeyOp}
    {resp : List FlowMgmtResponse} (h : FreedBy m ops resp)
    (hsub : ∀ b, KeyOp.del b ∈ ops → KeyOp.del b ∈ ops') : FreedBy m ops' resp := by
  intro r hr
  obtain ⟨hev, d, K, t0, hd, hK, hfl, hc⟩ := h r hr
  refine ⟨hev, d, K, t0, hd, hK, hfl, ?_⟩
  rcases hc with hc | ⟨b, hb, hbt, hbk⟩
  · exact Or.inl hc
  · exact Or.inr ⟨b, hsub b hb, hbt, hbk⟩

/-- The responses of a list of operations that adds no key it deletes: free
notifications of objects that no flow depends on once the list is done. -/
theorem applyOps_freed {reqs : List FlowMgmtRequest} {h : Hdr} {flow : FlowEntry}
    (hinit : h.oper_state_init ≠ .OPER_DEL_SEEN) (ops : List KeyOp) :
    ∀ {m m' : FlowMgmtManager}, TreeInv reqs m → RegInv m →
      (∀ k, KeyOp.add k ∈ ops → FlowKeyOK k) →
      (∀ a b, KeyOp.add a ∈ ops → KeyOp.del b ∈ ops → SameKey a b = false) →
      applyOps h flow ops m = some m' →
      ∃ resp, m'.response_queue_ = m.response_queue_ ++ resp ∧ FreedBy m' ops resp := by
  induction ops with
  | nil =>
    intro m m' _ _ _ _ ha
    simp only [applyOps, Option.some.injEq] at ha
    subst ha
    exact ⟨[], by simp, by intro r hr; simp at hr⟩
  | cons op ops ih =>
    intro m m' hinv hreg hok hdisj ha
    simp only [applyOps] at ha
    cases h1 : applyOp h flow m op with
    | none => simp [h1] at ha
    | some m1 =>
      simp only [h1] at ha
      obtain ⟨hinv1, hreg1⟩ := applyOp_inv hinit hinv hreg
        (fun k hk => hok k (by rw [hk]; exact List.mem_cons_self _ _)) h1
      have hok' : ∀ k, KeyOp.add k ∈ ops → FlowKeyOK k :=
        fun k hk => hok k (List.mem_cons_of_mem _ hk)
      obtain ⟨resp2, hresp2, hfreed2⟩ := ih hinv1 hreg1 hok'
        (fun a b ha1 hb1 => hdisj a b (List.mem_cons_of_mem _ ha1) (List.mem_cons_of_mem _ hb1))
        ha
      have hfreed2' : FreedBy m' (op :: ops) resp2 :=
        hfreed2.mono_freedBy (fun b hb => List.mem_cons_of_mem _ hb)
      cases op with
      | add k =>
        obtain ⟨t, ht, heff, _⟩ := FlowMgmtManager.AddFlowMgmtKey_effect h1
        refine ⟨resp2, ?_, hfreed2'⟩
        rw [hresp2, heff.response_queue]
      | del k =>
        obtain ⟨t, ht, heff, _⟩ := applyOp_del_effect hinv h1
        obtain ⟨resp1, hresp1, hfreed1⟩ := heff.response_queue
        refine ⟨resp1 ++ resp2, ?_, ?_⟩
        · rw [hresp2, hresp1, List.append_assoc]
        · intro r hr
          rcases List.mem_append.1 hr with hr | hr
          · obtain ⟨hev, d, K, t0, hd, hK, hfl, hc⟩ := hfreed1 r hr
            refine ⟨hev, d, K, t0, hd, hK, ?_, ?_⟩
            · refine applyOps_flows_nil hinit ops hinv1 hreg1 hok' ha hfl ?_
              intro a ha1 hat
              rcases hc with hc | ⟨hc1, hc2⟩
              · rw [hc] at hat
                exact absurd rfl (treeOfKeyType_ne_vrf hat).1
              · have hab := hdisj a k (List.mem_cons_of_mem _ ha1) (List.mem_cons_self _ _)
                cases hak : SameKey a K with
                | false => rfl
                | true =>
                  have := sameKey_trans hak (sameKey_symm hc2)
                  rw [hab] at this
                  exact absurd this (by decide)
            · rcases hc with hc | ⟨hc1, hc2⟩
              · exact Or.inl hc
              · refine Or.inr ⟨k, List.mem_cons_self _ _, ?_, hc2⟩
                rw [hc1]
                exact ht
          · exact hfreed2' r hr

/-! ## The responses of the object events -/

theorem Emits.refl_emits (m : FlowMgmtManager) (P : FlowMgmtResponse → Prop) : Emits m m P :=
  ⟨[], by simp, by simp⟩

theorem Emits.trans_emits {m m1 m2 : FlowMgmtManager} {P : FlowMgmtResponse → Prop}
    (h1 : Emits m m1 P) (h2 : Emits m1 m2 P) : Emits m m2 P := by
  obtain ⟨r1, hq1, hp1⟩ := h1
  obtain ⟨r2, hq2, hp2⟩ := h2
  refine ⟨r1 ++ r2, by rw [hq2, hq1, List.append_assoc], ?_⟩
  intro r hr
  rcases List.mem_append.1 hr with h | h
  · exact hp1 r h
  · exact hp2 r h

theorem Emits.of_eq_emits {m m' : FlowMgmtManager} (P : FlowMgmtResponse → Prop)
    (h : m'.response_queue_ = m.response_queue_) : Emits m m' P :=
  ⟨[], by simp [h], by simp⟩

theorem Emits.of_frame {m m' : FlowMgmtManager} {P : FlowMgmtResponse → Prop}
    {resp : List FlowMgmtResponse} (h : Frame m m' resp) (hp : ∀ r, r ∈ resp → P r) :
    Emits m m' P :=
  ⟨resp, h.response_queue, hp⟩

theorem operResponses_event (req : FlowMgmtRequest) (key : FlowMgmtKey) (flows : List Nat) :
    ∀ r, r ∈ operResponses req key flows → r.event ≠ .FREE_DBENTRY := by
  intro r hr hev
  unfold operResponses at hr
  split at hr
  · simp at hr
  · simp only [List.mem_map] at hr
    obtain ⟨f, _, rfl⟩ := hr
    simp only at hev
    unfold FlowMgmtRequest.GetResponseEvent at hev
    split at hev <;> simp at hev

theorem FlowMgmtTree.OperEntryAdd_emits_base {h : Hdr} {m m' : FlowMgmtManager} {t : TreeId}
    {req : FlowMgmtRequest} {key : FlowMgmtKey} {b : Bool}
    (ha : FlowMgmtTree.OperEntryAdd h m t req key = some (b, m')) :
    Emits m m' (fun r => r.event ≠ .FREE_DBENTRY) := by
  obtain ⟨k1, e, _, _, hframe, _⟩ := FlowMgmtTree.OperEntryAdd_step ha
  exact Emits.of_frame hframe (operResponses_event _ _ _)

theorem FlowMgmtTree.OperEntryChange_emits {m m' : FlowMgmtManager} {t : TreeId}
    {req : FlowMgmtRequest} {key : FlowMgmtKey} {b : Bool}
    (ha : FlowMgmtTree.OperEntryChange m t req key = some (b, m')) :
    Emits m m' (fun r => r.event ≠ .FREE_DBENTRY) := by
  rcases FlowMgmtTree.OperEntryChange_step ha with ⟨_, hm⟩ | ⟨k1, e, _, _, hframe, _⟩
  · rw [hm]
    exact Emits.refl_emits _ _
  · exact Emits.of_frame hframe (operResponses_event _ _ _)

theorem RouteFlowMgmtTree.OperEntryAdd_emits_route {h : Hdr} {m m' : FlowMgmtManager} {t : TreeId}
    {req : FlowMgmtRequest} {key : FlowMgmtKey} {b : Bool}
    (ha : RouteFlowMgmtTree.OperEntryAdd h m t req key = some (b, m')) :
    Emits m m' (fun r => r.event ≠ .FREE_DBENTRY) := by
  obtain ⟨m1, hb, hcase⟩ := RouteFlowMgmtTree.OperEntryAdd_some ha
  have h1 := FlowMgmtTree.OperEntryAdd_emits_base hb
  rcases hcase with ⟨_, hm⟩ | ⟨d, _, hm⟩
  · rw [hm]
    exact h1
  · rw [hm]
    exact h1.trans_emits (Emits.of_eq_emits _ (by simp))

theorem InetRouteFlowMgmtTree.OperEntryAdd_emits_inet {h : Hdr} {m m' : FlowMgmtManager}
    {t : TreeId} {req : FlowMgmtRequest} {key key' : FlowMgmtKey} {b : Bool}
    (ha : InetRouteFlowMgmtTree.OperEntryAdd h m t req key = some (b, key', m')) :
    Emits m m' (fun r => r.event ≠ .FREE_DBENTRY) := by
  unfold InetRouteFlowMgmtTree.OperEntryAdd at ha
  cases hr : RouteFlowMgmtTree.OperEntryAdd h m t req key with
  | none => simp [hr] at ha
  | some r =>
    obtain ⟨ret, m1⟩ := r
    have h1 := RouteFlowMgmtTree.OperEntryAdd_emits_route hr
    have h2 : Emits m (InetRouteFlowMgmtTree.AddToLPMTree m1 t key)
        (fun r => r.event ≠ .FREE_DBENTRY) :=
      h1.trans_emits (Emits.of_eq_emits _ (by simp [InetRouteFlowMgmtTree.AddToLPMTree]))
    simp only [hr] at ha
    by_cases hp : key.plen_ > 0
    · simp only [hp, if_true] at ha
      cases hl : InetRouteFlowMgmtTree.LPM (InetRouteFlowMgmtTree.AddToLPMTree m1 t key) t
          (InetRouteFlowMgmtKey key.vrf_id_ key.ip_ (key.plen_ - 1)) with
      | none =>
        simp only [hl, Option.some.injEq, Prod.mk.injEq] at ha
        rw [← ha.2.2]
        exact h2
      | some c =>
        simp only [hl] at ha
        cases hc : RouteFlowMgmtTree.OperEntryAdd h
            (InetRouteFlowMgmtTree.AddToLPMTree m1 t key) t
            (FlowMgmtRequest.ofDB .ADD_DBENTRY none 0) c with
        | none => simp [hc] at ha
        | some r2 =>
          obtain ⟨b2, m3⟩ := r2
          simp only [hc, Option.some.injEq, Prod.mk.injEq] at ha
          rw [← ha.2.2]
          exact h2.trans_emits (RouteFlowMgmtTree.OperEntryAdd_emits_route hc)
    · simp only [hp, if_false, Option.some.injEq, Prod.mk.injEq] at ha
      rw [← ha.2.2]
      exact h2

theorem VrfFlowMgmtTree.OperEntryAdd_emits_vrf {h : Hdr} {m m' : FlowMgmtManager}
    {req : FlowMgmtRequest} {key : FlowMgmtKey} {b : Bool}
    (ha : VrfFlowMgmtTree.OperEntryAdd h m req key = some (b, m')) :
    Emits m m' (fun r => r.event ≠ .FREE_DBENTRY) := by
  unfold VrfFlowMgmtTree.OperEntryAdd at ha
  cases hr : FlowMgmtTree.OperEntryAdd h m .vrf req key with
  | none => simp [hr] at ha
  | some r =>
    obtain ⟨ret, m1⟩ := r
    have h1 := FlowMgmtTree.OperEntryAdd_emits_base hr
    simp only [hr] at ha
    cases hd : key.db_entry_ with
    | none => simp [hd] at ha
    | some vrf =>
      simp only [hd] at ha
      cases hf : List.find? (fun p => p.1 == vrf.vrf_id) m1.id_map_ with
      | some q =>
        simp only [hf, Option.some.injEq, Prod.mk.injEq] at ha
        rw [← ha.2]
        exact h1
      | none =>
        simp only [hf, Option.some.injEq, Prod.mk.injEq] at ha
        rw [← ha.2]
        exact h1.trans_emits (Emits.of_eq_emits _ rfl)

theorem freeResponses_freed {m : FlowMgmtManager} {t : TreeId} {key : FlowMgmtKey}
    {d : DBEntry} (hK : DBEntryKey d = some (key, t)) (hnil : flowsAt m t key = []) (g : Nat) :
    ∀ r, r ∈ freeResponses key g → FreedResp m r := by
  intro r hr _
  unfold freeResponses at hr
  rw [DBEntryKey_db hK] at hr
  simp only at hr
  split at hr
  · simp at hr
  · simp only [List.mem_singleton] at hr
    rw [hr]
    exact ⟨d, key, t, rfl, hK, hnil⟩

/-- The base `OperEntryDelete` frees the object of the request only when no flow
depends on its key. -/
theorem FlowMgmtTree.OperEntryDelete_emits {m m' : FlowMgmtManager} {t : TreeId}
    {req : FlowMgmtRequest} {key : FlowMgmtKey} {d : DBEntry} {b : Bool}
    (hK : DBEntryKey d = some (key, t))
    (ha : FlowMgmtTree.OperEntryDelete m t req key = some (b, m')) :
    Emits m m' (FreedResp m) := by
  rcases FlowMgmtTree.OperEntryDelete_step ha with
    ⟨hf, _, hframe, _, _⟩ | ⟨k1, e, m1, hf, _, hcase⟩
  · exact Emits.of_frame hframe (freeResponses_freed hK (flowsAt_of_none hf) _)
  · rcases hcase with ⟨_, _, hframe, _⟩ | ⟨hc, _, hframe, _, _⟩
    · exact Emits.of_frame hframe
        (fun r hr hev => absurd hev (operResponses_event _ _ _ r hr))
    · refine Emits.of_frame hframe ?_
      intro r hr
      rcases List.mem_append.1 hr with h | h
      · exact fun hev => absurd hev (operResponses_event _ _ _ r h)
      · refine freeResponses_freed hK ?_ _ r h
        rw [flowsAt_of_find hf]
        exact (Entry.CanDelete_true_dispatch hc).1

theorem FlowMgmtManager.RetryVrfDelete_emits {reqs : List FlowMgmtRequest}
    {m m' : FlowMgmtManager} {vrf_id : Nat} (hinv : TreeInv reqs m)
    (ha : m.RetryVrfDelete vrf_id = some m') : Emits m m' (FreedResp m) := by
  obtain ⟨resp, hq, hfreed⟩ := FlowMgmtManager.RetryVrfDelete_freed hinv .vrf
    (VrfFlowMgmtKey none) ha
  have hquiet := Quiet.RetryVrfDelete_quiet ha
  refine ⟨resp, hq, ?_⟩
  intro r hr _
  obtain ⟨_, d, K, t0, hd, hK, hfl, _⟩ := hfreed r hr
  exact ⟨d, K, t0, hd, hK, by rw [← hquiet.flows]; exact hfl⟩

theorem Emits.quiet_emits {m0 m m' : FlowMgmtManager} (h : Emits m m' (FreedResp m))
    (hq : Quiet m0 m) : Emits m m' (FreedResp m0) := by
  obtain ⟨resp, hr, hp⟩ := h
  refine ⟨resp, hr, ?_⟩
  intro r hr hev
  obtain ⟨d, K, t0, hd, hK, hfl⟩ := hp r hr hev
  exact ⟨d, K, t0, hd, hK, by rw [← hq.flows]; exact hfl⟩

theorem Emits.mono_emits {m m' : FlowMgmtManager} {P Q : FlowMgmtResponse → Prop}
    (h : Emits m m' P) (hpq : ∀ r, P r → Q r) : Emits m m' Q := by
  obtain ⟨resp, hr, hp⟩ := h
  exact ⟨resp, hr, fun r hr => hpq r (hp r hr)⟩

/-- The responses of an object event: a free notification among them carries an
object that no flow depends on. -/
theorem ProcessEvent_emits {reqs : List FlowMgmtRequest} {h : Hdr} {m m' : FlowMgmtManager}
    {t : TreeId} {req : FlowMgmtRequest} {key : FlowMgmtKey} {d : DBEntry} {b : Bool}
    (hinv : TreeInv reqs m) (hmem : req ∈ reqs) (hd : req.db_entry = some d)
    (hK : DBEntryKey d = some (key, t))
    (ha : FlowMgmt.ProcessEvent h m req key t = some (b, m')) : Emits m m' (FreedResp m) := by
  have hnf : ∀ r : FlowMgmtResponse, r.event ≠ .FREE_DBENTRY → FreedResp m r :=
    fun r h1 h2 => absurd h2 h1
  have hkey : KeyDBOK t key := DBEntryKey_KeyDBOK hK
  unfold FlowMgmt.ProcessEvent at ha
  cases hev : req.event with
  | ADD_DBENTRY =>
    simp only [hev] at ha
    cases hv : Virtual.OperEntryAdd h m t req key with
    | none => simp [hv] at ha
    | some r =>
      obtain ⟨b1, m1⟩ := r
      simp only [hv, Option.some.injEq, Prod.mk.injEq] at ha
      rw [← ha.2]
      refine Emits.mono_emits ?_ hnf
      cases t with
      | ip4_route =>
        simp only [Virtual.OperEntryAdd] at hv
        cases hi : InetRouteFlowMgmtTree.OperEntryAdd h m .ip4_route req key with
        | none => simp [hi] at hv
        | some r2 =>
          obtain ⟨b2, k2, m2⟩ := r2
          simp only [hi, Option.some.injEq, Prod.mk.injEq] at hv
          rw [← hv.2]
          exact InetRouteFlowMgmtTree.OperEntryAdd_emits_inet hi
      | ip6_route =>
        simp only [Virtual.OperEntryAdd] at hv
        cases hi : InetRouteFlowMgmtTree.OperEntryAdd h m .ip6_route req key with
        | none => simp [hi] at hv
        | some r2 =>
          obtain ⟨b2, k2, m2⟩ := r2
          simp only [hi, Option.some.injEq, Prod.mk.injEq] at hv
          rw [← hv.2]
          exact InetRouteFlowMgmtTree.OperEntryAdd_emits_inet hi
      | bridge_route => exact RouteFlowMgmtTree.OperEntryAdd_emits_route hv
      | vrf => exact VrfFlowMgmtTree.OperEntryAdd_emits_vrf hv
      | acl => exact FlowMgmtTree.OperEntryAdd_emits_base hv
      | ace_id => exact FlowMgmtTree.OperEntryAdd_emits_base hv
      | interface => exact FlowMgmtTree.OperEntryAdd_emits_base hv
      | vn => exact FlowMgmtTree.OperEntryAdd_emits_base hv
      | nh => exact FlowMgmtTree.OperEntryAdd_emits_base hv
  | CHANGE_DBENTRY =>
    simp only [hev] at ha
    cases hv : Virtual.OperEntryChange m t req key with
    | none => simp [hv] at ha
    | some r =>
      obtain ⟨b1, m1⟩ := r
      simp only [hv, Option.some.injEq, Prod.mk.injEq] at ha
      rw [← ha.2]
      exact Emits.mono_emits (FlowMgmtTree.OperEntryChange_emits hv) hnf
  | DELETE_DBENTRY =>
    simp only [hev] at ha
    have hdel : DeletedAt reqs t key := ⟨req, hmem, hev, d, key, hd, hK, sameKey_refl key⟩
    cases hv : Virtual.OperEntryDelete m t req key with
    | none => simp [hv] at ha
    | some r =>
      obtain ⟨b1, m1⟩ := r
      simp only [hv, Option.some.injEq, Prod.mk.injEq] at ha
      rw [← ha.2]
      have route : ∀ m0 : FlowMgmtManager, TreeInv reqs m0 →
          RouteFlowMgmtTree.OperEntryDelete m0 t req key = some (b1, m1) →
          Emits m0 m1 (FreedResp m0) := by
        intro m0 hinv0 h0
        obtain ⟨m2, h1, h2⟩ := RouteFlowMgmtTree.OperEntryDelete_some h0
        have hinv2 := hinv0.OperEntryDelete_inv hkey hdel h1
        exact (FlowMgmtTree.OperEntryDelete_emits hK h1).trans_emits
          ((FlowMgmtManager.RetryVrfDelete_emits hinv2 h2).quiet_emits (Quiet.OperEntryDelete_quiet h1))
      cases t with
      | ip4_route =>
        exact (Emits.of_eq_emits _ (by simp [InetRouteFlowMgmtTree.DelFromLPMTree])).trans_emits
          ((route _ (hinv.DelFromLPMTree (Or.inl rfl)) hv).quiet_emits (Quiet.setLpm_quiet m _ _))
      | ip6_route =>
        exact (Emits.of_eq_emits _ (by simp [InetRouteFlowMgmtTree.DelFromLPMTree])).trans_emits
          ((route _ (hinv.DelFromLPMTree (Or.inr rfl)) hv).quiet_emits (Quiet.setLpm_quiet m _ _))
      | bridge_route => exact route _ hinv hv
      | vrf => exact FlowMgmtTree.OperEntryDelete_emits hK hv
      | acl => exact FlowMgmtTree.OperEntryDelete_emits hK hv
      | ace_id => exact FlowMgmtTree.OperEntryDelete_emits hK hv
      | interface => exact FlowMgmtTree.OperEntryDelete_emits hK hv
      | vn => exact FlowMgmtTree.OperEntryDelete_emits hK hv
      | nh => exact FlowMgmtTree.OperEntryDelete_emits hK hv
  | INVALID => simp [hev] at ha
  | ADD_FLOW => simp [hev] at ha
  | DELETE_FLOW => simp [hev] at ha
  | RETRY_DELETE_VRF => simp [hev] at ha

/-! ## The registry of flows -/

theorem keysOf_of_find {m : FlowMgmtManager} {f : Nat} {info : FlowEntryInfo}
    (h : m.FindFlowEntryInfo f = some info) : keysOf m f = info.tree_ := by
  unfold keysOf
  rw [h]

theorem keysOf_of_none {m : FlowMgmtManager} {f : Nat}
    (h : m.FindFlowEntryInfo f = none) : keysOf m f = [] := by
  unfold keysOf
  rw [h]

theorem infoHasKey_keysOf (m : FlowMgmtManager) (f : Nat) (k : FlowMgmtKey) :
    infoHasKey m f k = (FlowMgmtKeyTree.find (keysOf m f) k).isSome := by
  unfold infoHasKey keysOf
  cases m.FindFlowEntryInfo f <;> rfl

theorem RegInv.keysOf_ok {m : FlowMgmtManager} (h : RegInv m) (f : Nat) :
    GoodKeys (keysOf m f) := by
  cases hf : m.FindFlowEntryInfo f with
  | none =>
    rw [keysOf_of_none hf]
    exact GoodKeys.nil_goodKeys
  | some info =>
    rw [keysOf_of_find hf]
    exact ⟨h.sorted f info hf, h.keys_ok f info hf⟩

/-- The invariant of the registry depends on the key sets and the flow sets
only. -/
theorem RegInv.of_keys {m m' : FlowMgmtManager} (h : RegInv m)
    (hkeys : ∀ f, keysOf m' f = keysOf m f)
    (hflows : ∀ t k, flowsAt m' t k = flowsAt m t k) : RegInv m' := by
  refine ⟨?_, ?_, ?_⟩
  · intro f info hf k hk
    rw [← keysOf_of_find hf, hkeys] at hk
    exact (h.keysOf_ok f).2 k hk
  · intro f info hf
    have := (h.keysOf_ok f).1
    rw [← hkeys, keysOf_of_find hf] at this
    exact this
  · intro f k t ht
    rw [infoHasKey_keysOf, hkeys, ← infoHasKey_keysOf, hflows]
    exact h.bicons f k t ht

theorem tree_with_flow_tree (m : FlowMgmtManager) (ft : List (Nat × FlowEntryInfo))
    (t : TreeId) : ({ m with flow_tree_ := ft } : FlowMgmtManager).tree t = m.tree t := by
  cases t <;> rfl

theorem lpm_with_flow_tree (m : FlowMgmtManager) (ft : List (Nat × FlowEntryInfo))
    (t : TreeId) : ({ m with flow_tree_ := ft } : FlowMgmtManager).lpm t = m.lpm t := by
  cases t <;> rfl

theorem FindFlowEntryInfo_insert (m : FlowMgmtManager) (f : Nat) (info : FlowEntryInfo)
    (hnone : m.FindFlowEntryInfo f = none) (f' : Nat) :
    ({ m with flow_tree_ := insertBy (fun p q => decide (p.1 < q.1)) (f, info) m.flow_tree_ } :
      FlowMgmtManager).FindFlowEntryInfo f' =
      if f' = f then some info else m.FindFlowEntryInfo f' := by
  unfold FlowMgmtManager.FindFlowEntryInfo at hnone ⊢
  simp only
  by_cases hf : f' = f
  · subst hf
    rw [if_pos rfl, find?_insertBy_true _ _ _ _ (by simp)]
    · rfl
    · simpa using hnone
  · rw [if_neg hf, find?_insertBy_false _ _ _ _ (by simpa using fun h : f = f' => hf h.symm)]

theorem FindFlowEntryInfo_filter (m : FlowMgmtManager) (f f' : Nat) :
    ({ m with flow_tree_ := List.filter (fun p => p.1 != f) m.flow_tree_ } :
      FlowMgmtManager).FindFlowEntryInfo f' =
      if f' = f then none else m.FindFlowEntryInfo f' := by
  unfold FlowMgmtManager.FindFlowEntryInfo
  simp only
  induction m.flow_tree_ with
  | nil => simp
  | cons q qs ih =>
    by_cases hq : q.1 = f
    · have hq1 : (q.1 != f) = false := by simp [hq]
      rw [List.filter_cons_of_neg (by simp [hq]), ih]
      by_cases hf : f' = f
      · simp [hf]
      · have hq2 : (q.1 == f') = false := by
          rw [hq]
          simpa using fun h : f = f' => hf h.symm
        simp only [hf, if_false, List.find?_cons, hq2]
    · rw [List.filter_cons_of_pos (by simpa using hq)]
      simp only [List.find?_cons]
      cases hqf : (q.1 == f') with
      | true =>
        have : f' ≠ f := by
          have h1 : q.1 = f' := by simpa using hqf
          rw [← h1]
          exact hq
        simp [this]
      | false => exact ih

/-- The manager on which the walk of `AddFlow` starts has the record of the
flow, with the key set the flow had, and is otherwise the manager before. -/
theorem AddFlowStart_spec (m : FlowMgmtManager) (fid : Nat) :
    (∃ info1, (AddFlowStart m fid).FindFlowEntryInfo fid = some info1 ∧
      info1.tree_ = (m.LocateFlowEntryInfo fid).1.tree_) ∧
    (m.LocateFlowEntryInfo fid).1.tree_ = keysOf m fid ∧
    (∀ f, keysOf (AddFlowStart m fid) f = keysOf m f) ∧
    (∀ t, (AddFlowStart m fid).tree t = m.tree t) ∧
    (AddFlowStart m fid).id_map_ = m.id_map_ ∧
    (∀ t, (AddFlowStart m fid).lpm t = m.lpm t) ∧
    (AddFlowStart m fid).response_queue_ = m.response_queue_ := by
  unfold AddFlowStart FlowMgmtManager.LocateFlowEntryInfo
  cases hf : m.FindFlowEntryInfo fid with
  | some info =>
    simp only
    refine ⟨⟨_, FindFlowEntryInfo_setInfo_self hf _, rfl⟩, (keysOf_of_find hf).symm, ?_,
      fun t => tree_setInfo _ _ _ _, rfl, fun t => setInfo_lpm _ _ _ _, rfl⟩
    intro f
    by_cases hff : f = fid
    · subst hff
      rw [keysOf_of_find (FindFlowEntryInfo_setInfo_self hf _), keysOf_of_find hf]
    · unfold keysOf
      rw [FindFlowEntryInfo_setInfo_ne _ hff]
  | none =>
    simp only
    have h1 := FindFlowEntryInfo_insert m fid
      { tree_ := [], count_ := 0, local_flow_ := false, ingress_ := false } hf
    have h1s := h1 fid
    rw [if_pos rfl] at h1s
    refine ⟨⟨_, FindFlowEntryInfo_setInfo_self h1s _, rfl⟩, (keysOf_of_none hf).symm, ?_,
      fun t => ?_, rfl, fun t => ?_, rfl⟩
    · intro f
      by_cases hff : f = fid
      · subst hff
        rw [keysOf_of_find (FindFlowEntryInfo_setInfo_self h1s _), keysOf_of_none hf]
      · unfold keysOf
        rw [FindFlowEntryInfo_setInfo_ne _ hff, h1 f, if_neg hff]
    · rw [tree_setInfo, tree_with_flow_tree]
    · rw [setInfo_lpm, lpm_with_flow_tree]

theorem AddFlow_eq (h : Hdr) (m : FlowMgmtManager) (flow : FlowEntry) :
    m.AddFlow h flow =
      applyOps h flow (deltaOps (MakeFlowMgmtKeyTree flow) (m.LocateFlowEntryInfo flow.id).1.tree_)
        (AddFlowStart m flow.id) := by
  rw [← AddFlowWalk_eq]
  rfl

theorem FreedBy.freed_freedBy {m : FlowMgmtManager} {ops : List KeyOp} {resp : List FlowMgmtResponse}
    (h : FreedBy m ops resp) : Freed m resp := by
  intro r hr _
  obtain ⟨_, d, K, t0, hd, hK, hfl, _⟩ := h r hr
  exact ⟨d, K, t0, hd, hK, hfl⟩

/-- The function `AddFlow` keeps the invariants, and what it frees has no flow
left. -/
theorem AddFlow_inv {reqs : List FlowMgmtRequest} {h : Hdr} {m m' : FlowMgmtManager}
    {flow : FlowEntry} (hinit : h.oper_state_init ≠ .OPER_DEL_SEEN) (hinv : TreeInv reqs m)
    (hreg : RegInv m) (ha : m.AddFlow h flow = some m') :
    TreeInv reqs m' ∧ RegInv m' ∧
      ∃ resp, m'.response_queue_ = m.response_queue_ ++ resp ∧ Freed m' resp := by
  rw [AddFlow_eq] at ha
  obtain ⟨_, hold, hkeys, htree, hid, hlpm, hresp⟩ := AddFlowStart_spec m flow.id
  have hinv1 : TreeInv reqs (AddFlowStart m flow.id) := hinv.of_eq_inv htree hid hlpm hresp
  have hreg1 : RegInv (AddFlowStart m flow.id) :=
    hreg.of_keys hkeys (fun t k => by unfold flowsAt; rw [htree])
  have hnew := MakeFlowMgmtKeyTree_good flow
  have hok : ∀ k, KeyOp.add k ∈
      deltaOps (MakeFlowMgmtKeyTree flow) (m.LocateFlowEntryInfo flow.id).1.tree_ →
      FlowKeyOK k := fun k hk => hnew.2 k ((deltaOps_add k _ _).1 hk)
  have hsorted : KeysSorted (m.LocateFlowEntryInfo flow.id).1.tree_ := by
    rw [hold]
    exact (hreg.keysOf_ok flow.id).1
  obtain ⟨h1, h2⟩ := applyOps_inv hinit _ hinv1 hreg1 hok ha
  obtain ⟨resp, hq, hfreed⟩ := applyOps_freed hinit _ hinv1 hreg1 hok
    (deltaOps_disjoint _ _ hnew.1 hsorted) ha
  exact ⟨h1, h2, resp, by rw [hq, hresp], hfreed.freed_freedBy⟩

/-- The function `DeleteFlow` keeps the invariants, and what it frees has no
flow left. -/
theorem DeleteFlow_inv {reqs : List FlowMgmtRequest} (h : Hdr) {m m' : FlowMgmtManager}
    {flow : FlowEntry} (hinit : h.oper_state_init ≠ .OPER_DEL_SEEN) (hinv : TreeInv reqs m)
    (hreg : RegInv m) (ha : m.DeleteFlow flow = some m') :
    TreeInv reqs m' ∧ RegInv m' ∧
      ∃ resp, m'.response_queue_ = m.response_queue_ ++ resp ∧ Freed m' resp := by
  unfold FlowMgmtManager.DeleteFlow at ha
  cases hf : m.FindFlowEntryInfo flow.id with
  | none =>
    simp only [hf, Option.some.injEq] at ha
    subst ha
    exact ⟨hinv, hreg, [], by simp, by intro r hr; simp at hr⟩
  | some old_info =>
    simp only [hf] at ha
    have hinv1 : TreeInv reqs
        (m.setInfo flow.id { old_info with count_ := old_info.count_ + 1 }) :=
      hinv.of_eq_inv (fun t => tree_setInfo _ _ _ _) rfl (fun t => setInfo_lpm _ _ _ _) rfl
    have hreg1 : RegInv (m.setInfo flow.id { old_info with count_ := old_info.count_ + 1 }) := by
      refine hreg.of_keys ?_ (fun t k => by unfold flowsAt; rw [tree_setInfo])
      intro f
      by_cases hff : f = flow.id
      · subst hff
        rw [keysOf_of_find (FindFlowEntryInfo_setInfo_self hf _), keysOf_of_find hf]
      · unfold keysOf
        rw [FindFlowEntryInfo_setInfo_ne _ hff]
    rw [DeleteFlowLoop_eq h] at ha
    cases hl : applyOps h flow (List.map KeyOp.del old_info.tree_)
        (m.setInfo flow.id { old_info with count_ := old_info.count_ + 1 }) with
    | none => simp [hl] at ha
    | some m2 =>
      simp only [hl] at ha
      have hok : ∀ k, KeyOp.add k ∈ List.map KeyOp.del old_info.tree_ → FlowKeyOK k := by
        intro k hk
        simp at hk
      obtain ⟨hinv2, hreg2⟩ := applyOps_inv hinit _ hinv1 hreg1 hok hl
      obtain ⟨resp, hq, hfreed⟩ := applyOps_freed hinit _ hinv1 hreg1 hok
        (fun a b ha1 _ => by simp at ha1) hl
      cases hf2 : m2.FindFlowEntryInfo flow.id with
      | none => simp [hf2] at ha
      | some info2 =>
        simp only [hf2] at ha
        by_cases hlen : info2.tree_.length ≠ 0
        · simp [hlen] at ha
        · simp only [hlen, if_false] at ha
          have hnil : info2.tree_ = [] := by
            simpa using hlen
          unfold FlowMgmtManager.DeleteFlowEntryInfo at ha
          simp only [hf2, hlen, if_false, Option.some.injEq] at ha
          subst ha
          have htree := fun t => tree_with_flow_tree m2
            (List.filter (fun p => p.1 != flow.id) m2.flow_tree_) t
          refine ⟨hinv2.of_eq_inv htree rfl (fun t => lpm_with_flow_tree _ _ _) rfl, ?_, resp,
            hq, ?_⟩
          · refine hreg2.of_keys ?_ (fun t k => by unfold flowsAt; rw [htree])
            intro f
            unfold keysOf
            rw [FindFlowEntryInfo_filter]
            by_cases hff : f = flow.id
            · rw [if_pos hff, hff, hf2]
              exact hnil.symm
            · rw [if_neg hff]
          · intro r hr hev
            obtain ⟨d, K, t0, hd, hK, hfl⟩ := hfreed.freed_freedBy r hr hev
            refine ⟨d, K, t0, hd, hK, ?_⟩
            unfold flowsAt at hfl ⊢
            rw [htree]
            exact hfl

/-! ## Every request keeps the invariants -/

theorem TreeInv.ResponseEnqueue {reqs : List FlowMgmtRequest} {m : FlowMgmtManager}
    (hinv : TreeInv reqs m) (r : FlowMgmtResponse) (hr : FreeOK reqs r) :
    TreeInv reqs (m.ResponseEnqueue r) := by
  refine ⟨hinv.entries.of_tree_eq_findAll (fun t => by simp), hinv.id_map, ?_, ?_⟩
  · intro t k hk
    rw [ResponseEnqueue_lpm] at hk
    exact hinv.lpm t k hk
  · intro r' hr'
    rw [ResponseEnqueue_response_queue] at hr'
    rcases List.mem_append.1 hr' with h | h
    · exact hinv.free r' h
    · rw [List.mem_singleton.1 h]
      exact hr

theorem Quiet.DBEntryRequestHandler_quiet {h : Hdr} {m m' : FlowMgmtManager}
    {req : FlowMgmtRequest} {b : Bool}
    (ha : m.DBEntryRequestHandler h req req.db_entry = some (b, m')) : Quiet m m' := by
  rw [FlowMgmtManager.DBEntryRequestHandler_eq] at ha
  cases hd : req.db_entry with
  | none => simp [hd] at ha
  | some d =>
    simp only [hd] at ha
    cases hK : DBEntryKey d with
    | none => simp [hK] at ha
    | some r =>
      obtain ⟨key, t⟩ := r
      simp only [hK] at ha
      exact Quiet.ProcessEvent_quiet hK ha

theorem DBEntryRequestHandler_emits {reqs : List FlowMgmtRequest} {h : Hdr}
    {m m' : FlowMgmtManager} {req : FlowMgmtRequest} {b : Bool} (hinv : TreeInv reqs m)
    (hmem : req ∈ reqs)
    (ha : m.DBEntryRequestHandler h req req.db_entry = some (b, m')) :
    Emits m m' (FreedResp m) := by
  rw [FlowMgmtManager.DBEntryRequestHandler_eq] at ha
  cases hd : req.db_entry with
  | none => simp [hd] at ha
  | some d =>
    simp only [hd] at ha
    cases hK : DBEntryKey d with
    | none => simp [hK] at ha
    | some r =>
      obtain ⟨key, t⟩ := r
      simp only [hK] at ha
      exact ProcessEvent_emits hinv hmem hd hK ha

theorem Emits.freed_emits {m m' : FlowMgmtManager} (h : Emits m m' (FreedResp m))
    (hq : Quiet m m') :
    ∃ resp, m'.response_queue_ = m.response_queue_ ++ resp ∧ Freed m' resp := by
  obtain ⟨resp, hr, hp⟩ := h
  refine ⟨resp, hr, ?_⟩
  intro r hr hev
  obtain ⟨d, K, t0, hd, hK, hfl⟩ := hp r hr hev
  exact ⟨d, K, t0, hd, hK, by rw [hq.flows]; exact hfl⟩

/-- One request keeps the invariants of the indexes and of the registry, and
what it frees has no flow left. -/
theorem RequestHandler_inv {reqs : List FlowMgmtRequest} {h : Hdr} {m m' : FlowMgmtManager}
    {req : FlowMgmtRequest} (hinit : h.oper_state_init ≠ .OPER_DEL_SEEN)
    (hinv : TreeInv reqs m) (hreg : RegInv m) (hmem : req ∈ reqs)
    (ha : m.RequestHandler h req = some m') :
    TreeInv reqs m' ∧ RegInv m' ∧
      ∃ resp, m'.response_queue_ = m.response_queue_ ++ resp ∧ Freed m' resp := by
  have db : ∀ m1 : FlowMgmtManager,
      (match m.DBEntryRequestHandler h req req.db_entry with
        | none => none
        | some (_, m1) => some m1) = some m1 →
      TreeInv reqs m1 ∧ RegInv m1 ∧
        ∃ resp, m1.response_queue_ = m.response_queue_ ++ resp ∧ Freed m1 resp := by
    intro m1 h1
    cases hdb : m.DBEntryRequestHandler h req req.db_entry with
    | none => simp [hdb] at h1
    | some r =>
      obtain ⟨b, m2⟩ := r
      simp only [hdb, Option.some.injEq] at h1
      subst h1
      have hq := Quiet.DBEntryRequestHandler_quiet hdb
      exact ⟨hinv.DBEntryRequestHandler_inv hmem hdb, hreg.of_quiet hq,
        (DBEntryRequestHandler_emits hinv hmem hdb).freed_emits hq⟩
  unfold FlowMgmtManager.RequestHandler at ha
  cases hev : req.event with
  | INVALID => simp [hev] at ha
  | ADD_FLOW =>
    simp only [hev] at ha
    cases hfl : req.flow with
    | none => simp [hfl] at ha
    | some flow =>
      simp only [hfl] at ha
      exact AddFlow_inv hinit hinv hreg ha
  | DELETE_FLOW =>
    simp only [hev] at ha
    cases hfl : req.flow with
    | none => simp [hfl] at ha
    | some flow =>
      simp only [hfl] at ha
      cases hd : m.DeleteFlow flow with
      | none => simp [hd] at ha
      | some m1 =>
        simp only [hd, Option.some.injEq] at ha
        subst ha
        obtain ⟨hinv1, hreg1, resp, hq, hfreed⟩ := DeleteFlow_inv h hinit hinv hreg hd
        refine ⟨hinv1.ResponseEnqueue _ (fun hev => by simp at hev), ?_,
          resp ++ [⟨.FREE_FLOW_REF, some flow.id, none, 0⟩], ?_, ?_⟩
        · exact hreg1.of_keys (fun f => by unfold keysOf; simp)
            (fun t k => by unfold flowsAt; simp)
        · rw [ResponseEnqueue_response_queue, hq, List.append_assoc]
        · intro r hr hev
          rcases List.mem_append.1 hr with h1 | h1
          · obtain ⟨d, K, t0, hd0, hK, hfl0⟩ := hfreed r h1 hev
            exact ⟨d, K, t0, hd0, hK, by unfold flowsAt at hfl0 ⊢; simpa using hfl0⟩
          · rw [List.mem_singleton.1 h1] at hev
            simp at hev
  | ADD_DBENTRY =>
    simp only [hev] at ha
    exact db m' ha
  | CHANGE_DBENTRY =>
    simp only [hev] at ha
    exact db m' ha
  | DELETE_DBENTRY =>
    simp only [hev] at ha
    exact db m' ha
  | RETRY_DELETE_VRF =>
    simp only [hev] at ha
    have hq := Quiet.RetryVrfDelete_quiet ha
    exact ⟨hinv.RetryVrfDelete_inv ha, hreg.of_quiet hq,
      (FlowMgmtManager.RetryVrfDelete_emits hinv ha).freed_emits hq⟩

theorem TreeInv.empty_inv : TreeInv [] FlowMgmtManager.empty := by
  refine ⟨?_, ?_, ?_, ?_⟩
  · intro t k p hp
    cases t <;> simp [FlowMgmtManager.empty, FlowMgmtManager.tree, Tree.find] at hp
  · intro p hp
    simp [FlowMgmtManager.empty] at hp
  · intro t k hk
    cases t <;> simp [FlowMgmtManager.empty, FlowMgmtManager.lpm] at hk
  · intro r hr
    simp [FlowMgmtManager.empty] at hr

theorem RegInv.empty_reg : RegInv FlowMgmtManager.empty := by
  refine ⟨?_, ?_, ?_⟩
  · intro f info hf
    simp [FlowMgmtManager.empty, FlowMgmtManager.FindFlowEntryInfo] at hf
  · intro f info hf
    simp [FlowMgmtManager.empty, FlowMgmtManager.FindFlowEntryInfo] at hf
  · intro f k t ht
    have h1 : infoHasKey FlowMgmtManager.empty f k = false := rfl
    have h2 : flowsAt FlowMgmtManager.empty t k = [] := by
      cases t <;> rfl
    rw [h1, h2]
    simp

/-- The requests of a list, processed in order, keep the invariants. -/
theorem RunRequests_inv {h : Hdr} (hinit : h.oper_state_init ≠ .OPER_DEL_SEEN)
    (rest : List FlowMgmtRequest) :
    ∀ {pre : List FlowMgmtRequest} {m m' : FlowMgmtManager}, TreeInv pre m → RegInv m →
      FlowMgmtManager.RunRequests h m rest = some m' → TreeInv (pre ++ rest) m' ∧ RegInv m' := by
  induction rest with
  | nil =>
    intro pre m m' hinv hreg ha
    simp only [FlowMgmtManager.RunRequests, Option.some.injEq] at ha
    subst ha
    rw [List.append_nil]
    exact ⟨hinv, hreg⟩
  | cons req rest ih =>
    intro pre m m' hinv hreg ha
    simp only [FlowMgmtManager.RunRequests] at ha
    cases h1 : m.RequestHandler h req with
    | none => simp [h1] at ha
    | some m1 =>
      simp only [h1] at ha
      have hinv0 : TreeInv (pre ++ [req]) m :=
        hinv.mono_inv (fun q hq => List.mem_append_left _ hq)
      obtain ⟨hinv1, hreg1, _⟩ := RequestHandler_inv hinit hinv0 hreg
        (List.mem_append_right _ (List.mem_singleton.2 rfl)) h1
      have := ih hinv1 hreg1 ha
      rw [List.append_assoc] at this
      exact this

/-- After any list of requests processed from the empty manager, the
invariants hold. -/
theorem reachable_inv {h : Hdr} (hinit : h.oper_state_init ≠ .OPER_DEL_SEEN)
    {reqs : List FlowMgmtRequest} {m : FlowMgmtManager}
    (ha : FlowMgmtManager.RunRequests h FlowMgmtManager.empty reqs = some m) :
    TreeInv reqs m ∧ RegInv m := by
  have := RunRequests_inv hinit reqs TreeInv.empty_inv RegInv.empty_reg ha
  rw [List.nil_append] at this
  exact this

/-! ## The invariants of request processing -/

theorem indexOfKeyType_of_tree {ty : KeyType} {t : TreeId}
    (h : FlowMgmtManager.treeOfKeyType ty = some t) : indexOfKeyType ty = some t := by
  cases ty <;> simp [FlowMgmtManager.treeOfKeyType] at h <;> subst h <;> rfl

theorem indexOfKeyType_of_no_tree {ty : KeyType} {t : TreeId}
    (h : FlowMgmtManager.treeOfKeyType ty = none) (hi : indexOfKeyType ty = some t) :
    t = .vrf ∨ t = .ace_id := by
  cases ty <;> simp [FlowMgmtManager.treeOfKeyType, indexOfKeyType] at h hi <;> subst hi <;> simp

/-- C1: starting from the empty manager, after any list of requests that is
processed without an abort (fresh entries not being constructed in the state
OPER_DEL_SEEN), for every flow `f` and key `k`: `k` is in the key set of the
record of `f` exactly when the index of `k`'s kind has an entry for `k` whose
flow set contains `f`. -/
theorem C1_bidirectional_consistency (h : Hdr) (hinit : h.oper_state_init ≠ .OPER_DEL_SEEN)
    (reqs : List FlowMgmtRequest) (m : FlowMgmtManager)
    (hrun : FlowMgmtManager.RunRequests h FlowMgmtManager.empty reqs = some m)
    (f : Nat) (k : FlowMgmtKey) : infoHasKey m f k = indexHasFlow m k f := by
  obtain ⟨hinv, hreg⟩ := reachable_inv hinit hrun
  cases ht : FlowMgmtManager.treeOfKeyType k.type_ with
  | some t =>
    have hb := hreg.bicons f k t ht
    unfold indexHasFlow
    rw [indexOfKeyType_of_tree ht]
    simp only
    rw [Bool.eq_iff_iff, hb]
    simp
  | none =>
    have h1 : infoHasKey m f k = false := by
      cases hk : infoHasKey m f k with
      | false => rfl
      | true =>
        obtain ⟨info, hinfo, x, hx, hs⟩ := infoHasKey_iff.1 hk
        obtain ⟨t, hxt, _⟩ := hreg.keys_ok f info hinfo x hx
        rw [sameKey_type hs, ht] at hxt
        exact absurd hxt (by simp)
    have h2 : indexHasFlow m k f = false := by
      unfold indexHasFlow
      cases hi : indexOfKeyType k.type_ with
      | none => rfl
      | some t =>
        simp only
        have hvt := indexOfKeyType_of_no_tree ht hi
        have hnil : flowsAt m t k = [] := by
          cases hfind : (m.tree t).find k with
          | none => exact flowsAt_of_none hfind
          | some p =>
            rw [flowsAt_of_find hfind]
            exact (hinv.entries t k p hfind).no_flows hvt
        rw [hnil]
        simp
    rw [h1, h2]

/-- C8 (amended): after any list of requests processed from the empty manager
(fresh entries not being constructed in the state OPER_DEL_SEEN), every entry
of an index other than the VRF index has a non-empty flow set or is in the
state OPER_ADD_SEEN. -/
theorem C8_no_zombie_outside_vrf (h : Hdr) (hinit : h.oper_state_init ≠ .OPER_DEL_SEEN)
    (reqs : List FlowMgmtRequest) (m : FlowMgmtManager)
    (hrun : FlowMgmtManager.RunRequests h FlowMgmtManager.empty reqs = some m)
    (t : TreeId) (ht : t ≠ .vrf) (k : FlowMgmtKey) (p : FlowMgmtKey × FlowMgmtEntry)
    (hfind : (m.tree t).find k = some p) :
    p.2.tree_ ≠ [] ∨ p.2.oper_state_ = .OPER_ADD_SEEN :=
  ((reachable_inv hinit hrun).1.entries t k p hfind).zombie ht

/-! ## `AddFlow`, `DELETE_FLOW` and the delete of an unknown key -/

/-- C2: `AddFlow` is the set difference it is described as. For a manager in
which the key set of the flow is sorted, as a set is, a successful `AddFlow`
is the list of operations `deltaOps` applied to the manager in which the record
of the flow has been located: that list adds exactly the keys of the new key
set (those the flow already had included), it deletes exactly the keys of the
old key set that the new one does not have, and afterwards the key set of the
flow is sorted, hence without duplicates, and has the same keys as the new key
set. -/
theorem C2_AddFlow_set_delta (h : Hdr) (m m' : FlowMgmtManager) (flow : FlowEntry)
    (hsorted : KeysSorted (keysOf m flow.id)) (ha : m.AddFlow h flow = some m') :
    m.AddFlow h flow =
      applyOps h flow (deltaOps (MakeFlowMgmtKeyTree flow) (keysOf m flow.id))
        (AddFlowStart m flow.id) ∧
    (∀ k, KeyOp.add k ∈ deltaOps (MakeFlowMgmtKeyTree flow) (keysOf m flow.id) ↔
      k ∈ MakeFlowMgmtKeyTree flow) ∧
    (∀ k, KeyOp.del k ∈ deltaOps (MakeFlowMgmtKeyTree flow) (keysOf m flow.id) ↔
      k ∈ keysOf m flow.id ∧ ∀ x, x ∈ MakeFlowMgmtKeyTree flow → SameKey x k = false) ∧
    KeysSorted (keysOf m' flow.id) ∧
    (∀ k, hasKey (keysOf m' flow.id) k ↔ hasKey (MakeFlowMgmtKeyTree flow) k) ∧
    (∀ f, f ≠ flow.id → keysOf m' f = keysOf m f) := by
  obtain ⟨⟨info1, hinfo1, htree1⟩, hold, hkeys, _⟩ := AddFlowStart_spec m flow.id
  have hnew := MakeFlowMgmtKeyTree_good flow
  have heq := AddFlow_eq h m flow
  rw [hold] at heq htree1
  have hadd := fun k => deltaOps_add k (MakeFlowMgmtKeyTree flow) (keysOf m flow.id)
  have hdel := fun k => deltaOps_del k (MakeFlowMgmtKeyTree flow) hnew.1 (keysOf m flow.id)
    hsorted
  rw [heq] at ha
  obtain ⟨hother, _, info', hinfo', hs', hk'⟩ := applyOps_plain _ ha hinfo1
  refine ⟨heq, hadd, hdel, ?_, ?_, ?_⟩
  · rw [keysOf_of_find hinfo']
    apply hs'
    rw [htree1]
    exact hsorted
  · intro k
    rw [keysOf_of_find hinfo',
      hk' (deltaOps_disjoint _ _ hnew.1 hsorted) k, htree1]
    constructor
    · rintro (⟨a, ha1, ha2⟩ | ⟨⟨x, hx, hxk⟩, hnodel⟩)
      · exact ⟨a, (hadd a).1 ha1, ha2⟩
      · by_cases hex : ∃ n, n ∈ MakeFlowMgmtKeyTree flow ∧ SameKey n x = true
        · obtain ⟨n, hn, hnx⟩ := hex
          exact ⟨n, hn, sameKey_trans hnx hxk⟩
        · have hd : KeyOp.del x ∈ deltaOps (MakeFlowMgmtKeyTree flow) (keysOf m flow.id) := by
            refine (hdel x).2 ⟨hx, ?_⟩
            intro n hn
            cases hnx : SameKey n x with
            | false => rfl
            | true => exact absurd ⟨n, hn, hnx⟩ hex
          have := hnodel x hd
          rw [hxk] at this
          exact absurd this (by decide)
    · rintro ⟨n, hn, hnk⟩
      exact Or.inl ⟨n, (hadd n).2 hn, hnk⟩
  · intro f hf
    unfold keysOf
    rw [hother f hf]
    exact hkeys f

/-- C6: a `DELETE_FLOW` request runs `DeleteFlow` and then enqueues one
FREE_FLOW_REF for the flow: for an unknown flow `DeleteFlow` changes nothing,
and in every case the responses of `DeleteFlow` are FREE_DBENTRY responses
only, so that the FREE_FLOW_REF is the last response of the request and the only
one of its kind. -/
theorem C6_delete_flow_free_ref_last (h : Hdr) (m : FlowMgmtManager) (req : FlowMgmtRequest)
    (flow : FlowEntry) (hev : req.event = .DELETE_FLOW) (hfl : req.flow = some flow) :
    m.RequestHandler h req =
      (m.DeleteFlow flow).map
        (fun m1 => m1.ResponseEnqueue ⟨.FREE_FLOW_REF, some flow.id, none, 0⟩) ∧
    (m.FindFlowEntryInfo flow.id = none → m.DeleteFlow flow = some m) ∧
    ∀ m1, m.DeleteFlow flow = some m1 →
      ∃ resp, m1.response_queue_ = m.response_queue_ ++ resp ∧
        (∀ r, r ∈ resp → r.event = .FREE_DBENTRY) ∧
        (m1.ResponseEnqueue ⟨.FREE_FLOW_REF, some flow.id, none, 0⟩).response_queue_ =
          m.response_queue_ ++ resp ++ [⟨.FREE_FLOW_REF, some flow.id, none, 0⟩] := by
  refine ⟨?_, ?_, ?_⟩
  · unfold FlowMgmtManager.RequestHandler
    simp only [hev, hfl]
    cases m.DeleteFlow flow <;> rfl
  · intro hnone
    unfold FlowMgmtManager.DeleteFlow
    rw [hnone]
  · intro m1 hd
    have key : ∃ resp, m1.response_queue_ = m.response_queue_ ++ resp ∧
        ∀ r, r ∈ resp → r.event = .FREE_DBENTRY := by
      unfold FlowMgmtManager.DeleteFlow at hd
      cases hf : m.FindFlowEntryInfo flow.id with
      | none =>
        simp only [hf, Option.some.injEq] at hd
        subst hd
        exact ⟨[], by simp, by simp⟩
      | some old_info =>
        simp only [hf] at hd
        rw [DeleteFlowLoop_eq h] at hd
        cases hl : applyOps h flow (List.map KeyOp.del old_info.tree_)
            (m.setInfo flow.id { old_info with count_ := old_info.count_ + 1 }) with
        | none => simp [hl] at hd
        | some m2 =>
          simp only [hl] at hd
          obtain ⟨_, ⟨resp, hq, hevs⟩, _⟩ :=
            applyOps_plain _ hl (FindFlowEntryInfo_setInfo_self hf _)
          cases hf2 : m2.FindFlowEntryInfo flow.id with
          | none => simp [hf2] at hd
          | some info2 =>
            simp only [hf2] at hd
            by_cases hlen : info2.tree_.length ≠ 0
            · simp [hlen] at hd
            · simp only [hlen, if_false] at hd
              unfold FlowMgmtManager.DeleteFlowEntryInfo at hd
              simp only [hf2, hlen, if_false, Option.some.injEq] at hd
              subst hd
              exact ⟨resp, hq, hevs⟩
    obtain ⟨resp, hq, hevs⟩ := key
    refine ⟨resp, hq, hevs, ?_⟩
    rw [ResponseEnqueue_response_queue, hq]

/-- C7: for an index without an entry for `key`, the base `OperEntryDelete`
with a key that carries a DB entry returns success, leaves every index map as
it was, and enqueues one FREE_DBENTRY with the DB entry of the key and the
generation of the request when the kind of the key has a free event, and
nothing otherwise. -/
theorem C7_delete_unknown_key (m : FlowMgmtManager) (t : TreeId) (req : FlowMgmtRequest)
    (key : FlowMgmtKey) (d : DBEntry) (hnone : (m.tree t).find key = none)
    (hdb : key.db_entry_ = some d) :
    ∃ m', FlowMgmtTree.OperEntryDelete m t req key = some (true, m') ∧
      (∀ t', m'.tree t' = m.tree t') ∧ (∀ t' k, (m'.tree t').find k = (m.tree t').find k) ∧
      m'.flow_tree_ = m.flow_tree_ ∧
      m'.response_queue_ = m.response_queue_ ++
        (if key.FreeDBEntryEvent = .INVALID then []
         else [⟨.FREE_DBENTRY, none, some d, req.gen_id⟩]) := by
  have hev := FlowMgmtKey.FreeDBEntryEvent_cases key
  unfold FlowMgmtTree.OperEntryDelete FlowMgmtTree.Find
  rw [hnone]
  simp only
  by_cases hv : t = .vrf
  · subst hv
    simp only [Virtual.FreeNotify, VrfFlowMgmtTree.FreeNotify, FlowMgmtTree.FreeNotify, hdb]
    by_cases hi : key.FreeDBEntryEvent = .INVALID
    · simp only [hi, if_true]
      refine ⟨_, rfl, fun t' => by cases t' <;> rfl, fun t' k => by cases t' <;> rfl, rfl,
        by simp⟩
    · rcases hev with h1 | h1
      · exact absurd h1 hi
      · simp only [h1]
        refine ⟨_, rfl, fun t' => by cases t' <;> rfl, fun t' k => by cases t' <;> rfl, rfl, ?_⟩
        simp [FlowMgmtManager.ResponseEnqueue]
  · have hvf : Virtual.FreeNotify m t key req.gen_id = FlowMgmtTree.FreeNotify m key req.gen_id := by
      cases t <;> first | rfl | exact absurd rfl hv
    rw [hvf]
    simp only [FlowMgmtTree.FreeNotify, hdb]
    by_cases hi : key.FreeDBEntryEvent = .INVALID
    · simp only [hi, if_true]
      exact ⟨m, rfl, fun _ => rfl, fun _ _ => rfl, rfl, by simp⟩
    · rcases hev with h1 | h1
      · exact absurd h1 hi
      · simp only [h1]
        refine ⟨_, rfl, fun t' => by simp, fun t' k => by simp, rfl, ?_⟩
        simp [FlowMgmtManager.ResponseEnqueue]

/-! ## The deferred free notification of a generic index -/

theorem Virtual.FreeNotify_of_ne_vrf (m : FlowMgmtManager) {t : TreeId} (ht : t ≠ .vrf)
    (key : FlowMgmtKey) (g : Nat) :
    Virtual.FreeNotify m t key g = FlowMgmtTree.FreeNotify m key g := by
  cases t <;> first | rfl | exact absurd rfl ht

/-- Outside the VRF index `TryDelete` returns for an entry that has seen a
DELETE when the key carries a DB entry and the index has an entry for it. -/
theorem FlowMgmtTree.TryDelete_total {m : FlowMgmtManager} {t : TreeId} {key : FlowMgmtKey}
    {entry : FlowMgmtEntry} {d : DBEntry} {p : FlowMgmtKey × FlowMgmtEntry} (ht : t ≠ .vrf)
    (hst : entry.oper_state_ = .OPER_DEL_SEEN) (hdb : key.db_entry_ = some d)
    (hfind : (m.tree t).find key = some p) :
    ∃ r, FlowMgmtTree.TryDelete m t key entry = some r := by
  unfold FlowMgmtTree.TryDelete
  rw [Entry.CanDelete_of_ne_vrf m t entry ht]
  unfold FlowMgmtEntry.CanDelete
  by_cases hlen : entry.tree_.length ≠ 0
  · simp [hst, hlen]
  · have hvf := Virtual.FreeNotify_of_ne_vrf m ht key entry.gen_id_
    by_cases hi : key.FreeDBEntryEvent = .INVALID
    · simp [hst, hlen, hvf, FlowMgmtTree.FreeNotify, hdb, hi, hfind]
    · simp [hst, hlen, hvf, FlowMgmtTree.FreeNotify, hdb, hi, hfind]

theorem freeResponses_of_db {key : FlowMgmtKey} {d : DBEntry} (hdb : key.db_entry_ = some d)
    (hev : key.FreeDBEntryEvent = .FREE_DBENTRY) (g : Nat) :
    freeResponses key g = [⟨.FREE_DBENTRY, none, some d, g⟩] := by
  unfold freeResponses
  simp [hdb, hev]

theorem FreeDBEntryEvent_same {a b : FlowMgmtKey} (h : SameKey a b = true) :
    a.FreeDBEntryEvent = b.FreeDBEntryEvent := by
  unfold FlowMgmtKey.FreeDBEntryEvent
  rw [sameKey_type h]

/-- The base `Delete` of a flow from an entry that has seen a DELETE, outside
the VRF index, when the stored key carries a DB entry: it returns; if the flow
set becomes empty the entry is erased and one FREE_DBENTRY with the DB entry of
the stored key and the generation of the entry is enqueued; otherwise the entry
stays, without the flow, and nothing is enqueued. -/
theorem FlowMgmtTree.Delete_del_seen {m : FlowMgmtManager} {t : TreeId}
    {key k1 : FlowMgmtKey} {e : FlowMgmtEntry} {d1 : DBEntry} (f : Nat) (ht : t ≠ .vrf)
    (hfind : (m.tree t).find key = some (k1, e)) (hst : e.oper_state_ = .OPER_DEL_SEEN)
    (hk1 : k1.db_entry_ = some d1) (hev : k1.FreeDBEntryEvent = .FREE_DBENTRY) :
    ∃ b m', FlowMgmtTree.Delete m t key f = some (b, m') ∧
      (((e.Delete f).2.tree_ = [] ∧ (m'.tree t).find key = none ∧
          m'.response_queue_ =
            m.response_queue_ ++ [⟨.FREE_DBENTRY, none, some d1, e.gen_id_⟩]) ∨
       ((e.Delete f).2.tree_ ≠ [] ∧ (m'.tree t).find key = some (k1, (e.Delete f).2) ∧
          m'.response_queue_ = m.response_queue_)) := by
  have hst' : (e.Delete f).2.oper_state_ = .OPER_DEL_SEEN := by
    rw [(FlowMgmtEntry.Delete_state e f).1, hst]
  have hsame : SameKey k1 key = true := Tree.find_some_same hfind
  have htotal : ∃ r, FlowMgmtTree.Delete m t key f = some r := by
    unfold FlowMgmtTree.Delete FlowMgmtTree.Find
    rw [hfind]
    simp only
    have hf1 : ((m.setTree t ((m.tree t).setEntry key (e.Delete f).2)).tree t).find k1 =
        some (k1, (e.Delete f).2) := by
      rw [Tree.find_congr _ hsame]
      exact (FindStep.setEntry_of hfind (fun _ => rfl) (e.Delete f).2).at_key
    obtain ⟨r, hr⟩ := FlowMgmtTree.TryDelete_total ht hst' hk1 hf1
    rw [hr]
    exact ⟨_, rfl⟩
  obtain ⟨⟨b, m'⟩, hd⟩ := htotal
  refine ⟨b, m', hd, ?_⟩
  rcases FlowMgmtTree.Delete_step hd with ⟨hn, _⟩ | ⟨k2, e2, hf2, hcase⟩
  · rw [hn] at hfind
    exact absurd hfind (by simp)
  · rw [hfind, Option.some.injEq, Prod.mk.injEq] at hf2
    obtain ⟨hk, he⟩ := hf2
    subst hk
    subst he
    rcases hcase with ⟨hc, hstep, hframe, _⟩ | ⟨hc, hstep, hframe, _, _⟩
    · right
      rcases Entry.CanDelete_false_dispatch hc ht with h1 | h1
      · exact ⟨h1, hstep.at_key, by simpa using hframe.response_queue⟩
      · rw [hst'] at h1
        exact absurd h1 (by simp)
    · left
      refine ⟨(Entry.CanDelete_true_dispatch hc).1, hstep.at_key, ?_⟩
      rw [hframe.response_queue]
      unfold tryDeleteResponses
      rw [if_pos hst', freeResponses_of_db hk1 hev, (FlowMgmtEntry.Delete_state e f).2]

theorem deleteFlows_absent {m : FlowMgmtManager} {t : TreeId} {key : FlowMgmtKey}
    (hnone : (m.tree t).find key = none) (fs : List Nat) :
    deleteFlows m t key fs = some m := by
  induction fs with
  | nil => rfl
  | cons f fs ih =>
    simp only [deleteFlows, FlowMgmtTree.Delete, FlowMgmtTree.Find, hnone]
    exact ih

theorem all_mem_cons_filter (l fs : List Nat) (f : Nat) :
    l.all (fun x => decide (x ∈ f :: fs)) =
      (List.filter (fun x => x != f) l).all (fun x => decide (x ∈ fs)) := by
  rw [Bool.eq_iff_iff]
  simp only [List.all_eq_true, List.mem_filter, decide_eq_true_eq, List.mem_cons, bne_iff_ne,
    ne_eq]
  constructor
  · intro h x hx
    rcases h x hx.1 with h1 | h1
    · exact absurd h1 hx.2
    · exact h1
  · intro h x hx
    by_cases hxf : x = f
    · exact Or.inl hxf
    · exact Or.inr (h x ⟨hx, hxf⟩)

/-- The deletion of a list of flows from an entry that has seen a DELETE and
still has flows: one FREE_DBENTRY is enqueued when the list covers the flow set,
none otherwise. -/
theorem deleteFlows_del_seen {t : TreeId} {key k1 : FlowMgmtKey} {d1 : DBEntry} (ht : t ≠ .vrf)
    (hk1 : k1.db_entry_ = some d1) (hev : k1.FreeDBEntryEvent = .FREE_DBENTRY) (g : Nat)
    (fs : List Nat) :
    ∀ (m : FlowMgmtManager) (e : FlowMgmtEntry), (m.tree t).find key = some (k1, e) →
      e.oper_state_ = .OPER_DEL_SEEN → e.gen_id_ = g → e.tree_ ≠ [] →
      ∃ m', deleteFlows m t key fs = some m' ∧
        m'.response_queue_ = m.response_queue_ ++
          (if e.tree_.all (fun x => decide (x ∈ fs)) = true
            then [⟨.FREE_DBENTRY, none, some d1, g⟩] else []) := by
  induction fs with
  | nil =>
    intro m e _ _ _ hne
    refine ⟨m, rfl, ?_⟩
    have : e.tree_.all (fun x => decide (x ∈ ([] : List Nat))) = false := by
      cases hl : e.tree_ with
      | nil => exact absurd hl hne
      | cons a l => simp
    rw [this]
    simp
  | cons f fs ih =>
    intro m e hfind hst hgen hne
    obtain ⟨b, m1, hd, hcase⟩ := FlowMgmtTree.Delete_del_seen f ht hfind hst hk1 hev
    simp only [deleteFlows, hd]
    rw [all_mem_cons_filter]
    have htree : (e.Delete f).2.tree_ = List.filter (fun x => x != f) e.tree_ := rfl
    rcases hcase with ⟨hnil, hnone, hq⟩ | ⟨hnn, hsome, hq⟩
    · refine ⟨m1, deleteFlows_absent hnone fs, ?_⟩
      rw [← htree, hnil, hq, hgen]
      simp
    · obtain ⟨m', hm', hq'⟩ := ih m1 (e.Delete f).2 hsome
        (by rw [(FlowMgmtEntry.Delete_state e f).1, hst])
        (by rw [(FlowMgmtEntry.Delete_state e f).2, hgen]) hnn
      refine ⟨m', hm', ?_⟩
      rw [hq', hq, htree]

theorem freeNotifications_operResponses (req : FlowMgmtRequest) (key : FlowMgmtKey)
    (flows : List Nat) : freeNotifications (operResponses req key flows) = [] := by
  unfold freeNotifications
  rw [List.filter_eq_nil_iff]
  intro r hr
  simpa using operResponses_event req key flows r hr

/-- The deferred free notification where the stored key carries a DB entry: on
an index other than the VRF index, in the base code, with
an entry stored for the key under a stored key that carries a DB entry, a
request key that carries one and a key kind that has a free event: the base
`OperEntryDelete` followed by the base `Delete` of the flows of any list
returns; among the responses it enqueues there is exactly one FREE_DBENTRY when
the list covers the flow set of the entry and none when it does not, so the
notification is enqueued by the step that removes the last flow, or by the
`OperEntryDelete` itself when the flow set is empty; it carries the generation
of the request and the DB entry of the stored key (of the request key when the
flow set is empty). -/
theorem deferred_free_once (m : FlowMgmtManager) (t : TreeId) (req : FlowMgmtRequest)
    (key k1 : FlowMgmtKey) (e : FlowMgmtEntry) (d d1 : DBEntry) (fs : List Nat)
    (ht : t ≠ .vrf) (hfind : (m.tree t).find key = some (k1, e))
    (hk1 : k1.db_entry_ = some d1) (hkey : key.db_entry_ = some d)
    (hev : key.FreeDBEntryEvent = .FREE_DBENTRY) :
    ∃ m' resp, deleteThenFlows m t req key fs = some m' ∧
      m'.response_queue_ = m.response_queue_ ++ resp ∧
      freeNotifications resp =
        if e.tree_.all (fun x => decide (x ∈ fs)) = true
          then [⟨.FREE_DBENTRY, none, some (if e.tree_ = [] then d else d1), req.gen_id⟩]
          else [] := by
  have hsame : SameKey k1 key = true := Tree.find_some_same hfind
  have hev1 : k1.FreeDBEntryEvent = .FREE_DBENTRY := by
    rw [FreeDBEntryEvent_same hsame, hev]
  obtain ⟨he, htree, hfr, _⟩ := FlowMgmtEntry.OperEntryDelete_eq e m req key
  have htotal : ∃ r, FlowMgmtTree.OperEntryDelete m t req key = some r := by
    unfold FlowMgmtTree.OperEntryDelete FlowMgmtTree.Find
    rw [hfind]
    simp only
    rw [he]
    exact FlowMgmtTree.TryDelete_total ht rfl hkey
      (FindStep.setEntry_of hfind htree (e.delSeen req.gen_id)).at_key
  obtain ⟨⟨b, m1⟩, hd⟩ := htotal
  unfold deleteThenFlows
  rw [hd]
  simp only
  rcases FlowMgmtTree.OperEntryDelete_step hd with ⟨hn, _⟩ | ⟨k2, e2, m0, hf2, _, hcase⟩
  · rw [hn] at hfind
    exact absurd hfind (by simp)
  · rw [hfind, Option.some.injEq, Prod.mk.injEq] at hf2
    obtain ⟨hk, hee⟩ := hf2
    subst hk
    subst hee
    rcases hcase with ⟨hc, hstep, hframe, _⟩ | ⟨hc, hstep, hframe, _, _⟩
    · have hne : e.tree_ ≠ [] := by
        rcases Entry.CanDelete_false_dispatch hc ht with h1 | h1
        · exact h1
        · exact absurd h1 (by simp [FlowMgmtEntry.delSeen])
      obtain ⟨m', hm', hq'⟩ := deleteFlows_del_seen ht hk1 hev1 req.gen_id fs m1
        (e.delSeen req.gen_id) hstep.at_key rfl rfl hne
      refine ⟨m', operResponses req key e.tree_ ++
        (if e.tree_.all (fun x => decide (x ∈ fs)) = true
          then [⟨.FREE_DBENTRY, none, some d1, req.gen_id⟩] else []), hm', ?_, ?_⟩
      · rw [hq', hframe.response_queue, List.append_assoc]
        rfl
      · unfold freeNotifications
        rw [List.filter_append]
        have h0 := freeNotifications_operResponses req key e.tree_
        unfold freeNotifications at h0
        rw [h0, List.nil_append, if_neg hne]
        split <;> simp
    · have hnil : e.tree_ = [] := (Entry.CanDelete_true_dispatch hc).1
      refine ⟨m1, operResponses req key e.tree_ ++ freeResponses key req.gen_id,
        deleteFlows_absent hstep.at_key fs, hframe.response_queue, ?_⟩
      unfold freeNotifications
      rw [List.filter_append]
      have h0 := freeNotifications_operResponses req key e.tree_
      unfold freeNotifications at h0
      rw [h0, List.nil_append, freeResponses_of_db hkey hev, hnil]
      simp

/-! ## Scenarios -/


/-- C5 (amended): in scenario S3, whatever state a fresh entry is constructed
in, the `DELETE_DBENTRY` of the ACL enqueues `DELETE_DBENTRY(f, A)` and no free
notification, and the `DELETE_FLOW` that follows appends first
`FREE_DBENTRY(A, gen=7)` and then `FREE_FLOW_REF(f)`. -/
theorem C5_S3_response_order (h : Hdr) :
    (FlowMgmtManager.RunRequests h FlowMgmtManager.empty s3Requests).map
        (fun m => m.response_queue_) =
      some [⟨.DELETE_DBENTRY, some 1, some s3Acl, 0⟩] ∧
    (FlowMgmtManager.RunRequests h FlowMgmtManager.empty
        (s3Requests ++ [delFlowReq s3Flow])).map (fun m => m.response_queue_) =
      some [⟨.DELETE_DBENTRY, some 1, some s3Acl, 0⟩, ⟨.FREE_DBENTRY, none, some s3Acl, 7⟩,
        ⟨.FREE_FLOW_REF, some 1, none, 0⟩] := by
  obtain ⟨s⟩ := h
  cases s <;> decide

/-- C5 (counterexample): in scenario S3 the responses of the `DELETE_FLOW` are
not `FREE_FLOW_REF(f)` followed by `FREE_DBENTRY(A, gen=7)`. -/
theorem C5_S3_spec_order_fails :
    (FlowMgmtManager.RunRequests hdrOther FlowMgmtManager.empty
        (s3Requests ++ [delFlowReq s3Flow])).map (fun m => m.response_queue_) ≠
      some [⟨.DELETE_DBENTRY, some 1, some s3Acl, 0⟩, ⟨.FREE_FLOW_REF, some 1, none, 0⟩,
        ⟨.FREE_DBENTRY, none, some s3Acl, 7⟩] := by
  decide

/-- C4 (divergence): a flow that depends on the route 10.0.0.0/24 is added,
the route is deleted with generation 7 while the flow is there, and the flow is
deleted. Whatever state the constructor leaves a new entry in, the
`DELETE_DBENTRY` leaves the entry with its flow and frees nothing, and the
`DELETE_FLOW`, the step that removes the last flow, aborts on the assertion of
`FreeNotify`: the entry is stored under the key of the flow, which has no DB
entry. No FREE_DBENTRY is ever enqueued for the route. -/
theorem C4_route_without_db_entry_aborts (h : Hdr) :
    (FlowMgmtManager.RunRequests h FlowMgmtManager.empty cexRequests).map
        (fun m => (flowsAt m .ip4_route (InetRouteFlowMgmtKey 1 (.v4 167772160) 24),
          freeNotifications m.response_queue_)) = some ([1], []) ∧
    FlowMgmtManager.RunRequests h FlowMgmtManager.empty
        (cexRequests ++ [delFlowReq cexFlow]) = none := by
  obtain ⟨s⟩ := h
  cases s <;> decide

/-- C8 (counterexample): after the add of a VRF and its delete the VRF index
still has the entry of the VRF, with an empty flow set and in the state
OPER_DEL_SEEN. -/
theorem C8_vrf_entry_persists :
    (FlowMgmtManager.RunRequests hdrOther FlowMgmtManager.empty vrfRequests).map
        (fun m => ((m.tree .vrf).find (VrfFlowMgmtKey (some cexVrf))).map
          (fun p => (p.2.tree_, p.2.oper_state_))) =
      some (some ([], .OPER_DEL_SEEN)) := by
  decide

/-- C9 (divergence): the flow 1 is added to the VN 7 as an ingress flow and
re-added as a local one: the counters of the VN stay at (1, 0) although the
recomputation from the registry gives (1, 1). -/
theorem C9_counters_miss_locality_change (h : Hdr) :
    (FlowMgmtManager.RunRequests h FlowMgmtManager.empty
        [addFlowReq (vnFlow false true), addFlowReq (vnFlow true true)]).map
      (fun m => (m.VnFlowCounters s5Vn, vnRecount m s5Vn)) = some ((1, 0), (1, 1)) := by
  obtain ⟨s⟩ := h
  cases s <;> decide

/-- C10 (divergence): in scenario S5 the counters are (1, 0) after the add,
(0, 1) after the re-add with the direction flipped, and still (0, 1), not
(1, 1), after the re-add as a local flow. -/
theorem C10_S5_third_step (h : Hdr) :
    (FlowMgmtManager.RunRequests h FlowMgmtManager.empty
        [addFlowReq (vnFlow false true)]).map (fun m => m.VnFlowCounters s5Vn) = some (1, 0) ∧
    (FlowMgmtManager.RunRequests h FlowMgmtManager.empty
        [addFlowReq (vnFlow false true), addFlowReq (vnFlow false false)]).map
      (fun m => m.VnFlowCounters s5Vn) = some (0, 1) ∧
    (FlowMgmtManager.RunRequests h FlowMgmtManager.empty
        [addFlowReq (vnFlow false true), addFlowReq (vnFlow false false),
          addFlowReq (vnFlow true false)]).map
      (fun m => m.VnFlowCounters s5Vn) = some (0, 1) := by
  obtain ⟨s⟩ := h
  cases s <;> decide

/-! ## Instances of the theorems -/


/-- Witness of C1: in the state of scenario S3 before the `DELETE_FLOW`, the
key of the ACL is in the record of the flow 1 and the flow 1 is in the entry of
the ACL. -/
theorem C1_bidirectional_consistency_witness :
    hdrOther.oper_state_init ≠ .OPER_DEL_SEEN ∧
    FlowMgmtManager.RunRequests hdrOther FlowMgmtManager.empty s3Requests = some s3State ∧
    infoHasKey s3State 1 s3Key = true ∧
    infoHasKey s3State 1 s3Key = indexHasFlow s3State s3Key 1 :=
  ⟨by decide, by decide, by decide,
    C1_bidirectional_consistency hdrOther (by decide) s3Requests s3State (by decide) 1 s3Key⟩

/-- Witness of C2: the flow of scenario S3 is re-added with a VN in place of
its ACL. -/
theorem C2_AddFlow_set_delta_witness :
    KeysSorted (keysOf s3State (vnFlow false true).id) ∧
    s3State.AddFlow hdrOther (vnFlow false true) = some s3Readded ∧
    keysOf s3Readded 1 = [VnFlowMgmtKey s5Vn] ∧
    (∀ k, hasKey (keysOf s3Readded (vnFlow false true).id) k ↔
      hasKey (MakeFlowMgmtKeyTree (vnFlow false true)) k) :=
  ⟨by unfold KeysSorted; decide, by decide, by decide,
    (C2_AddFlow_set_delta hdrOther s3State s3Readded (vnFlow false true)
      (by unfold KeysSorted; decide) (by decide)).2.2.2.2.1⟩

/-- An instance of `deferred_free_once`: the entry of the ACL of scenario S3
with the flow 1, then
the delete of the ACL with generation 7 and the delete of the flow. -/
theorem deferred_free_once_witness :
    TreeId.acl ≠ .vrf ∧ (addedState.tree .acl).find s3Key = some (s3Key, addedEntry) ∧
    s3Key.db_entry_ = some s3Acl ∧ s3Key.FreeDBEntryEvent = .FREE_DBENTRY ∧
    ∃ m' resp, deleteThenFlows addedState .acl s3Delete s3Key [1] = some m' ∧
      m'.response_queue_ = addedState.response_queue_ ++ resp ∧
      freeNotifications resp =
        if addedEntry.tree_.all (fun x => decide (x ∈ [1])) = true
          then [⟨.FREE_DBENTRY, none, some (if addedEntry.tree_ = [] then s3Acl else s3Acl),
            s3Delete.gen_id⟩]
          else [] :=
  ⟨by decide, by decide, by decide, by decide,
    deferred_free_once addedState .acl s3Delete s3Key s3Key addedEntry s3Acl s3Acl [1]
      (by decide) (by decide) (by decide) (by decide) (by decide)⟩

/-- Witness of C6: the `DELETE_FLOW` of scenario S3. -/
theorem C6_delete_flow_free_ref_last_witness :
    (delFlowReq s3Flow).event = .DELETE_FLOW ∧ (delFlowReq s3Flow).flow = some s3Flow ∧
    s3State.RequestHandler hdrOther (delFlowReq s3Flow) =
      (s3State.DeleteFlow s3Flow).map
        (fun m1 => m1.ResponseEnqueue ⟨.FREE_FLOW_REF, some s3Flow.id, none, 0⟩) :=
  ⟨rfl, rfl,
    (C6_delete_flow_free_ref_last hdrOther s3State (delFlowReq s3Flow) s3Flow rfl rfl).1⟩

/-- Witness of C7: the delete of the ACL of scenario S3 in the empty manager. -/
theorem C7_delete_unknown_key_witness :
    (FlowMgmtManager.empty.tree .acl).find s3Key = none ∧ s3Key.db_entry_ = some s3Acl ∧
    ∃ m', FlowMgmtTree.OperEntryDelete FlowMgmtManager.empty .acl
        s3Delete s3Key = some (true, m') ∧
      (∀ t', m'.tree t' = FlowMgmtManager.empty.tree t') ∧
      (∀ t' k, (m'.tree t').find k = (FlowMgmtManager.empty.tree t').find k) ∧
      m'.flow_tree_ = FlowMgmtManager.empty.flow_tree_ ∧
      m'.response_queue_ = FlowMgmtManager.empty.response_queue_ ++
        (if s3Key.FreeDBEntryEvent = .INVALID then []
         else [⟨.FREE_DBENTRY, none, some s3Acl,
           s3Delete.gen_id⟩]) :=
  ⟨by decide, by decide,
    C7_delete_unknown_key FlowMgmtManager.empty .acl
      s3Delete s3Key s3Acl (by decide)
      (by decide)⟩

/-- Witness of C8: the entry of the ACL in the state of scenario S3 before the
`DELETE_FLOW` has seen the DELETE and has the flow 1. -/
theorem C8_no_zombie_outside_vrf_witness :
    hdrOther.oper_state_init ≠ .OPER_DEL_SEEN ∧
    FlowMgmtManager.RunRequests hdrOther FlowMgmtManager.empty s3Requests = some s3State ∧
    TreeId.acl ≠ .vrf ∧ (s3State.tree .acl).find s3Key = some (s3Key, s3Entry) ∧
    ((s3Key, s3Entry).2.tree_ ≠ [] ∨ (s3Key, s3Entry).2.oper_state_ = .OPER_ADD_SEEN) :=
  ⟨by decide, by decide, by decide, by decide,
    C8_no_zombie_outside_vrf hdrOther (by decide) s3Requests s3State (by decide) .acl
      (by decide) s3Key (s3Key, s3Entry) (by decide)⟩

/-! ## The VN counters on a delete -/

/-- C11 (divergence): the VN 7 is added, the flow 1 is added to it as an ingress
flow and then moved, as an egress flow, to another VN. When the new VN is the
VN 3, whose key is below the key of the VN 7, the counters of the VN 7 become
(1, 2^32 - 1) and not (0, 0); when it is the VN 9 they become (0, 0). -/
theorem C11_vn_move_decrements_by_new_flags (h : Hdr) :
    (FlowMgmtManager.RunRequests h FlowMgmtManager.empty
        [addObjReq (.VnEntry 7), addFlowReq (mkFlow 1 (some 7) none [] false true),
          addFlowReq (mkFlow 1 (some 3) none [] false false)]).map
      (fun m => (m.VnFlowCounters (some (.VnEntry 7)), flowsAt m .vn (VnFlowMgmtKey s5Vn))) =
        some ((1, 4294967295), []) ∧
    (FlowMgmtManager.RunRequests h FlowMgmtManager.empty
        [addObjReq (.VnEntry 7), addFlowReq (mkFlow 1 (some 7) none [] false true),
          addFlowReq (mkFlow 1 (some 9) none [] false false)]).map
      (fun m => (m.VnFlowCounters (some (.VnEntry 7)), flowsAt m .vn (VnFlowMgmtKey s5Vn))) =
        some ((0, 0), []) := by
  obtain ⟨s⟩ := h
  cases s <;> decide

/-! ## The flows of a VRF -/

/-- C13 (divergence): `HasVrfFlows 5` is false although a route index has a key
of the VRF 5 with a flow: the default route of the VRF in the IPv4 index; an
IPv6 route of the VRF in an index that also has a route of the VRF 3; the zero
MAC of the VRF in the bridge index. -/
theorem C13_has_vrf_flows_misses_keys (h : Hdr) :
    (FlowMgmtManager.RunRequests h FlowMgmtManager.empty [addFlowReq defaultRouteFlow]).map
      (fun m => (((m.tree .ip4_route).find (InetRouteFlowMgmtKey 5 (.v4 0) 0)).map
        (fun p => (p.1.vrf_id_, p.2.tree_)), m.HasVrfFlows 5)) = some (some (5, [1]), false) ∧
    (FlowMgmtManager.RunRequests h FlowMgmtManager.empty
        [addFlowReq (mkRouteFlow 1 3 (.v6 7) 128), addFlowReq (mkRouteFlow 2 5 (.v6 9) 128)]).map
      (fun m => (((m.tree .ip6_route).find (InetRouteFlowMgmtKey 5 (.v6 9) 128)).map
        (fun p => (p.1.vrf_id_, p.2.tree_)), m.HasVrfFlows 5)) = some (some (5, [2]), false) ∧
    (FlowMgmtManager.RunRequests h FlowMgmtManager.empty [addFlowReq zeroMacFlow]).map
      (fun m => (((m.tree .bridge_route).find (BridgeRouteFlowMgmtKey 5 0)).map
        (fun p => (p.1.vrf_id_, p.2.tree_)), m.HasVrfFlows 5)) = some (some (5, [1]), false) := by
  obtain ⟨s⟩ := h
  cases s <;> decide

/-- C14 (divergence): with a flow on the default route of the VRF 5 and the
three route tables of the VRF flagged deleted, the `DELETE_DBENTRY` of the VRF
enqueues `FREE_DBENTRY(V, 3)` and erases the entry of the VRF, while the IPv4
route index still has the key of the default route of the VRF with its flow. -/
theorem C14_vrf_freed_with_route_present (h : Hdr) :
    (RunEvents h FlowMgmtManager.empty vrfTeardownEvents).map
      (fun m => (m.response_queue_, (m.tree .vrf).find (VrfFlowMgmtKey (some vrf5)),
        ((m.tree .ip4_route).find (InetRouteFlowMgmtKey 5 (.v4 0) 0)).map
          (fun p => (p.1.vrf_id_, p.2.tree_)))) =
      some ([⟨.FREE_DBENTRY, none, some vrf5, 3⟩], none, some (5, [1])) := by
  obtain ⟨s⟩ := h
  cases s <;> decide

/-! ## Requests for what the manager does not know -/

/-- C16: a `RETRY_DELETE_VRF` for a VRF id that the side map of the VRF index
does not have returns the manager as it was: the registry, every index, the
side map and the response queue are unchanged. -/
theorem C16_retry_unknown_vrf_noop (h : Hdr) (m : FlowMgmtManager) (req : FlowMgmtRequest)
    (hev : req.event = .RETRY_DELETE_VRF) (hid : ∀ p, p ∈ m.id_map_ → p.1 ≠ req.vrf_id) :
    m.RetryVrfDelete req.vrf_id = some m ∧ m.RequestHandler h req = some m := by
  have hfind : List.find? (fun p => p.1 == req.vrf_id) m.id_map_ = none := by
    rw [List.find?_eq_none]
    intro p hp
    simpa using hid p hp
  have h1 : m.RetryVrfDelete req.vrf_id = some m := by
    unfold FlowMgmtManager.RetryVrfDelete VrfFlowMgmtTree.RetryDelete
    rw [hfind]
  refine ⟨h1, ?_⟩
  unfold FlowMgmtManager.RequestHandler
  rw [hev]
  exact h1

/-- C17: `DeleteFlow` of a flow that has no record in the registry returns the
manager as it was: the registry, every index with its entries and counters,
and the response queue are unchanged. -/
theorem C17_delete_unknown_flow_noop (m : FlowMgmtManager) (flow : FlowEntry)
    (hf : m.FindFlowEntryInfo flow.id = none) : m.DeleteFlow flow = some m := by
  unfold FlowMgmtManager.DeleteFlow
  rw [hf]

/-! ## The VN counters wrap -/

/-- C28 (divergence): the VN 7 is added, the flow 1 is added to it as a
non-local ingress flow, re-added as a local flow and deleted: the entry of the
VN is still there, without flows, and its counters are (0, 2^32 - 1). -/
theorem C28_egress_counter_wraps (h : Hdr) :
    (FlowMgmtManager.RunRequests h FlowMgmtManager.empty
        [addObjReq (.VnEntry 7), addFlowReq (vnFlow false true), addFlowReq (vnFlow true true),
          delFlowReq (vnFlow true true)]).map
      (fun m => (m.VnFlowCounters s5Vn,
        ((m.tree .vn).find (VnFlowMgmtKey s5Vn)).map (fun p => p.2.tree_))) =
      some ((0, 4294967295), some []) := by
  obtain ⟨s⟩ := h
  cases s <;> decide

/-! ## The key given to the add of an inet route -/

/-- C30 (divergence): after `InetRouteFlowMgmtTree::OperEntryAdd` for the route
10.0.0.0/24 the caller's key has the prefix length 25; with the prefix length 0
the key is unchanged. -/
theorem C30_inet_add_increments_plen (h : Hdr) :
    route24Key.plen_ = 24 ∧
    (InetRouteFlowMgmtTree.OperEntryAdd h FlowMgmtManager.empty .ip4_route (addObjReq cexRoute)
        route24Key).map (fun r => (r.2.1.vrf_id_, r.2.1.ip_, r.2.1.plen_)) =
      some (1, .v4 167772160, 25) ∧
    (InetRouteFlowMgmtTree.OperEntryAdd h FlowMgmtManager.empty .ip4_route
        (addObjReq (.InetUnicastRouteEntry 12 5 (.v4 0) 0))
        (InetRouteFlowMgmtKey.ofRoute (.InetUnicastRouteEntry 12 5 (.v4 0) 0) 5 (.v4 0) 0)).map
      (fun r => (r.2.1.vrf_id_, r.2.1.ip_, r.2.1.plen_)) = some (5, .v4 0, 0) := by
  obtain ⟨s⟩ := h
  cases s <;> decide

/-! ## Instances -/

/-- Witness of C16: a retry for the VRF id 5 in the empty manager. -/
theorem C16_retry_unknown_vrf_noop_witness :
    (FlowMgmtRequest.ofDB .RETRY_DELETE_VRF (some vrf5) 0).event = .RETRY_DELETE_VRF ∧
    FlowMgmtManager.empty.RequestHandler hdrOther
      (FlowMgmtRequest.ofDB .RETRY_DELETE_VRF (some vrf5) 0) = some FlowMgmtManager.empty :=
  ⟨rfl, (C16_retry_unknown_vrf_noop hdrOther FlowMgmtManager.empty
    (FlowMgmtRequest.ofDB .RETRY_DELETE_VRF (some vrf5) 0) rfl
    (by intro p hp; exact absurd hp (by simp [FlowMgmtManager.empty]))).2⟩

/-- Witness of C17: the flow 2 is unknown in the state of scenario S3. -/
theorem C17_delete_unknown_flow_noop_witness :
    s3State.FindFlowEntryInfo (mkFlow 2 none none [3] false true).id = none ∧
    s3State.DeleteFlow (mkFlow 2 none none [3] false true) = some s3State :=
  ⟨by decide, C17_delete_unknown_flow_noop s3State (mkFlow 2 none none [3] false true)
    (by decide)⟩

/-! ## The add and the change of an object -/

theorem FlowMgmtTree.OperEntryAdd_total (h : Hdr) (m : FlowMgmtManager) (t : TreeId)
    (req : FlowMgmtRequest) (key : FlowMgmtKey) (hkey : t = .vrf → key.db_entry_ ≠ none) :
    ∃ m', FlowMgmtTree.OperEntryAdd h m t req key = some (true, m') := by
  unfold FlowMgmtTree.OperEntryAdd FlowMgmtTree.Locate FlowMgmtTree.Find
  cases hf : (m.tree t).find key with
  | some p => exact ⟨_, rfl⟩
  | none =>
    simp only
    have hal : ∃ e, FlowMgmtTree.Allocate h t key = some e := by
      unfold FlowMgmtTree.Allocate
      by_cases ht : t = .vrf
      · subst ht
        cases hd : key.db_entry_ with
        | none => exact absurd hd (hkey rfl)
        | some d => exact ⟨_, rfl⟩
      · cases t <;> first | exact absurd rfl ht | exact ⟨_, rfl⟩
    obtain ⟨e, he⟩ := hal
    rw [he]
    exact ⟨_, rfl⟩

theorem operResponses_eq (req : FlowMgmtRequest) (key : FlowMgmtKey) (flows : List Nat) :
    operResponses req key flows =
      if req.GetResponseEvent = .INVALID then []
      else flows.map (fun f => ⟨req.GetResponseEvent, some f, key.db_entry_, 0⟩) := rfl

/-- C21: the base `OperEntryAdd` of an index (for the VRF index, with a key
that carries the VRF) returns true; the index then answers, for the key, the
entry that was there, or a newly allocated one, in the state OPER_ADD_SEEN and
with the same flow set; no other lookup changes; the response queue grows by
one response per flow of the entry, in the order of the flow set, when the
request has a response event, and by nothing otherwise. A second
`OperEntryAdd` with the same request and key appends the same responses again
and changes no lookup and no flow record. -/
theorem C21_oper_entry_add_fan_out (h : Hdr) (m : FlowMgmtManager) (t : TreeId)
    (req : FlowMgmtRequest) (key : FlowMgmtKey) (hkey : t = .vrf → key.db_entry_ ≠ none) :
    ∃ m' k1 e, FlowMgmtTree.OperEntryAdd h m t req key = some (true, m') ∧
      Located h m t key k1 e ∧
      (m'.tree t).find key = some (k1, { e with oper_state_ := .OPER_ADD_SEEN }) ∧
      (∀ t' k', ¬ (t' = t ∧ SameKey key k' = true) →
        (m'.tree t').find k' = (m.tree t').find k') ∧
      e.tree_ = flowsAt m t key ∧ flowsAt m' t key = flowsAt m t key ∧
      m'.flow_tree_ = m.flow_tree_ ∧
      m'.response_queue_ = m.response_queue_ ++
        (if req.GetResponseEvent = .INVALID then []
         else e.tree_.map (fun f => ⟨req.GetResponseEvent, some f, key.db_entry_, 0⟩)) ∧
      ∃ m'', FlowMgmtTree.OperEntryAdd h m' t req key = some (true, m'') ∧
        (∀ t' k', (m''.tree t').find k' = (m'.tree t').find k') ∧
        m''.flow_tree_ = m'.flow_tree_ ∧
        m''.response_queue_ = m'.response_queue_ ++
          (if req.GetResponseEvent = .INVALID then []
           else e.tree_.map (fun f => ⟨req.GetResponseEvent, some f, key.db_entry_, 0⟩)) := by
  obtain ⟨m', ha⟩ := FlowMgmtTree.OperEntryAdd_total h m t req key hkey
  obtain ⟨k1, e, hloc, hstep, hframe, _⟩ := FlowMgmtTree.OperEntryAdd_step ha
  have hfind : (m'.tree t).find key = some (k1, e.addSeen) := hstep.at_key
  refine ⟨m', k1, e, ha, hloc, hfind, ?_, hloc.flows, ?_, hframe.flow_tree, ?_, ?_⟩
  · intro t' k' hne
    rw [hstep t' k', if_neg hne]
  · unfold flowsAt
    rw [hfind]
    exact hloc.flows
  · rw [hframe.response_queue, operResponses_eq]
  · obtain ⟨m'', ha2⟩ := FlowMgmtTree.OperEntryAdd_total h m' t req key hkey
    obtain ⟨k2, e2, hloc2, hstep2, hframe2, _⟩ := FlowMgmtTree.OperEntryAdd_step ha2
    have he2 : k2 = k1 ∧ e2 = e.addSeen := by
      rcases hloc2 with h1 | ⟨h1, _⟩
      · rw [hfind] at h1
        simp only [Option.some.injEq, Prod.mk.injEq] at h1
        exact ⟨h1.1.symm, h1.2.symm⟩
      · rw [hfind] at h1
        exact absurd h1 (by simp)
    obtain ⟨hk2, hee2⟩ := he2
    subst hk2 hee2
    refine ⟨m'', ha2, ?_, hframe2.flow_tree, ?_⟩
    · intro t' k'
      rw [hstep2 t' k']
      split
      · rename_i hc
        obtain ⟨ht', hs⟩ := hc
        subst ht'
        rw [← Tree.find_congr (m'.tree t') hs, hfind]
        rfl
      · rfl
    · rw [hframe2.response_queue, operResponses_eq]
      rfl

/-- C22: `FlowMgmtTree::OperEntryChange` is the `oper_entry_change` of the
design document: without an entry for the key it returns the manager as it
was, and with an entry it is `OperEntryAdd` with the same request and key, so
that the entry is left in the state OPER_ADD_SEEN with its flows, whatever its
state was, and one response per flow is enqueued. -/
theorem C22_change_refines_add (h : Hdr) (m : FlowMgmtManager) (t : TreeId)
    (req : FlowMgmtRequest) (key : FlowMgmtKey) :
    FlowMgmtTree.OperEntryChange m t req key = specOperEntryChange h m t req key ∧
    Virtual.OperEntryChange m t req key = specOperEntryChange h m t req key ∧
    ∀ k1 e, (m.tree t).find key = some (k1, e) →
      ∃ m', FlowMgmtTree.OperEntryChange m t req key = some (true, m') ∧
        (m'.tree t).find key = some (k1, { e with oper_state_ := .OPER_ADD_SEEN }) ∧
        m'.response_queue_ = m.response_queue_ ++
          (if req.GetResponseEvent = .INVALID then []
           else e.tree_.map (fun f => ⟨req.GetResponseEvent, some f, key.db_entry_, 0⟩)) := by
  have heq : FlowMgmtTree.OperEntryChange m t req key = specOperEntryChange h m t req key := by
    unfold FlowMgmtTree.OperEntryChange specOperEntryChange FlowMgmtTree.OperEntryAdd
      FlowMgmtTree.Locate FlowMgmtTree.Find FlowMgmtEntry.OperEntryChange
    cases hf : (m.tree t).find key with
    | none => rfl
    | some p => rfl
  refine ⟨heq, heq, ?_⟩
  intro k1 e hf
  have hch : ∃ m', FlowMgmtTree.OperEntryChange m t req key = some (true, m') := by
    unfold FlowMgmtTree.OperEntryChange FlowMgmtTree.Find
    rw [hf]
    exact ⟨_, rfl⟩
  obtain ⟨m', ha⟩ := hch
  refine ⟨m', ha, ?_⟩
  rcases FlowMgmtTree.OperEntryChange_step ha with ⟨hnone, _⟩ | ⟨k2, e2, hf2, hstep, hframe, _⟩
  · rw [hf] at hnone
    exact absurd hnone (by simp)
  · rw [hf] at hf2
    simp only [Option.some.injEq, Prod.mk.injEq] at hf2
    obtain ⟨hk, he⟩ := hf2
    subst hk he
    exact ⟨hstep.at_key, by rw [hframe.response_queue, operResponses_eq]⟩

/-! ## `TryDelete` -/

theorem Virtual.FreeNotify_total (m : FlowMgmtManager) (t : TreeId) (key : FlowMgmtKey)
    (g : Nat) (d : DBEntry) (hd : key.db_entry_ = some d) :
    ∃ m1, Virtual.FreeNotify m t key g = some m1 := by
  have hb : ∃ m1, FlowMgmtTree.FreeNotify m key g = some m1 := by
    unfold FlowMgmtTree.FreeNotify
    rw [hd]
    simp only
    split
    · exact ⟨_, rfl⟩
    · exact ⟨_, rfl⟩
  obtain ⟨m1, h1⟩ := hb
  unfold Virtual.FreeNotify
  by_cases ht : t = .vrf
  · subst ht
    simp only
    unfold VrfFlowMgmtTree.FreeNotify
    rw [h1, hd]
    exact ⟨_, rfl⟩
  · cases t <;> first | exact absurd rfl ht | exact ⟨m1, h1⟩

theorem tryDeleteResponses_eq (key : FlowMgmtKey) (entry : FlowMgmtEntry) (d : DBEntry)
    (hd : entry.oper_state_ = .OPER_DEL_SEEN → key.db_entry_ = some d) :
    tryDeleteResponses key entry =
      if entry.oper_state_ = .OPER_DEL_SEEN ∧ key.FreeDBEntryEvent ≠ .INVALID then
        [⟨.FREE_DBENTRY, none, some d, entry.gen_id_⟩]
      else [] := by
  unfold tryDeleteResponses
  by_cases hs : entry.oper_state_ = .OPER_DEL_SEEN
  · rw [if_pos hs]
    unfold freeResponses
    rw [hd hs]
    simp only [hs, true_and]
    by_cases hev : key.FreeDBEntryEvent = .INVALID
    · simp [hev]
    · simp [hev]
  · simp [hs]

/-- The outcomes of `TryDelete` when it returns: for an entry stored for the
key in the index, `TryDelete`
returns false and the manager as it was when `CanDelete` is false. When
`CanDelete` is true and, in the state OPER_DEL_SEEN, the key passed carries a DB
entry, it returns true, the index no longer has an entry for the key, no other
lookup and no flow record changes, and the response queue grows by
`FREE_DBENTRY` with the DB entry of the key and the `gen_id_` of the entry
exactly when the state is OPER_DEL_SEEN and the tag of the key has a free
event, and by nothing otherwise. -/
theorem try_delete_all_or_nothing (m : FlowMgmtManager) (t : TreeId) (key : FlowMgmtKey)
    (entry : FlowMgmtEntry) (p : FlowMgmtKey × FlowMgmtEntry) (d : DBEntry)
    (hfind : (m.tree t).find key = some p)
    (hdb : entry.oper_state_ = .OPER_DEL_SEEN → key.db_entry_ = some d) :
    (Entry.CanDelete m t entry = some false →
      FlowMgmtTree.TryDelete m t key entry = some (false, m)) ∧
    (Entry.CanDelete m t entry = some true →
      ∃ m', FlowMgmtTree.TryDelete m t key entry = some (true, m') ∧
        (m'.tree t).find key = none ∧
        (∀ t' k', ¬ (t' = t ∧ SameKey key k' = true) →
          (m'.tree t').find k' = (m.tree t').find k') ∧
        m'.flow_tree_ = m.flow_tree_ ∧
        m'.response_queue_ = m.response_queue_ ++
          (if entry.oper_state_ = .OPER_DEL_SEEN ∧ key.FreeDBEntryEvent ≠ .INVALID then
            [⟨.FREE_DBENTRY, none, some d, entry.gen_id_⟩]
           else [])) := by
  constructor
  · intro hc
    unfold FlowMgmtTree.TryDelete
    rw [hc]
  · intro hc
    have htot : ∃ r, FlowMgmtTree.TryDelete m t key entry = some r := by
      unfold FlowMgmtTree.TryDelete
      rw [hc]
      simp only
      by_cases hs : entry.oper_state_ = .OPER_DEL_SEEN
      · obtain ⟨m1, h1⟩ := Virtual.FreeNotify_total m t key entry.gen_id_ d (hdb hs)
        rw [if_pos hs, h1]
        simp only
        have htr := (Virtual.FreeNotify_some_virtual h1).2.1 t
        rw [htr, hfind]
        exact ⟨_, rfl⟩
      · rw [if_neg hs]
        simp only
        rw [hfind]
        exact ⟨_, rfl⟩
    obtain ⟨⟨b, m'⟩, hr⟩ := htot
    rcases FlowMgmtTree.TryDelete_step hr with ⟨_, _, hcf⟩ | ⟨hb, _, hstep, hframe, _, _⟩
    · rw [hc] at hcf
      exact absurd hcf (by simp)
    · subst hb
      refine ⟨m', hr, hstep.at_key, ?_, hframe.flow_tree, ?_⟩
      · intro t' k' hne
        rw [hstep t' k', if_neg hne]
      · rw [hframe.response_queue, tryDeleteResponses_eq key entry d hdb]

/-- C23 (divergence): whatever state the constructor leaves a new entry in,
the add of a flow on the route 10.0.0.0/24 followed by the delete of the route
reaches the state `cexState`, where the entry of the route is stored under the
key of the flow, which has no DB entry; once its flow is erased `CanDelete` is
true, and `TryDelete` with the stored key, as `FlowMgmtTree::Delete` calls it,
returns neither true nor false: it aborts on the assertion of `FreeNotify`. -/
theorem C23_try_delete_aborts_without_db_entry (h : Hdr) :
    FlowMgmtManager.RunRequests h FlowMgmtManager.empty cexRequests = some cexState ∧
    (cexState.tree .ip4_route).find (InetRouteFlowMgmtKey 1 (.v4 167772160) 24) =
      some (InetRouteFlowMgmtKey 1 (.v4 167772160) 24, { cexEntry with tree_ := [1] }) ∧
    ({ cexEntry with tree_ := [1] } : FlowMgmtEntry).Delete 1 = (false, cexEntry) ∧
    Entry.CanDelete cexState .ip4_route cexEntry = some true ∧
    FlowMgmtTree.TryDelete
      (cexState.setTree .ip4_route ((cexState.tree .ip4_route).setEntry
        (InetRouteFlowMgmtKey 1 (.v4 167772160) 24) cexEntry))
      .ip4_route (InetRouteFlowMgmtKey 1 (.v4 167772160) 24) cexEntry = none := by
  obtain ⟨s⟩ := h
  cases s <;> decide

/-! ## The DB entry of a stored route key -/

/-- C24: after `RouteFlowMgmtTree::OperEntryAdd` for a route key, the index
answers for the key the entry that was there (or a newly allocated one) in the
state OPER_ADD_SEEN, under the stored key. When the request carries a DB entry
the stored key carries that DB entry, and a `FreeNotify` with the stored key
enqueues `FREE_DBENTRY` with it; when the request carries none, the stored key
is the one that was there, with its DB entry unchanged. -/
theorem C24_route_add_attaches_db_entry (h : Hdr) (m m' : FlowMgmtManager) (t : TreeId)
    (req : FlowMgmtRequest) (key : FlowMgmtKey) (b : Bool)
    (hty : key.type_ = .INET4 ∨ key.type_ = .INET6 ∨ key.type_ = .BRIDGE)
    (ha : RouteFlowMgmtTree.OperEntryAdd h m t req key = some (b, m')) :
    ∃ k1 e, Located h m t key k1 e ∧
      (∀ d, req.db_entry = some d →
        (m'.tree t).find key =
          some ({ k1 with db_entry_ := some d }, { e with oper_state_ := .OPER_ADD_SEEN }) ∧
        ∀ (m0 : FlowMgmtManager) (g : Nat),
          FlowMgmtTree.FreeNotify m0 { k1 with db_entry_ := some d } g =
            some (m0.ResponseEnqueue ⟨.FREE_DBENTRY, none, some d, g⟩)) ∧
      (req.db_entry = none →
        (m'.tree t).find key = some (k1, { e with oper_state_ := .OPER_ADD_SEEN })) := by
  obtain ⟨m1, hb, hcase⟩ := RouteFlowMgmtTree.OperEntryAdd_some ha
  obtain ⟨k1, e, hloc, hstep, _, _⟩ := FlowMgmtTree.OperEntryAdd_step hb
  have hk1 : k1.type_ = key.type_ := sameKey_type hloc.same_located
  refine ⟨k1, e, hloc, ?_, ?_⟩
  · intro d hd
    rcases hcase with ⟨hn, _⟩ | ⟨d', hd', hm⟩
    · rw [hd] at hn
      exact absurd hn (by simp)
    · rw [hd] at hd'
      simp only [Option.some.injEq] at hd'
      subst hd'
      constructor
      · have h2 := (FindStep.set_db_entry_findStep m1 t key (some d) hty).at_key
        rw [hstep.at_key] at h2
        rw [hm, h2]
        rfl
      · intro m0 g
        unfold FlowMgmtTree.FreeNotify FlowMgmtKey.FreeDBEntryEvent
        simp only
        rw [hk1]
        rcases hty with h1 | h1 | h1 <;> rw [h1] <;> rfl
  · intro hn
    rcases hcase with ⟨_, hm⟩ | ⟨d', hd', _⟩
    · rw [hm]
      exact hstep.at_key
    · rw [hn] at hd'
      exact absurd hd' (by simp)

/-! ## Instances -/

/-- Witness of C21: the add of the ACL of scenario S3 in the state before the
`DELETE_FLOW` re-evaluates the flow 1. -/
theorem C21_oper_entry_add_fan_out_witness :
    (TreeId.acl = .vrf → s3Key.db_entry_ ≠ none) ∧
    ∃ m', FlowMgmtTree.OperEntryAdd hdrOther s3State .acl (addObjReq s3Acl) s3Key =
        some (true, m') ∧
      m'.response_queue_ = s3State.response_queue_ ++
        [⟨.REVALUATE_DBENTRY, some 1, some s3Acl, 0⟩] := by
  refine ⟨by decide, ?_⟩
  obtain ⟨m', k1, e, ha, _, _, _, he, _, _, hq, _⟩ :=
    C21_oper_entry_add_fan_out hdrOther s3State .acl (addObjReq s3Acl) s3Key (by decide)
  refine ⟨m', ha, ?_⟩
  rw [hq, he]
  decide

/-- An instance of `try_delete_all_or_nothing`: the entry of the ACL of
scenario S3, without flows and
with a DELETE seen with generation 7, is erased and the ACL is freed. -/
theorem try_delete_all_or_nothing_witness :
    (addedState.tree .acl).find s3Key = some (s3Key, addedEntry) ∧
    Entry.CanDelete addedState .acl { s3Entry with tree_ := [] } = some true ∧
    ∃ m', FlowMgmtTree.TryDelete addedState .acl s3Key { s3Entry with tree_ := [] } =
        some (true, m') ∧
      (m'.tree .acl).find s3Key = none ∧
      m'.response_queue_ = addedState.response_queue_ ++
        [⟨.FREE_DBENTRY, none, some s3Acl, 7⟩] := by
  refine ⟨by decide, by decide, ?_⟩
  obtain ⟨m', ha, hf, _, _, hq⟩ :=
    (try_delete_all_or_nothing addedState .acl s3Key { s3Entry with tree_ := [] }
      (s3Key, addedEntry) s3Acl (by decide) (by decide)).2 (by decide)
  exact ⟨m', ha, hf, by rw [hq]; decide⟩

/-- Witness of C24: the route 10.0.0.0/24 is added when its entry was created
by a flow. -/
theorem C24_route_add_attaches_db_entry_witness :
    (route24Key.type_ = .INET4 ∨ route24Key.type_ = .INET6 ∨ route24Key.type_ = .BRIDGE) ∧
    RouteFlowMgmtTree.OperEntryAdd hdrOther flowOnRoute .ip4_route (addObjReq cexRoute)
      route24Key = some (true, routeAttached) ∧
    ∃ k1 e, Located hdrOther flowOnRoute .ip4_route route24Key k1 e ∧
      (routeAttached.tree .ip4_route).find route24Key =
        some ({ k1 with db_entry_ := some cexRoute }, { e with oper_state_ := .OPER_ADD_SEEN }) :=
  ⟨by decide, by decide,
    let ⟨k1, e, hloc, h1, _⟩ := C24_route_add_attaches_db_entry hdrOther flowOnRoute routeAttached
      .ip4_route (addObjReq cexRoute) route24Key true (by decide) (by decide)
    ⟨k1, e, hloc, (h1 cexRoute rfl).1⟩⟩

/-! ## The covering route -/

theorem RouteFlowMgmtTree.OperEntryAdd_responses {h : Hdr} {m m' : FlowMgmtManager}
    {t : TreeId} {req : FlowMgmtRequest} {key : FlowMgmtKey} {b : Bool}
    (ha : RouteFlowMgmtTree.OperEntryAdd h m t req key = some (b, m')) :
    m'.response_queue_ = m.response_queue_ ++ operResponses req key (flowsAt m t key) ∧
    (∀ t', m'.lpm t' = m.lpm t') := by
  obtain ⟨m1, hb, hcase⟩ := RouteFlowMgmtTree.OperEntryAdd_some ha
  obtain ⟨k1, e, hloc, _, hframe, _⟩ := FlowMgmtTree.OperEntryAdd_step hb
  rw [← hloc.flows]
  rcases hcase with ⟨_, hm⟩ | ⟨d, _, hm⟩
  · rw [hm]
    exact ⟨hframe.response_queue, hframe.lpm⟩
  · rw [hm]
    exact ⟨by simpa using hframe.response_queue, fun t' => by simpa using hframe.lpm t'⟩

theorem InetRouteFlowMgmtTree.LPM_congr {m m' : FlowMgmtManager} (t : TreeId)
    (key : FlowMgmtKey) (h : m'.lpm t = m.lpm t) :
    InetRouteFlowMgmtTree.LPM m' t key = InetRouteFlowMgmtTree.LPM m t key := by
  unfold InetRouteFlowMgmtTree.LPM
  rw [h]

theorem InetRouteFlowMgmtTree.AddToLPMTree_lpm {m m' : FlowMgmtManager} (t : TreeId)
    (key : FlowMgmtKey) (h : m'.lpm t = m.lpm t) :
    (InetRouteFlowMgmtTree.AddToLPMTree m' t key).lpm t =
      (InetRouteFlowMgmtTree.AddToLPMTree m t key).lpm t := by
  unfold InetRouteFlowMgmtTree.AddToLPMTree
  rw [h]
  cases t <;> rfl

/-- C19: `InetRouteFlowMgmtTree::OperEntryAdd` for an inet route key leaves
every flow set as it was and appends to the response queue the responses of
the request for the flows of the added route itself, followed, when the prefix
length is not 0 and the LPM structure (with the added route inserted) has a
covering route for (vrf, ip, plen - 1), by one `REVALUATE_DBENTRY` for every
flow of the covering route, carrying the DB entry of the covering route; with
the prefix length 0, or without a covering route, nothing follows. -/
theorem C19_cover_reevaluated_on_add (h : Hdr) (m m' : FlowMgmtManager) (t : TreeId)
    (req : FlowMgmtRequest) (key key' : FlowMgmtKey) (b : Bool)
    (hty : key.type_ = .INET4 ∨ key.type_ = .INET6)
    (ha : InetRouteFlowMgmtTree.OperEntryAdd h m t req key = some (b, key', m')) :
    (∀ t' k', flowsAt m' t' k' = flowsAt m t' k') ∧
    m'.response_queue_ = m.response_queue_ ++ operResponses req key (flowsAt m t key) ++
      (if 0 < key.plen_ then
        match InetRouteFlowMgmtTree.LPM (InetRouteFlowMgmtTree.AddToLPMTree m t key) t
            (InetRouteFlowMgmtKey key.vrf_id_ key.ip_ (key.plen_ - 1)) with
        | some c =>
          (flowsAt m t c).map (fun f => ⟨.REVALUATE_DBENTRY, some f, c.db_entry_, 0⟩)
        | none => []
       else []) := by
  have hreq : ∀ d, req.db_entry = some d →
      (key.type_ = .INET4 ∨ key.type_ = .INET6 ∨ key.type_ = .BRIDGE) := by
    intro _ _
    rcases hty with h1 | h1
    · exact Or.inl h1
    · exact Or.inr (Or.inl h1)
  have hq := Quiet.Inet_OperEntryAdd_quiet hreq ha
  refine ⟨hq.flows, ?_⟩
  unfold InetRouteFlowMgmtTree.OperEntryAdd at ha
  cases hr : RouteFlowMgmtTree.OperEntryAdd h m t req key with
  | none => simp [hr] at ha
  | some r =>
    obtain ⟨ret, m1⟩ := r
    obtain ⟨hq1, hlpm1⟩ := RouteFlowMgmtTree.OperEntryAdd_responses hr
    have hquiet1 := Quiet.Route_OperEntryAdd_quiet hreq hr
    have hlpm : InetRouteFlowMgmtTree.LPM (InetRouteFlowMgmtTree.AddToLPMTree m1 t key) t
          (InetRouteFlowMgmtKey key.vrf_id_ key.ip_ (key.plen_ - 1)) =
        InetRouteFlowMgmtTree.LPM (InetRouteFlowMgmtTree.AddToLPMTree m t key) t
          (InetRouteFlowMgmtKey key.vrf_id_ key.ip_ (key.plen_ - 1)) :=
      InetRouteFlowMgmtTree.LPM_congr t _
        (InetRouteFlowMgmtTree.AddToLPMTree_lpm t key (hlpm1 t))
    have hq2 : (InetRouteFlowMgmtTree.AddToLPMTree m1 t key).response_queue_ =
        m1.response_queue_ := by
      simp [InetRouteFlowMgmtTree.AddToLPMTree]
    simp only [hr] at ha
    by_cases hp : key.plen_ > 0
    · have hp' : 0 < key.plen_ := hp
      simp only [hp, if_true] at ha
      rw [if_pos hp', ← hlpm]
      cases hl : InetRouteFlowMgmtTree.LPM (InetRouteFlowMgmtTree.AddToLPMTree m1 t key) t
          (InetRouteFlowMgmtKey key.vrf_id_ key.ip_ (key.plen_ - 1)) with
      | none =>
        simp only [hl, Option.some.injEq, Prod.mk.injEq] at ha
        rw [← ha.2.2, hq2, hq1]
        simp
      | some c =>
        simp only [hl] at ha
        cases hc : RouteFlowMgmtTree.OperEntryAdd h
            (InetRouteFlowMgmtTree.AddToLPMTree m1 t key) t
            (FlowMgmtRequest.ofDB .ADD_DBENTRY none 0) c with
        | none => simp [hc] at ha
        | some r2 =>
          obtain ⟨b2, m3⟩ := r2
          simp only [hc, Option.some.injEq, Prod.mk.injEq] at ha
          obtain ⟨hq3, _⟩ := RouteFlowMgmtTree.OperEntryAdd_responses hc
          have hfl : flowsAt (InetRouteFlowMgmtTree.AddToLPMTree m1 t key) t c =
              flowsAt m t c := by
            rw [← hquiet1.flows t c]
            unfold flowsAt InetRouteFlowMgmtTree.AddToLPMTree
            rw [tree_setLpm]
          rw [← ha.2.2, hq3, hq2, hq1, hfl]
          rfl
    · have hp' : ¬ 0 < key.plen_ := hp
      simp only [hp, if_false, Option.some.injEq, Prod.mk.injEq] at ha
      rw [← ha.2.2, if_neg hp', hq2, hq1]
      simp

/-! ## The delete of an inet route -/

theorem tryDeleteResponses_flow (key : FlowMgmtKey) (e : FlowMgmtEntry) :
    ∀ r, r ∈ tryDeleteResponses key e → r.event = .FREE_DBENTRY ∧ r.flow = none := by
  intro r hr
  refine ⟨tryDeleteResponses_event key e r hr, ?_⟩
  unfold tryDeleteResponses freeResponses at hr
  split at hr
  · split at hr
    · simp at hr
    · split at hr
      · simp at hr
      · simp only [List.mem_singleton] at hr
        rw [hr]
  · simp at hr

theorem freeResponses_flow (key : FlowMgmtKey) (g : Nat) :
    ∀ r, r ∈ freeResponses key g → r.event = .FREE_DBENTRY ∧ r.flow = none := by
  intro r hr
  refine ⟨freeResponses_event key g r hr, ?_⟩
  unfold freeResponses at hr
  split at hr
  · simp at hr
  · split at hr
    · simp at hr
    · simp only [List.mem_singleton] at hr
      rw [hr]

theorem InetRouteFlowMgmtTree.DelFromLPMTree_lpm (m : FlowMgmtManager) (t : TreeId)
    (key : FlowMgmtKey) :
    (InetRouteFlowMgmtTree.DelFromLPMTree m t key).lpm t =
      FlowMgmtKeyTree.erase (m.lpm t) key ∧
    ∀ t', t' ≠ t → (InetRouteFlowMgmtTree.DelFromLPMTree m t key).lpm t' = m.lpm t' := by
  unfold InetRouteFlowMgmtTree.DelFromLPMTree
  constructor
  · cases t <;> rfl
  · intro t' ht
    cases t <;> cases t' <;> first
      | exact absurd rfl ht
      | rfl

/-- C20 (amended): `InetRouteFlowMgmtTree::OperEntryDelete` removes the route
from the LPM structure of the index (what is left there is the structure of
before without the keys that compare equal to the route, and the LPM structure
of the other index is untouched) and makes no cover lookup: what it appends to
the response queue is one response of the request for every flow of the deleted
route's own entry, followed by free notifications, which carry no flow. No
response is enqueued for a flow of another route. -/
theorem C20_route_delete_notifies_own_flows (m m' : FlowMgmtManager) (t : TreeId)
    (req : FlowMgmtRequest) (key : FlowMgmtKey) (b : Bool)
    (ha : InetRouteFlowMgmtTree.OperEntryDelete m t req key = some (b, m')) :
    (m'.lpm t = FlowMgmtKeyTree.erase (m.lpm t) key ∧
      (∀ x, x ∈ m'.lpm t → SameKey x key = false) ∧
      ∀ t', t' ≠ t → m'.lpm t' = m.lpm t') ∧
    ∃ frees, m'.response_queue_ =
        m.response_queue_ ++ operResponses req key (flowsAt m t key) ++ frees ∧
      ∀ r, r ∈ frees → r.event = .FREE_DBENTRY ∧ r.flow = none := by
  unfold InetRouteFlowMgmtTree.OperEntryDelete at ha
  obtain ⟨m1, hb, hretry⟩ := RouteFlowMgmtTree.OperEntryDelete_some ha
  have hlpm1 : ∀ t', m1.lpm t' = (InetRouteFlowMgmtTree.DelFromLPMTree m t key).lpm t' := by
    intro t'
    rcases FlowMgmtTree.OperEntryDelete_step hb with
      ⟨_, _, hframe, _, _⟩ | ⟨k1, e, m2, _, _, hcase⟩
    · exact hframe.lpm t'
    · rcases hcase with ⟨_, _, hframe, _⟩ | ⟨_, _, hframe, _, _⟩
      · exact hframe.lpm t'
      · exact hframe.lpm t'
  have hlpm2 : ∀ t', m'.lpm t' = m1.lpm t' := by
    intro t'
    rcases VrfFlowMgmtTree.RetryDelete_step_vrf hretry with hm | ⟨vrf, k1, e, _, _, _, _, hframe⟩
    · rw [hm]
    · exact hframe.lpm t'
  have hdel := InetRouteFlowMgmtTree.DelFromLPMTree_lpm m t key
  refine ⟨⟨?_, ?_, ?_⟩, ?_⟩
  · rw [hlpm2, hlpm1, hdel.1]
  · intro x hx
    rw [hlpm2, hlpm1, hdel.1] at hx
    unfold FlowMgmtKeyTree.erase at hx
    have := (List.mem_filter.1 hx).2
    simpa using this
  · intro t' ht'
    rw [hlpm2, hlpm1, hdel.2 t' ht']
  have hfl : flowsAt (InetRouteFlowMgmtTree.DelFromLPMTree m t key) t key = flowsAt m t key := by
    unfold flowsAt InetRouteFlowMgmtTree.DelFromLPMTree
    rw [tree_setLpm]
  have hq0 : (InetRouteFlowMgmtTree.DelFromLPMTree m t key).response_queue_ =
      m.response_queue_ := by
    simp [InetRouteFlowMgmtTree.DelFromLPMTree]
  have hretry2 : ∃ resp, m'.response_queue_ = m1.response_queue_ ++ resp ∧
      ∀ r, r ∈ resp → r.event = .FREE_DBENTRY ∧ r.flow = none := by
    rcases VrfFlowMgmtTree.RetryDelete_step_vrf hretry with hm | ⟨vrf, k1, e, _, _, _, _, hframe⟩
    · subst hm
      exact ⟨[], by simp, by simp⟩
    · exact ⟨_, hframe.response_queue, tryDeleteResponses_flow _ _⟩
  obtain ⟨resp2, hq2, hfree2⟩ := hretry2
  have hbase : ∃ resp, m1.response_queue_ =
      m.response_queue_ ++ operResponses req key (flowsAt m t key) ++ resp ∧
      ∀ r, r ∈ resp → r.event = .FREE_DBENTRY ∧ r.flow = none := by
    rcases FlowMgmtTree.OperEntryDelete_step hb with
      ⟨hnone, _, hframe, _, _⟩ | ⟨k1, e, m2, hf, _, hcase⟩
    · refine ⟨freeResponses key req.gen_id, ?_, freeResponses_flow _ _⟩
      rw [hframe.response_queue, hq0, ← hfl, flowsAt_of_none hnone]
      simp [operResponses]
    · have he : e.tree_ = flowsAt m t key := by
        rw [← hfl, flowsAt_of_find hf]
      rcases hcase with ⟨_, _, hframe, _⟩ | ⟨_, _, hframe, _, _⟩
      · refine ⟨[], ?_, by simp⟩
        rw [hframe.response_queue, hq0, he]
        simp
      · refine ⟨freeResponses key req.gen_id, ?_, freeResponses_flow _ _⟩
        rw [hframe.response_queue, hq0, he, List.append_assoc]
  obtain ⟨resp1, hq1, hfree1⟩ := hbase
  refine ⟨resp1 ++ resp2, ?_, ?_⟩
  · rw [hq2, hq1, List.append_assoc]
  · intro r hr
    rcases List.mem_append.1 hr with h1 | h1
    · exact hfree1 r h1
    · exact hfree2 r h1

/-- C20 (counterexample): with the flow 1 on the route 10.0.0.0/8, the add of
the route 10.1.0.0/16 re-evaluates the flow, and the delete of 10.1.0.0/16,
which 10.0.0.0/8 covers, appends only the free notification of 10.1.0.0/16: no
re-evaluation of the flow 1, which the covering route still has. -/
theorem C20_no_cover_reevaluation_on_delete :
    (FlowMgmtManager.RunRequests hdrOther FlowMgmtManager.empty
        [addObjReq route8, addFlowReq coverFlow, addObjReq route16]).map
      (fun m => (m.response_queue_, covers route16Key route8Key,
        flowsAt m .ip4_route route8Key)) =
      some ([⟨.REVALUATE_DBENTRY, some 1, some route8, 0⟩], true, [1]) ∧
    (FlowMgmtManager.RunRequests hdrOther FlowMgmtManager.empty
        [addObjReq route8, addFlowReq coverFlow, addObjReq route16, delObjReq route16 4]).map
      (fun m => (m.response_queue_, flowsAt m .ip4_route route8Key)) =
      some ([⟨.REVALUATE_DBENTRY, some 1, some route8, 0⟩,
        ⟨.FREE_DBENTRY, none, some route16, 4⟩], [1]) := by
  decide

/-! ## Instances -/

/-- Witness of C19: the add of the route 10.1.0.0/16 re-evaluates the flow 1 of
the covering route 10.0.0.0/8. -/
theorem C19_cover_reevaluated_on_add_witness :
    (route16Key.type_ = .INET4 ∨ route16Key.type_ = .INET6) ∧
    InetRouteFlowMgmtTree.OperEntryAdd hdrOther coverState .ip4_route (addObjReq route16)
      route16Key = some (true, { route16Key with plen_ := 17 }, coverAdded) ∧
    coverAdded.response_queue_ = [⟨.REVALUATE_DBENTRY, some 1, some route8, 0⟩] := by
  refine ⟨by decide, by decide, ?_⟩
  rw [(C19_cover_reevaluated_on_add hdrOther coverState coverAdded .ip4_route (addObjReq route16)
    route16Key { route16Key with plen_ := 17 } true (by decide) (by decide)).2]
  decide

/-- Witness of C20: the delete of the route 10.1.0.0/16 in the state after its
add. -/
theorem C20_route_delete_notifies_own_flows_witness :
    InetRouteFlowMgmtTree.OperEntryDelete coverAdded .ip4_route (delObjReq route16 4)
      route16Key = some (true, coverDeleted) ∧
    coverAdded.lpm .ip4_route = [route8Key, route16Key] ∧
    (coverDeleted.lpm .ip4_route =
        FlowMgmtKeyTree.erase (coverAdded.lpm .ip4_route) route16Key ∧
      (∀ x, x ∈ coverDeleted.lpm .ip4_route → SameKey x route16Key = false) ∧
      ∀ t', t' ≠ .ip4_route → coverDeleted.lpm t' = coverAdded.lpm t') ∧
    ∃ frees, coverDeleted.response_queue_ =
        coverAdded.response_queue_ ++
          operResponses (delObjReq route16 4) route16Key
            (flowsAt coverAdded .ip4_route route16Key) ++ frees ∧
      ∀ r, r ∈ frees → r.event = .FREE_DBENTRY ∧ r.flow = none :=
  ⟨by decide, by decide,
    C20_route_delete_notifies_own_flows coverAdded coverDeleted .ip4_route
      (delObjReq route16 4) route16Key true (by decide)⟩

/-! ## The managed-delete signal -/

theorem HasVrfFlows_setTree_vrf (m : FlowMgmtManager) (tr : Tree) (v : Nat) :
    (m.setTree .vrf tr).HasVrfFlows v = m.HasVrfFlows v := rfl

theorem HasVrfFlows_RetryVrfDeleteEvent (m : FlowMgmtManager) (d : Option DBEntry) (v : Nat) :
    (m.RetryVrfDeleteEvent d).HasVrfFlows v = m.HasVrfFlows v := rfl

theorem VrfFlowMgmtEntry.CanDelete_eq (m : FlowMgmtManager) (e : FlowMgmtEntry)
    (hst : e.oper_state_ ≠ .INVALID) :
    VrfFlowMgmtEntry.CanDelete m e =
      some (decide (e.tree_ = [] ∧ e.oper_state_ ≠ .OPER_ADD_SEEN ∧ e.inet4_deleted_ = true ∧
        e.inet6_deleted_ = true ∧ e.bridge_deleted_ = true ∧ m.HasVrfFlows e.vrf_id_ = false)) := by
  unfold VrfFlowMgmtEntry.CanDelete FlowMgmtEntry.CanDelete
  rw [if_neg hst]
  by_cases h1 : e.tree_ = []
  · have hl : ¬ e.tree_.length ≠ 0 := by simp [h1]
    rw [if_neg hl]
    by_cases h2 : e.oper_state_ = .OPER_ADD_SEEN
    · simp [h2]
    · cases h4 : e.inet4_deleted_ <;> cases h6 : e.inet6_deleted_ <;>
        cases hb : e.bridge_deleted_ <;> cases hh : m.HasVrfFlows e.vrf_id_ <;>
        simp [h1, h2]
  · have hl : e.tree_.length ≠ 0 := by
      intro hc
      exact h1 (List.length_eq_zero.1 hc)
    rw [if_pos hl]
    simp [h1]

theorem VrfFlowMgmtEntry.ManagedDelete_eq (m : FlowMgmtManager) (key : FlowMgmtKey)
    (slot : RouteTableSlot) :
    VrfFlowMgmtEntry.ManagedDelete m key slot =
      match (m.tree .vrf).find key with
      | none => some m
      | some p =>
        match VrfFlowMgmtEntry.CanDelete
            (m.setTree .vrf ((m.tree .vrf).setEntry key (p.2.flagged slot)))
            (p.2.flagged slot) with
        | none => none
        | some true =>
          some ((m.setTree .vrf ((m.tree .vrf).setEntry key (p.2.flagged slot))).RetryVrfDeleteEvent
            (p.2.flagged slot).vrf_)
        | some false => some (m.setTree .vrf ((m.tree .vrf).setEntry key (p.2.flagged slot))) := by
  unfold VrfFlowMgmtEntry.ManagedDelete FlowMgmtTree.Find
  cases (m.tree .vrf).find key with
  | none => rfl
  | some p => cases slot <;> rfl

/-- C25 (amended): the managed-delete signal of a slot of the VRF entry stored
for the key (in a state other than INVALID, which `CanDelete` asserts) sets the
`deleted_` flag of that slot and of no other, changes no other lookup, no flow
record and no response, and posts one `RETRY_DELETE_VRF` request for the VRF
exactly when the entry can then be deleted: no flows, not OPER_ADD_SEEN, the
three flags set, and `HasVrfFlows` false for its VRF id; otherwise it posts
nothing. -/
theorem C25_managed_delete_retries_if_can_delete (m : FlowMgmtManager) (key k1 : FlowMgmtKey)
    (e : FlowMgmtEntry) (slot : RouteTableSlot)
    (hf : (m.tree .vrf).find key = some (k1, e)) (hst : e.oper_state_ ≠ .INVALID) :
    ∃ m', VrfFlowMgmtEntry.ManagedDelete m key slot = some m' ∧
      (m'.tree .vrf).find key = some (k1, e.flagged slot) ∧
      (∀ t' k', ¬ (t' = .vrf ∧ SameKey key k' = true) →
        (m'.tree t').find k' = (m.tree t').find k') ∧
      m'.response_queue_ = m.response_queue_ ∧ m'.flow_tree_ = m.flow_tree_ ∧
      m'.id_map_ = m.id_map_ ∧
      m'.request_queue_ = m.request_queue_ ++
        (if e.tree_ = [] ∧ e.oper_state_ ≠ .OPER_ADD_SEEN ∧
            (e.flagged slot).inet4_deleted_ = true ∧ (e.flagged slot).inet6_deleted_ = true ∧
            (e.flagged slot).bridge_deleted_ = true ∧ m.HasVrfFlows e.vrf_id_ = false
         then [FlowMgmtRequest.ofDB .RETRY_DELETE_VRF e.vrf_ 0] else []) := by
  have hst1 : (e.flagged slot).oper_state_ ≠ .INVALID := by cases slot <;> exact hst
  have htr : (e.flagged slot).tree_ = e.tree_ := by cases slot <;> rfl
  have hs : (e.flagged slot).oper_state_ = e.oper_state_ := by cases slot <;> rfl
  have hv : (e.flagged slot).vrf_id_ = e.vrf_id_ := by cases slot <;> rfl
  have hvr : (e.flagged slot).vrf_ = e.vrf_ := by cases slot <;> rfl
  have hstep := FindStep.setEntry m .vrf key (e.flagged slot)
  rw [hf] at hstep
  rw [VrfFlowMgmtEntry.ManagedDelete_eq, hf]
  simp only
  rw [VrfFlowMgmtEntry.CanDelete_eq _ _ hst1, HasVrfFlows_setTree_vrf, htr, hs, hv, hvr]
  by_cases hc : e.tree_ = [] ∧ e.oper_state_ ≠ .OPER_ADD_SEEN ∧
      (e.flagged slot).inet4_deleted_ = true ∧ (e.flagged slot).inet6_deleted_ = true ∧
      (e.flagged slot).bridge_deleted_ = true ∧ m.HasVrfFlows e.vrf_id_ = false
  · rw [decide_eq_true hc, if_pos hc]
    refine ⟨_, rfl, ?_, ?_, ?_, ?_, ?_, ?_⟩
    · exact hstep.at_key
    · intro t' k' hne
      have := hstep t' k'
      rw [if_neg hne] at this
      exact this
    · simp [FlowMgmtManager.RetryVrfDeleteEvent]
    · simp [FlowMgmtManager.RetryVrfDeleteEvent]
    · simp [FlowMgmtManager.RetryVrfDeleteEvent]
    · simp [FlowMgmtManager.RetryVrfDeleteEvent]
  · rw [decide_eq_false hc, if_neg hc]
    refine ⟨_, rfl, ?_, ?_, ?_, ?_, ?_, ?_⟩
    · exact hstep.at_key
    · intro t' k' hne
      have := hstep t' k'
      rw [if_neg hne] at this
      exact this
    · simp
    · simp
    · simp
    · simp

/-- C25 (counterexample): the managed-delete signal of the inet4 route table of
a VRF that has only been added sets the flag of the inet4 slot and posts no
`RETRY_DELETE_VRF` request. -/
theorem C25_no_retry_while_add_seen :
    (RunEvents hdrOther FlowMgmtManager.empty
        [.request (addObjReq vrf5), .managedDelete vrf5 .inet4]).map
      (fun m => (m.request_queue_, ((m.tree .vrf).find (VrfFlowMgmtKey (some vrf5))).map
        (fun p => (p.2.oper_state_, p.2.inet4_deleted_, p.2.inet6_deleted_,
          p.2.bridge_deleted_)))) =
      some ([], some (.OPER_ADD_SEEN, true, false, false)) := by
  decide

/-! ## The retry of the delete of a VRF -/

theorem Tree.upper_bound_mem {t : Tree} {k k' : FlowMgmtKey} (h : t.upper_bound k = some k') :
    ∃ p, p ∈ t ∧ p.1 = k' := by
  unfold Tree.upper_bound at h
  cases hf : List.find? (fun p => k.IsLess p.1) t with
  | none => simp [hf] at h
  | some p =>
    simp only [hf, Option.map_some', Option.some.injEq] at h
    exact ⟨p, List.mem_of_find?_eq_some hf, h⟩

theorem InetRouteFlowMgmtTree.HasVrfFlows_false_inet (m : FlowMgmtManager) (t : TreeId) (v : Nat)
    (hno : ∀ p, p ∈ m.tree t → p.1.vrf_id_ ≠ v) :
    InetRouteFlowMgmtTree.HasVrfFlows m t v = false := by
  unfold InetRouteFlowMgmtTree.HasVrfFlows
  cases hu : (m.tree t).upper_bound (inetProbeKey v) with
  | none => rfl
  | some nk =>
    obtain ⟨p, hp, hpk⟩ := Tree.upper_bound_mem hu
    have hne := hno p hp
    rw [hpk] at hne
    simp [hne]

theorem BridgeRouteFlowMgmtTree.HasVrfFlows_false_bridge (m : FlowMgmtManager) (v : Nat)
    (hno : ∀ p, p ∈ m.tree .bridge_route → p.1.vrf_id_ ≠ v) :
    BridgeRouteFlowMgmtTree.HasVrfFlows m v = false := by
  unfold BridgeRouteFlowMgmtTree.HasVrfFlows
  cases hu : (m.tree .bridge_route).upper_bound (bridgeProbeKey v) with
  | none => rfl
  | some nk =>
    obtain ⟨p, hp, hpk⟩ := Tree.upper_bound_mem hu
    have hne := hno p hp
    rw [hpk] at hne
    simp [hne]

theorem HasVrfFlows_false_of_no_key (m : FlowMgmtManager) (v : Nat)
    (hno : ∀ t, (t = .ip4_route ∨ t = .ip6_route ∨ t = .bridge_route) →
      ∀ p, p ∈ m.tree t → p.1.vrf_id_ ≠ v) :
    m.HasVrfFlows v = false := by
  unfold FlowMgmtManager.HasVrfFlows
  rw [InetRouteFlowMgmtTree.HasVrfFlows_false_inet m .ip4_route v (hno _ (Or.inl rfl)),
    InetRouteFlowMgmtTree.HasVrfFlows_false_inet m .ip6_route v (hno _ (Or.inr (Or.inl rfl))),
    BridgeRouteFlowMgmtTree.HasVrfFlows_false_bridge m v (hno _ (Or.inr (Or.inr rfl)))]
  rfl

theorem VrfFlowMgmtTree.FreeNotify_eq (m : FlowMgmtManager) (vrf : DBEntry) (g : Nat) :
    Virtual.FreeNotify m .vrf (VrfFlowMgmtKey (some vrf)) g =
      some { (m.ResponseEnqueue ⟨.FREE_DBENTRY, none, some vrf, g⟩) with
        id_map_ := List.filter (fun p => p.1 != vrf.vrf_id) m.id_map_ } := rfl

/-- C15: for a VRF that the side map has under its id, whose entry has no
flows, has seen a DELETE with generation `g` and has its three route-table
slots flagged deleted, and when no route index holds a key of the VRF, the
retry of the delete of the VRF returns, appends exactly `FREE_DBENTRY(V, g)` to
the response queue, erases the entry of the VRF and the side-map entry of its
id, and changes no other lookup and no flow record. A `RETRY_DELETE_VRF`
request is this retry, and the `Delete` and the `OperEntryDelete` of a route
index end with it, for the VRF id of the route key. -/
theorem C15_vrf_teardown_on_retry (h : Hdr) (m : FlowMgmtManager) (vrf : DBEntry)
    (k1 : FlowMgmtKey) (e : FlowMgmtEntry) (vrf_id g : Nat)
    (hid : List.find? (fun p => p.1 == vrf_id) m.id_map_ = some (vrf_id, vrf))
    (hv : vrf.vrf_id = vrf_id)
    (hf : (m.tree .vrf).find (VrfFlowMgmtKey (some vrf)) = some (k1, e))
    (hev : e.vrf_id_ = vrf_id) (hflows : e.tree_ = [])
    (hst : e.oper_state_ = .OPER_DEL_SEEN) (hg : e.gen_id_ = g)
    (h4 : e.inet4_deleted_ = true) (h6 : e.inet6_deleted_ = true)
    (hb : e.bridge_deleted_ = true)
    (hno : ∀ t, (t = .ip4_route ∨ t = .ip6_route ∨ t = .bridge_route) →
      ∀ p, p ∈ m.tree t → p.1.vrf_id_ ≠ vrf_id) :
    (∃ m', m.RetryVrfDelete vrf_id = some m' ∧
      m'.response_queue_ = m.response_queue_ ++ [⟨.FREE_DBENTRY, none, some vrf, g⟩] ∧
      (m'.tree .vrf).find (VrfFlowMgmtKey (some vrf)) = none ∧
      List.find? (fun p => p.1 == vrf_id) m'.id_map_ = none ∧
      (∀ t' k', ¬ (t' = .vrf ∧ SameKey (VrfFlowMgmtKey (some vrf)) k' = true) →
        (m'.tree t').find k' = (m.tree t').find k') ∧
      m'.flow_tree_ = m.flow_tree_) ∧
    m.RequestHandler h (FlowMgmtRequest.ofDB .RETRY_DELETE_VRF (some vrf) 0) =
      m.RetryVrfDelete vrf_id ∧
    (∀ (m0 : FlowMgmtManager) (t : TreeId) (key : FlowMgmtKey) (flow : Nat),
      RouteFlowMgmtTree.Delete m0 t key flow =
        (FlowMgmtTree.Delete m0 t key flow).bind
          (fun r => (r.2.RetryVrfDelete key.vrf_id_).map (fun m2 => (r.1, m2)))) ∧
    (∀ (m0 : FlowMgmtManager) (t : TreeId) (req : FlowMgmtRequest) (key : FlowMgmtKey),
      RouteFlowMgmtTree.OperEntryDelete m0 t req key =
        (FlowMgmtTree.OperEntryDelete m0 t req key).bind
          (fun r => (r.2.RetryVrfDelete key.vrf_id_).map (fun m2 => (r.1, m2)))) := by
  refine ⟨?_, ?_, ?_, ?_⟩
  · have hstate : e.oper_state_ ≠ .INVALID := by rw [hst]; decide
    have hcan : Entry.CanDelete m .vrf e = some true := by
      show VrfFlowMgmtEntry.CanDelete m e = some true
      rw [VrfFlowMgmtEntry.CanDelete_eq m e hstate]
      have hh : m.HasVrfFlows e.vrf_id_ = false := by
        rw [hev]
        exact HasVrfFlows_false_of_no_key m vrf_id hno
      have : e.tree_ = [] ∧ e.oper_state_ ≠ .OPER_ADD_SEEN ∧ e.inet4_deleted_ = true ∧
          e.inet6_deleted_ = true ∧ e.bridge_deleted_ = true ∧
          m.HasVrfFlows e.vrf_id_ = false :=
        ⟨hflows, by rw [hst]; decide, h4, h6, hb, hh⟩
      rw [decide_eq_true this]
    have htd : FlowMgmtTree.TryDelete m .vrf (VrfFlowMgmtKey (some vrf)) e =
        some (true,
          ({ (m.ResponseEnqueue ⟨.FREE_DBENTRY, none, some vrf, g⟩) with
              id_map_ := List.filter (fun p => p.1 != vrf.vrf_id) m.id_map_ } :
            FlowMgmtManager).setTree .vrf
            ((m.tree .vrf).erase (VrfFlowMgmtKey (some vrf)))) := by
      unfold FlowMgmtTree.TryDelete
      rw [hcan]
      simp only
      rw [if_pos hst, hg, VrfFlowMgmtTree.FreeNotify_eq]
      simp only
      have htree : ({ (m.ResponseEnqueue ⟨.FREE_DBENTRY, none, some vrf, g⟩) with
              id_map_ := List.filter (fun p => p.1 != vrf.vrf_id) m.id_map_ } :
            FlowMgmtManager).tree .vrf = m.tree .vrf := rfl
      rw [htree, hf]
    have hretry : m.RetryVrfDelete vrf_id = some
          (({ (m.ResponseEnqueue ⟨.FREE_DBENTRY, none, some vrf, g⟩) with
              id_map_ := List.filter (fun p => p.1 != vrf.vrf_id) m.id_map_ } :
            FlowMgmtManager).setTree .vrf
            ((m.tree .vrf).erase (VrfFlowMgmtKey (some vrf)))) := by
      unfold FlowMgmtManager.RetryVrfDelete VrfFlowMgmtTree.RetryDelete
      rw [hid]
      simp only
      unfold FlowMgmtTree.RetryDelete FlowMgmtTree.Find
      rw [hf]
      simp only
      rw [htd]
    refine ⟨_, hretry, ?_, ?_, ?_, ?_, ?_⟩
    · simp [FlowMgmtManager.ResponseEnqueue]
    · rw [tree_setTree_same, Tree.find_erase, if_pos (sameKey_refl _)]
    · rw [setTree_id_map]
      simp only
      rw [List.find?_eq_none]
      intro p hp
      have := (List.mem_filter.1 hp).2
      rw [hv] at this
      simpa using this
    · intro t' k' hne
      by_cases ht : t' = .vrf
      · subst ht
        rw [tree_setTree_same, Tree.find_erase, if_neg (fun hc => hne ⟨rfl, hc⟩)]
      · rw [tree_setTree_ne _ _ ht]
        cases t' <;> first | exact absurd rfl ht | rfl
    · rw [setTree_flow_tree]
      rfl
  · unfold FlowMgmtManager.RequestHandler
    simp only [FlowMgmtRequest.ofDB, Option.map_some', Option.getD_some]
    rw [hv]
  · intro m0 t key flow
    unfold RouteFlowMgmtTree.Delete
    cases hd : FlowMgmtTree.Delete m0 t key flow with
    | none => rfl
    | some r =>
      obtain ⟨b, m1⟩ := r
      cases hr : m1.RetryVrfDelete key.vrf_id_ <;> simp [hr]
  · intro m0 t req key
    unfold RouteFlowMgmtTree.OperEntryDelete
    cases hd : FlowMgmtTree.OperEntryDelete m0 t req key with
    | none => rfl
    | some r =>
      obtain ⟨b, m1⟩ := r
      cases hr : m1.RetryVrfDelete key.vrf_id_ <;> simp [hr]

/-! ## Instances -/

/-- Witness of C25: the third managed-delete signal of a VRF that was added
and deleted posts the retry. -/
theorem C25_managed_delete_retries_if_can_delete_witness :
    (vrfPending.tree .vrf).find (VrfFlowMgmtKey (some vrf5)) =
      some (VrfFlowMgmtKey (some vrf5), vrfPendingEntry) ∧
    vrfPendingEntry.oper_state_ ≠ .INVALID ∧
    ∃ m', VrfFlowMgmtEntry.ManagedDelete vrfPending (VrfFlowMgmtKey (some vrf5)) .bridge =
        some m' ∧
      m'.request_queue_ = [FlowMgmtRequest.ofDB .RETRY_DELETE_VRF (some vrf5) 0] := by
  refine ⟨by decide, by decide, ?_⟩
  obtain ⟨m', ha, _, _, _, _, _, hq⟩ :=
    C25_managed_delete_retries_if_can_delete vrfPending (VrfFlowMgmtKey (some vrf5))
      (VrfFlowMgmtKey (some vrf5)) vrfPendingEntry .bridge (by decide) (by decide)
  exact ⟨m', ha, by rw [hq]; decide⟩

/-- Witness of C15: the retry for the VRF 5 once it was added, deleted with
generation 3, and its three route tables have signalled their deletion. -/
theorem C15_vrf_teardown_on_retry_witness :
    List.find? (fun p => p.1 == 5) vrfReady.id_map_ = some (5, vrf5) ∧
    (vrfReady.tree .vrf).find (VrfFlowMgmtKey (some vrf5)) =
      some (VrfFlowMgmtKey (some vrf5), { vrfPendingEntry with bridge_deleted_ := true }) ∧
    ∃ m', vrfReady.RetryVrfDelete 5 = some m' ∧
      m'.response_queue_ = vrfReady.response_queue_ ++ [⟨.FREE_DBENTRY, none, some vrf5, 3⟩] ∧
      (m'.tree .vrf).find (VrfFlowMgmtKey (some vrf5)) = none ∧
      List.find? (fun p => p.1 == 5) m'.id_map_ = none := by
  refine ⟨by decide, by decide, ?_⟩
  obtain ⟨m', ha, hq, hf, hi, _⟩ :=
    (C15_vrf_teardown_on_retry hdrOther vrfReady vrf5 (VrfFlowMgmtKey (some vrf5))
      { vrfPendingEntry with bridge_deleted_ := true } 5 3 (by decide) (by decide) (by decide)
      (by decide) (by decide) (by decide) (by decide) (by decide) (by decide) (by decide)
      (by
        intro t ht p hp
        have h4 : vrfReady.tree .ip4_route = [] := by decide
        have h6 : vrfReady.tree .ip6_route = [] := by decide
        have hb : vrfReady.tree .bridge_route = [] := by decide
        rcases ht with h1 | h1 | h1 <;> subst h1
        · rw [h4] at hp
          exact absurd hp (by simp)
        · rw [h6] at hp
          exact absurd hp (by simp)
        · rw [hb] at hp
          exact absurd hp (by simp))).1
  exact ⟨m', ha, hq, hf, hi⟩

/-! ## The VN counters on a new insertion -/

theorem FlowMgmtEntry.Add_new (e : FlowMgmtEntry) (flow : Nat) (h : flow ∉ e.tree_) :
    (e.Add flow).1 = true ∧
    (e.Add flow).2.ingress_flow_count_ = e.ingress_flow_count_ ∧
    (e.Add flow).2.egress_flow_count_ = e.egress_flow_count_ := by
  unfold FlowMgmtEntry.Add
  rw [if_neg h]
  exact ⟨rfl, rfl, rfl⟩

theorem Located.counters {h : Hdr} {m : FlowMgmtManager} {key k1 : FlowMgmtKey}
    {e : FlowMgmtEntry} {vn : Option DBEntry} (hk : key = VnFlowMgmtKey vn)
    (hl : Located h m .vn key k1 e) :
    m.VnFlowCounters vn = (e.ingress_flow_count_, e.egress_flow_count_) := by
  subst hk
  unfold FlowMgmtManager.VnFlowCounters VnFlowMgmtTree.VnFlowCounters FlowMgmtTree.Find
  rcases hl with h1 | ⟨h1, _, h3⟩
  · rw [h1]
  · rw [h1]
    obtain ⟨_, _, hi, he⟩ := FlowMgmtTree.Allocate_some h3
    rw [hi, he]

/-- C12: when `AddFlowMgmtKey` adds the key of a VN for a flow that the entry
of the VN does not have, the flow set of the VN gains the flow and the counters
of the VN change as follows: both are incremented for a local flow, otherwise
only the ingress counter for an ingress flow and only the egress counter for
any other flow. The counters of a VN without an entry are (0, 0). In scenario
S1, the first `ADD_FLOW` of a non-local ingress flow on a VN and an interface
gives both entries the flow and the VN the counters (1, 0). -/
theorem C12_vn_counters_on_new_insertion (h : Hdr) (m m' : FlowMgmtManager) (flow : FlowEntry)
    (vn : Option DBEntry) (ha : m.AddFlowMgmtKey h flow (VnFlowMgmtKey vn) = some m')
    (hnew : flow.id ∉ flowsAt m .vn (VnFlowMgmtKey vn)) :
    m'.VnFlowCounters vn =
      (if flow.LocalFlow then (inc32 (m.VnFlowCounters vn).1, inc32 (m.VnFlowCounters vn).2)
       else if flow.IngressDir then (inc32 (m.VnFlowCounters vn).1, (m.VnFlowCounters vn).2)
       else ((m.VnFlowCounters vn).1, inc32 (m.VnFlowCounters vn).2)) ∧
    (∀ f, f ∈ flowsAt m' .vn (VnFlowMgmtKey vn) ↔
      f ∈ flowsAt m .vn (VnFlowMgmtKey vn) ∨ f = flow.id) ∧
    (∀ (m0 : FlowMgmtManager) (v : Option DBEntry),
      (m0.tree .vn).find (VnFlowMgmtKey v) = none → m0.VnFlowCounters v = (0, 0)) ∧
    (FlowMgmtManager.RunRequests h FlowMgmtManager.empty [addFlowReq s1Flow]).map
      (fun m1 => (flowsAt m1 .vn (VnFlowMgmtKey s5Vn),
        flowsAt m1 .interface (InterfaceFlowMgmtKey (some (.Interface 4))),
        m1.VnFlowCounters s5Vn)) = some ([1], [1], (1, 0)) := by
  refine ⟨?_, ?_, ?_, ?_⟩
  · obtain ⟨info, t, b, m2, _, ht, hadd, hcase⟩ := FlowMgmtManager.AddFlowMgmtKey_some ha
    rcases hcase with ⟨hne, _⟩ | ⟨_, k1, entry, hf2, hm⟩
    · exact absurd rfl hne
    · have ht' : t = .vn := by
        have h1 : FlowMgmtManager.treeOfKeyType (VnFlowMgmtKey vn).type_ = some .vn := rfl
        rw [h1] at ht
        exact (Option.some.inj ht).symm
      subst ht'
      obtain ⟨k1', e, hloc, hb, hstep, _, _⟩ := FlowMgmtTree.Add_step hadd
      have hloc' : Located h m .vn (VnFlowMgmtKey vn) k1' e := by
        unfold Located at hloc ⊢
        simpa [tree_setInfo] using hloc
      have hent : entry = (e.Add flow.id).2 := by
        have := hstep.at_key
        rw [hf2] at this
        simp only [Option.some.injEq, Prod.mk.injEq] at this
        exact this.2
      have hnew' : flow.id ∉ e.tree_ := by
        rw [hloc'.flows]
        exact hnew
      obtain ⟨hb1, hi1, he1⟩ := FlowMgmtEntry.Add_new e flow.id hnew'
      have hcnt := Located.counters rfl hloc'
      have hfind' : (m'.tree .vn).find (VnFlowMgmtKey vn) =
          some (k1, VnFlowMgmtEntry.UpdateCounterOnAdd entry flow b info.local_flow_
            info.ingress_) := by
        rw [hm, tree_setInfo, tree_setTree_same, Tree.find_setEntry,
          if_pos (sameKey_refl _), hf2]
        rfl
      unfold FlowMgmtManager.VnFlowCounters VnFlowMgmtTree.VnFlowCounters FlowMgmtTree.Find
      rw [hfind']
      unfold FlowMgmtManager.VnFlowCounters VnFlowMgmtTree.VnFlowCounters FlowMgmtTree.Find
        at hcnt
      rw [hcnt, hb, hb1, hent]
      simp only
      unfold VnFlowMgmtEntry.UpdateCounterOnAdd
      simp only [if_true]
      by_cases hl : flow.LocalFlow = true
      · simp [hl, hi1, he1]
      · by_cases hi : flow.IngressDir = true
        · simp [hl, hi, hi1, he1]
        · simp [hl, hi, hi1, he1]
  · obtain ⟨t, ht, heff, _⟩ := FlowMgmtManager.AddFlowMgmtKey_effect ha
    have ht' : t = .vn := by
      have h1 : FlowMgmtManager.treeOfKeyType (VnFlowMgmtKey vn).type_ = some .vn := rfl
      rw [h1] at ht
      exact (Option.some.inj ht).symm
    subst ht'
    intro f
    rw [heff.flows .vn (VnFlowMgmtKey vn) f]
    constructor
    · rintro (h1 | ⟨_, _, h1⟩)
      · exact Or.inl h1
      · exact Or.inr h1
    · rintro (h1 | h1)
      · exact Or.inl h1
      · exact Or.inr ⟨rfl, sameKey_refl _, h1⟩
  · intro m0 v hnone
    unfold FlowMgmtManager.VnFlowCounters VnFlowMgmtTree.VnFlowCounters FlowMgmtTree.Find
    rw [hnone]
  · obtain ⟨s⟩ := h
    cases s <;> decide

/-! ## The kinds of the keys of flows -/

theorem FlowKeyOK.type_mem {k : FlowMgmtKey} (hk : FlowKeyOK k) :
    k.type_ ∈ flowKeyTypes ∧ FlowMgmtManager.treeOfKeyType k.type_ ≠ none := by
  obtain ⟨t, ht, _⟩ := hk
  constructor
  · unfold flowKeyTypes
    cases hty : k.type_ <;> rw [hty] at ht <;> simp [FlowMgmtManager.treeOfKeyType] at ht ⊢
  · rw [ht]
    simp

/-- C29: every key that `MakeFlowMgmtKeyTree` produces for a flow has one of
the tags INTERFACE, ACL, VN, INET4, INET6, BRIDGE, NH, for which
`AddFlowMgmtKey` and `DeleteFlowMgmtKey` have an index (the `default` branch is
not taken); after every list of requests processed from the empty manager,
every key in the record of a flow has one of these tags, and every entry of
the VRF index has an empty flow set. -/
theorem C29_only_flow_keys_in_registry (h : Hdr) (hinit : h.oper_state_init ≠ .OPER_DEL_SEEN)
    (reqs : List FlowMgmtRequest) (m : FlowMgmtManager)
    (hrun : FlowMgmtManager.RunRequests h FlowMgmtManager.empty reqs = some m) :
    (∀ flow k, k ∈ MakeFlowMgmtKeyTree flow →
      k.type_ ∈ flowKeyTypes ∧ FlowMgmtManager.treeOfKeyType k.type_ ≠ none) ∧
    (∀ f info, m.FindFlowEntryInfo f = some info → ∀ k, k ∈ info.tree_ →
      k.type_ ∈ flowKeyTypes ∧ FlowMgmtManager.treeOfKeyType k.type_ ≠ none) ∧
    (∀ k p, (m.tree .vrf).find k = some p → p.2.tree_ = []) := by
  obtain ⟨hinv, hreg⟩ := reachable_inv hinit hrun
  refine ⟨?_, ?_, ?_⟩
  · intro flow k hk
    exact ((MakeFlowMgmtKeyTree_good flow).2 k hk).type_mem
  · intro f info hf k hk
    exact (hreg.keys_ok f info hf k hk).type_mem
  · intro k p hf
    exact (hinv.entries .vrf k p hf).no_flows (Or.inl rfl)

/-! ## Instances -/

/-- Witness of C12: the key of the VN 7 is added for the flow of scenario S1
in the empty manager. -/
theorem C12_vn_counters_on_new_insertion_witness :
    s1Start.AddFlowMgmtKey hdrOther s1Flow (VnFlowMgmtKey s5Vn) = some s1VnAdded ∧
    s1Flow.id ∉ flowsAt s1Start .vn (VnFlowMgmtKey s5Vn) ∧
    s1Start.VnFlowCounters s5Vn = (0, 0) ∧
    s1VnAdded.VnFlowCounters s5Vn = (1, 0) := by
  refine ⟨by decide, by decide, by decide, ?_⟩
  rw [(C12_vn_counters_on_new_insertion hdrOther s1Start s1VnAdded s1Flow s5Vn (by decide)
    (by decide)).1]
  decide

/-- Witness of C29: the state of scenario S3 before the `DELETE_FLOW`; the
record of the flow 1 has the key of the ACL 3. -/
theorem C29_only_flow_keys_in_registry_witness :
    hdrOther.oper_state_init ≠ .OPER_DEL_SEEN ∧
    FlowMgmtManager.RunRequests hdrOther FlowMgmtManager.empty s3Requests = some s3State ∧
    keysOf s3State 1 = [s3Key] ∧
    ∀ f info, s3State.FindFlowEntryInfo f = some info → ∀ k, k ∈ info.tree_ →
      k.type_ ∈ flowKeyTypes ∧ FlowMgmtManager.treeOfKeyType k.type_ ≠ none :=
  ⟨by decide, by decide, by decide,
    (C29_only_flow_keys_in_registry hdrOther (by decide) s3Requests s3State (by decide)).2.1⟩

/-! ## The evolution of the lookups -/

section Evolution

variable {h : Hdr} {del : TreeId → FlowMgmtKey → Prop} {sig : Prop}

theorem Changes.one {t : TreeId} {k : FlowMgmtKey} {a b : Option (FlowMgmtKey × FlowMgmtEntry)}
    (hc : Change h del sig t k a b) : Changes h del sig t k a b :=
  .cons hc (.refl b)

theorem Changes.trans_changes {t : TreeId} {k : FlowMgmtKey}
    {a b c : Option (FlowMgmtKey × FlowMgmtEntry)} (h1 : Changes h del sig t k a b)
    (h2 : Changes h del sig t k b c) : Changes h del sig t k a c := by
  induction h1 with
  | refl _ => exact h2
  | cons hc _ ih => exact .cons hc (ih h2)

theorem Change.congr_change {t : TreeId} {k k' : FlowMgmtKey}
    {a b : Option (FlowMgmtKey × FlowMgmtEntry)} (hs : SameKey k k' = true)
    (hc : Change h del sig t k a b) : Change h del sig t k' a b := by
  cases hc with
  | create key e h1 h2 => exact .create key e (sameKey_trans h1 hs) h2
  | add k1 e f => exact .add k1 e f
  | delete k1 e f => exact .delete k1 e f
  | erase k1 e h1 h2 h3 => exact .erase k1 e h1 h2 h3
  | addSeen k1 e => exact .addSeen k1 e
  | delSeen K k1 e g h1 h2 => exact .delSeen K k1 e g h1 (sameKey_trans h2 hs)
  | setDb k1 e d => exact .setDb k1 e d
  | onAdd k1 e flow a l i => exact .onAdd k1 e flow a l i
  | onDel k1 e flow l i => exact .onDel k1 e flow l i
  | flag k1 e slot h1 h2 => exact .flag k1 e slot h1 h2

theorem Changes.congr_changes {t : TreeId} {k k' : FlowMgmtKey}
    {a b : Option (FlowMgmtKey × FlowMgmtEntry)} (hs : SameKey k k' = true)
    (hc : Changes h del sig t k a b) : Changes h del sig t k' a b := by
  induction hc with
  | refl _ => exact .refl _
  | cons hc _ ih => exact .cons (hc.congr_change hs) ih

theorem Change.mono_change {del' : TreeId → FlowMgmtKey → Prop} {sig' : Prop} {t : TreeId}
    {k : FlowMgmtKey} {a b : Option (FlowMgmtKey × FlowMgmtEntry)}
    (hdel : ∀ t K, del t K → del' t K) (hsig : sig → sig')
    (hc : Change h del sig t k a b) : Change h del' sig' t k a b := by
  cases hc with
  | create key e h1 h2 => exact .create key e h1 h2
  | add k1 e f => exact .add k1 e f
  | delete k1 e f => exact .delete k1 e f
  | erase k1 e h1 h2 h3 => exact .erase k1 e h1 h2 h3
  | addSeen k1 e => exact .addSeen k1 e
  | delSeen K k1 e g h1 h2 => exact .delSeen K k1 e g (hdel _ _ h1) h2
  | setDb k1 e d => exact .setDb k1 e d
  | onAdd k1 e flow a l i => exact .onAdd k1 e flow a l i
  | onDel k1 e flow l i => exact .onDel k1 e flow l i
  | flag k1 e slot h1 h2 => exact .flag k1 e slot (hsig h1) h2

theorem Changes.mono_changes {del' : TreeId → FlowMgmtKey → Prop} {sig' : Prop} {t : TreeId}
    {k : FlowMgmtKey} {a b : Option (FlowMgmtKey × FlowMgmtEntry)}
    (hdel : ∀ t K, del t K → del' t K) (hsig : sig → sig')
    (hc : Changes h del sig t k a b) : Changes h del' sig' t k a b := by
  induction hc with
  | refl _ => exact .refl _
  | cons hc _ ih => exact .cons (hc.mono_change hdel hsig) ih

theorem Evolves.mono_evolves {del' : TreeId → FlowMgmtKey → Prop} {sig' : Prop}
    {m m' : FlowMgmtManager} (hdel : ∀ t K, del t K → del' t K) (hsig : sig → sig')
    (hev : Evolves h del sig m m') : Evolves h del' sig' m m' :=
  fun t k => (hev t k).mono_changes hdel hsig

theorem Evolves.refl_evolves (m : FlowMgmtManager) : Evolves h del sig m m :=
  fun _ _ => .refl _

theorem Evolves.trans_evolves {m m1 m2 : FlowMgmtManager} (h1 : Evolves h del sig m m1)
    (h2 : Evolves h del sig m1 m2) : Evolves h del sig m m2 :=
  fun t k => (h1 t k).trans_changes (h2 t k)

theorem Evolves.of_tree_eq_evolves {m m' : FlowMgmtManager}
    (heq : ∀ t, m'.tree t = m.tree t) : Evolves h del sig m m' := by
  intro t k
  rw [heq t]
  exact .refl _

theorem Evolves.of_step_evolves {m m' : FlowMgmtManager} {t : TreeId} {key : FlowMgmtKey}
    {new : Option (FlowMgmtKey × FlowMgmtEntry)} (hstep : FindStep m m' t key new)
    (hc : Changes h del sig t key ((m.tree t).find key) new) : Evolves h del sig m m' := by
  intro t' k'
  rw [hstep t' k']
  split
  · rename_i hcond
    obtain ⟨ht, hs⟩ := hcond
    subst ht
    rw [← Tree.find_congr (m.tree t') hs]
    exact hc.congr_changes hs
  · exact .refl _

theorem Changes.of_located {m : FlowMgmtManager} {t : TreeId} {key k1 : FlowMgmtKey}
    {e : FlowMgmtEntry} (hl : Located h m t key k1 e) :
    Changes h del sig t key ((m.tree t).find key) (some (k1, e)) := by
  rcases hl with h1 | ⟨h1, h2, h3⟩
  · rw [h1]
    exact .refl _
  · rw [h1, h2]
    exact .one (.create key e (sameKey_refl key) h3)

theorem Evolves.preserves {Q : TreeId → FlowMgmtKey → Option (FlowMgmtKey × FlowMgmtEntry) → Prop}
    {m m' : FlowMgmtManager} (hev : Evolves h del sig m m')
    (hQ : ∀ t k a b, Change h del sig t k a b → Q t k a → Q t k b) (t : TreeId)
    (k : FlowMgmtKey) (h0 : Q t k ((m.tree t).find k)) : Q t k ((m'.tree t).find k) := by
  have hc := hev t k
  revert h0
  generalize (m.tree t).find k = a at hc
  generalize (m'.tree t).find k = b at hc
  induction hc with
  | refl _ => exact fun h0 => h0
  | cons hc _ ih => exact fun h0 => ih (hQ t k _ _ hc h0)

/-! ### The operations of an index -/

theorem Evolves.Add_evolves {m m' : FlowMgmtManager} {t : TreeId} {key : FlowMgmtKey} {flow : Nat}
    {b : Bool} (ha : FlowMgmtTree.Add h m t key flow = some (b, m')) :
    Evolves h del sig m m' := by
  obtain ⟨k1, e, hloc, _, hstep, _, _⟩ := FlowMgmtTree.Add_step ha
  exact Evolves.of_step_evolves hstep ((Changes.of_located hloc).trans_changes (.one (.add k1 e flow)))

theorem Change.erase_of_can {t t0 : TreeId} {k k1 : FlowMgmtKey} {e : FlowMgmtEntry}
    {m : FlowMgmtManager} (hc : Entry.CanDelete m t0 e = some true) :
    Change h del sig t k (some (k1, e)) none := by
  obtain ⟨h1, h2, h3⟩ := Entry.CanDelete_true_dispatch hc
  exact .erase k1 e h1 h2 h3

theorem Evolves.Delete_evolves {m m' : FlowMgmtManager} {t : TreeId} {key : FlowMgmtKey} {flow : Nat}
    {b : Bool} (ha : FlowMgmtTree.Delete m t key flow = some (b, m')) :
    Evolves h del sig m m' := by
  rcases FlowMgmtTree.Delete_step ha with ⟨_, hm⟩ | ⟨k1, e, hf, hcase⟩
  · rw [hm]
    exact Evolves.refl_evolves m
  · rcases hcase with ⟨_, hstep, _, _⟩ | ⟨hcan, hstep, _, _, _⟩
    · refine Evolves.of_step_evolves hstep ?_
      rw [hf]
      exact .one (.delete k1 e flow)
    · refine Evolves.of_step_evolves hstep ?_
      rw [hf]
      exact .cons (.delete k1 e flow) (.one (Change.erase_of_can hcan))

theorem Evolves.RetryVrfDelete_evolves {m m' : FlowMgmtManager} {vrf_id : Nat}
    (ha : m.RetryVrfDelete vrf_id = some m') : Evolves h del sig m m' := by
  rcases VrfFlowMgmtTree.RetryDelete_step_vrf ha with hm | ⟨vrf, k1, e, _, hf, hcan, hstep, _⟩
  · rw [hm]
    exact Evolves.refl_evolves m
  · refine Evolves.of_step_evolves hstep ?_
    rw [hf]
    exact .one (Change.erase_of_can hcan)

theorem Evolves.Virtual_Delete_evolves {m m' : FlowMgmtManager} {t : TreeId} {key : FlowMgmtKey}
    {flow : Nat} {b : Bool} (ha : Virtual.Delete m t key flow = some (b, m')) :
    Evolves h del sig m m' := by
  obtain ⟨m1, h1, hcase⟩ := Virtual.Delete_some_virtual ha
  rcases hcase with hm | h2
  · rw [hm]
    exact Evolves.Delete_evolves h1
  · exact (Evolves.Delete_evolves h1).trans_evolves (Evolves.RetryVrfDelete_evolves h2)

theorem Evolves.OperEntryAdd_evolves {m m' : FlowMgmtManager} {t : TreeId} {req : FlowMgmtRequest}
    {key : FlowMgmtKey} {b : Bool}
    (ha : FlowMgmtTree.OperEntryAdd h m t req key = some (b, m')) :
    Evolves h del sig m m' := by
  obtain ⟨k1, e, hloc, hstep, _, _⟩ := FlowMgmtTree.OperEntryAdd_step ha
  exact Evolves.of_step_evolves hstep ((Changes.of_located hloc).trans_changes (.one (.addSeen k1 e)))

theorem Evolves.OperEntryChange_evolves {m m' : FlowMgmtManager} {t : TreeId} {req : FlowMgmtRequest}
    {key : FlowMgmtKey} {b : Bool}
    (ha : FlowMgmtTree.OperEntryChange m t req key = some (b, m')) :
    Evolves h del sig m m' := by
  rcases FlowMgmtTree.OperEntryChange_step ha with ⟨_, hm⟩ | ⟨k1, e, hf, hstep, _, _⟩
  · rw [hm]
    exact Evolves.refl_evolves m
  · refine Evolves.of_step_evolves hstep ?_
    rw [hf]
    exact .one (.addSeen k1 e)

theorem Evolves.OperEntryDelete_evolves {m m' : FlowMgmtManager} {t : TreeId} {req : FlowMgmtRequest}
    {key : FlowMgmtKey} {b : Bool} (hdel : del t key)
    (ha : FlowMgmtTree.OperEntryDelete m t req key = some (b, m')) :
    Evolves h del sig m m' := by
  rcases FlowMgmtTree.OperEntryDelete_step ha with
    ⟨_, heq, _, _, _⟩ | ⟨k1, e, m1, hf, _, hcase⟩
  · exact Evolves.of_tree_eq_evolves heq
  · rcases hcase with ⟨_, hstep, _, _⟩ | ⟨hcan, hstep, _, _, _⟩
    · refine Evolves.of_step_evolves hstep ?_
      rw [hf]
      exact .one (.delSeen key k1 e req.gen_id hdel (sameKey_refl key))
    · refine Evolves.of_step_evolves hstep ?_
      rw [hf]
      exact .cons (.delSeen key k1 e req.gen_id hdel (sameKey_refl key))
        (.one (Change.erase_of_can hcan))

theorem Evolves.Route_OperEntryAdd_evolves {m m' : FlowMgmtManager} {t : TreeId}
    {req : FlowMgmtRequest} {key : FlowMgmtKey} {b : Bool}
    (hreq : ∀ d, req.db_entry = some d →
      (key.type_ = .INET4 ∨ key.type_ = .INET6 ∨ key.type_ = .BRIDGE))
    (ha : RouteFlowMgmtTree.OperEntryAdd h m t req key = some (b, m')) :
    Evolves h del sig m m' := by
  obtain ⟨m1, hb, hcase⟩ := RouteFlowMgmtTree.OperEntryAdd_some ha
  have h1 : Evolves h del sig m m1 := Evolves.OperEntryAdd_evolves hb
  rcases hcase with ⟨_, hm⟩ | ⟨d, hd, hm⟩
  · rw [hm]
    exact h1
  · rw [hm]
    refine h1.trans_evolves (Evolves.of_step_evolves
      (FindStep.set_db_entry_findStep m1 t key (some d) (hreq d hd)) ?_)
    cases hf : (m1.tree t).find key with
    | none => exact .refl _
    | some p => exact .one (.setDb p.1 p.2 d)

theorem Evolves.Inet_OperEntryAdd_evolves {m m' : FlowMgmtManager} {t : TreeId}
    {req : FlowMgmtRequest} {key key' : FlowMgmtKey} {b : Bool}
    (hreq : ∀ d, req.db_entry = some d →
      (key.type_ = .INET4 ∨ key.type_ = .INET6 ∨ key.type_ = .BRIDGE))
    (ha : InetRouteFlowMgmtTree.OperEntryAdd h m t req key = some (b, key', m')) :
    Evolves h del sig m m' := by
  unfold InetRouteFlowMgmtTree.OperEntryAdd at ha
  cases hr : RouteFlowMgmtTree.OperEntryAdd h m t req key with
  | none => simp [hr] at ha
  | some r =>
    obtain ⟨ret, m1⟩ := r
    have h1 : Evolves h del sig m m1 := Evolves.Route_OperEntryAdd_evolves hreq hr
    have h2 : Evolves h del sig m (InetRouteFlowMgmtTree.AddToLPMTree m1 t key) :=
      h1.trans_evolves (Evolves.of_tree_eq_evolves
        (fun t' => by simp [InetRouteFlowMgmtTree.AddToLPMTree]))
    simp only [hr] at ha
    by_cases hp : key.plen_ > 0
    · simp only [hp, if_true] at ha
      cases hl : InetRouteFlowMgmtTree.LPM (InetRouteFlowMgmtTree.AddToLPMTree m1 t key) t
          (InetRouteFlowMgmtKey key.vrf_id_ key.ip_ (key.plen_ - 1)) with
      | none =>
        simp only [hl, Option.some.injEq, Prod.mk.injEq] at ha
        rw [← ha.2.2]
        exact h2
      | some c =>
        simp only [hl] at ha
        cases hc : RouteFlowMgmtTree.OperEntryAdd h
            (InetRouteFlowMgmtTree.AddToLPMTree m1 t key) t
            (FlowMgmtRequest.ofDB .ADD_DBENTRY none 0) c with
        | none => simp [hc] at ha
        | some r2 =>
          obtain ⟨b2, m3⟩ := r2
          simp only [hc, Option.some.injEq, Prod.mk.injEq] at ha
          rw [← ha.2.2]
          exact h2.trans_evolves (Evolves.Route_OperEntryAdd_evolves
            (fun d hd => by simp [FlowMgmtRequest.ofDB] at hd) hc)
    · simp only [hp, if_false, Option.some.injEq, Prod.mk.injEq] at ha
      rw [← ha.2.2]
      exact h2

theorem Evolves.Vrf_OperEntryAdd_evolves {m m' : FlowMgmtManager} {req : FlowMgmtRequest}
    {key : FlowMgmtKey} {b : Bool}
    (ha : VrfFlowMgmtTree.OperEntryAdd h m req key = some (b, m')) :
    Evolves h del sig m m' := by
  unfold VrfFlowMgmtTree.OperEntryAdd at ha
  cases hr : FlowMgmtTree.OperEntryAdd h m .vrf req key with
  | none => simp [hr] at ha
  | some r =>
    obtain ⟨ret, m1⟩ := r
    have h1 : Evolves h del sig m m1 := Evolves.OperEntryAdd_evolves hr
    simp only [hr] at ha
    cases hd : key.db_entry_ with
    | none => simp [hd] at ha
    | some vrf =>
      simp only [hd] at ha
      cases hf : List.find? (fun p => p.1 == vrf.vrf_id) m1.id_map_ with
      | some q =>
        simp only [hf, Option.some.injEq, Prod.mk.injEq] at ha
        rw [← ha.2]
        exact h1
      | none =>
        simp only [hf, Option.some.injEq, Prod.mk.injEq] at ha
        rw [← ha.2]
        exact h1.trans_evolves (Evolves.of_tree_eq_evolves (fun t => by cases t <;> rfl))

theorem Evolves.Route_OperEntryDelete_evolves {m m' : FlowMgmtManager} {t : TreeId}
    {req : FlowMgmtRequest} {key : FlowMgmtKey} {b : Bool} (hdel : del t key)
    (ha : RouteFlowMgmtTree.OperEntryDelete m t req key = some (b, m')) :
    Evolves h del sig m m' := by
  obtain ⟨m1, h1, h2⟩ := RouteFlowMgmtTree.OperEntryDelete_some ha
  exact (Evolves.OperEntryDelete_evolves hdel h1).trans_evolves (Evolves.RetryVrfDelete_evolves h2)

theorem Evolves.ProcessEvent_evolves {m m' : FlowMgmtManager} {t : TreeId} {req : FlowMgmtRequest}
    {key : FlowMgmtKey} {d : DBEntry} {b : Bool} (hK : DBEntryKey d = some (key, t))
    (hdel : req.event = .DELETE_DBENTRY → del t key)
    (ha : FlowMgmt.ProcessEvent h m req key t = some (b, m')) : Evolves h del sig m m' := by
  have hreq : t = .ip4_route ∨ t = .ip6_route ∨ t = .bridge_route → ∀ d', req.db_entry = some d' →
      (key.type_ = .INET4 ∨ key.type_ = .INET6 ∨ key.type_ = .BRIDGE) :=
    fun ht _ _ => DBEntryKey_route hK ht
  unfold FlowMgmt.ProcessEvent at ha
  cases hev : req.event with
  | ADD_DBENTRY =>
    simp only [hev] at ha
    cases hv : Virtual.OperEntryAdd h m t req key with
    | none => simp [hv] at ha
    | some r =>
      obtain ⟨b1, m1⟩ := r
      simp only [hv, Option.some.injEq, Prod.mk.injEq] at ha
      rw [← ha.2]
      cases t with
      | ip4_route =>
        simp only [Virtual.OperEntryAdd] at hv
        cases hi : InetRouteFlowMgmtTree.OperEntryAdd h m .ip4_route req key with
        | none => simp [hi] at hv
        | some r2 =>
          obtain ⟨b2, k2, m2⟩ := r2
          simp only [hi, Option.some.injEq, Prod.mk.injEq] at hv
          rw [← hv.2]
          exact Evolves.Inet_OperEntryAdd_evolves (hreq (Or.inl rfl)) hi
      | ip6_route =>
        simp only [Virtual.OperEntryAdd] at hv
        cases hi : InetRouteFlowMgmtTree.OperEntryAdd h m .ip6_route req key with
        | none => simp [hi] at hv
        | some r2 =>
          obtain ⟨b2, k2, m2⟩ := r2
          simp only [hi, Option.some.injEq, Prod.mk.injEq] at hv
          rw [← hv.2]
          exact Evolves.Inet_OperEntryAdd_evolves (hreq (Or.inr (Or.inl rfl))) hi
      | bridge_route => exact Evolves.Route_OperEntryAdd_evolves (hreq (Or.inr (Or.inr rfl))) hv
      | vrf => exact Evolves.Vrf_OperEntryAdd_evolves hv
      | acl => exact Evolves.OperEntryAdd_evolves hv
      | ace_id => exact Evolves.OperEntryAdd_evolves hv
      | interface => exact Evolves.OperEntryAdd_evolves hv
      | vn => exact Evolves.OperEntryAdd_evolves hv
      | nh => exact Evolves.OperEntryAdd_evolves hv
  | CHANGE_DBENTRY =>
    simp only [hev] at ha
    cases hv : Virtual.OperEntryChange m t req key with
    | none => simp [hv] at ha
    | some r =>
      obtain ⟨b1, m1⟩ := r
      simp only [hv, Option.some.injEq, Prod.mk.injEq] at ha
      rw [← ha.2]
      exact Evolves.OperEntryChange_evolves hv
  | DELETE_DBENTRY =>
    simp only [hev] at ha
    have hd := hdel hev
    cases hv : Virtual.OperEntryDelete m t req key with
    | none => simp [hv] at ha
    | some r =>
      obtain ⟨b1, m1⟩ := r
      simp only [hv, Option.some.injEq, Prod.mk.injEq] at ha
      rw [← ha.2]
      have hlpm : ∀ l, Evolves h del sig m (m.setLpm t l) :=
        fun l => Evolves.of_tree_eq_evolves (fun t' => tree_setLpm m t l t')
      cases t with
      | ip4_route => exact (hlpm _).trans_evolves (Evolves.Route_OperEntryDelete_evolves hd hv)
      | ip6_route => exact (hlpm _).trans_evolves (Evolves.Route_OperEntryDelete_evolves hd hv)
      | bridge_route => exact Evolves.Route_OperEntryDelete_evolves hd hv
      | vrf => exact Evolves.OperEntryDelete_evolves hd hv
      | acl => exact Evolves.OperEntryDelete_evolves hd hv
      | ace_id => exact Evolves.OperEntryDelete_evolves hd hv
      | interface => exact Evolves.OperEntryDelete_evolves hd hv
      | vn => exact Evolves.OperEntryDelete_evolves hd hv
      | nh => exact Evolves.OperEntryDelete_evolves hd hv
  | INVALID => simp [hev] at ha
  | ADD_FLOW => simp [hev] at ha
  | DELETE_FLOW => simp [hev] at ha
  | RETRY_DELETE_VRF => simp [hev] at ha

theorem Evolves.DBEntryRequestHandler_evolves {m m' : FlowMgmtManager} {req : FlowMgmtRequest}
    {b : Bool} (ha : m.DBEntryRequestHandler h req req.db_entry = some (b, m')) :
    Evolves h (deletes req) sig m m' := by
  rw [FlowMgmtManager.DBEntryRequestHandler_eq] at ha
  cases hd : req.db_entry with
  | none => simp [hd] at ha
  | some d =>
    simp only [hd] at ha
    cases hK : DBEntryKey d with
    | none => simp [hK] at ha
    | some r =>
      obtain ⟨key, t⟩ := r
      simp only [hK] at ha
      exact Evolves.ProcessEvent_evolves hK (fun hev => ⟨hev, d, hd, hK⟩) ha

/-! ### The operations of a flow -/

theorem Evolves.AddFlowMgmtKey_evolves {m m' : FlowMgmtManager} {flow : FlowEntry}
    {key : FlowMgmtKey} (ha : m.AddFlowMgmtKey h flow key = some m') :
    Evolves h del sig m m' := by
  obtain ⟨info, t, b, m2, _, _, hadd, hcase⟩ := FlowMgmtManager.AddFlowMgmtKey_some ha
  have h1 : Evolves h del sig m m2 :=
    (Evolves.of_tree_eq_evolves (fun t' => tree_setInfo m _ _ t')).trans_evolves
      (Evolves.Add_evolves hadd)
  rcases hcase with ⟨_, hm⟩ | ⟨_, k1, entry, hf, hm⟩
  · rw [hm]
    exact h1
  · rw [hm]
    refine h1.trans_evolves ((Evolves.of_step_evolves (FindStep.setEntry m2 .vn key _)
      ?_).trans_evolves (Evolves.of_tree_eq_evolves (fun t' => tree_setInfo _ _ _ t')))
    rw [hf]
    exact .one (.onAdd k1 entry flow b info.local_flow_ info.ingress_)

theorem Evolves.DeleteFlowMgmtKey_evolves {m m' : FlowMgmtManager} {flow : FlowEntry}
    {key : FlowMgmtKey} (ha : m.DeleteFlowMgmtKey flow key = some m') :
    Evolves h del sig m m' := by
  obtain ⟨info, t, b, m1, _, _, hd, hcase⟩ := FlowMgmtManager.DeleteFlowMgmtKey_some ha
  have h1 : Evolves h del sig m m1 := Evolves.Virtual_Delete_evolves hd
  rcases hcase with ⟨_, hm⟩ | ⟨_, hm⟩
  · rw [hm]
    exact h1
  · rw [hm]
    refine h1.trans_evolves (Evolves.trans_evolves ?_
      (Evolves.of_tree_eq_evolves (fun t' => tree_setInfo _ _ _ t')))
    cases hf : (m1.tree .vn).find key with
    | none => exact Evolves.refl_evolves m1
    | some p =>
      obtain ⟨k1, entry⟩ := p
      simp only
      refine Evolves.of_step_evolves (FindStep.setEntry m1 .vn key _) ?_
      rw [hf]
      exact .one (.onDel k1 entry flow info.local_flow_ info.ingress_)

theorem tree_eraseInfoKey (m : FlowMgmtManager) (f : Nat) (k : FlowMgmtKey) (t : TreeId) :
    (m.eraseInfoKey f k).tree t = m.tree t := by
  unfold FlowMgmtManager.eraseInfoKey
  cases m.FindFlowEntryInfo f with
  | none => rfl
  | some info => exact tree_setInfo _ _ _ _

theorem Evolves.applyOp_evolves {m m' : FlowMgmtManager} {flow : FlowEntry} {op : KeyOp}
    (ha : applyOp h flow m op = some m') : Evolves h del sig m m' := by
  cases op with
  | add k => exact Evolves.AddFlowMgmtKey_evolves ha
  | del k =>
    unfold applyOp at ha
    cases hd : m.DeleteFlowMgmtKey flow k with
    | none => simp [hd] at ha
    | some m1 =>
      simp only [hd, Option.some.injEq] at ha
      rw [← ha]
      exact (Evolves.DeleteFlowMgmtKey_evolves hd).trans_evolves
        (Evolves.of_tree_eq_evolves (fun t' => tree_eraseInfoKey _ _ _ t'))

theorem Evolves.applyOps_evolves {flow : FlowEntry} (ops : List KeyOp) :
    ∀ {m m' : FlowMgmtManager}, applyOps h flow ops m = some m' → Evolves h del sig m m' := by
  induction ops with
  | nil =>
    intro m m' ha
    simp only [applyOps, Option.some.injEq] at ha
    rw [← ha]
    exact Evolves.refl_evolves m
  | cons op ops ih =>
    intro m m' ha
    unfold applyOps at ha
    cases h1 : applyOp h flow m op with
    | none => simp [h1] at ha
    | some m1 =>
      simp only [h1] at ha
      exact (Evolves.applyOp_evolves h1).trans_evolves (ih ha)

theorem Evolves.AddFlow_evolves {m m' : FlowMgmtManager} {flow : FlowEntry}
    (ha : m.AddFlow h flow = some m') : Evolves h del sig m m' := by
  rw [AddFlow_eq] at ha
  exact (Evolves.of_tree_eq_evolves (AddFlowStart_spec m flow.id).2.2.2.1).trans_evolves
    (Evolves.applyOps_evolves _ ha)

theorem Evolves.DeleteFlow_evolves {m m' : FlowMgmtManager} {flow : FlowEntry}
    (ha : m.DeleteFlow flow = some m') : Evolves h del sig m m' := by
  unfold FlowMgmtManager.DeleteFlow at ha
  cases hf : m.FindFlowEntryInfo flow.id with
  | none =>
    simp only [hf, Option.some.injEq] at ha
    rw [← ha]
    exact Evolves.refl_evolves m
  | some old_info =>
    simp only [hf] at ha
    rw [DeleteFlowLoop_eq h] at ha
    cases hl : applyOps h flow (List.map KeyOp.del old_info.tree_)
        (m.setInfo flow.id { old_info with count_ := old_info.count_ + 1 }) with
    | none => simp [hl] at ha
    | some m2 =>
      simp only [hl] at ha
      have h2 : Evolves h del sig m m2 :=
        (Evolves.of_tree_eq_evolves (fun t' => tree_setInfo m _ _ t')).trans_evolves
          (Evolves.applyOps_evolves _ hl)
      cases hf2 : m2.FindFlowEntryInfo flow.id with
      | none => simp [hf2] at ha
      | some info2 =>
        simp only [hf2] at ha
        by_cases hlen : info2.tree_.length ≠ 0
        · simp [hlen] at ha
        · simp only [hlen, if_false] at ha
          unfold FlowMgmtManager.DeleteFlowEntryInfo at ha
          simp only [hf2, hlen, if_false, Option.some.injEq] at ha
          rw [← ha]
          exact h2.trans_evolves (Evolves.of_tree_eq_evolves
            (fun t' => tree_with_flow_tree m2 _ t'))

/-! ### Requests and signals -/

theorem Evolves.RequestHandler_evolves {m m' : FlowMgmtManager} {req : FlowMgmtRequest}
    (ha : m.RequestHandler h req = some m') : Evolves h (deletes req) sig m m' := by
  unfold FlowMgmtManager.RequestHandler at ha
  cases hev : req.event with
  | ADD_FLOW =>
    simp only [hev] at ha
    cases hfl : req.flow with
    | none => simp [hfl] at ha
    | some flow =>
      simp only [hfl] at ha
      exact Evolves.AddFlow_evolves ha
  | DELETE_FLOW =>
    simp only [hev] at ha
    cases hfl : req.flow with
    | none => simp [hfl] at ha
    | some flow =>
      simp only [hfl] at ha
      cases hd : m.DeleteFlow flow with
      | none => simp [hd] at ha
      | some m1 =>
        simp only [hd, Option.some.injEq] at ha
        rw [← ha]
        exact (Evolves.DeleteFlow_evolves hd).trans_evolves
          (Evolves.of_tree_eq_evolves (fun t' => tree_ResponseEnqueue _ _ t'))
  | ADD_DBENTRY =>
    simp only [hev] at ha
    cases hd : m.DBEntryRequestHandler h req req.db_entry with
    | none => simp [hd] at ha
    | some r =>
      simp only [hd, Option.some.injEq] at ha
      rw [← ha]
      exact Evolves.DBEntryRequestHandler_evolves hd
  | CHANGE_DBENTRY =>
    simp only [hev] at ha
    cases hd : m.DBEntryRequestHandler h req req.db_entry with
    | none => simp [hd] at ha
    | some r =>
      simp only [hd, Option.some.injEq] at ha
      rw [← ha]
      exact Evolves.DBEntryRequestHandler_evolves hd
  | DELETE_DBENTRY =>
    simp only [hev] at ha
    cases hd : m.DBEntryRequestHandler h req req.db_entry with
    | none => simp [hd] at ha
    | some r =>
      simp only [hd, Option.some.injEq] at ha
      rw [← ha]
      exact Evolves.DBEntryRequestHandler_evolves hd
  | RETRY_DELETE_VRF =>
    simp only [hev] at ha
    exact Evolves.RetryVrfDelete_evolves ha
  | INVALID => simp [hev] at ha

theorem Evolves.RunRequests_evolves (reqs : List FlowMgmtRequest) :
    ∀ {m m' : FlowMgmtManager}, FlowMgmtManager.RunRequests h m reqs = some m' →
      Evolves h (fun _ _ => True) sig m m' := by
  induction reqs with
  | nil =>
    intro m m' ha
    simp only [FlowMgmtManager.RunRequests, Option.some.injEq] at ha
    rw [← ha]
    exact Evolves.refl_evolves m
  | cons req rest ih =>
    intro m m' ha
    unfold FlowMgmtManager.RunRequests at ha
    cases h1 : m.RequestHandler h req with
    | none => simp [h1] at ha
    | some m1 =>
      simp only [h1] at ha
      exact ((Evolves.RequestHandler_evolves h1).mono_evolves (fun _ _ _ => trivial)
        (fun hs => hs)).trans_evolves (ih ha)

theorem Evolves.ManagedDelete_evolves {m m' : FlowMgmtManager} {key : FlowMgmtKey}
    {slot : RouteTableSlot} (ha : VrfFlowMgmtEntry.ManagedDelete m key slot = some m') :
    Evolves h del True m m' := by
  rw [VrfFlowMgmtEntry.ManagedDelete_eq] at ha
  cases hf : (m.tree .vrf).find key with
  | none =>
    simp only [hf, Option.some.injEq] at ha
    rw [← ha]
    exact Evolves.refl_evolves m
  | some p =>
    simp only [hf] at ha
    have h1 : Evolves h del True m
        (m.setTree .vrf ((m.tree .vrf).setEntry key (p.2.flagged slot))) := by
      refine Evolves.of_step_evolves (FindStep.setEntry m .vrf key _) ?_
      rw [hf]
      exact .one (.flag p.1 p.2 slot trivial rfl)
    cases hc : VrfFlowMgmtEntry.CanDelete
        (m.setTree .vrf ((m.tree .vrf).setEntry key (p.2.flagged slot)))
        (p.2.flagged slot) with
    | none => simp [hc] at ha
    | some c =>
      cases c with
      | true =>
        simp only [hc, Option.some.injEq] at ha
        rw [← ha]
        exact h1.trans_evolves (Evolves.of_tree_eq_evolves (fun t' => by cases t' <;> rfl))
      | false =>
        simp only [hc, Option.some.injEq] at ha
        rw [← ha]
        exact h1

theorem Evolves.RunEvents_evolves (evs : List Event) :
    ∀ {m m' : FlowMgmtManager}, RunEvents h m evs = some m' →
      Evolves h (fun _ _ => True) True m m' := by
  induction evs with
  | nil =>
    intro m m' ha
    simp only [RunEvents, Option.some.injEq] at ha
    rw [← ha]
    exact Evolves.refl_evolves m
  | cons ev rest ih =>
    intro m m' ha
    unfold RunEvents at ha
    cases h1 : HandleEvent h m ev with
    | none => simp [h1] at ha
    | some m1 =>
      simp only [h1] at ha
      refine Evolves.trans_evolves ?_ (ih ha)
      cases ev with
      | request req =>
        exact (Evolves.RequestHandler_evolves h1).mono_evolves (fun _ _ _ => trivial)
          (fun hs => hs)
      | managedDelete vrf slot => exact Evolves.ManagedDelete_evolves h1

theorem Evolves.findAll_evolves {P : FlowMgmtEntry → Prop} {m m' : FlowMgmtManager}
    (hev : Evolves h del sig m m')
    (hP : ∀ t k a b, Change h del sig t k a b → (∀ p, a = some p → P p.2) →
      ∀ p, b = some p → P p.2)
    (hall : ∀ t k p, (m.tree t).find k = some p → P p.2) :
    ∀ t k p, (m'.tree t).find k = some p → P p.2 :=
  fun t k => hev.preserves (Q := fun _ _ a => ∀ p, a = some p → P p.2) hP t k (hall t k)

end Evolution

/-! ## The assertion of `CanDelete` -/

theorem FlowMgmtEntry.flagged_state (e : FlowMgmtEntry) (slot : RouteTableSlot) :
    (e.flagged slot).oper_state_ = e.oper_state_ ∧ (e.flagged slot).tree_ = e.tree_ := by
  cases slot <;> exact ⟨rfl, rfl⟩

theorem Change.state_valid {h : Hdr} {del : TreeId → FlowMgmtKey → Prop} {sig : Prop}
    (hinit : h.oper_state_init ≠ .INVALID) {t : TreeId} {k : FlowMgmtKey}
    {a b : Option (FlowMgmtKey × FlowMgmtEntry)} (hc : Change h del sig t k a b)
    (ha : ∀ p, a = some p → p.2.oper_state_ ≠ .INVALID) :
    ∀ p, b = some p → p.2.oper_state_ ≠ .INVALID := by
  intro p hp
  cases hc with
  | create key e _ h2 =>
    simp only [Option.some.injEq] at hp
    rw [← hp, (FlowMgmtTree.Allocate_some h2).2.1]
    exact hinit
  | add k1 e f =>
    simp only [Option.some.injEq] at hp
    rw [← hp, (FlowMgmtEntry.Add_state e f).1]
    exact ha _ rfl
  | delete k1 e f =>
    simp only [Option.some.injEq] at hp
    rw [← hp, (FlowMgmtEntry.Delete_state e f).1]
    exact ha _ rfl
  | erase k1 e _ _ _ => simp at hp
  | addSeen k1 e =>
    simp only [Option.some.injEq] at hp
    rw [← hp]
    simp [FlowMgmtEntry.addSeen]
  | delSeen K k1 e g _ _ =>
    simp only [Option.some.injEq] at hp
    rw [← hp]
    simp [FlowMgmtEntry.delSeen]
  | setDb k1 e d =>
    simp only [Option.some.injEq] at hp
    rw [← hp]
    exact ha (k1, e) rfl
  | onAdd k1 e flow a1 l i =>
    simp only [Option.some.injEq] at hp
    rw [← hp, (VnFlowMgmtEntry.UpdateCounterOnAdd_same e flow a1 l i).2.1]
    exact ha _ rfl
  | onDel k1 e flow l i =>
    simp only [Option.some.injEq] at hp
    rw [← hp, (VnFlowMgmtEntry.UpdateCounterOnDel_same e flow l i).2.1]
    exact ha _ rfl
  | flag k1 e slot _ _ =>
    simp only [Option.some.injEq] at hp
    rw [← hp, (FlowMgmtEntry.flagged_state e slot).1]
    exact ha _ rfl

theorem FlowMgmtEntry.CanDelete_none_iff (e : FlowMgmtEntry) :
    e.CanDelete = none ↔ e.oper_state_ = .INVALID := by
  unfold FlowMgmtEntry.CanDelete
  by_cases hs : e.oper_state_ = .INVALID
  · simp [hs]
  · rw [if_neg hs]
    constructor
    · intro hc
      split at hc <;> simp at hc
    · intro hc
      exact absurd hc hs

theorem Entry.CanDelete_none_dispatch (m : FlowMgmtManager) (t : TreeId) (e : FlowMgmtEntry) :
    Entry.CanDelete m t e = none ↔ e.oper_state_ = .INVALID := by
  rw [← FlowMgmtEntry.CanDelete_none_iff]
  by_cases ht : t = .vrf
  · subst ht
    show VrfFlowMgmtEntry.CanDelete m e = none ↔ _
    unfold VrfFlowMgmtEntry.CanDelete
    cases hc : e.CanDelete with
    | none => simp
    | some c =>
      cases c with
      | false => simp
      | true =>
        simp only
        split <;> simp
  · rw [Entry.CanDelete_of_ne_vrf m t e ht]

/-- The assertion of `CanDelete` under an assumption on the constructor, which
is declared in flow_mgmt.h: when the constructor of an entry leaves
`oper_state_` at a value other
than INVALID, then after every list of requests and managed-delete signals
processed from the empty manager, every entry an index answers has an
`oper_state_` other than INVALID, and so has what `CanDelete` is evaluated on:
the entry after a flow is erased from it, after a DELETE is recorded in it, and
after a slot is flagged in it. `CanDelete`, of an entry of any index, fails its
assertion exactly when `oper_state_` is INVALID; with a constructor that leaves
`oper_state_` at INVALID, the add of a flow followed by its delete aborts. -/
theorem oper_state_never_invalid (h : Hdr) (hinit : h.oper_state_init ≠ .INVALID)
    (evs : List Event) (m : FlowMgmtManager)
    (hrun : RunEvents h FlowMgmtManager.empty evs = some m) :
    (∀ t k p, (m.tree t).find k = some p →
      p.2.oper_state_ ≠ .INVALID ∧ Entry.CanDelete m t p.2 ≠ none ∧
      (∀ f, (p.2.Delete f).2.oper_state_ ≠ .INVALID) ∧
      (∀ g, (p.2.delSeen g).oper_state_ ≠ .INVALID) ∧
      (∀ slot, (p.2.flagged slot).oper_state_ ≠ .INVALID)) ∧
    (∀ (m0 : FlowMgmtManager) (t : TreeId) (e : FlowMgmtEntry),
      Entry.CanDelete m0 t e = none ↔ e.oper_state_ = .INVALID) ∧
    (∀ t key e, FlowMgmtTree.Allocate h t key = some e → e.oper_state_ ≠ .INVALID) ∧
    FlowMgmtManager.RunRequests ⟨.INVALID⟩ FlowMgmtManager.empty
      [addFlowReq s3Flow, delFlowReq s3Flow] = none := by
  have hall : ∀ t k p, (m.tree t).find k = some p → p.2.oper_state_ ≠ .INVALID := by
    refine Evolves.findAll_evolves (P := fun e => e.oper_state_ ≠ .INVALID)
      (Evolves.RunEvents_evolves evs hrun)
      (fun t k a b hc ha => Change.state_valid hinit hc ha) ?_
    intro t k p hf
    cases t <;> simp [FlowMgmtManager.empty, FlowMgmtManager.tree, Tree.find] at hf
  refine ⟨?_, Entry.CanDelete_none_dispatch, ?_, by decide⟩
  · intro t k p hf
    have hs := hall t k p hf
    refine ⟨hs, ?_, ?_, ?_, ?_⟩
    · intro hc
      exact hs ((Entry.CanDelete_none_dispatch m t p.2).1 hc)
    · intro f
      rw [(FlowMgmtEntry.Delete_state p.2 f).1]
      exact hs
    · intro g
      simp [FlowMgmtEntry.delSeen]
    · intro slot
      rw [(FlowMgmtEntry.flagged_state p.2 slot).1]
      exact hs
  · intro t key e hal
    rw [(FlowMgmtTree.Allocate_some hal).2.1]
    exact hinit

/-! ## Instances -/

/-- An instance of `oper_state_never_invalid`: after the events
`vrfTeardownEvents` the entry of the
default route of the VRF 5, created by the add of a flow, is in the state the
constructor left it in. -/
theorem oper_state_never_invalid_witness :
    hdrOther.oper_state_init ≠ .INVALID ∧
    RunEvents hdrOther FlowMgmtManager.empty vrfTeardownEvents = some teardownState ∧
    ((teardownState.tree .ip4_route).find (InetRouteFlowMgmtKey 5 (.v4 0) 0)).map
      (fun p => p.2.oper_state_) = some .OPER_OTHER ∧
    ∀ t k p, (teardownState.tree t).find k = some p → p.2.oper_state_ ≠ .INVALID :=
  ⟨by decide, by decide, by decide, fun t k p hf =>
    ((oper_state_never_invalid hdrOther (by decide) vrfTeardownEvents teardownState
      (by decide)).1 t k p hf).1⟩

/-! ## The assertion of `FreeNotify` -/

theorem liveAfter_other {live : List (TreeId × FlowMgmtKey)} {req : FlowMgmtRequest}
    (h1 : req.event ≠ .ADD_DBENTRY) (h2 : req.event ≠ .DELETE_DBENTRY) :
    liveAfter live req = live := by
  unfold liveAfter
  cases hev : req.event <;> first | exact absurd hev h1 | exact absurd hev h2 | rfl

theorem sameKey_db_some {a b : FlowMgmtKey} (hs : SameKey a b = true)
    (ht : b.type_ ≠ .INET4 ∧ b.type_ ≠ .INET6 ∧ b.type_ ≠ .BRIDGE ∧ b.type_ ≠ .ACE_ID)
    (hb : ∃ d, b.db_entry_ = some d) : ∃ d, a.db_entry_ = some d := by
  have hty := sameKey_type hs
  have hr := sameKey_iff.1 hs
  obtain ⟨d, hd⟩ := hb
  obtain ⟨h1, h2, h3, h4⟩ := ht
  unfold FlowMgmtKey.rank FlowMgmtKey.disc at hr
  rw [hty, hd] at hr
  cases ha : a.db_entry_ with
  | some d' => exact ⟨d', rfl⟩
  | none =>
    rw [ha] at hr
    cases hbt : b.type_ <;> rw [hbt] at hr h1 h2 h3 h4 <;>
      first
      | exact absurd rfl h1
      | exact absurd rfl h2
      | exact absurd rfl h3
      | exact absurd rfl h4
      | (simp [ptrCode] at hr)

theorem Change.delSeen_has_db {h : Hdr} (hinit : h.oper_state_init ≠ .OPER_DEL_SEEN)
    {t : TreeId} {k : FlowMgmtKey} {a b : Option (FlowMgmtKey × FlowMgmtEntry)}
    (hc : Change h (fun _ _ => False) False t k a b)
    (ha : ∀ p, a = some p → p.2.oper_state_ = .OPER_DEL_SEEN → ∃ d, p.1.db_entry_ = some d) :
    ∀ p, b = some p → p.2.oper_state_ = .OPER_DEL_SEEN → ∃ d, p.1.db_entry_ = some d := by
  intro p hp hs
  cases hc with
  | create key e _ h2 =>
    simp only [Option.some.injEq] at hp
    rw [← hp] at hs
    simp only at hs
    rw [(FlowMgmtTree.Allocate_some h2).2.1] at hs
    exact absurd hs hinit
  | add k1 e f =>
    simp only [Option.some.injEq] at hp
    rw [← hp] at hs ⊢
    simp only at hs
    rw [(FlowMgmtEntry.Add_state e f).1] at hs
    exact ha (k1, e) rfl hs
  | delete k1 e f =>
    simp only [Option.some.injEq] at hp
    rw [← hp] at hs ⊢
    simp only at hs
    rw [(FlowMgmtEntry.Delete_state e f).1] at hs
    exact ha (k1, e) rfl hs
  | erase k1 e _ _ _ => simp at hp
  | addSeen k1 e =>
    simp only [Option.some.injEq] at hp
    rw [← hp] at hs
    simp [FlowMgmtEntry.addSeen] at hs
  | delSeen K k1 e g h1 _ => exact absurd h1 (fun hf => hf)
  | setDb k1 e d =>
    simp only [Option.some.injEq] at hp
    rw [← hp]
    exact ⟨d, rfl⟩
  | onAdd k1 e flow a1 l i =>
    simp only [Option.some.injEq] at hp
    rw [← hp] at hs ⊢
    simp only at hs
    rw [(VnFlowMgmtEntry.UpdateCounterOnAdd_same e flow a1 l i).2.1] at hs
    exact ha (k1, e) rfl hs
  | onDel k1 e flow l i =>
    simp only [Option.some.injEq] at hp
    rw [← hp] at hs ⊢
    simp only at hs
    rw [(VnFlowMgmtEntry.UpdateCounterOnDel_same e flow l i).2.1] at hs
    exact ha (k1, e) rfl hs
  | flag k1 e slot h1 _ => exact absurd h1 (fun hf => hf)

theorem Change.addSeen_with_db {h : Hdr} {t : TreeId} {k : FlowMgmtKey}
    {a b : Option (FlowMgmtKey × FlowMgmtEntry)}
    (hc : Change h (fun _ _ => False) False t k a b) (ha : AddSeenWithDB a) :
    AddSeenWithDB b := by
  obtain ⟨p, hp, hs, hd⟩ := ha
  cases hc with
  | create key e _ _ => simp at hp
  | add k1 e f =>
    simp only [Option.some.injEq] at hp
    rw [← hp] at hs hd
    exact ⟨_, rfl, by rw [(FlowMgmtEntry.Add_state e f).1]; exact hs, hd⟩
  | delete k1 e f =>
    simp only [Option.some.injEq] at hp
    rw [← hp] at hs hd
    exact ⟨_, rfl, by rw [(FlowMgmtEntry.Delete_state e f).1]; exact hs, hd⟩
  | erase k1 e _ h2 _ =>
    simp only [Option.some.injEq] at hp
    rw [← hp] at hs
    exact absurd hs h2
  | addSeen k1 e =>
    simp only [Option.some.injEq] at hp
    rw [← hp] at hd
    exact ⟨_, rfl, rfl, hd⟩
  | delSeen K k1 e g h1 _ => exact absurd h1 (fun hf => hf)
  | setDb k1 e d =>
    simp only [Option.some.injEq] at hp
    rw [← hp] at hs
    exact ⟨_, rfl, hs, d, rfl⟩
  | onAdd k1 e flow a1 l i =>
    simp only [Option.some.injEq] at hp
    rw [← hp] at hs hd
    exact ⟨_, rfl,
      by rw [(VnFlowMgmtEntry.UpdateCounterOnAdd_same e flow a1 l i).2.1]; exact hs, hd⟩
  | onDel k1 e flow l i =>
    simp only [Option.some.injEq] at hp
    rw [← hp] at hs hd
    exact ⟨_, rfl,
      by rw [(VnFlowMgmtEntry.UpdateCounterOnDel_same e flow l i).2.1]; exact hs, hd⟩
  | flag k1 e slot h1 _ => exact absurd h1 (fun hf => hf)

theorem DelSeenHasDB.evolves_delSeen {h : Hdr} (hinit : h.oper_state_init ≠ .OPER_DEL_SEEN)
    {m m' : FlowMgmtManager} (hev : Evolves h (fun _ _ => False) False m m')
    (hg : DelSeenHasDB m) : DelSeenHasDB m' :=
  fun t k => hev.preserves
    (Q := fun _ _ a => ∀ p, a = some p → p.2.oper_state_ = .OPER_DEL_SEEN →
      ∃ d, p.1.db_entry_ = some d)
    (fun _ _ _ _ hc ha => Change.delSeen_has_db hinit hc ha) t k (hg t k)

theorem LiveHaveDB.evolves_live {h : Hdr} {live : List (TreeId × FlowMgmtKey)}
    {m m' : FlowMgmtManager} (hev : Evolves h (fun _ _ => False) False m m')
    (hg : LiveHaveDB live m) : LiveHaveDB live m' :=
  fun p hp => hev.preserves (Q := fun _ _ a => AddSeenWithDB a)
    (fun _ _ _ _ hc ha => Change.addSeen_with_db hc ha) p.1 p.2 (hg p hp)

theorem Evolves.no_delete {h : Hdr} {m m' : FlowMgmtManager} {req : FlowMgmtRequest}
    (hne : req.event ≠ .DELETE_DBENTRY) (ha : m.RequestHandler h req = some m') :
    Evolves h (fun _ _ => False) False m m' :=
  have hev : Evolves h (deletes req) False m m' := Evolves.RequestHandler_evolves ha
  hev.mono_evolves (fun _ _ hd => hne hd.1) (fun hs => hs)

theorem RouteFlowMgmtTree.OperEntryAdd_live_route {h : Hdr} {m m' : FlowMgmtManager} {t : TreeId}
    {req : FlowMgmtRequest} {key : FlowMgmtKey} {d : DBEntry} {b : Bool}
    (hty : key.type_ = .INET4 ∨ key.type_ = .INET6 ∨ key.type_ = .BRIDGE)
    (hd : req.db_entry = some d)
    (ha : RouteFlowMgmtTree.OperEntryAdd h m t req key = some (b, m')) :
    AddSeenWithDB ((m'.tree t).find key) := by
  obtain ⟨m1, hb, hcase⟩ := RouteFlowMgmtTree.OperEntryAdd_some ha
  obtain ⟨k1, e, _, hstep, _, _⟩ := FlowMgmtTree.OperEntryAdd_step hb
  rcases hcase with ⟨hn, _⟩ | ⟨d', hd', hm⟩
  · rw [hd] at hn
    exact absurd hn (by simp)
  · have h2 := (FindStep.set_db_entry_findStep m1 t key (some d') hty).at_key
    rw [hstep.at_key] at h2
    rw [hm, h2]
    exact ⟨_, rfl, rfl, d', rfl⟩

theorem FlowMgmtTree.OperEntryAdd_live {h : Hdr} {m m' : FlowMgmtManager} {t : TreeId}
    {req : FlowMgmtRequest} {key : FlowMgmtKey} {b : Bool}
    (hty : key.type_ ≠ .INET4 ∧ key.type_ ≠ .INET6 ∧ key.type_ ≠ .BRIDGE ∧
      key.type_ ≠ .ACE_ID)
    (hdb : ∃ d, key.db_entry_ = some d)
    (ha : FlowMgmtTree.OperEntryAdd h m t req key = some (b, m')) :
    AddSeenWithDB ((m'.tree t).find key) := by
  obtain ⟨k1, e, hloc, hstep, _, _⟩ := FlowMgmtTree.OperEntryAdd_step ha
  rw [hstep.at_key]
  exact ⟨_, rfl, rfl, sameKey_db_some hloc.same_located hty hdb⟩

theorem AddSeenWithDB.of_tree_eq_addSeen {m m' : FlowMgmtManager} {t : TreeId} {key : FlowMgmtKey}
    (heq : ∀ t', m'.tree t' = m.tree t') (ha : AddSeenWithDB ((m.tree t).find key)) :
    AddSeenWithDB ((m'.tree t).find key) := by
  rw [heq t]
  exact ha

theorem InetRouteFlowMgmtTree.OperEntryAdd_live_inet_route {h : Hdr} {m m' : FlowMgmtManager}
    {t : TreeId} {req : FlowMgmtRequest} {key key' : FlowMgmtKey} {d : DBEntry} {b : Bool}
    (hty : key.type_ = .INET4 ∨ key.type_ = .INET6 ∨ key.type_ = .BRIDGE)
    (hd : req.db_entry = some d)
    (ha : InetRouteFlowMgmtTree.OperEntryAdd h m t req key = some (b, key', m')) :
    AddSeenWithDB ((m'.tree t).find key) := by
  unfold InetRouteFlowMgmtTree.OperEntryAdd at ha
  cases hr : RouteFlowMgmtTree.OperEntryAdd h m t req key with
  | none => simp [hr] at ha
  | some r =>
    obtain ⟨ret, m1⟩ := r
    have h1 := RouteFlowMgmtTree.OperEntryAdd_live_route hty hd hr
    have h2 : AddSeenWithDB (((InetRouteFlowMgmtTree.AddToLPMTree m1 t key).tree t).find key) :=
      AddSeenWithDB.of_tree_eq_addSeen (fun t' => by simp [InetRouteFlowMgmtTree.AddToLPMTree]) h1
    simp only [hr] at ha
    by_cases hp : key.plen_ > 0
    · simp only [hp, if_true] at ha
      cases hl : InetRouteFlowMgmtTree.LPM (InetRouteFlowMgmtTree.AddToLPMTree m1 t key) t
          (InetRouteFlowMgmtKey key.vrf_id_ key.ip_ (key.plen_ - 1)) with
      | none =>
        simp only [hl, Option.some.injEq, Prod.mk.injEq] at ha
        rw [← ha.2.2]
        exact h2
      | some c =>
        simp only [hl] at ha
        cases hc : RouteFlowMgmtTree.OperEntryAdd h
            (InetRouteFlowMgmtTree.AddToLPMTree m1 t key) t
            (FlowMgmtRequest.ofDB .ADD_DBENTRY none 0) c with
        | none => simp [hc] at ha
        | some r2 =>
          obtain ⟨b2, m3⟩ := r2
          simp only [hc, Option.some.injEq, Prod.mk.injEq] at ha
          rw [← ha.2.2]
          have hev : Evolves h (fun _ _ => False) False
              (InetRouteFlowMgmtTree.AddToLPMTree m1 t key) m3 :=
            Evolves.Route_OperEntryAdd_evolves
              (fun d hd => by simp [FlowMgmtRequest.ofDB] at hd) hc
          exact hev.preserves (Q := fun _ _ a => AddSeenWithDB a)
            (fun _ _ _ _ hc ha => Change.addSeen_with_db hc ha) t key h2
    · simp only [hp, if_false, Option.some.injEq, Prod.mk.injEq] at ha
      rw [← ha.2.2]
      exact h2

theorem DBEntryKey_plain {d : DBEntry} {key : FlowMgmtKey} {t : TreeId}
    (hK : DBEntryKey d = some (key, t))
    (ht : t ≠ .ip4_route ∧ t ≠ .ip6_route ∧ t ≠ .bridge_route) :
    key.type_ ≠ .INET4 ∧ key.type_ ≠ .INET6 ∧ key.type_ ≠ .BRIDGE ∧ key.type_ ≠ .ACE_ID := by
  obtain ⟨h4, h6, hb⟩ := ht
  cases d with
  | InetUnicastRouteEntry p v addr plen =>
    simp only [DBEntryKey, Option.some.injEq, Prod.mk.injEq] at hK
    cases addr <;> simp [IpAddress.is_v4] at hK
    · exact absurd hK.2.symm h4
    · exact absurd hK.2.symm h6
  | BridgeRouteEntry p v mac =>
    simp only [DBEntryKey, Option.some.injEq, Prod.mk.injEq] at hK
    exact absurd hK.2.symm hb
  | Interface p =>
    simp only [DBEntryKey, Option.some.injEq, Prod.mk.injEq] at hK
    rw [← hK.1]
    simp [InterfaceFlowMgmtKey, FlowMgmtKey.ofDB]
  | VnEntry p =>
    simp only [DBEntryKey, Option.some.injEq, Prod.mk.injEq] at hK
    rw [← hK.1]
    simp [VnFlowMgmtKey, FlowMgmtKey.ofDB]
  | AclDBEntry p =>
    simp only [DBEntryKey, Option.some.injEq, Prod.mk.injEq] at hK
    rw [← hK.1]
    simp [AclFlowMgmtKey, FlowMgmtKey.ofDB]
  | NextHop p =>
    simp only [DBEntryKey, Option.some.injEq, Prod.mk.injEq] at hK
    rw [← hK.1]
    simp [NhFlowMgmtKey, FlowMgmtKey.ofDB]
  | VrfEntry p v =>
    simp only [DBEntryKey, Option.some.injEq, Prod.mk.injEq] at hK
    rw [← hK.1]
    simp [VrfFlowMgmtKey, FlowMgmtKey.ofDB]
  | Other p => simp [DBEntryKey] at hK

theorem Virtual.OperEntryAdd_live_virtual {h : Hdr} {m m' : FlowMgmtManager} {t : TreeId}
    {req : FlowMgmtRequest} {key : FlowMgmtKey} {d : DBEntry} {b : Bool}
    (hK : DBEntryKey d = some (key, t)) (hd : req.db_entry = some d)
    (ha : Virtual.OperEntryAdd h m t req key = some (b, m')) :
    AddSeenWithDB ((m'.tree t).find key) := by
  have hroute : t = .ip4_route ∨ t = .ip6_route ∨ t = .bridge_route →
      (key.type_ = .INET4 ∨ key.type_ = .INET6 ∨ key.type_ = .BRIDGE) :=
    fun ht => DBEntryKey_route hK ht
  have hdb : ∃ d, key.db_entry_ = some d := ⟨d, DBEntryKey_db hK⟩
  cases t with
  | ip4_route =>
    simp only [Virtual.OperEntryAdd] at ha
    cases hi : InetRouteFlowMgmtTree.OperEntryAdd h m .ip4_route req key with
    | none => simp [hi] at ha
    | some r2 =>
      obtain ⟨b2, k2, m2⟩ := r2
      simp only [hi, Option.some.injEq, Prod.mk.injEq] at ha
      rw [← ha.2]
      exact InetRouteFlowMgmtTree.OperEntryAdd_live_inet_route (hroute (Or.inl rfl)) hd hi
  | ip6_route =>
    simp only [Virtual.OperEntryAdd] at ha
    cases hi : InetRouteFlowMgmtTree.OperEntryAdd h m .ip6_route req key with
    | none => simp [hi] at ha
    | some r2 =>
      obtain ⟨b2, k2, m2⟩ := r2
      simp only [hi, Option.some.injEq, Prod.mk.injEq] at ha
      rw [← ha.2]
      exact InetRouteFlowMgmtTree.OperEntryAdd_live_inet_route (hroute (Or.inr (Or.inl rfl))) hd hi
  | bridge_route =>
    exact RouteFlowMgmtTree.OperEntryAdd_live_route (hroute (Or.inr (Or.inr rfl))) hd ha
  | vrf =>
    have hty := DBEntryKey_plain hK ⟨by decide, by decide, by decide⟩
    simp only [Virtual.OperEntryAdd] at ha
    unfold VrfFlowMgmtTree.OperEntryAdd at ha
    cases hr : FlowMgmtTree.OperEntryAdd h m .vrf req key with
    | none => simp [hr] at ha
    | some r =>
      obtain ⟨ret, m1⟩ := r
      have h1 := FlowMgmtTree.OperEntryAdd_live hty hdb hr
      simp only [hr] at ha
      obtain ⟨d0, hd0⟩ := hdb
      simp only [hd0] at ha
      cases hf : List.find? (fun p => p.1 == d0.vrf_id) m1.id_map_ with
      | some q =>
        simp only [hf, Option.some.injEq, Prod.mk.injEq] at ha
        rw [← ha.2]
        exact h1
      | none =>
        simp only [hf, Option.some.injEq, Prod.mk.injEq] at ha
        rw [← ha.2]
        exact AddSeenWithDB.of_tree_eq_addSeen (fun t => by cases t <;> rfl) h1
  | acl =>
    exact FlowMgmtTree.OperEntryAdd_live
      (DBEntryKey_plain hK ⟨by decide, by decide, by decide⟩) hdb ha
  | ace_id =>
    exact FlowMgmtTree.OperEntryAdd_live
      (DBEntryKey_plain hK ⟨by decide, by decide, by decide⟩) hdb ha
  | interface =>
    exact FlowMgmtTree.OperEntryAdd_live
      (DBEntryKey_plain hK ⟨by decide, by decide, by decide⟩) hdb ha
  | vn =>
    exact FlowMgmtTree.OperEntryAdd_live
      (DBEntryKey_plain hK ⟨by decide, by decide, by decide⟩) hdb ha
  | nh =>
    exact FlowMgmtTree.OperEntryAdd_live
      (DBEntryKey_plain hK ⟨by decide, by decide, by decide⟩) hdb ha

theorem RequestHandler_object {h : Hdr} {m m' : FlowMgmtManager} {req : FlowMgmtRequest}
    (hev : req.event = .ADD_DBENTRY ∨ req.event = .CHANGE_DBENTRY ∨
      req.event = .DELETE_DBENTRY)
    (ha : m.RequestHandler h req = some m') :
    ∃ d key t b, req.db_entry = some d ∧ DBEntryKey d = some (key, t) ∧
      reqKey req = some (key, t) ∧ FlowMgmt.ProcessEvent h m req key t = some (b, m') := by
  have hh : ∃ r, m.DBEntryRequestHandler h req req.db_entry = some r ∧ r.2 = m' := by
    unfold FlowMgmtManager.RequestHandler at ha
    rcases hev with h1 | h1 | h1 <;> simp only [h1] at ha <;>
      (cases hd : m.DBEntryRequestHandler h req req.db_entry with
        | none => simp [hd] at ha
        | some r =>
          simp only [hd, Option.some.injEq] at ha
          exact ⟨r, rfl, ha⟩)
  obtain ⟨⟨b, m1⟩, hr, hm⟩ := hh
  simp only at hm
  subst hm
  rw [FlowMgmtManager.DBEntryRequestHandler_eq] at hr
  cases hd : req.db_entry with
  | none => simp [hd] at hr
  | some d =>
    simp only [hd] at hr
    cases hK : DBEntryKey d with
    | none => simp [hK] at hr
    | some r =>
      obtain ⟨key, t⟩ := r
      simp only [hK] at hr
      exact ⟨d, key, t, b, rfl, hK, by unfold reqKey; rw [hd]; exact hK, hr⟩

theorem FlowMgmtTree.OperEntryDelete_keeps {live : List (TreeId × FlowMgmtKey)}
    {m m0 m1 : FlowMgmtManager} {t : TreeId} {req : FlowMgmtRequest} {key : FlowMgmtKey}
    {b : Bool} (heq : ∀ t', m0.tree t' = m.tree t') (hg1 : DelSeenHasDB m)
    (hg2 : LiveHaveDB live m) (hok : live.any (sameObject t key) = true)
    (ha : FlowMgmtTree.OperEntryDelete m0 t req key = some (b, m1)) :
    DelSeenHasDB m1 ∧ LiveHaveDB (live.filter (fun p => !sameObject t key p)) m1 := by
  have hsub : ∀ p, p ∈ live.filter (fun p => !sameObject t key p) →
      p ∈ live ∧ ¬ (p.1 = t ∧ SameKey key p.2 = true) := by
    intro p hp
    obtain ⟨h1, h2⟩ := List.mem_filter.1 hp
    refine ⟨h1, ?_⟩
    rintro ⟨h3, h4⟩
    have : sameObject t key p = true := by
      unfold sameObject
      simp [h3, sameKey_symm h4]
    rw [this] at h2
    simp at h2
  rcases FlowMgmtTree.OperEntryDelete_step ha with
    ⟨_, heq1, _, _, _⟩ | ⟨k1, e, m2, hf, _, hcase⟩
  · constructor
    · intro t' k' p hp
      rw [heq1 t', heq t'] at hp
      exact hg1 t' k' p hp
    · intro p hp
      rw [heq1 p.1, heq p.1]
      exact hg2 p (hsub p hp).1
  · have hk1 : ∃ d, k1.db_entry_ = some d := by
      obtain ⟨q, hq, hsame⟩ := List.any_eq_true.1 hok
      unfold sameObject at hsame
      simp only [Bool.and_eq_true, decide_eq_true_eq] at hsame
      obtain ⟨q', hq', _, hdq⟩ := hg2 q hq
      rw [hsame.1, Tree.find_congr (m.tree t) hsame.2, ← heq t, hf] at hq'
      simp only [Option.some.injEq] at hq'
      rw [← hq'] at hdq
      exact hdq
    have hstep : ∃ new, FindStep m0 m1 t key new ∧
        ∀ p, new = some p → p.2.oper_state_ = .OPER_DEL_SEEN → ∃ d, p.1.db_entry_ = some d := by
      rcases hcase with ⟨_, hstep, _, _⟩ | ⟨_, hstep, _, _, _⟩
      · refine ⟨_, hstep, ?_⟩
        intro p hp _
        simp only [Option.some.injEq] at hp
        rw [← hp]
        exact hk1
      · exact ⟨_, hstep, fun p hp => by simp at hp⟩
    obtain ⟨new, hstep, hnew⟩ := hstep
    constructor
    · intro t' k' p hp
      rw [hstep t' k'] at hp
      split at hp
      · exact hnew p hp
      · rw [heq t'] at hp
        exact hg1 t' k' p hp
    · intro p hp
      obtain ⟨hmem, hne⟩ := hsub p hp
      rw [hstep p.1 p.2, if_neg hne, heq p.1]
      exact hg2 p hmem

theorem request_keeps_db {h : Hdr} (hinit : h.oper_state_init ≠ .OPER_DEL_SEEN)
    {live : List (TreeId × FlowMgmtKey)} {m m' : FlowMgmtManager} {req : FlowMgmtRequest}
    (hg1 : DelSeenHasDB m) (hg2 : LiveHaveDB live m) (hok : deleteOfAdded live req = true)
    (ha : m.RequestHandler h req = some m') :
    DelSeenHasDB m' ∧ LiveHaveDB (liveAfter live req) m' := by
  by_cases hdel : req.event = .DELETE_DBENTRY
  · obtain ⟨d, key, t, b, hd, hK, hkey, hp⟩ :=
      RequestHandler_object (Or.inr (Or.inr hdel)) ha
    have hlive : liveAfter live req = live.filter (fun p => !sameObject t key p) := by
      unfold liveAfter
      rw [hdel, hkey]
    have hany : live.any (sameObject t key) = true := by
      unfold deleteOfAdded at hok
      rw [hdel, hkey] at hok
      exact hok
    rw [hlive]
    unfold FlowMgmt.ProcessEvent at hp
    simp only [hdel] at hp
    cases hv : Virtual.OperEntryDelete m t req key with
    | none => simp [hv] at hp
    | some r =>
      obtain ⟨b1, m1⟩ := r
      simp only [hv, Option.some.injEq, Prod.mk.injEq] at hp
      obtain ⟨_, hm⟩ := hp
      subst hm
      have route : ∀ m0 : FlowMgmtManager, (∀ t', m0.tree t' = m.tree t') →
          RouteFlowMgmtTree.OperEntryDelete m0 t req key = some (b1, m1) →
          DelSeenHasDB m1 ∧ LiveHaveDB (live.filter (fun p => !sameObject t key p)) m1 := by
        intro m0 heq h0
        obtain ⟨m2, h1, h2⟩ := RouteFlowMgmtTree.OperEntryDelete_some h0
        obtain ⟨hg1', hg2'⟩ := FlowMgmtTree.OperEntryDelete_keeps heq hg1 hg2 hany h1
        have hev : Evolves h (fun _ _ => False) False m2 m1 := Evolves.RetryVrfDelete_evolves h2
        exact ⟨hg1'.evolves_delSeen hinit hev, hg2'.evolves_live hev⟩
      have base : FlowMgmtTree.OperEntryDelete m t req key = some (b1, m1) →
          DelSeenHasDB m1 ∧ LiveHaveDB (live.filter (fun p => !sameObject t key p)) m1 :=
        fun h0 => FlowMgmtTree.OperEntryDelete_keeps (fun _ => rfl) hg1 hg2 hany h0
      cases t with
      | ip4_route => exact route _ (fun t' => tree_setLpm m _ _ t') hv
      | ip6_route => exact route _ (fun t' => tree_setLpm m _ _ t') hv
      | bridge_route => exact route _ (fun _ => rfl) hv
      | vrf => exact base hv
      | acl => exact base hv
      | ace_id => exact base hv
      | interface => exact base hv
      | vn => exact base hv
      | nh => exact base hv
  · have hev : Evolves h (fun _ _ => False) False m m' := Evolves.no_delete hdel ha
    have hg1' := hg1.evolves_delSeen hinit hev
    have hg2' := hg2.evolves_live hev
    by_cases hadd : req.event = .ADD_DBENTRY
    · obtain ⟨d, key, t, b, hd, hK, hkey, hp⟩ := RequestHandler_object (Or.inl hadd) ha
      have hlive : liveAfter live req = (t, key) :: live := by
        unfold liveAfter
        rw [hadd, hkey]
      rw [hlive]
      refine ⟨hg1', ?_⟩
      intro p hp'
      rcases List.mem_cons.1 hp' with h1 | h1
      · rw [h1]
        unfold FlowMgmt.ProcessEvent at hp
        simp only [hadd] at hp
        cases hv : Virtual.OperEntryAdd h m t req key with
        | none => simp [hv] at hp
        | some r =>
          obtain ⟨b1, m1⟩ := r
          simp only [hv, Option.some.injEq, Prod.mk.injEq] at hp
          rw [← hp.2]
          exact Virtual.OperEntryAdd_live_virtual hK hd hv
      · exact hg2' p h1
    · rw [liveAfter_other hadd hdel]
      exact ⟨hg1', hg2'⟩

theorem run_keeps_db {h : Hdr} (hinit : h.oper_state_init ≠ .OPER_DEL_SEEN)
    (reqs : List FlowMgmtRequest) :
    ∀ {live : List (TreeId × FlowMgmtKey)} {m m' : FlowMgmtManager}, DelSeenHasDB m →
      LiveHaveDB live m → AddedBeforeDelete live reqs = true →
      FlowMgmtManager.RunRequests h m reqs = some m' → DelSeenHasDB m' := by
  induction reqs with
  | nil =>
    intro live m m' hg1 _ _ ha
    simp only [FlowMgmtManager.RunRequests, Option.some.injEq] at ha
    rw [← ha]
    exact hg1
  | cons req rest ih =>
    intro live m m' hg1 hg2 hord ha
    unfold AddedBeforeDelete at hord
    rw [Bool.and_eq_true] at hord
    unfold FlowMgmtManager.RunRequests at ha
    cases h1 : m.RequestHandler h req with
    | none => simp [h1] at ha
    | some m1 =>
      simp only [h1] at ha
      obtain ⟨hg1', hg2'⟩ := request_keeps_db hinit hg1 hg2 hord.1 h1
      exact ih hg1' hg2' hord.2 ha

theorem FlowMgmtTree.FreeNotify_none_iff (m : FlowMgmtManager) (key : FlowMgmtKey) (g : Nat) :
    FlowMgmtTree.FreeNotify m key g = none ↔ key.db_entry_ = none := by
  unfold FlowMgmtTree.FreeNotify
  cases key.db_entry_ with
  | none => simp
  | some d =>
    simp only
    split <;> simp

theorem FlowMgmtTree.Delete_returns {m : FlowMgmtManager} {t : TreeId} {key : FlowMgmtKey}
    (flow : Nat)
    (hst : ∀ p, (m.tree t).find key = some p → p.2.oper_state_ ≠ .INVALID)
    (hdb : ∀ p, (m.tree t).find key = some p → p.2.oper_state_ = .OPER_DEL_SEEN →
      ∃ d, p.1.db_entry_ = some d) :
    ∃ r, FlowMgmtTree.Delete m t key flow = some r := by
  unfold FlowMgmtTree.Delete FlowMgmtTree.Find
  cases hf : (m.tree t).find key with
  | none => exact ⟨_, rfl⟩
  | some p =>
    obtain ⟨first, entry⟩ := p
    simp only
    have hsame : SameKey first key = true := Tree.find_some_same hf
    have hstate : (entry.Delete flow).2.oper_state_ = entry.oper_state_ :=
      (FlowMgmtEntry.Delete_state entry flow).1
    have hfind1 : ∃ q, ((m.setTree t ((m.tree t).setEntry key (entry.Delete flow).2)).tree
        t).find first = some q := by
      rw [tree_setTree_same, Tree.find_setEntry, if_pos (sameKey_symm hsame),
        Tree.find_congr (m.tree t) hsame, hf]
      exact ⟨_, rfl⟩
    obtain ⟨q, hq⟩ := hfind1
    have htd : ∃ r, FlowMgmtTree.TryDelete
        (m.setTree t ((m.tree t).setEntry key (entry.Delete flow).2)) t first
        (entry.Delete flow).2 = some r := by
      unfold FlowMgmtTree.TryDelete
      cases hc : Entry.CanDelete (m.setTree t ((m.tree t).setEntry key (entry.Delete flow).2)) t
          (entry.Delete flow).2 with
      | none =>
        have := (Entry.CanDelete_none_dispatch _ _ _).1 hc
        rw [hstate] at this
        exact absurd this (hst _ hf)
      | some c =>
        cases c with
        | false => exact ⟨_, rfl⟩
        | true =>
          simp only
          by_cases hs : (entry.Delete flow).2.oper_state_ = .OPER_DEL_SEEN
          · rw [if_pos hs]
            obtain ⟨d, hd⟩ := hdb _ hf (by rw [← hstate]; exact hs)
            obtain ⟨m2, h2⟩ := Virtual.FreeNotify_total
              (m.setTree t ((m.tree t).setEntry key (entry.Delete flow).2)) t first
              (entry.Delete flow).2.gen_id_ d hd
            rw [h2]
            simp only
            rw [(Virtual.FreeNotify_some_virtual h2).2.1 t, hq]
            exact ⟨_, rfl⟩
          · rw [if_neg hs]
            simp only
            rw [hq]
            exact ⟨_, rfl⟩
    obtain ⟨⟨b, m2⟩, hr⟩ := htd
    rw [hr]
    exact ⟨_, rfl⟩

theorem DelSeenHasDB.empty_delSeen : DelSeenHasDB FlowMgmtManager.empty := by
  intro t k p hf
  cases t <;> simp [FlowMgmtManager.empty, FlowMgmtManager.tree, Tree.find] at hf

/-- Where the assertion of `FreeNotify` holds: when every `DELETE_DBENTRY` of
an object comes after an
`ADD_DBENTRY` of it, with no other `DELETE_DBENTRY` of it in between, then
after the requests, processed from the empty manager, every entry that has
seen a DELETE is stored under a key that carries a DB entry, so that
`FlowMgmtTree::Delete`, which passes the stored key to `TryDelete`, returns for
every index, key and flow: neither assertion fails. `FreeNotify` fails its
assertion exactly for a key without a DB entry, and the key that
`DBEntryRequestHandler` builds for a DB entry carries it. -/
theorem free_notify_key_has_db_entry (h : Hdr)
    (hinit : h.oper_state_init ≠ .OPER_DEL_SEEN) (hvalid : h.oper_state_init ≠ .INVALID)
    (reqs : List FlowMgmtRequest) (m : FlowMgmtManager)
    (hord : AddedBeforeDelete [] reqs = true)
    (hrun : FlowMgmtManager.RunRequests h FlowMgmtManager.empty reqs = some m) :
    (∀ t k p, (m.tree t).find k = some p → p.2.oper_state_ = .OPER_DEL_SEEN →
      ∃ d, p.1.db_entry_ = some d) ∧
    (∀ t key flow, ∃ r, FlowMgmtTree.Delete m t key flow = some r) ∧
    (∀ (m0 : FlowMgmtManager) (key : FlowMgmtKey) (g : Nat),
      FlowMgmtTree.FreeNotify m0 key g = none ↔ key.db_entry_ = none) ∧
    (∀ d key t, DBEntryKey d = some (key, t) → key.db_entry_ = some d) := by
  have hg1 : DelSeenHasDB m :=
    run_keeps_db hinit reqs DelSeenHasDB.empty_delSeen (fun p hp => by simp at hp) hord hrun
  have hev : Evolves h (fun _ _ => True) False FlowMgmtManager.empty m :=
    Evolves.RunRequests_evolves reqs hrun
  have hall : ∀ t k p, (m.tree t).find k = some p → p.2.oper_state_ ≠ .INVALID := by
    refine Evolves.findAll_evolves (P := fun e => e.oper_state_ ≠ .INVALID) hev
      (fun t k a b hc ha => Change.state_valid hvalid hc ha) ?_
    intro t k p hf
    cases t <;> simp [FlowMgmtManager.empty, FlowMgmtManager.tree, Tree.find] at hf
  refine ⟨hg1, ?_, FlowMgmtTree.FreeNotify_none_iff, fun d key t hK => DBEntryKey_db hK⟩
  intro t key flow
  exact FlowMgmtTree.Delete_returns flow (fun p hp => hall t key p hp)
    (fun p hp hs => hg1 t key p hp hs)

/-- C26 (divergence): a flow on the route 10.0.0.0/24 is added, the route is
changed and then deleted, so that the `DELETE_DBENTRY` is preceded by a
`CHANGE_DBENTRY` of the route. Whatever state the constructor leaves a new entry
in, the entry of the route has then seen the DELETE and is still stored under the
key of the flow, which has no DB entry (`OperEntryChange` does not attach the
route to the stored key), and the delete of the flow reaches `FreeNotify` with
that key: the assertion fails. -/
theorem C26_change_does_not_attach (h : Hdr) :
    (FlowMgmtManager.RunRequests h FlowMgmtManager.empty changeThenDelete).map
      (fun m => ((m.tree .ip4_route).find route24Key).map
        (fun p => (p.1.db_entry_, p.2.oper_state_, p.2.tree_))) =
      some (some (none, .OPER_DEL_SEEN, [1])) ∧
    FlowMgmtManager.RunRequests h FlowMgmtManager.empty
      (changeThenDelete ++ [delFlowReq cexFlow]) = none := by
  obtain ⟨s⟩ := h
  cases s <;> decide

/-! ## Instances -/

/-- An instance of `free_notify_key_has_db_entry`: the flow is added, the route
is added and then deleted; the
entry of the route has seen the DELETE and its stored key carries the route. -/
theorem free_notify_key_has_db_entry_witness :
    hdrOther.oper_state_init ≠ .OPER_DEL_SEEN ∧ hdrOther.oper_state_init ≠ .INVALID ∧
    AddedBeforeDelete [] addThenDelete = true ∧
    FlowMgmtManager.RunRequests hdrOther FlowMgmtManager.empty addThenDelete =
      some addThenDeleteState ∧
    ((addThenDeleteState.tree .ip4_route).find route24Key).map
      (fun p => (p.1.db_entry_, p.2.oper_state_, p.2.tree_)) =
      some (some cexRoute, .OPER_DEL_SEEN, [1]) ∧
    ∃ r, FlowMgmtTree.Delete addThenDeleteState .ip4_route route24Key 1 = some r :=
  ⟨by decide, by decide, by decide, by decide, by decide,
    (free_notify_key_has_db_entry hdrOther (by decide) (by decide) addThenDelete
      addThenDeleteState (by decide) (by decide)).2.1 .ip4_route route24Key 1⟩

/-! ## Adding a flow and deleting it again -/

theorem deltaOps_nil (ks : List FlowMgmtKey) : deltaOps ks [] = ks.map KeyOp.add := by
  induction ks with
  | nil => rfl
  | cons k r ih =>
    show deltaOpsAt k (deltaOps r) [] = _
    simp [deltaOpsAt, ih]

theorem insertBy_last {α : Type} (lt : α → α → Bool) (a : α) (l : List α)
    (hl : ∀ x, x ∈ l → lt a x = false) : insertBy lt a l = l ++ [a] := by
  induction l with
  | nil => rfl
  | cons x xs ih =>
    have hx := hl x (List.mem_cons_self _ _)
    simp only [insertBy, hx, Bool.false_eq_true, if_false, List.cons_append]
    rw [ih (fun y hy => hl y (List.mem_cons_of_mem _ hy))]

theorem FlowMgmtKeyTree.insert_last (p : List FlowMgmtKey) (k : FlowMgmtKey)
    (hp : ∀ x, x ∈ p → x.IsLess k = true) : (FlowMgmtKeyTree.insert p k).1 = p ++ [k] := by
  unfold FlowMgmtKeyTree.insert FlowMgmtKeyTree.find
  have hnone : List.find? (fun x => SameKey x k) p = none := by
    rw [List.find?_eq_none]
    intro x hx
    rw [isLess_not_same (hp x hx)]
    simp
  rw [hnone]
  exact insertBy_last _ _ _ (fun x hx => by
    cases hlt : k.IsLess x with
    | false => rfl
    | true => exact absurd (hp x hx) (by rw [isLess_asymm hlt]; simp))

theorem FlowMgmtKeyTree.erase_head (k : FlowMgmtKey) (rest : List FlowMgmtKey)
    (hr : ∀ x, x ∈ rest → k.IsLess x = true) : FlowMgmtKeyTree.erase (k :: rest) k = rest := by
  unfold FlowMgmtKeyTree.erase
  rw [List.filter_cons, sameKey_refl]
  simp only [Bool.not_true, Bool.false_eq_true, if_false]
  rw [List.filter_eq_self]
  intro x hx
  have := isLess_not_same (hr x hx)
  rw [sameKey_comm] at this
  simp [this]

theorem filter_insertBy_flow (f : Nat) (l : List Nat) (hf : f ∉ l) :
    List.filter (fun g => g != f) (insertBy (fun a b => decide (a < b)) f l) = l := by
  induction l with
  | nil => simp [insertBy]
  | cons x xs ih =>
    have hx : x ≠ f := fun hc => hf (by rw [hc]; exact List.mem_cons_self _ _)
    have hxs : f ∉ xs := fun hc => hf (List.mem_cons_of_mem _ hc)
    unfold insertBy
    split
    · rw [List.filter_cons]
      simp only [bne_self_eq_false, Bool.false_eq_true, if_false]
      rw [List.filter_eq_self]
      intro y hy
      have : y ≠ f := fun hc => hf (by rw [← hc]; exact hy)
      simpa using this
    · rw [List.filter_cons]
      have : (x != f) = true := by simpa using hx
      rw [this, if_pos rfl, ih hxs]

theorem dec32_inc32 (n : Nat) (hn : n < 2 ^ 32) : dec32 (inc32 n) = n := by
  unfold dec32 inc32
  omega

theorem SameRest.refl_rest (fid : Nat) (m : FlowMgmtManager) : SameRest fid m m :=
  ⟨rfl, fun _ => rfl, rfl, rfl, fun _ _ => rfl⟩

theorem SameRest.trans_rest {fid : Nat} {m m1 m2 : FlowMgmtManager} (h1 : SameRest fid m m1)
    (h2 : SameRest fid m1 m2) : SameRest fid m m2 :=
  ⟨h2.id_map.trans h1.id_map, fun t => (h2.lpm t).trans (h1.lpm t),
    h2.request_queue.trans h1.request_queue, h2.response_queue.trans h1.response_queue,
    fun g hg => (h2.info_other g hg).trans (h1.info_other g hg)⟩

theorem SameRest.of_frame_rest {fid : Nat} {m m' : FlowMgmtManager} (hf : Frame m m' [])
    (hid : m'.id_map_ = m.id_map_) : SameRest fid m m' :=
  ⟨hid, hf.lpm, hf.request_queue, by simpa using hf.response_queue,
    fun g _ => hf.FindFlowEntryInfo g⟩

theorem SameRest.setInfo_rest (fid : Nat) (m : FlowMgmtManager) (info : FlowEntryInfo) :
    SameRest fid m (m.setInfo fid info) :=
  ⟨rfl, fun t => setInfo_lpm m fid info t, rfl, rfl,
    fun _ hg => FindFlowEntryInfo_setInfo_ne m hg info⟩

theorem FlowMgmtTree.Add_answer (h : Hdr) (m : FlowMgmtManager) {t : TreeId}
    (k : FlowMgmtKey) (fid : Nat) (ht : t ≠ .vrf) :
    ∃ b m' k1 e, FlowMgmtTree.Add h m t k fid = some (b, m') ∧
      (match (m.tree t).find k with
        | some p => some p
        | none => (FlowMgmtTree.Allocate h t k).map (fun e => (k, e))) = some (k1, e) ∧
      b = (e.Add fid).1 ∧ FindStep m m' t k (some (k1, (e.Add fid).2)) ∧ Frame m m' [] ∧
      m'.id_map_ = m.id_map_ := by
  have hloc : ∃ r, FlowMgmtTree.Locate h m t k = some r := by
    unfold FlowMgmtTree.Locate FlowMgmtTree.Find
    cases (m.tree t).find k with
    | some p => exact ⟨_, rfl⟩
    | none =>
      simp only
      cases t <;> first
        | exact absurd rfl ht
        | exact ⟨_, rfl⟩
  obtain ⟨⟨e0, m1⟩, hl⟩ := hloc
  have hadd : FlowMgmtTree.Add h m t k fid =
      some ((e0.Add fid).1, m1.setTree t ((m1.tree t).setEntry k (e0.Add fid).2)) := by
    unfold FlowMgmtTree.Add
    rw [hl]
  obtain ⟨k1, e, hlocated, hb, hstep, hframe, hid⟩ := FlowMgmtTree.Add_step hadd
  refine ⟨_, _, k1, e, hadd, ?_, hb, hstep, hframe, hid⟩
  rcases hlocated with hf | ⟨hf, hk, ha⟩
  · rw [hf]
  · rw [hf, hk, ha]
    rfl

theorem FlowMgmtManager.AddFlowMgmtKey_answer {h : Hdr} {m : FlowMgmtManager} {f : FlowEntry}
    {k : FlowMgmtKey} {info : FlowEntryInfo} {t : TreeId}
    (hinfo : m.FindFlowEntryInfo f.id = some info)
    (ht : FlowMgmtManager.treeOfKeyType k.type_ = some t) :
    ∃ m', m.AddFlowMgmtKey h f k = some m' ∧
      FindStep m m' t k
        (addAnswer h f info.local_flow_ info.ingress_ t k ((m.tree t).find k)) ∧
      SameRest f.id m m' ∧
      ∃ info', m'.FindFlowEntryInfo f.id = some info' ∧
        info'.tree_ = (FlowMgmtKeyTree.insert info.tree_ k).1 ∧
        (k.type_ = .VN → info'.local_flow_ = f.LocalFlow ∧ info'.ingress_ = f.IngressDir) ∧
        (k.type_ ≠ .VN → info'.local_flow_ = info.local_flow_ ∧
          info'.ingress_ = info.ingress_) := by
  have htv := (treeOfKeyType_ne_vrf ht).1
  obtain ⟨b, m2, k1, e, hadd, hans, hb, hstep, hframe, hid⟩ :=
    FlowMgmtTree.Add_answer h
      (m.setInfo f.id { info with tree_ := (FlowMgmtKeyTree.insert info.tree_ k).1 }) k f.id htv
  rw [tree_setInfo] at hans
  have hstep0 : FindStep m m2 t k (some (k1, (e.Add f.id).2)) :=
    hstep.of_tree_eq_left (fun t' => tree_setInfo m _ _ t')
  have hrest2 : SameRest f.id m m2 :=
    (SameRest.setInfo_rest f.id m _).trans_rest (SameRest.of_frame_rest hframe hid)
  have hinfo2 : m2.FindFlowEntryInfo f.id =
      some { info with tree_ := (FlowMgmtKeyTree.insert info.tree_ k).1 } := by
    rw [hframe.FindFlowEntryInfo]
    exact FindFlowEntryInfo_setInfo_self hinfo _
  by_cases hvn : k.type_ = .VN
  · have htvn : t = .vn := by
      rw [hvn] at ht
      exact (Option.some.inj ht).symm
    subst htvn
    have hfind2 : (m2.tree .vn).find k = some (k1, (e.Add f.id).2) := hstep.at_key
    refine ⟨(m2.setTree .vn ((m2.tree .vn).setEntry k
        (VnFlowMgmtEntry.UpdateCounterOnAdd (e.Add f.id).2 f b info.local_flow_
          info.ingress_))).setInfo f.id
        { tree_ := (FlowMgmtKeyTree.insert info.tree_ k).1, count_ := info.count_,
          local_flow_ := f.LocalFlow, ingress_ := f.IngressDir }, ?_, ?_, ?_, ?_⟩
    · unfold FlowMgmtManager.AddFlowMgmtKey
      simp only [hinfo, hvn, Virtual.Add, hadd, FlowMgmtTree.Find, hfind2]
    · unfold addAnswer
      rw [hans]
      simp only [if_true]
      rw [← hb]
      have h3 := FindStep.setEntry m2 .vn k
        (VnFlowMgmtEntry.UpdateCounterOnAdd (e.Add f.id).2 f b info.local_flow_ info.ingress_)
      rw [hfind2] at h3
      exact (hstep0.trans_findStep h3).of_tree_eq_findStep (fun t' => tree_setInfo _ _ _ t')
    · exact hrest2.trans_rest
        ((SameRest.of_frame_rest (Frame.setTree m2 .vn _) (by cases m2; rfl)).trans_rest
          (SameRest.setInfo_rest f.id _ _))
    · have hinfo3 : (m2.setTree .vn ((m2.tree .vn).setEntry k
          (VnFlowMgmtEntry.UpdateCounterOnAdd (e.Add f.id).2 f b info.local_flow_
            info.ingress_))).FindFlowEntryInfo f.id =
          some { info with tree_ := (FlowMgmtKeyTree.insert info.tree_ k).1 } := by
        rw [(Frame.setTree m2 .vn _).FindFlowEntryInfo]
        exact hinfo2
      exact ⟨_, FindFlowEntryInfo_setInfo_self hinfo3 _, rfl, fun _ => ⟨rfl, rfl⟩,
        fun hc => absurd hvn hc⟩
  · refine ⟨m2, ?_, ?_, hrest2, _, hinfo2, rfl, fun hc => absurd hc hvn, fun _ => ⟨rfl, rfl⟩⟩
    · unfold FlowMgmtManager.AddFlowMgmtKey
      simp only [hinfo]
      cases hk : k.type_ <;> rw [hk] at ht hvn <;>
        first
        | exact absurd rfl hvn
        | (simp only [ht, Virtual.Add, hadd])
    · unfold addAnswer
      rw [hans]
      have : t ≠ .vn := by
        intro hc
        rw [hc] at ht
        cases hk : k.type_ <;> rw [hk] at ht hvn <;>
          first
          | exact absurd rfl hvn
          | (simp [FlowMgmtManager.treeOfKeyType] at ht)
      simp only [if_neg this]
      exact hstep0

theorem FlowMgmtEntry.Add_fresh (e : FlowMgmtEntry) (fid : Nat) (hf : fid ∉ e.tree_) :
    e.Add fid = (true, { e with tree_ := insertBy (fun a b => decide (a < b)) fid e.tree_ }) := by
  unfold FlowMgmtEntry.Add
  rw [if_neg hf]

theorem FlowMgmtEntry.Delete_Add (e : FlowMgmtEntry) (fid : Nat) (hf : fid ∉ e.tree_) :
    ((e.Add fid).2.Delete fid).2 = e := by
  rw [FlowMgmtEntry.Add_fresh e fid hf]
  unfold FlowMgmtEntry.Delete
  simp only [filter_insertBy_flow fid e.tree_ hf]

theorem VnFlowMgmtEntry.Delete_Add_vn (e : FlowMgmtEntry) (f : FlowEntry) (loc ing : Bool)
    (hf : f.id ∉ e.tree_) (hi : e.ingress_flow_count_ < 2 ^ 32)
    (he : e.egress_flow_count_ < 2 ^ 32) :
    VnFlowMgmtEntry.UpdateCounterOnDel
      ((VnFlowMgmtEntry.UpdateCounterOnAdd (e.Add f.id).2 f (e.Add f.id).1 loc ing).Delete
        f.id).2 f f.LocalFlow f.IngressDir = e := by
  rw [FlowMgmtEntry.Add_fresh e f.id hf]
  unfold VnFlowMgmtEntry.UpdateCounterOnAdd VnFlowMgmtEntry.UpdateCounterOnDel
    FlowMgmtEntry.Delete
  cases hl : f.LocalFlow <;> cases hg : f.IngressDir <;>
    simp [filter_insertBy_flow f.id e.tree_ hf, dec32_inc32 _ hi, dec32_inc32 _ he]

theorem FlowMgmtManager.RetryVrfDelete_quiet_vrf {m : FlowMgmtManager} (hq : VrfQuiet m)
    (v : Nat) : m.RetryVrfDelete v = some m := by
  unfold FlowMgmtManager.RetryVrfDelete VrfFlowMgmtTree.RetryDelete
  cases hfi : List.find? (fun p => p.1 == v) m.id_map_ with
  | none => rfl
  | some p =>
    obtain ⟨_, vrf⟩ := p
    simp only
    unfold FlowMgmtTree.RetryDelete FlowMgmtTree.Find
    cases hf : (m.tree .vrf).find (VrfFlowMgmtKey (some vrf)) with
    | none => rfl
    | some q =>
      obtain ⟨k1, entry⟩ := q
      simp only
      have h1 := hq _ _ hf
      unfold FlowMgmtTree.TryDelete Entry.CanDelete
      simp only
      have h2 : entry.inet4_deleted_ = false := h1.2
      rw [VrfFlowMgmtEntry.CanDelete_eq m entry h1.1]
      have h3 : decide (entry.tree_ = [] ∧ entry.oper_state_ ≠ .OPER_ADD_SEEN ∧
          entry.inet4_deleted_ = true ∧ entry.inet6_deleted_ = true ∧
          entry.bridge_deleted_ = true ∧ m.HasVrfFlows entry.vrf_id_ = false) = false := by
        simp [h2]
      rw [h3]

theorem FlowMgmtTree.Delete_answer {m : FlowMgmtManager} {t : TreeId} {k k1 : FlowMgmtKey}
    {e : FlowMgmtEntry} (fid : Nat) (ht : t ≠ .vrf) (hf : (m.tree t).find k = some (k1, e))
    (hst : e.oper_state_ ≠ .INVALID)
    (hdel : e.oper_state_ ≠ .OPER_DEL_SEEN ∨ (e.Delete fid).2.tree_ ≠ []) :
    ∃ b m', FlowMgmtTree.Delete m t k fid = some (b, m') ∧
      FindStep m m' t k
        (if (e.Delete fid).2.tree_ = [] ∧ e.oper_state_ ≠ .OPER_ADD_SEEN then none
         else some (k1, (e.Delete fid).2)) ∧
      Frame m m' [] ∧ m'.id_map_ = m.id_map_ := by
  have hstate := (FlowMgmtEntry.Delete_state e fid).1
  have hcan : (e.Delete fid).2.CanDelete =
      some (decide ((e.Delete fid).2.tree_ = [] ∧ e.oper_state_ ≠ .OPER_ADD_SEEN)) := by
    unfold FlowMgmtEntry.CanDelete
    rw [hstate, if_neg hst]
    by_cases hn : (e.Delete fid).2.tree_ = []
    · simp [hn]
    · have : (e.Delete fid).2.tree_.length ≠ 0 := by
        intro hc
        exact hn (List.length_eq_zero.1 hc)
      rw [if_pos this]
      simp [hn]
  have hsame : SameKey k1 k = true := Tree.find_some_same hf
  have htot : ∃ r, FlowMgmtTree.Delete m t k fid = some r := by
    unfold FlowMgmtTree.Delete FlowMgmtTree.Find
    rw [hf]
    simp only
    have htd : ∃ r, FlowMgmtTree.TryDelete
        (m.setTree t ((m.tree t).setEntry k (e.Delete fid).2)) t k1 (e.Delete fid).2 =
        some r := by
      unfold FlowMgmtTree.TryDelete
      rw [Entry.CanDelete_setTree m t t _ _ ht, hcan]
      by_cases hc : (e.Delete fid).2.tree_ = [] ∧ e.oper_state_ ≠ .OPER_ADD_SEEN
      · rw [decide_eq_true hc]
        simp only
        have hnd : (e.Delete fid).2.oper_state_ ≠ .OPER_DEL_SEEN := by
          rw [hstate]
          rcases hdel with h1 | h1
          · exact h1
          · exact absurd hc.1 h1
        rw [if_neg hnd]
        simp only
        rw [tree_setTree_same, Tree.find_setEntry, if_pos (sameKey_symm hsame),
          Tree.find_congr (m.tree t) hsame, hf]
        exact ⟨_, rfl⟩
      · rw [decide_eq_false hc]
        exact ⟨_, rfl⟩
    obtain ⟨⟨b, m2⟩, hr⟩ := htd
    rw [hr]
    exact ⟨_, rfl⟩
  obtain ⟨⟨b, m'⟩, hd⟩ := htot
  refine ⟨b, m', hd, ?_⟩
  rcases FlowMgmtTree.Delete_step hd with ⟨hnone, _⟩ | ⟨k1', e', hf', hcase⟩
  · rw [hf] at hnone
    exact absurd hnone (by simp)
  · rw [hf] at hf'
    simp only [Option.some.injEq, Prod.mk.injEq] at hf'
    obtain ⟨hk, he⟩ := hf'
    subst hk
    subst he
    rw [Entry.CanDelete_setTree m t t _ _ ht, hcan] at hcase
    rcases hcase with ⟨hc, hstep, hframe, hid⟩ | ⟨hc, hstep, hframe, _, hid⟩
    · have hc' : ¬ ((e.Delete fid).2.tree_ = [] ∧ e.oper_state_ ≠ .OPER_ADD_SEEN) := by
        simpa using hc
      rw [if_neg hc']
      exact ⟨hstep, hframe, hid⟩
    · have hc' : (e.Delete fid).2.tree_ = [] ∧ e.oper_state_ ≠ .OPER_ADD_SEEN := by
        simpa using hc
      rw [if_pos hc']
      have hnd : (e.Delete fid).2.oper_state_ ≠ .OPER_DEL_SEEN := by
        rw [hstate]
        rcases hdel with h1 | h1
        · exact h1
        · exact absurd hc'.1 h1
      have hresp : tryDeleteResponses k1 (e.Delete fid).2 = [] := by
        unfold tryDeleteResponses
        rw [if_neg hnd]
      rw [hresp] at hframe
      exact ⟨hstep, hframe, hid ht⟩

theorem VrfQuiet.of_step_vrf {m m' : FlowMgmtManager} {t : TreeId} {k : FlowMgmtKey}
    {new : Option (FlowMgmtKey × FlowMgmtEntry)} (hq : VrfQuiet m)
    (hstep : FindStep m m' t k new) (ht : t ≠ .vrf) : VrfQuiet m' := by
  intro k' p hp
  rw [hstep .vrf k', if_neg (fun hc => ht hc.1.symm)] at hp
  exact hq k' p hp

theorem Virtual.Delete_answer_virtual {m : FlowMgmtManager} {t : TreeId} {k k1 : FlowMgmtKey}
    {e : FlowMgmtEntry} (fid : Nat) (ht : t ≠ .vrf) (hq : VrfQuiet m)
    (hf : (m.tree t).find k = some (k1, e)) (hst : e.oper_state_ ≠ .INVALID)
    (hdel : e.oper_state_ ≠ .OPER_DEL_SEEN ∨ (e.Delete fid).2.tree_ ≠ []) :
    ∃ b m', Virtual.Delete m t k fid = some (b, m') ∧
      FindStep m m' t k
        (if (e.Delete fid).2.tree_ = [] ∧ e.oper_state_ ≠ .OPER_ADD_SEEN then none
         else some (k1, (e.Delete fid).2)) ∧
      Frame m m' [] ∧ m'.id_map_ = m.id_map_ := by
  obtain ⟨b, m', hd, hstep, hframe, hid⟩ := FlowMgmtTree.Delete_answer fid ht hf hst hdel
  have hq' : VrfQuiet m' := hq.of_step_vrf hstep ht
  have hroute : RouteFlowMgmtTree.Delete m t k fid = some (b, m') := by
    unfold RouteFlowMgmtTree.Delete
    rw [hd]
    simp only
    rw [FlowMgmtManager.RetryVrfDelete_quiet_vrf hq']
  refine ⟨b, m', ?_, hstep, hframe, hid⟩
  unfold Virtual.Delete
  cases t <;> first
    | exact hroute
    | exact hd

theorem SameRest.eraseInfoKey_rest (fid : Nat) (m : FlowMgmtManager) (k : FlowMgmtKey) :
    SameRest fid m (m.eraseInfoKey fid k) := by
  unfold FlowMgmtManager.eraseInfoKey
  cases m.FindFlowEntryInfo fid with
  | none => exact SameRest.refl_rest fid m
  | some info => exact SameRest.setInfo_rest fid m _

theorem applyOp_del_answer {h : Hdr} {m : FlowMgmtManager} {f : FlowEntry}
    {k k1 x : FlowMgmtKey} {info : FlowEntryInfo} {t : TreeId} {e : FlowMgmtEntry}
    (hinfo : m.FindFlowEntryInfo f.id = some info)
    (hkey : FlowMgmtKeyTree.find info.tree_ k = some x)
    (ht : FlowMgmtManager.treeOfKeyType k.type_ = some t) (hq : VrfQuiet m)
    (hf : (m.tree t).find k = some (k1, e)) (hst : e.oper_state_ ≠ .INVALID)
    (hdel : e.oper_state_ ≠ .OPER_DEL_SEEN ∨ (e.Delete f.id).2.tree_ ≠ []) :
    ∃ m', applyOp h f m (.del k) = some m' ∧
      FindStep m m' t k (delAnswer f info.local_flow_ info.ingress_ t (some (k1, e))) ∧
      SameRest f.id m m' ∧
      ∃ info', m'.FindFlowEntryInfo f.id = some info' ∧
        info'.tree_ = FlowMgmtKeyTree.erase info.tree_ k ∧
        (k.type_ = .VN → info'.local_flow_ = f.LocalFlow ∧ info'.ingress_ = f.IngressDir) ∧
        (k.type_ ≠ .VN → info'.local_flow_ = info.local_flow_ ∧
          info'.ingress_ = info.ingress_) := by
  have htv := (treeOfKeyType_ne_vrf ht).1
  obtain ⟨b, m1, hd, hstep, hframe, hid⟩ := Virtual.Delete_answer_virtual f.id htv hq hf hst hdel
  have hrest1 : SameRest f.id m m1 := SameRest.of_frame_rest hframe hid
  have hinfo1 : m1.FindFlowEntryInfo f.id = some info := by
    rw [hframe.FindFlowEntryInfo]
    exact hinfo
  by_cases hvn : k.type_ = .VN
  · have htvn : t = .vn := by
      rw [hvn] at ht
      exact (Option.some.inj ht).symm
    subst htvn
    have hmid : ∃ m2, m.DeleteFlowMgmtKey f k = some (m2.setInfo f.id
          { info with local_flow_ := f.LocalFlow, ingress_ := f.IngressDir }) ∧
        FindStep m m2 .vn k (delAnswer f info.local_flow_ info.ingress_ .vn (some (k1, e))) ∧
        SameRest f.id m m2 ∧ m2.FindFlowEntryInfo f.id = some info := by
      have hat := hstep.at_key
      by_cases hc : (e.Delete f.id).2.tree_ = [] ∧ e.oper_state_ ≠ .OPER_ADD_SEEN
      · rw [if_pos hc] at hat hstep
        refine ⟨m1, ?_, ?_, hrest1, hinfo1⟩
        · unfold FlowMgmtManager.DeleteFlowMgmtKey
          simp only [hinfo, hkey, hvn, hd, FlowMgmtTree.Find, hat]
        · unfold delAnswer
          simp only [if_pos hc]
          exact hstep
      · rw [if_neg hc] at hat hstep
        refine ⟨m1.setTree .vn ((m1.tree .vn).setEntry k
          (VnFlowMgmtEntry.UpdateCounterOnDel (e.Delete f.id).2 f info.local_flow_
            info.ingress_)), ?_, ?_, ?_, ?_⟩
        · unfold FlowMgmtManager.DeleteFlowMgmtKey
          simp only [hinfo, hkey, hvn, hd, FlowMgmtTree.Find, hat]
        · unfold delAnswer
          simp only [if_neg hc, if_true]
          have h3 := FindStep.setEntry m1 .vn k
            (VnFlowMgmtEntry.UpdateCounterOnDel (e.Delete f.id).2 f info.local_flow_
              info.ingress_)
          rw [hat] at h3
          exact hstep.trans_findStep h3
        · exact hrest1.trans_rest
            (SameRest.of_frame_rest (Frame.setTree m1 .vn _) (by cases m1; rfl))
        · rw [(Frame.setTree m1 .vn _).FindFlowEntryInfo]
          exact hinfo1
    obtain ⟨m2, hdk, hstep2, hrest2, hinfo2⟩ := hmid
    refine ⟨(m2.setInfo f.id
      { info with local_flow_ := f.LocalFlow, ingress_ := f.IngressDir }).eraseInfoKey f.id k,
      ?_, ?_, ?_, ?_⟩
    · show (match m.DeleteFlowMgmtKey f k with
        | none => none
        | some m1 => some (m1.eraseInfoKey f.id k)) = _
      rw [hdk]
    · exact (hstep2.of_tree_eq_findStep (fun t' => tree_setInfo _ _ _ t')).of_tree_eq_findStep
        (fun t' => tree_eraseInfoKey _ _ _ t')
    · exact (hrest2.trans_rest (SameRest.setInfo_rest f.id m2 _)).trans_rest
        (SameRest.eraseInfoKey_rest f.id _ k)
    · have h5 := (FindFlowEntryInfo_eraseInfoKey (FindFlowEntryInfo_setInfo_self hinfo2
        { info with local_flow_ := f.LocalFlow, ingress_ := f.IngressDir }) k).1
      exact ⟨_, h5, rfl, fun _ => ⟨rfl, rfl⟩, fun hc => absurd hvn hc⟩
  · have htn : t ≠ .vn := by
      intro hc
      rw [hc] at ht
      cases hk : k.type_ <;> rw [hk] at ht hvn <;>
        first
        | exact absurd rfl hvn
        | (simp [FlowMgmtManager.treeOfKeyType] at ht)
    have hdk : m.DeleteFlowMgmtKey f k = some m1 := by
      unfold FlowMgmtManager.DeleteFlowMgmtKey
      simp only [hinfo, hkey]
      cases hk : k.type_ <;> rw [hk] at ht hvn <;>
        first
        | exact absurd rfl hvn
        | (simp only [ht, hd])
    refine ⟨m1.eraseInfoKey f.id k, ?_, ?_, ?_, ?_⟩
    · show (match m.DeleteFlowMgmtKey f k with
        | none => none
        | some m1 => some (m1.eraseInfoKey f.id k)) = _
      rw [hdk]
    · unfold delAnswer
      simp only [if_neg htn]
      exact hstep.of_tree_eq_findStep (fun t' => tree_eraseInfoKey _ _ _ t')
    · exact hrest1.trans_rest (SameRest.eraseInfoKey_rest f.id _ k)
    · have h5 := (FindFlowEntryInfo_eraseInfoKey hinfo1 k).1
      exact ⟨_, h5, rfl, fun hc => absurd hc hvn, fun _ => ⟨rfl, rfl⟩⟩

theorem added_entry_facts (e0 : FlowMgmtEntry) (f : FlowEntry) (loc ing : Bool) (t : TreeId)
    (hf : f.id ∉ e0.tree_) (hi : e0.ingress_flow_count_ < 2 ^ 32)
    (he : e0.egress_flow_count_ < 2 ^ 32) :
    (if t = .vn then
        VnFlowMgmtEntry.UpdateCounterOnAdd (e0.Add f.id).2 f (e0.Add f.id).1 loc ing
      else (e0.Add f.id).2).oper_state_ = e0.oper_state_ ∧
    ((if t = .vn then
        VnFlowMgmtEntry.UpdateCounterOnAdd (e0.Add f.id).2 f (e0.Add f.id).1 loc ing
      else (e0.Add f.id).2).Delete f.id).2.tree_ = e0.tree_ ∧
    (if t = .vn then
        VnFlowMgmtEntry.UpdateCounterOnDel
          ((if t = .vn then
              VnFlowMgmtEntry.UpdateCounterOnAdd (e0.Add f.id).2 f (e0.Add f.id).1 loc ing
            else (e0.Add f.id).2).Delete f.id).2 f f.LocalFlow f.IngressDir
      else ((if t = .vn then
              VnFlowMgmtEntry.UpdateCounterOnAdd (e0.Add f.id).2 f (e0.Add f.id).1 loc ing
            else (e0.Add f.id).2).Delete f.id).2) = e0 ∧
    (if t = .vn then
        VnFlowMgmtEntry.UpdateCounterOnAdd (e0.Add f.id).2 f (e0.Add f.id).1 loc ing
      else (e0.Add f.id).2) =
      (if t = .vn then
        VnFlowMgmtEntry.UpdateCounterOnAdd (e0.Add f.id).2 f (e0.Add f.id).1 false false
      else (e0.Add f.id).2) := by
  by_cases ht : t = .vn
  · simp only [if_pos ht]
    have h3 := VnFlowMgmtEntry.Delete_Add_vn e0 f loc ing hf hi he
    refine ⟨?_, ?_, h3, ?_⟩
    · rw [(VnFlowMgmtEntry.UpdateCounterOnAdd_same _ _ _ _ _).2.1]
      exact (FlowMgmtEntry.Add_state e0 f.id).1
    · have h4 := congrArg FlowMgmtEntry.tree_ h3
      rw [(VnFlowMgmtEntry.UpdateCounterOnDel_same _ _ _ _).1] at h4
      exact h4
    · rw [FlowMgmtEntry.Add_fresh e0 f.id hf]
      unfold VnFlowMgmtEntry.UpdateCounterOnAdd
      simp only [if_true]
  · simp only [if_neg ht]
    have h3 := FlowMgmtEntry.Delete_Add e0 f.id hf
    refine ⟨(FlowMgmtEntry.Add_state e0 f.id).1, ?_, h3, trivial⟩
    rw [h3]

theorem FlowMgmtTree.Allocate_plain (h : Hdr) {t : TreeId} (k : FlowMgmtKey) (ht : t ≠ .vrf) :
    ∃ e, FlowMgmtTree.Allocate h t k = some e ∧ e.tree_ = [] ∧
      e.oper_state_ = h.oper_state_init ∧ e.ingress_flow_count_ = 0 ∧
      e.egress_flow_count_ = 0 := by
  have : ∃ e, FlowMgmtTree.Allocate h t k = some e := by
    unfold FlowMgmtTree.Allocate
    cases t <;> first
      | exact absurd rfl ht
      | exact ⟨_, rfl⟩
  obtain ⟨e, he⟩ := this
  exact ⟨e, he, FlowMgmtTree.Allocate_some he⟩

theorem addAnswer_spec {h : Hdr} (hi1 : h.oper_state_init ≠ .INVALID)
    (hi2 : h.oper_state_init ≠ .OPER_ADD_SEEN) (hi3 : h.oper_state_init ≠ .OPER_DEL_SEEN)
    (f : FlowEntry) (loc ing : Bool) {t : TreeId} (ht : t ≠ .vrf) (k : FlowMgmtKey)
    {a : Option (FlowMgmtKey × FlowMgmtEntry)} (hok : AnswerOK f a) :
    ∃ k1 e, addAnswer h f loc ing t k a = some (k1, e) ∧
      addAnswer h f false false t k a = some (k1, e) ∧
      e.oper_state_ ≠ .INVALID ∧
      (e.oper_state_ ≠ .OPER_DEL_SEEN ∨ (e.Delete f.id).2.tree_ ≠ []) ∧
      ∀ l2 i2, (t = .vn → l2 = f.LocalFlow ∧ i2 = f.IngressDir) →
        delAnswer f l2 i2 t (some (k1, e)) = a := by
  cases a with
  | some p =>
    obtain ⟨k0, e0⟩ := p
    have hfresh := hok.fresh _ rfl
    have hz := hok.zombie _ rfl
    have hv := hok.valid _ rfl
    have hc := hok.counters _ rfl
    simp only at hfresh hz hv hc
    obtain ⟨h1, h2, h3, h4⟩ := added_entry_facts e0 f loc ing t hfresh hc.1 hc.2
    refine ⟨k0, _, rfl, ?_, ?_, ?_, ?_⟩
    · unfold addAnswer
      simp only
      rw [h4]
    · rw [h1]
      exact hv
    · rw [h1, h2]
      rcases hz with hz | hz
      · exact Or.inr hz
      · exact Or.inl (by rw [hz]; decide)
    · intro l2 i2 hl
      unfold delAnswer
      simp only
      rw [h1, h2]
      have hnot : ¬ (e0.tree_ = [] ∧ e0.oper_state_ ≠ .OPER_ADD_SEEN) := by
        rintro ⟨hn, hs⟩
        rcases hz with hz | hz
        · exact hz hn
        · exact hs hz
      rw [if_neg hnot]
      by_cases htv : t = .vn
      · obtain ⟨hl2, hi2'⟩ := hl htv
        rw [hl2, hi2']
        rw [h3]
      · simp only [if_neg htv] at h3 ⊢
        rw [h3]
  | none =>
    obtain ⟨e0, ha, hn, hs, hc1, hc2⟩ := FlowMgmtTree.Allocate_plain h k ht
    have hfresh : f.id ∉ e0.tree_ := by
      rw [hn]
      simp
    obtain ⟨h1, h2, h3, h4⟩ := added_entry_facts e0 f loc ing t hfresh
      (by rw [hc1]; decide) (by rw [hc2]; decide)
    refine ⟨k, (if t = .vn then
        VnFlowMgmtEntry.UpdateCounterOnAdd (e0.Add f.id).2 f (e0.Add f.id).1 loc ing
        else (e0.Add f.id).2), ?_, ?_, ?_, ?_, ?_⟩
    · unfold addAnswer
      simp only [ha, Option.map_some']
    · unfold addAnswer
      simp only [ha, Option.map_some']
      rw [h4]
    · rw [h1, hs]
      exact hi1
    · rw [h1, hs]
      exact Or.inl hi3
    · intro l2 i2 _
      unfold delAnswer
      simp only
      rw [h1, h2, hs]
      rw [if_pos ⟨hn, hi2⟩]

theorem FlowAdded.at_new {h : Hdr} {f : FlowEntry} {p : List FlowMgmtKey}
    {m mc : FlowMgmtManager} (hrel : FlowAdded h f p m mc) (t : TreeId) {k : FlowMgmtKey}
    (hnew : ∀ x, x ∈ p → SameKey x k = false) : (mc.tree t).find k = (m.tree t).find k :=
  (hrel t k).2 (fun x hx hc => by
    rw [hnew x hx] at hc
    exact absurd hc.2 (by simp))

theorem FlowAdded.add_key {h : Hdr} {f : FlowEntry} {p : List FlowMgmtKey}
    {m mc m1 : FlowMgmtManager} {t : TreeId} {k : FlowMgmtKey}
    (hrel : FlowAdded h f p m mc) (ht : FlowMgmtManager.treeOfKeyType k.type_ = some t)
    (hnew : ∀ x, x ∈ p → SameKey x k = false)
    (hstep : FindStep mc m1 t k (addAnswer h f false false t k ((m.tree t).find k))) :
    FlowAdded h f (p ++ [k]) m m1 := by
  intro t' k'
  constructor
  · intro k2 hk2 ht2 hs2
    rw [hstep t' k']
    rcases List.mem_append.1 hk2 with hk2 | hk2
    · have hc : ¬ (t' = t ∧ SameKey k k' = true) := by
        rintro ⟨_, hs⟩
        have := sameKey_trans hs2 (sameKey_symm hs)
        rw [hnew k2 hk2] at this
        exact absurd this (by simp)
      rw [if_neg hc]
      exact (hrel t' k').1 k2 hk2 ht2 hs2
    · have hk : k2 = k := by simpa using hk2
      subst hk
      have htt : t' = t := Option.some.inj (ht2.symm.trans ht)
      subst htt
      rw [if_pos ⟨rfl, hs2⟩, Tree.find_congr (m.tree t') hs2]
  · intro hall
    rw [hstep t' k']
    have hc : ¬ (t' = t ∧ SameKey k k' = true) := by
      rintro ⟨htt, hs⟩
      exact hall k (List.mem_append.2 (Or.inr (List.mem_singleton.2 rfl)))
        ⟨by rw [htt]; exact ht, hs⟩
    rw [if_neg hc]
    exact (hrel t' k').2 (fun x hx => hall x (List.mem_append.2 (Or.inl hx)))

theorem FlowAdded.del_key {h : Hdr} {f : FlowEntry} {r : List FlowMgmtKey}
    {m mc m1 : FlowMgmtManager} {t : TreeId} {k : FlowMgmtKey}
    (hrel : FlowAdded h f (k :: r) m mc) (ht : FlowMgmtManager.treeOfKeyType k.type_ = some t)
    (hnew : ∀ x, x ∈ r → SameKey k x = false)
    (hstep : FindStep mc m1 t k ((m.tree t).find k)) : FlowAdded h f r m m1 := by
  intro t' k'
  constructor
  · intro k2 hk2 ht2 hs2
    rw [hstep t' k']
    have hc : ¬ (t' = t ∧ SameKey k k' = true) := by
      rintro ⟨_, hs⟩
      have := sameKey_trans hs (sameKey_symm hs2)
      rw [hnew k2 hk2] at this
      exact absurd this (by simp)
    rw [if_neg hc]
    exact (hrel t' k').1 k2 (List.mem_cons_of_mem _ hk2) ht2 hs2
  · intro hall
    rw [hstep t' k']
    by_cases hc : t' = t ∧ SameKey k k' = true
    · rw [if_pos hc, hc.1, Tree.find_congr (m.tree t) hc.2]
    · rw [if_neg hc]
      refine (hrel t' k').2 (fun x hx => ?_)
      rcases List.mem_cons.1 hx with hx | hx
      · rw [hx]
        rintro ⟨ht2, hs⟩
        exact hc ⟨Option.some.inj (ht2.symm.trans ht), hs⟩
      · exact hall x hx

theorem FlowAdded.vrfQuiet {h : Hdr} {f : FlowEntry} {p : List FlowMgmtKey}
    {m mc : FlowMgmtManager} (hrel : FlowAdded h f p m mc) (hq : VrfQuiet m) : VrfQuiet mc := by
  intro k' q hq'
  rw [(hrel .vrf k').2 (fun x _ hc => (treeOfKeyType_ne_vrf hc.1).1 rfl)] at hq'
  exact hq k' q hq'

theorem treeOfKeyType_vn {k : FlowMgmtKey}
    (ht : FlowMgmtManager.treeOfKeyType k.type_ = some .vn) : k.type_ = .VN := by
  cases hk : k.type_ <;> rw [hk] at ht <;> simp [FlowMgmtManager.treeOfKeyType] at ht ⊢

theorem adds_answer {h : Hdr} (hi1 : h.oper_state_init ≠ .INVALID)
    (hi2 : h.oper_state_init ≠ .OPER_ADD_SEEN) (hi3 : h.oper_state_init ≠ .OPER_DEL_SEEN)
    {f : FlowEntry} {m mb : FlowMgmtManager}
    (hok : ∀ t k, FlowMgmtManager.treeOfKeyType k.type_ = some t →
      AnswerOK f ((m.tree t).find k)) (rest : List FlowMgmtKey) :
    ∀ (p : List FlowMgmtKey) (mc : FlowMgmtManager) (info : FlowEntryInfo),
      KeysSorted (p ++ rest) →
      (∀ k, k ∈ rest → ∃ t, FlowMgmtManager.treeOfKeyType k.type_ = some t) →
      FlowAdded h f p m mc → SameRest f.id mb mc →
      mc.FindFlowEntryInfo f.id = some info → info.tree_ = p →
      ((∃ k, k ∈ p ∧ k.type_ = .VN) →
        info.local_flow_ = f.LocalFlow ∧ info.ingress_ = f.IngressDir) →
      ∃ m' info', applyOps h f (rest.map KeyOp.add) mc = some m' ∧
        FlowAdded h f (p ++ rest) m m' ∧ SameRest f.id mb m' ∧
        m'.FindFlowEntryInfo f.id = some info' ∧ info'.tree_ = p ++ rest ∧
        ((∃ k, k ∈ p ++ rest ∧ k.type_ = .VN) →
          info'.local_flow_ = f.LocalFlow ∧ info'.ingress_ = f.IngressDir) := by
  induction rest with
  | nil =>
    intro p mc info _ _ hrel hrest hinfo htree hmemo
    refine ⟨mc, info, rfl, ?_, hrest, hinfo, ?_, ?_⟩
    · rw [List.append_nil]
      exact hrel
    · rw [List.append_nil]
      exact htree
    · rw [List.append_nil]
      exact hmemo
  | cons k r ih =>
    intro p mc info hsorted hkeys hrel hrest hinfo htree hmemo
    obtain ⟨t, ht⟩ := hkeys k (List.mem_cons_self _ _)
    have htv := (treeOfKeyType_ne_vrf ht).1
    have hsp := List.pairwise_append.1 hsorted
    have hlt : ∀ x, x ∈ p → x.IsLess k = true := fun x hx =>
      hsp.2.2 x hx k (List.mem_cons_self _ _)
    have hnew : ∀ x, x ∈ p → SameKey x k = false := fun x hx => isLess_not_same (hlt x hx)
    obtain ⟨m1, hadd, hstep, hrest1, info1, hinfo1, htree1, hvn1, hnvn1⟩ :=
      FlowMgmtManager.AddFlowMgmtKey_answer (h := h) hinfo ht
    rw [hrel.at_new t hnew] at hstep
    obtain ⟨k1, e, ha1, ha2, _, _, _⟩ :=
      addAnswer_spec hi1 hi2 hi3 f info.local_flow_ info.ingress_ htv k (hok t k ht)
    rw [ha1, ← ha2] at hstep
    have hrel1 : FlowAdded h f (p ++ [k]) m m1 := hrel.add_key ht hnew hstep
    have happ : p ++ k :: r = (p ++ [k]) ++ r := by simp
    have hmemo1 : (∃ x, x ∈ p ++ [k] ∧ x.type_ = .VN) →
        info1.local_flow_ = f.LocalFlow ∧ info1.ingress_ = f.IngressDir := by
      rintro ⟨x, hx, hxt⟩
      by_cases hvn : k.type_ = .VN
      · exact hvn1 hvn
      · rw [(hnvn1 hvn).1, (hnvn1 hvn).2]
        rcases List.mem_append.1 hx with hx | hx
        · exact hmemo ⟨x, hx, hxt⟩
        · have : x = k := by simpa using hx
          rw [this] at hxt
          exact absurd hxt hvn
    obtain ⟨m', info', hops, hrel', hrest', hinfo', htree', hmemo'⟩ :=
      ih (p ++ [k]) m1 info1 (by rw [← happ]; exact hsorted)
        (fun x hx => hkeys x (List.mem_cons_of_mem _ hx)) hrel1 (hrest.trans_rest hrest1) hinfo1
        (by rw [htree1, htree]; exact FlowMgmtKeyTree.insert_last p k hlt) hmemo1
    refine ⟨m', info', ?_, ?_, hrest', hinfo', ?_, ?_⟩
    · show (match applyOp h f mc (.add k) with
        | none => none
        | some m1 => applyOps h f (r.map KeyOp.add) m1) = _
      show (match mc.AddFlowMgmtKey h f k with
        | none => none
        | some m1 => applyOps h f (r.map KeyOp.add) m1) = _
      rw [hadd]
      exact hops
    · rw [happ]
      exact hrel'
    · rw [happ]
      exact htree'
    · rw [happ]
      exact hmemo'

theorem dels_answer {h : Hdr} (hi1 : h.oper_state_init ≠ .INVALID)
    (hi2 : h.oper_state_init ≠ .OPER_ADD_SEEN) (hi3 : h.oper_state_init ≠ .OPER_DEL_SEEN)
    {f : FlowEntry} {m mb : FlowMgmtManager}
    (hok : ∀ t k, FlowMgmtManager.treeOfKeyType k.type_ = some t →
      AnswerOK f ((m.tree t).find k)) (hq : VrfQuiet m) (rest : List FlowMgmtKey) :
    ∀ (mc : FlowMgmtManager) (info : FlowEntryInfo),
      KeysSorted rest →
      (∀ k, k ∈ rest → ∃ t, FlowMgmtManager.treeOfKeyType k.type_ = some t) →
      FlowAdded h f rest m mc → SameRest f.id mb mc →
      mc.FindFlowEntryInfo f.id = some info → info.tree_ = rest →
      ((∃ k, k ∈ rest ∧ k.type_ = .VN) →
        info.local_flow_ = f.LocalFlow ∧ info.ingress_ = f.IngressDir) →
      ∃ m' info', applyOps h f (rest.map KeyOp.del) mc = some m' ∧
        FlowAdded h f [] m m' ∧ SameRest f.id mb m' ∧
        m'.FindFlowEntryInfo f.id = some info' ∧ info'.tree_ = [] := by
  induction rest with
  | nil =>
    intro mc info _ _ hrel hrest hinfo htree _
    exact ⟨mc, info, rfl, hrel, hrest, hinfo, htree⟩
  | cons k r ih =>
    intro mc info hsorted hkeys hrel hrest hinfo htree hmemo
    obtain ⟨t, ht⟩ := hkeys k (List.mem_cons_self _ _)
    have htv := (treeOfKeyType_ne_vrf ht).1
    have hsp := List.pairwise_cons.1 hsorted
    have hnew : ∀ x, x ∈ r → SameKey k x = false := fun x hx => isLess_not_same (hsp.1 x hx)
    obtain ⟨k1, e, _, ha2, hst, hdel, hback⟩ :=
      addAnswer_spec hi1 hi2 hi3 f false false htv k (hok t k ht)
    have hf : (mc.tree t).find k = some (k1, e) := by
      rw [(hrel t k).1 k (List.mem_cons_self _ _) ht (sameKey_refl k)]
      exact ha2
    have hkey : FlowMgmtKeyTree.find info.tree_ k = some k := by
      rw [htree]
      unfold FlowMgmtKeyTree.find
      rw [List.find?_cons, sameKey_refl]
    obtain ⟨m1, hop, hstep, hrest1, info1, hinfo1, htree1, hvn1, hnvn1⟩ :=
      applyOp_del_answer (h := h) hinfo hkey ht (hrel.vrfQuiet hq) hf hst hdel
    rw [hback info.local_flow_ info.ingress_
      (fun htn => hmemo ⟨k, List.mem_cons_self _ _, treeOfKeyType_vn (by rw [← htn]; exact ht)⟩)]
      at hstep
    have hrel1 : FlowAdded h f r m m1 := hrel.del_key ht hnew hstep
    have hmemo1 : (∃ x, x ∈ r ∧ x.type_ = .VN) →
        info1.local_flow_ = f.LocalFlow ∧ info1.ingress_ = f.IngressDir := by
      rintro ⟨x, hx, hxt⟩
      by_cases hvn : k.type_ = .VN
      · exact hvn1 hvn
      · rw [(hnvn1 hvn).1, (hnvn1 hvn).2]
        exact hmemo ⟨x, List.mem_cons_of_mem _ hx, hxt⟩
    obtain ⟨m', info', hops, hrel', hrest', hinfo', htree'⟩ :=
      ih m1 info1 hsp.2 (fun x hx => hkeys x (List.mem_cons_of_mem _ hx)) hrel1
        (hrest.trans_rest hrest1) hinfo1
        (by rw [htree1, htree]; exact FlowMgmtKeyTree.erase_head k r hsp.1) hmemo1
    refine ⟨m', info', ?_, hrel', hrest', hinfo', htree'⟩
    show (match applyOp h f mc (.del k) with
      | none => none
      | some m1 => applyOps h f (r.map KeyOp.del) m1) = _
    rw [hop]
    exact hops

theorem AddFlowStart_rest {m : FlowMgmtManager} {fid : Nat}
    (hnone : m.FindFlowEntryInfo fid = none) :
    SameRest fid m (AddFlowStart m fid) ∧
    ∃ info1, (AddFlowStart m fid).FindFlowEntryInfo fid = some info1 ∧ info1.tree_ = [] := by
  obtain ⟨⟨info1, hinfo1, htree1⟩, hk, _, _, hid, hlpm, hresp⟩ := AddFlowStart_spec m fid
  refine ⟨⟨hid, hlpm, ?_, hresp, ?_⟩, info1, hinfo1, ?_⟩
  · unfold AddFlowStart FlowMgmtManager.LocateFlowEntryInfo
    rw [hnone]
    rfl
  · intro g hg
    unfold AddFlowStart FlowMgmtManager.LocateFlowEntryInfo
    rw [hnone]
    simp only
    rw [FindFlowEntryInfo_setInfo_ne _ hg, FindFlowEntryInfo_insert m fid _ hnone g, if_neg hg]
  · rw [htree1, hk, keysOf_of_none hnone]

theorem FlowAdded.of_tree_eq_added {h : Hdr} {f : FlowEntry} {p : List FlowMgmtKey}
    {m mc mc' : FlowMgmtManager} (hrel : FlowAdded h f p m mc)
    (heq : ∀ t, mc'.tree t = mc.tree t) : FlowAdded h f p m mc' := by
  intro t k'
  rw [heq t]
  exact hrel t k'

theorem add_then_delete_flow {h : Hdr} (hi1 : h.oper_state_init ≠ .INVALID)
    (hi2 : h.oper_state_init ≠ .OPER_ADD_SEEN) (hi3 : h.oper_state_init ≠ .OPER_DEL_SEEN)
    {f : FlowEntry} {m : FlowMgmtManager} (hnone : m.FindFlowEntryInfo f.id = none)
    (hok : ∀ t k, FlowMgmtManager.treeOfKeyType k.type_ = some t →
      AnswerOK f ((m.tree t).find k)) (hq : VrfQuiet m) :
    ∃ m1 m2 info1, m.RequestHandler h (addFlowReq f) = some m1 ∧
      m1.FindFlowEntryInfo f.id = some info1 ∧ info1.tree_ = MakeFlowMgmtKeyTree f ∧
      m1.response_queue_ = m.response_queue_ ∧
      m1.RequestHandler h (delFlowReq f) = some m2 ∧
      (∀ t k, (m2.tree t).find k = (m.tree t).find k) ∧
      (∀ g, m2.FindFlowEntryInfo g = m.FindFlowEntryInfo g) ∧
      m2.id_map_ = m.id_map_ ∧ (∀ t, m2.lpm t = m.lpm t) ∧
      m2.request_queue_ = m.request_queue_ ∧
      m2.response_queue_ = m.response_queue_ ++
        [{ event := .FREE_FLOW_REF, flow := some f.id, db_entry := none, gen_id := 0 }] := by
  obtain ⟨hgood, hkeys⟩ := MakeFlowMgmtKeyTree_good f
  have hkeys' : ∀ k, k ∈ MakeFlowMgmtKeyTree f →
      ∃ t, FlowMgmtManager.treeOfKeyType k.type_ = some t := fun k hk => by
    obtain ⟨t, ht, _⟩ := hkeys k hk
    exact ⟨t, ht⟩
  obtain ⟨hrest0, info0, hinfo0, htree0⟩ := AddFlowStart_rest hnone
  obtain ⟨_, hk0, _, htrees0, _⟩ := AddFlowStart_spec m f.id
  have hrel0 : FlowAdded h f [] m (AddFlowStart m f.id) := by
    intro t k'
    refine ⟨fun k hk => absurd hk (List.not_mem_nil _), fun _ => ?_⟩
    rw [htrees0 t]
  obtain ⟨m1, info1, hops1, hrel1, hrest1, hinfo1, htree1, hmemo1⟩ :=
    adds_answer hi1 hi2 hi3 hok (MakeFlowMgmtKeyTree f) [] (AddFlowStart m f.id) info0
      (by simpa using hgood) hkeys' hrel0 hrest0 hinfo0 htree0
      (fun ⟨k, hk, _⟩ => absurd hk (List.not_mem_nil _))
  rw [List.nil_append] at hrel1 htree1 hmemo1
  have hadd : m.RequestHandler h (addFlowReq f) = some m1 := by
    show m.AddFlow h f = some m1
    rw [AddFlow_eq, hk0, keysOf_of_none hnone, deltaOps_nil]
    exact hops1
  obtain ⟨m2, info2, hops2, hrel2, hrest2, hinfo2, htree2⟩ :=
    dels_answer hi1 hi2 hi3 hok hq (MakeFlowMgmtKeyTree f)
      (m1.setInfo f.id { info1 with count_ := info1.count_ + 1 })
      { info1 with count_ := info1.count_ + 1 } hgood hkeys'
      (hrel1.of_tree_eq_added (fun t => tree_setInfo m1 _ _ t))
      (hrest1.trans_rest (SameRest.setInfo_rest f.id m1 _))
      (FindFlowEntryInfo_setInfo_self hinfo1 _) htree1 hmemo1
  have hdelflow : m1.DeleteFlow f =
      some { m2 with flow_tree_ := List.filter (fun p => p.1 != f.id) m2.flow_tree_ } := by
    have hloop := hops2
    rw [← htree1] at hloop
    unfold FlowMgmtManager.DeleteFlow
    rw [hinfo1]
    simp only
    rw [DeleteFlowLoop_eq h, hloop]
    simp only
    rw [hinfo2]
    simp only [htree2, List.length_nil, ne_eq, not_true_eq_false, if_false]
    unfold FlowMgmtManager.DeleteFlowEntryInfo
    rw [hinfo2]
    simp only [htree2, List.length_nil, ne_eq, not_true_eq_false, if_false]
  refine ⟨m1, ({ m2 with flow_tree_ := List.filter (fun p => p.1 != f.id) m2.flow_tree_ } :
      FlowMgmtManager).ResponseEnqueue
      { event := .FREE_FLOW_REF, flow := some f.id, db_entry := none, gen_id := 0 },
    info1, hadd, hinfo1, htree1, hrest1.response_queue, ?_, ?_, ?_, ?_, ?_, ?_, ?_⟩
  · show (match m1.DeleteFlow f with
      | none => none
      | some m1 => some (m1.ResponseEnqueue
          { event := .FREE_FLOW_REF, flow := some f.id, db_entry := none, gen_id := 0 })) = _
    rw [hdelflow]
  · intro t k
    rw [tree_ResponseEnqueue, tree_with_flow_tree]
    exact (hrel2 t k).2 (fun x hx => absurd hx (List.not_mem_nil _))
  · intro g
    rw [ResponseEnqueue_FindFlowEntryInfo, FindFlowEntryInfo_filter]
    by_cases hg : g = f.id
    · rw [if_pos hg, hg, hnone]
    · rw [if_neg hg]
      exact hrest2.info_other g hg
  · exact hrest2.id_map
  · intro t
    rw [ResponseEnqueue_lpm, lpm_with_flow_tree]
    exact hrest2.lpm t
  · exact hrest2.request_queue
  · show m2.response_queue_ ++ _ = _
    rw [hrest2.response_queue]

theorem inc32_lt (n : Nat) : inc32 n < 2 ^ 32 := Nat.mod_lt _ (by decide)

theorem dec32_lt (n : Nat) : dec32 n < 2 ^ 32 := Nat.mod_lt _ (by decide)

theorem FlowMgmtTree.Allocate_settled {h : Hdr} {t : TreeId} {key : FlowMgmtKey}
    {e : FlowMgmtEntry} (ha : FlowMgmtTree.Allocate h t key = some e) : Settled e := by
  unfold FlowMgmtTree.Allocate at ha
  cases t <;> simp only [Option.some.injEq] at ha <;>
    first
    | (subst ha; exact ⟨rfl, Nat.two_pow_pos 32, Nat.two_pow_pos 32⟩)
    | (cases hd : key.db_entry_ with
       | none => simp [hd] at ha
       | some d =>
         simp only [hd, Option.some.injEq] at ha
         subst ha
         exact ⟨rfl, Nat.two_pow_pos 32, Nat.two_pow_pos 32⟩)

theorem VnFlowMgmtEntry.UpdateCounterOnAdd_settled {e : FlowMgmtEntry} (flow : FlowEntry)
    (a l i : Bool) (hs : Settled e) :
    Settled (VnFlowMgmtEntry.UpdateCounterOnAdd e flow a l i) := by
  obtain ⟨h1, h2, h3⟩ := hs
  unfold VnFlowMgmtEntry.UpdateCounterOnAdd
  split
  · split
    · exact ⟨h1, inc32_lt _, inc32_lt _⟩
    · split
      · exact ⟨h1, inc32_lt _, h3⟩
      · exact ⟨h1, h2, inc32_lt _⟩
  · split
    · exact ⟨h1, h2, h3⟩
    · simp only
      split
      · split
        · exact ⟨h1, inc32_lt _, dec32_lt _⟩
        · exact ⟨h1, dec32_lt _, inc32_lt _⟩
      · exact ⟨h1, h2, h3⟩

theorem VnFlowMgmtEntry.UpdateCounterOnDel_settled {e : FlowMgmtEntry} (flow : FlowEntry)
    (l i : Bool) (hs : Settled e) : Settled (VnFlowMgmtEntry.UpdateCounterOnDel e flow l i) := by
  obtain ⟨h1, h2, h3⟩ := hs
  unfold VnFlowMgmtEntry.UpdateCounterOnDel
  split
  · exact ⟨h1, dec32_lt _, dec32_lt _⟩
  · split
    · exact ⟨h1, dec32_lt _, h3⟩
    · exact ⟨h1, h2, dec32_lt _⟩

theorem Change.settled {h : Hdr} {del : TreeId → FlowMgmtKey → Prop} {t : TreeId}
    {k : FlowMgmtKey} {a b : Option (FlowMgmtKey × FlowMgmtEntry)}
    (hc : Change h del False t k a b) (ha : ∀ p, a = some p → Settled p.2) :
    ∀ p, b = some p → Settled p.2 := by
  intro p hp
  cases hc with
  | create key e _ h2 =>
    simp only [Option.some.injEq] at hp
    rw [← hp]
    exact FlowMgmtTree.Allocate_settled h2
  | add k1 e f =>
    simp only [Option.some.injEq] at hp
    rw [← hp]
    have := ha (k1, e) rfl
    unfold FlowMgmtEntry.Add
    split <;> exact this
  | delete k1 e f =>
    simp only [Option.some.injEq] at hp
    rw [← hp]
    exact ha (k1, e) rfl
  | erase k1 e _ _ _ => simp at hp
  | addSeen k1 e =>
    simp only [Option.some.injEq] at hp
    rw [← hp]
    exact ha (k1, e) rfl
  | delSeen K k1 e g _ _ =>
    simp only [Option.some.injEq] at hp
    rw [← hp]
    exact ha (k1, e) rfl
  | setDb k1 e d =>
    simp only [Option.some.injEq] at hp
    rw [← hp]
    exact ha (k1, e) rfl
  | onAdd k1 e flow a1 l i =>
    simp only [Option.some.injEq] at hp
    rw [← hp]
    exact VnFlowMgmtEntry.UpdateCounterOnAdd_settled flow a1 l i (ha (k1, e) rfl)
  | onDel k1 e flow l i =>
    simp only [Option.some.injEq] at hp
    rw [← hp]
    exact VnFlowMgmtEntry.UpdateCounterOnDel_settled flow l i (ha (k1, e) rfl)
  | flag k1 e slot hsig _ => exact absurd hsig id

theorem reachable_round_trip_ok {h : Hdr} (hi1 : h.oper_state_init ≠ .INVALID)
    (hi3 : h.oper_state_init ≠ .OPER_DEL_SEEN) {reqs : List FlowMgmtRequest}
    {m : FlowMgmtManager}
    (hrun : FlowMgmtManager.RunRequests h FlowMgmtManager.empty reqs = some m)
    {f : FlowEntry} (hnone : m.FindFlowEntryInfo f.id = none) :
    (∀ t k, FlowMgmtManager.treeOfKeyType k.type_ = some t →
      AnswerOK f ((m.tree t).find k)) ∧ VrfQuiet m := by
  obtain ⟨htree, hreg⟩ := reachable_inv hi3 hrun
  have hev : Evolves h (fun _ _ => True) False FlowMgmtManager.empty m :=
    Evolves.RunRequests_evolves reqs hrun
  have hempty : ∀ (P : FlowMgmtEntry → Prop) (t : TreeId) (k : FlowMgmtKey)
      (p : FlowMgmtKey × FlowMgmtEntry),
      (FlowMgmtManager.empty.tree t).find k = some p → P p.2 := by
    intro P t k p hf
    cases t <;> simp [FlowMgmtManager.empty, FlowMgmtManager.tree, Tree.find] at hf
  have hvalid : ∀ t k p, (m.tree t).find k = some p → p.2.oper_state_ ≠ .INVALID :=
    Evolves.findAll_evolves (P := fun e => e.oper_state_ ≠ .INVALID) hev
      (fun t k a b hc ha => Change.state_valid hi1 hc ha)
      (hempty (fun e => e.oper_state_ ≠ .INVALID))
  have hsettled : ∀ t k p, (m.tree t).find k = some p → Settled p.2 :=
    Evolves.findAll_evolves (P := Settled) hev
      (fun t k a b hc ha => Change.settled hc ha) (hempty Settled)
  constructor
  · intro t k ht
    refine ⟨?_, ?_, ?_, ?_⟩
    · intro p hp hmem
      have h1 : f.id ∈ flowsAt m t k := by
        unfold flowsAt answerFlows
        rw [hp]
        exact hmem
      have h2 := (hreg.bicons f.id k t ht).2 h1
      unfold infoHasKey at h2
      rw [hnone] at h2
      exact absurd h2 (by simp)
    · intro p hp
      exact (htree.entries t k p hp).zombie (treeOfKeyType_ne_vrf ht).1
    · intro p hp
      exact hvalid t k p hp
    · intro p hp
      exact (hsettled t k p hp).2
  · intro k p hp
    exact ⟨hvalid .vrf k p hp, (hsettled .vrf k p hp).1⟩

/-- C18 (amended): in every state reached from the empty manager by processing
requests, when a new entry starts in a state that is neither `INVALID` nor
`OPER_ADD_SEEN` nor `OPER_DEL_SEEN`, and for every flow `f` without a record in
the registry: `ADD_FLOW(f)` returns, puts the key set of `f` into the record of
`f` and enqueues no response; `DELETE_FLOW(f)` right after it returns, and then
every lookup of every index answers as before the add (the same stored key, flow
set, oper state, generation and counters, and no entry where there was none), the
registry has the records it had, the side map, the LPM structures and the request
queue are as before, and the response queue has gained `FREE_FLOW_REF(f)` and
nothing else, so no `FREE_DBENTRY`. -/
theorem C18_add_delete_round_trip (h : Hdr) (hi1 : h.oper_state_init ≠ .INVALID)
    (hi2 : h.oper_state_init ≠ .OPER_ADD_SEEN) (hi3 : h.oper_state_init ≠ .OPER_DEL_SEEN)
    (reqs : List FlowMgmtRequest) (m : FlowMgmtManager) (f : FlowEntry)
    (hrun : FlowMgmtManager.RunRequests h FlowMgmtManager.empty reqs = some m)
    (hnone : m.FindFlowEntryInfo f.id = none) :
    ∃ m1 m2 info1, m.RequestHandler h (addFlowReq f) = some m1 ∧
      m1.FindFlowEntryInfo f.id = some info1 ∧ info1.tree_ = MakeFlowMgmtKeyTree f ∧
      m1.response_queue_ = m.response_queue_ ∧
      m1.RequestHandler h (delFlowReq f) = some m2 ∧
      (∀ t k, (m2.tree t).find k = (m.tree t).find k) ∧
      (∀ g, m2.FindFlowEntryInfo g = m.FindFlowEntryInfo g) ∧
      m2.id_map_ = m.id_map_ ∧ (∀ t, m2.lpm t = m.lpm t) ∧
      m2.request_queue_ = m.request_queue_ ∧
      m2.response_queue_ = m.response_queue_ ++
        [{ event := .FREE_FLOW_REF, flow := some f.id, db_entry := none, gen_id := 0 }] := by
  obtain ⟨hok, hq⟩ := reachable_round_trip_ok hi1 hi3 hrun hnone
  exact add_then_delete_flow hi1 hi2 hi3 hnone hok hq

/-- C18 (counterexample): the VRF 5 has been added and deleted with generation
3 and its three route tables have signalled their deletion; the retry request is
still in the request queue. A flow on a route of the VRF 5, unknown to the
registry, is added and deleted right away: the delete of the route key retries
the delete of the VRF, so `FREE_DBENTRY` of the VRF is emitted before
`FREE_FLOW_REF`, and the entry of the VRF and its side-map entry, which were there
before the add, are gone. -/
theorem C18_round_trip_frees_pending_vrf :
    RunEvents hdrOther FlowMgmtManager.empty pendingVrfEvents = some pendingVrfState ∧
    pendingVrfState.FindFlowEntryInfo vrf5Flow.id = none ∧
    ((pendingVrfState.tree .vrf).find (VrfFlowMgmtKey (some vrf5))).isSome = true ∧
    pendingVrfState.id_map_ = [(5, vrf5)] ∧
    pendingVrfState.response_queue_ = [] ∧
    (FlowMgmtManager.RunRequests hdrOther pendingVrfState
        [addFlowReq vrf5Flow, delFlowReq vrf5Flow]).map
      (fun m => ((m.tree .vrf).find (VrfFlowMgmtKey (some vrf5)), m.id_map_,
        m.response_queue_)) =
      some (none, [],
        [{ event := .FREE_DBENTRY, flow := none, db_entry := some vrf5, gen_id := 3 },
         { event := .FREE_FLOW_REF, flow := some 1, db_entry := none, gen_id := 0 }]) := by
  decide

/-- Witness of C18: the flow 1 is on the route 10.0.0.0/24 of the VRF 1, which
has been added; the flow 2, on the same route, is added and deleted. -/
theorem C18_add_delete_round_trip_witness :
    hdrOther.oper_state_init ≠ .INVALID ∧ hdrOther.oper_state_init ≠ .OPER_ADD_SEEN ∧
    hdrOther.oper_state_init ≠ .OPER_DEL_SEEN ∧
    FlowMgmtManager.RunRequests hdrOther FlowMgmtManager.empty sharedRouteRequests =
      some sharedRouteState ∧
    sharedRouteState.FindFlowEntryInfo secondFlow.id = none ∧
    ∃ m1 m2 info1, sharedRouteState.RequestHandler hdrOther (addFlowReq secondFlow) = some m1 ∧
      m1.FindFlowEntryInfo secondFlow.id = some info1 ∧
      info1.tree_ = MakeFlowMgmtKeyTree secondFlow ∧
      m1.response_queue_ = sharedRouteState.response_queue_ ∧
      m1.RequestHandler hdrOther (delFlowReq secondFlow) = some m2 ∧
      (∀ t k, (m2.tree t).find k = (sharedRouteState.tree t).find k) ∧
      (∀ g, m2.FindFlowEntryInfo g = sharedRouteState.FindFlowEntryInfo g) ∧
      m2.id_map_ = sharedRouteState.id_map_ ∧ (∀ t, m2.lpm t = sharedRouteState.lpm t) ∧
      m2.request_queue_ = sharedRouteState.request_queue_ ∧
      m2.response_queue_ = sharedRouteState.response_queue_ ++
        [{ event := .FREE_FLOW_REF, flow := some secondFlow.id, db_entry := none,
           gen_id := 0 }] :=
  ⟨by decide, by decide, by decide, by decide, by decide,
    C18_add_delete_round_trip hdrOther (by decide) (by decide) (by decide) sharedRouteRequests
      sharedRouteState secondFlow (by decide) (by decide)⟩

end FlowMgmt
